import Mathlib

/-!
# wowexportd CASC client: root resolution and BLTE decoding

A shallow embedding of `internal/casc` (Go).  Go maps are association lists with
unique keys (`AList`), whose entry order stands for Go's unspecified iteration
order; Go `int` is `Int`, `uint32` and `byte` are `Nat`; a returned `error` or a
run-time panic is a value of `Except`.
-/

namespace Casc

/-- A Go `map[K]V`: finitely many entries, every key at most once. -/
abbrev GoMap (K V : Type) := AList (fun _ : K => V)

deriving instance DecidableEq for Except

/-! ## locale_flags.go, content_flags.go -/

def Locale_enUS : Nat := 0x2
def ContentLowViolence : Nat := 0x80

/-! ## encoding_root.go: `rootType` -/

structure rootType where
  contentFlags : Nat
  localeFlags : Nat
deriving DecidableEq, Repr

/-! ## casc_source_local.go / casc_source_remote.go: resolution state -/

/-- The fields of `Local` read by resolution. -/
structure Local where
  encodingKeys : GoMap String String
  rootTypes : List rootType
  rootEntries : GoMap Nat (GoMap Int String)
  locale : Nat

/-- The fields of `Remote` read by resolution. -/
structure Remote where
  region : String
  encodingKeys : GoMap String String
  rootTypes : List rootType
  rootEntries : GoMap Nat (GoMap Int String)
  locale : Nat

/-- `NewLocal`: empty tables, `locale: Locale_enUS`. -/
def NewLocal : Local :=
  { encodingKeys := ∅, rootTypes := [], rootEntries := ∅, locale := Locale_enUS }

/-- `NewRemote(region)` is `&Remote{region: region}`: every other field has its
zero value. -/
def NewRemote (region : String) : Remote :=
  { region := region, encodingKeys := ∅, rootTypes := [], rootEntries := ∅, locale := 0 }

/-- The body of `for i := 0; i < len(rootTypes); i++` in
`ResolveEncodingKeyByFileID`, from index `i` with `rest` the root types still
to visit. -/
def resolveLoop (encodingKeys : GoMap String String) (locale : Nat)
    (entry : GoMap Int String) : Nat → List rootType → Except String String
  | _, [] => .error "no encoding key for fileDataID"
  | i, rt :: rest =>
    if (rt.localeFlags &&& locale) = 0 ∨ (rt.contentFlags &&& ContentLowViolence) ≠ 0 then
      resolveLoop encodingKeys locale entry (i + 1) rest
    else
      match entry.lookup (i : Int) with
      | some ckey =>
        match encodingKeys.lookup ckey with
        | some ekey => .ok ekey
        | none => resolveLoop encodingKeys locale entry (i + 1) rest
      | none => resolveLoop encodingKeys locale entry (i + 1) rest

/-- `Local.ResolveEncodingKeyByFileID`. -/
def Local.ResolveEncodingKeyByFileID (l : Local) (fdid : Nat) : Except String String :=
  match l.rootEntries.lookup fdid with
  | none => .error "fileDataID not found in root"
  | some entry => resolveLoop l.encodingKeys l.locale entry 0 l.rootTypes

/-- `Remote.ResolveEncodingKeyByFileID`. -/
def Remote.ResolveEncodingKeyByFileID (r : Remote) (fdid : Nat) : Except String String :=
  match r.rootEntries.lookup fdid with
  | none => .error "fileDataID not found in root"
  | some entry => resolveLoop r.encodingKeys r.locale entry 0 r.rootTypes

/-- The inner loop of `GetValidRootEntries`: does some root type from index `i`
on pass the filter and have an entry (the `append` and `break`)? -/
def validLoop (locale : Nat) (entry : GoMap Int String) : Nat → List rootType → Bool
  | _, [] => false
  | i, rt :: rest =>
    if (rt.localeFlags &&& locale) = 0 ∨ (rt.contentFlags &&& ContentLowViolence) ≠ 0 then
      validLoop locale entry (i + 1) rest
    else
      match entry.lookup (i : Int) with
      | some _ => true
      | none => validLoop locale entry (i + 1) rest

/-- The outer loop of `GetValidRootEntries` over the entries of the map. -/
def validEntries (rootTypes : List rootType) (locale : Nat)
    (entries : List (Sigma fun _ : Nat => GoMap Int String)) : List Nat :=
  entries.foldl
    (fun out e => if validLoop locale e.2 0 rootTypes then out ++ [e.1] else out) []

/-- `Local.GetValidRootEntries`. -/
def Local.GetValidRootEntries (l : Local) : List Nat :=
  validEntries l.rootTypes l.locale l.rootEntries.entries

/-- `Remote.GetValidRootEntries`. -/
def Remote.GetValidRootEntries (r : Remote) : List Nat :=
  validEntries r.rootTypes r.locale r.rootEntries.entries

/-- The visibility filter of the data model: the root type matches the current
locale and is not flagged low-violence. -/
def visible (locale : Nat) (rt : rootType) : Prop :=
  (rt.localeFlags &&& locale) ≠ 0 ∧ (rt.contentFlags &&& 0x80) = 0

instance (locale : Nat) (rt : rootType) : Decidable (visible locale rt) := by
  unfold visible; infer_instance

/-- Root type `i` qualifies for `entry`: it exists, passes the filter, has a
content key in `entry`, and that content key is in the encoding table. -/
def qualifies (encodingKeys : GoMap String String) (rootTypes : List rootType)
    (locale : Nat) (entry : GoMap Int String) (i : Nat) : Prop :=
  ∃ rt ckey, rootTypes[i]? = some rt ∧ visible locale rt ∧
    entry.lookup (i : Int) = some ckey ∧ ckey ∈ encodingKeys

/-- Root type `j` of `rest`, which sits at index `i + j`, qualifies. -/
def qualifiesAt (encodingKeys : GoMap String String) (locale : Nat)
    (entry : GoMap Int String) (i : Nat) (rest : List rootType) (j : Nat) : Prop :=
  ∃ rt ckey, rest[j]? = some rt ∧ visible locale rt ∧
    entry.lookup ((i + j : Nat) : Int) = some ckey ∧ ckey ∈ encodingKeys

/-- The state of scenario S5: type 0 is enUS with LowViolence, type 1 is enUS
only, FileDataID 100 has a content key under both. -/
def s5Local : Local :=
  { encodingKeys := (AList.singleton "ck0" "ek0").insert "ck1" "ek1"
    rootTypes := [⟨0x80, 0x2⟩, ⟨0, 0x2⟩]
    rootEntries := AList.singleton 100 ((AList.singleton (0 : Int) "ck0").insert 1 "ck1")
    locale := Locale_enUS }

/-- A loaded state whose root names a content key the encoding table lacks. -/
def orphanLocal : Local :=
  { encodingKeys := ∅
    rootTypes := [⟨0, 0x2⟩]
    rootEntries := AList.singleton 100 (AList.singleton (0 : Int) "ck")
    locale := Locale_enUS }

/-- A freshly constructed `Local` given one root type, one root entry and one
encoding entry. -/
def tinyLocal : Local :=
  { NewLocal with
    encodingKeys := AList.singleton "ck" "ek"
    rootTypes := [⟨0, 0x2⟩]
    rootEntries := AList.singleton 100 (AList.singleton (0 : Int) "ck") }

/-- A freshly constructed `Remote` given the same tables as `tinyLocal`. -/
def tinyRemote : Remote :=
  { NewRemote "eu" with
    encodingKeys := AList.singleton "ck" "ek"
    rootTypes := [⟨0, 0x2⟩]
    rootEntries := AList.singleton 100 (AList.singleton (0 : Int) "ck") }

/-! ## Go run-time conventions -/

/-- How a call can fail: a returned `error`, a run-time panic, or the embedding
running out of recursion fuel, which `decodeBLTE_not_fuel` shows never happens. -/
inductive Fail where
  | error (msg : String)
  | panic (msg : String)
  | fuel
deriving DecidableEq, Repr

/-- The slice expression `s[lo:hi]`; slices are taken to have capacity equal to
their length. -/
def goSlice (s : List Nat) (lo hi : Int) : Except Fail (List Nat) :=
  if 0 ≤ lo ∧ lo ≤ hi ∧ hi ≤ (s.length : Int) then .ok ((s.take hi.toNat).drop lo.toNat)
  else .error (.panic "slice bounds out of range")

/-- The index expression `s[i]`. -/
def goIndex (s : List Nat) (i : Int) : Except Fail Nat :=
  if 0 ≤ i ∧ i < (s.length : Int) then .ok (s.getD i.toNat 0)
  else .error (.panic "index out of range")

/-- The built-in `copy(dst, src)`: the new contents of `dst`. -/
def goCopy (dst src : List Nat) : List Nat :=
  src.take dst.length ++ dst.drop src.length

/-- The built-in `make([]byte, n)`. -/
def goMake (n : Int) : Except Fail (List Nat) :=
  if 0 ≤ n then .ok (List.replicate n.toNat 0)
  else .error (.panic "makeslice: len out of range")

/-- The conversion `int32(u)` of a 32-bit word. -/
def int32 (u : Nat) : Int :=
  if u % 2 ^ 32 < 2 ^ 31 then ((u % 2 ^ 32 : Nat) : Int) else ((u % 2 ^ 32 : Nat) : Int) - 2 ^ 32

/-- One byte as two lowercase hex digits. -/
def hexByte (b : Nat) : List Char :=
  ["0123456789abcdef".data.getD (b / 16 % 16) '0', "0123456789abcdef".data.getD (b % 16) '0']

/-- Go's `hex.EncodeToString`. -/
def hexEncode (d : List Nat) : String :=
  String.mk (d.flatMap hexByte)

/-! ## crypto/md5 (RFC 1321), imported by the repository -/

def md5Shifts : List Nat :=
  [7, 12, 17, 22, 7, 12, 17, 22, 7, 12, 17, 22, 7, 12, 17, 22,
   5, 9, 14, 20, 5, 9, 14, 20, 5, 9, 14, 20, 5, 9, 14, 20,
   4, 11, 16, 23, 4, 11, 16, 23, 4, 11, 16, 23, 4, 11, 16, 23,
   6, 10, 15, 21, 6, 10, 15, 21, 6, 10, 15, 21, 6, 10, 15, 21]

def md5Table : List Nat :=
  [0xd76aa478, 0xe8c7b756, 0x242070db, 0xc1bdceee, 0xf57c0faf, 0x4787c62a, 0xa8304613, 0xfd469501,
   0x698098d8, 0x8b44f7af, 0xffff5bb1, 0x895cd7be, 0x6b901122, 0xfd987193, 0xa679438e, 0x49b40821,
   0xf61e2562, 0xc040b340, 0x265e5a51, 0xe9b6c7aa, 0xd62f105d, 0x02441453, 0xd8a1e681, 0xe7d3fbc8,
   0x21e1cde6, 0xc33707d6, 0xf4d50d87, 0x455a14ed, 0xa9e3e905, 0xfcefa3f8, 0x676f02d9, 0x8d2a4c8a,
   0xfffa3942, 0x8771f681, 0x6d9d6122, 0xfde5380c, 0xa4beea44, 0x4bdecfa9, 0xf6bb4b60, 0xbebfbc70,
   0x289b7ec6, 0xeaa127fa, 0xd4ef3085, 0x04881d05, 0xd9d4d039, 0xe6db99e5, 0x1fa27cf8, 0xc4ac5665,
   0xf4292244, 0x432aff97, 0xab9423a7, 0xfc93a039, 0x655b59c3, 0x8f0ccc92, 0xffeff47d, 0x85845dd1,
   0x6fa87e4f, 0xfe2ce6e0, 0xa3014314, 0x4e0811a1, 0xf7537e82, 0xbd3af235, 0x2ad7d2bb, 0xeb86d391]

/-- Rotate a 32-bit word left by `n` bits. -/
def rotl32 (x n : Nat) : Nat :=
  ((x <<< n) % 2 ^ 32) ||| ((x % 2 ^ 32) >>> (32 - n))

/-- The four bytes of a 32-bit word, least significant first. -/
def le32Bytes (v : Nat) : List Nat :=
  [v % 256, v >>> 8 % 256, v >>> 16 % 256, v >>> 24 % 256]

/-- The 32-bit word stored least significant byte first at `d[j..j+4)`. -/
def le32At (d : List Nat) (j : Nat) : Nat :=
  d.getD j 0 ||| d.getD (j + 1) 0 <<< 8 ||| d.getD (j + 2) 0 <<< 16 ||| d.getD (j + 3) 0 <<< 24

def md5Pad (msg : List Nat) : List Nat :=
  msg ++ [0x80] ++ List.replicate ((119 - msg.length % 64) % 64) 0 ++
    le32Bytes (8 * msg.length % 2 ^ 32) ++ le32Bytes (8 * msg.length / 2 ^ 32 % 2 ^ 32)

/-- One of the 64 steps of the MD5 compression function on chunk `m`. -/
def md5Step (m : List Nat) (st : Nat × Nat × Nat × Nat) (i : Nat) : Nat × Nat × Nat × Nat :=
  let (a, b, c, d) := st
  let f :=
    if i < 16 then (b &&& c) ||| ((b ^^^ 0xffffffff) &&& d)
    else if i < 32 then (d &&& b) ||| ((d ^^^ 0xffffffff) &&& c)
    else if i < 48 then b ^^^ c ^^^ d
    else c ^^^ (b ||| (d ^^^ 0xffffffff))
  let g :=
    if i < 16 then i
    else if i < 32 then (5 * i + 1) % 16
    else if i < 48 then (3 * i + 5) % 16
    else (7 * i) % 16
  let x := (f + a + md5Table.getD i 0 + le32At m (4 * g)) % 2 ^ 32
  (d, (b + rotl32 x (md5Shifts.getD i 0)) % 2 ^ 32, b, c)

def md5Chunk (st : Nat × Nat × Nat × Nat) (m : List Nat) : Nat × Nat × Nat × Nat :=
  let (a, b, c, d) := (List.range 64).foldl (md5Step m) st
  ((st.1 + a) % 2 ^ 32, (st.2.1 + b) % 2 ^ 32, (st.2.2.1 + c) % 2 ^ 32, (st.2.2.2 + d) % 2 ^ 32)

/-- `md5.Sum`: the 16-byte digest. -/
def md5Sum (msg : List Nat) : List Nat :=
  let p := md5Pad msg
  let (a, b, c, d) := (List.range (p.length / 64)).foldl
    (fun st k => md5Chunk st ((p.drop (64 * k)).take 64))
    (0x67452301, 0xefcdab89, 0x98badcfe, 0x10325476)
  le32Bytes a ++ le32Bytes b ++ le32Bytes c ++ le32Bytes d

/-- The lowercase hex MD5 used throughout: `hex.EncodeToString(md5.Sum(d))`. -/
def md5Hex (d : List Nat) : String :=
  hexEncode (md5Sum d)

/-! ## bytebuf.go -/

structure ByteBuf where
  data : List Nat
  offset : Int
deriving DecidableEq, Repr

def NewByteBuf (b : List Nat) : ByteBuf := { data := b, offset := 0 }

def ByteBuf.ByteLength (b : ByteBuf) : Int := (b.data.length : Int)
def ByteBuf.Remaining (b : ByteBuf) : Int := (b.data.length : Int) - b.offset
def ByteBuf.Seek (b : ByteBuf) (pos : Int) : ByteBuf := { b with offset := pos }
def ByteBuf.Offset (b : ByteBuf) : Int := b.offset

def ByteBuf.ReadUInt8 (b : ByteBuf) : Except Fail (Nat × ByteBuf) :=
  match goIndex b.data b.offset with
  | .error e => .error e
  | .ok v => .ok (v, { b with offset := b.offset + 1 })

def ByteBuf.ReadUInt32LE (b : ByteBuf) : Except Fail (Nat × ByteBuf) :=
  match goSlice b.data b.offset (b.offset + 4) with
  | .error e => .error e
  | .ok d =>
    .ok (d.getD 0 0 ||| d.getD 1 0 <<< 8 ||| d.getD 2 0 <<< 16 ||| d.getD 3 0 <<< 24,
      { b with offset := b.offset + 4 })

def ByteBuf.ReadInt32BE (b : ByteBuf) : Except Fail (Int × ByteBuf) :=
  match goSlice b.data b.offset (b.offset + 4) with
  | .error e => .error e
  | .ok d =>
    .ok (int32 (d.getD 0 0 <<< 24 ||| d.getD 1 0 <<< 16 ||| d.getD 2 0 <<< 8 ||| d.getD 3 0),
      { b with offset := b.offset + 4 })

def ByteBuf.ReadHexString (b : ByteBuf) (n : Int) : Except Fail (String × ByteBuf) :=
  match goSlice b.data b.offset (b.offset + n) with
  | .error e => .error e
  | .ok d => .ok (hexEncode d, { b with offset := b.offset + n })

def ByteBuf.ReadBuffer (b : ByteBuf) (n : Int) : Except Fail (ByteBuf × ByteBuf) :=
  match goSlice b.data b.offset (b.offset + n) with
  | .error e => .error e
  | .ok d => .ok (NewByteBuf d, { b with offset := b.offset + n })

def ByteBuf.CalculateMD5HexAll (b : ByteBuf) : String := md5Hex b.data

/-! ## salsa20.go -/

structure salsa20 where
  rounds : Nat
  sigma : List Nat
  keyWords : List Nat
  nonceWords : List Nat
  counter : List Nat
  block : List Nat
  blockUsed : Nat
deriving DecidableEq, Repr

/-- `newSalsa20(nonce, key, rounds)`; `nonce` is the `[8]byte` array. -/
def newSalsa20 (nonce key : List Nat) (rounds : Nat) : Except Fail salsa20 :=
  let rounds := if rounds = 0 then 20 else rounds
  if key.length = 32 then
    .ok { rounds := rounds
          sigma := [0x61707865, 0x3120646e, 0x79622d36, 0x6b206574]
          keyWords := (List.range 8).map fun i => le32At key (4 * i)
          nonceWords := [le32At nonce 0, le32At nonce 4]
          counter := [0, 0]
          block := List.replicate 64 0
          blockUsed := 64 }
  else if key.length ≠ 16 then .error (.panic "invalid salsa20 key length")
  else
    let k0 := goCopy (List.replicate 32 0) key
    let k := k0.take 16 ++ goCopy (k0.drop 16) key
    .ok { rounds := rounds
          sigma := [0x61707865, 0x3320646e, 0x79622d32, 0x6b206574]
          keyWords := (List.range 8).map fun i => le32At k (4 * i)
          nonceWords := [le32At nonce 0, le32At nonce 4]
          counter := [0, 0]
          block := List.replicate 64 0
          blockUsed := 64 }

def salsa20.reset (s : salsa20) : salsa20 :=
  { s with counter := [0, 0], blockUsed := 64 }

def salsa20.increment (s : salsa20) : salsa20 :=
  let c0 := (s.counter.getD 0 0 + 1) % 2 ^ 32
  if c0 = 0 then { s with counter := [c0, (s.counter.getD 1 0 + 1) % 2 ^ 32] }
  else { s with counter := [c0, s.counter.getD 1 0] }

/-- The sum `x + y` of two `uint32`. -/
def add32 (x y : Nat) : Nat := (x + y) % 2 ^ 32

/-- The 16 working words `x0 .. x15` of `generateBlock`. -/
structure salsaWords where
  x0 : Nat
  x1 : Nat
  x2 : Nat
  x3 : Nat
  x4 : Nat
  x5 : Nat
  x6 : Nat
  x7 : Nat
  x8 : Nat
  x9 : Nat
  x10 : Nat
  x11 : Nat
  x12 : Nat
  x13 : Nat
  x14 : Nat
  x15 : Nat
deriving DecidableEq, Repr

/-- One pass of the body of `for i := 0; i < s.rounds; i += 2`. -/
def salsaLoopBody (w : salsaWords) : salsaWords :=
  let x0 := w.x0
  let x1 := w.x1
  let x2 := w.x2
  let x3 := w.x3
  let x4 := w.x4
  let x5 := w.x5
  let x6 := w.x6
  let x7 := w.x7
  let x8 := w.x8
  let x9 := w.x9
  let x10 := w.x10
  let x11 := w.x11
  let x12 := w.x12
  let x13 := w.x13
  let x14 := w.x14
  let x15 := w.x15
  let x4 := x4 ^^^ rotl32 (add32 x0 x12) 7
  let x8 := x8 ^^^ rotl32 (add32 x4 x0) 9
  let x12 := x12 ^^^ rotl32 (add32 x8 x4) 13
  let x0 := x0 ^^^ rotl32 (add32 x12 x8) 18
  let x9 := x9 ^^^ rotl32 (add32 x5 x1) 7
  let x13 := x13 ^^^ rotl32 (add32 x9 x5) 9
  let x1 := x1 ^^^ rotl32 (add32 x13 x9) 13
  let x5 := x5 ^^^ rotl32 (add32 x1 x13) 18
  let x14 := x14 ^^^ rotl32 (add32 x10 x6) 7
  let x2 := x2 ^^^ rotl32 (add32 x14 x10) 9
  let x6 := x6 ^^^ rotl32 (add32 x2 x14) 13
  let x10 := x10 ^^^ rotl32 (add32 x6 x2) 18
  let x3 := x3 ^^^ rotl32 (add32 x15 x11) 7
  let x7 := x7 ^^^ rotl32 (add32 x3 x15) 9
  let x11 := x11 ^^^ rotl32 (add32 x7 x3) 13
  let x15 := x15 ^^^ rotl32 (add32 x11 x7) 18
  let x1 := x1 ^^^ rotl32 (add32 x0 x3) 7
  let x2 := x2 ^^^ rotl32 (add32 x1 x0) 9
  let x3 := x3 ^^^ rotl32 (add32 x2 x1) 13
  let x0 := x0 ^^^ rotl32 (add32 x3 x2) 18
  let x6 := x6 ^^^ rotl32 (add32 x5 x4) 7
  let x7 := x7 ^^^ rotl32 (add32 x6 x5) 9
  let x4 := x4 ^^^ rotl32 (add32 x7 x6) 13
  let x5 := x5 ^^^ rotl32 (add32 x4 x7) 18
  let x11 := x11 ^^^ rotl32 (add32 x10 x9) 7
  let x8 := x8 ^^^ rotl32 (add32 x11 x10) 9
  let x9 := x9 ^^^ rotl32 (add32 x8 x11) 13
  let x10 := x10 ^^^ rotl32 (add32 x9 x8) 18
  let x12 := x12 ^^^ rotl32 (add32 x15 x14) 7
  let x13 := x13 ^^^ rotl32 (add32 x12 x15) 9
  let x14 := x14 ^^^ rotl32 (add32 x13 x12) 13
  let x15 := x15 ^^^ rotl32 (add32 x14 x13) 18
  { x0 := x0, x1 := x1, x2 := x2, x3 := x3, x4 := x4, x5 := x5, x6 := x6, x7 := x7,
    x8 := x8, x9 := x9, x10 := x10, x11 := x11, x12 := x12, x13 := x13, x14 := x14,
    x15 := x15 }

/-- The input words `j0 .. j15` of `generateBlock`. -/
def salsa20.inputWords (s : salsa20) : salsaWords :=
  { x0 := s.sigma.getD 0 0, x1 := s.keyWords.getD 0 0, x2 := s.keyWords.getD 1 0,
    x3 := s.keyWords.getD 2 0, x4 := s.keyWords.getD 3 0, x5 := s.sigma.getD 1 0,
    x6 := s.nonceWords.getD 0 0, x7 := s.nonceWords.getD 1 0, x8 := s.counter.getD 0 0,
    x9 := s.counter.getD 1 0, x10 := s.sigma.getD 2 0, x11 := s.keyWords.getD 4 0,
    x12 := s.keyWords.getD 5 0, x13 := s.keyWords.getD 6 0, x14 := s.keyWords.getD 7 0,
    x15 := s.sigma.getD 3 0 }

/-- `generateBlock`: the loop runs `(rounds + 1) / 2` times, then the input
words are added and the 16 words stored little-endian into `block`. -/
def salsa20.generateBlock (s : salsa20) : salsa20 :=
  let j := s.inputWords
  let x := Nat.iterate salsaLoopBody ((s.rounds + 1) / 2) j
  let out := [add32 x.x0 j.x0, add32 x.x1 j.x1, add32 x.x2 j.x2, add32 x.x3 j.x3,
    add32 x.x4 j.x4, add32 x.x5 j.x5, add32 x.x6 j.x6, add32 x.x7 j.x7,
    add32 x.x8 j.x8, add32 x.x9 j.x9, add32 x.x10 j.x10, add32 x.x11 j.x11,
    add32 x.x12 j.x12, add32 x.x13 j.x13, add32 x.x14 j.x14, add32 x.x15 j.x15]
  { s with block := out.flatMap le32Bytes }

/-- `getBytes(n)`: the keystream bytes and the advanced cipher state. -/
def salsa20.getBytes : Nat → salsa20 → List Nat × salsa20
  | 0, s => ([], s)
  | n + 1, s =>
    let s1 := if s.blockUsed = 64 then { s.generateBlock.increment with blockUsed := 0 } else s
    let b := s1.block.getD s1.blockUsed 0
    let r := salsa20.getBytes n { s1 with blockUsed := s1.blockUsed + 1 }
    (b :: r.1, r.2)

/-- `process(buf)`: keystream XOR `buf`, and the advanced cipher state. -/
def salsa20.process (s : salsa20) (buf : List Nat) : List Nat × salsa20 :=
  let ks := s.getBytes buf.length
  (List.zipWith (fun k b => k ^^^ b) ks.1 buf, ks.2)

/-! ## tact_keys.go -/

/-- `strings.ToLower` on the ASCII names the key ring is asked for. -/
def toLower (s : String) : String := String.mk (s.data.map Char.toLower)

/-- `GetTACTKey(keyName)` on the key ring `tact`; `nil` is the empty list. -/
def GetTACTKey (tact : GoMap String (List Nat)) (keyName : String) : List Nat :=
  match tact.lookup (toLower keyName) with
  | some v => v
  | none => []

/-! ## blte_reader.go -/

def blteMagic : Nat := 0x45544c42
def encTypeSalsa20 : Nat := 0x53
def emptyMD5 : String := "00000000000000000000000000000000"

structure blteBlock where
  CompSize : Int
  DecompSize : Int
  Hash : String
deriving DecidableEq, Repr

/-- The reader; `lenient` is the field the source calls `partial`, and
`blockIndex`, only ever counted up from 0, is a natural number. -/
structure BLTEReader where
  blte : ByteBuf
  buf : List Nat
  blocks : List blteBlock
  blockIndex : Nat
  blockWriteIdx : Int
  lenient : Bool
deriving DecidableEq, Repr

/-- What the reader takes from outside the file: `blteDecompress` (zlib, `none`
for an inflate error) and the process-wide key ring `tact`. -/
structure Env where
  blteDecompress : List Nat → Option (List Nat)
  tact : GoMap String (List Nat)

/-- The block-table loop of `NewBLTEReader`, `n` blocks still to read. -/
def readBlockTable (headerSize : Int) : Nat → ByteBuf → Except Fail (List blteBlock × ByteBuf)
  | 0, buf => .ok ([], buf)
  | n + 1, buf =>
    if headerSize ≠ 0 then
      match buf.ReadInt32BE with
      | .error e => .error e
      | .ok (c, b1) =>
        match b1.ReadInt32BE with
        | .error e => .error e
        | .ok (d, b2) =>
          match b2.ReadHexString 16 with
          | .error e => .error e
          | .ok (h, b3) =>
            match readBlockTable headerSize n b3 with
            | .error e => .error e
            | .ok (rest, b4) => .ok ({ CompSize := c, DecompSize := d, Hash := h } :: rest, b4)
    else
      match readBlockTable headerSize n buf with
      | .error e => .error e
      | .ok (rest, b4) =>
        .ok ({ CompSize := buf.ByteLength - 8, DecompSize := buf.ByteLength - 9,
               Hash := emptyMD5 } :: rest, b4)

/-- The frame header of `NewBLTEReader` (`if headerSize > 0 { ... }`): the
number of blocks and the cursor after the four control bytes. -/
def readFrameHeader (headerSize : Int) (buf : ByteBuf) : Except Fail (Nat × ByteBuf) :=
  if buf.ByteLength < 12 then .error (.error "[BLTE] Not enough data (< 12)")
  else
    match buf.ReadUInt8 with
    | .error e => .error e
    | .ok (fc0, b1) =>
      match b1.ReadUInt8 with
      | .error e => .error e
      | .ok (fc1, b2) =>
        match b2.ReadUInt8 with
        | .error e => .error e
        | .ok (fc2, b3) =>
          match b3.ReadUInt8 with
          | .error e => .error e
          | .ok (fc3, b4) =>
            let numBlocks := fc1 <<< 16 ||| fc2 <<< 8 ||| fc3
            if fc0 ≠ 0x0F ∨ numBlocks = 0 then .error (.error "[BLTE] Invalid table format")
            else
              let frameHeaderSize : Int := 24 * (numBlocks : Int) + 12
              if headerSize ≠ frameHeaderSize then .error (.error "[BLTE] Invalid header size")
              else if buf.ByteLength < frameHeaderSize then
                .error (.error "[BLTE] Not enough data (frameHeader)")
              else .ok (numBlocks, b4)

/-- `NewBLTEReader(raw, hash, partial)`. -/
def NewBLTEReader (raw : List Nat) (hash : String) (lenient : Bool) : Except Fail BLTEReader :=
  let buf := NewByteBuf raw
  if buf.ByteLength < 8 then .error (.error "[BLTE] Not enough data (< 8)")
  else
    match buf.ReadUInt32LE with
    | .error e => .error e
    | .ok (magic, b1) =>
      if magic ≠ blteMagic then .error (.error "[BLTE] Invalid magic")
      else
        match b1.ReadInt32BE with
        | .error e => .error e
        | .ok (headerSize, b2) =>
          let origPos := b2.Offset
          match (if headerSize > 0 then goSlice b2.data 0 headerSize else .ok b2.data) with
          | .error e => .error e
          | .ok hashed =>
            if md5Hex hashed ≠ hash then .error (.error "[BLTE] Invalid MD5 hash")
            else
              let b3 := b2.Seek origPos
              match (if headerSize > 0 then readFrameHeader headerSize b3 else .ok (1, b3)) with
              | .error e => .error e
              | .ok (numBlocks, b4) =>
                match readBlockTable headerSize numBlocks b4 with
                | .error e => .error e
                | .ok (blocks, b5) =>
                  match goMake (blocks.map blteBlock.DecompSize).sum with
                  | .error e => .error e
                  | .ok out =>
                    .ok { blte := b5, buf := out, blocks := blocks, blockIndex := 0,
                          blockWriteIdx := 0, lenient := lenient }

/-- `writeBuffer(blockEnd)`. -/
def BLTEReader.writeBuffer (r : BLTEReader) (blockEnd : Int) : Except Fail BLTEReader :=
  match goSlice r.buf r.blockWriteIdx r.buf.length with
  | .error e => .error e
  | .ok dst =>
    match goSlice r.blte.data r.blte.Offset blockEnd with
    | .error e => .error e
    | .ok src =>
      .ok { r with buf := r.buf.take r.blockWriteIdx.toNat ++ goCopy dst src,
                   blte := r.blte.Seek blockEnd }

/-- The loop `keyNameBytes[i] = r.blte.ReadHexString(1)`, `n` names to go. -/
def readKeyNameBytes : Nat → ByteBuf → Except Fail (List String × ByteBuf)
  | 0, b => .ok ([], b)
  | n + 1, b =>
    match b.ReadHexString 1 with
    | .error e => .error e
    | .ok (h, b1) =>
      match readKeyNameBytes n b1 with
      | .error e => .error e
      | .ok (rest, b2) => .ok (h :: rest, b2)

/-- The loop `ivShort[i] ^= byte((index >> shift) & 0xFF)` over `i < 4`,
`i < len(ivShort)`. -/
def xorBlockIndex (ivShort : List Nat) (index : Nat) : List Nat :=
  List.zipWith (fun v x => v ^^^ x) (ivShort.take 4) (le32Bytes index) ++ ivShort.drop 4

/-- `decryptBlock(blockEnd, index)`: the decrypted bytes (`none` for `nil`) and
the reader with its cursor advanced. -/
def BLTEReader.decryptBlock (env : Env) (r : BLTEReader) (blockEnd : Int) (index : Nat) :
    Except Fail (Option (List Nat) × BLTEReader) :=
  match r.blte.ReadUInt8 with
  | .error e => .error e
  | .ok (keyNameSize, b1) =>
    if keyNameSize = 0 ∨ keyNameSize ≠ 8 then .ok (none, { r with blte := b1 })
    else
      match readKeyNameBytes keyNameSize b1 with
      | .error e => .error e
      | .ok (keyNameBytes, b2) =>
        let keyName := String.join keyNameBytes.reverse
        match b2.ReadUInt8 with
        | .error e => .error e
        | .ok (ivSize, b3) =>
          if (ivSize ≠ 4 ∧ ivSize ≠ 8) ∨ ivSize > 8 then .ok (none, { r with blte := b3 })
          else
            match goSlice b3.data b3.Offset (b3.Offset + (ivSize : Int)) with
            | .error e => .error e
            | .ok ivSrc =>
              let ivShort := goCopy (List.replicate ivSize 0) ivSrc
              let b4 := b3.Seek (b3.Offset + (ivSize : Int))
              if b4.Remaining = 0 then .ok (none, { r with blte := b4 })
              else
                match b4.ReadUInt8 with
                | .error e => .error e
                | .ok (encryptType, b5) =>
                  if encryptType ≠ encTypeSalsa20 then .ok (none, { r with blte := b5 })
                  else
                    let ivShort := xorBlockIndex ivShort index
                    let key := GetTACTKey env.tact keyName
                    if key.length = 0 then .ok (none, { r with blte := b5 })
                    else
                      let nonce := goCopy (List.replicate 8 0) ivShort
                      match newSalsa20 nonce key 20 with
                      | .error e => .error e
                      | .ok s =>
                        match goSlice b5.data b5.Offset blockEnd with
                        | .error e => .error e
                        | .ok enc => .ok (some (s.process enc).1, { r with blte := b5 })

/-- The body of `handleBlock(blockEnd, index)`, with the recursive call on the
sub-reader of an encrypted block passed as `recur`. -/
def BLTEReader.handleBlockBody (env : Env)
    (recur : BLTEReader → Int → Nat → Except Fail BLTEReader)
    (r : BLTEReader) (blockEnd : Int) (index : Nat) : Except Fail BLTEReader :=
  match r.blte.ReadUInt8 with
  | .error e => .error e
  | .ok (flag, b1) =>
    let r := { r with blte := b1 }
    if flag = 0x45 then
      match r.decryptBlock env blockEnd index with
      | .error e => .error e
      | .ok (some dec, r) =>
        match goSlice r.buf r.blockWriteIdx r.buf.length with
        | .error e => .error e
        | .ok subBuf =>
          match recur { blte := NewByteBuf dec, buf := subBuf,
                        blocks := [{ CompSize := dec.length, DecompSize := dec.length,
                                     Hash := emptyMD5 }],
                        blockIndex := 0, blockWriteIdx := 0, lenient := false }
              dec.length index with
          | .error e => .error e
          | .ok sub => .ok { r with buf := r.buf.take r.blockWriteIdx.toNat ++ sub.buf }
      | .ok (none, r) =>
        if r.lenient then
          match r.blocks[index]? with
          | none => .error (.panic "index out of range")
          | some blk => .ok { r with blockWriteIdx := r.blockWriteIdx + blk.DecompSize }
        else .ok r
    else if flag = 0x4E then r.writeBuffer blockEnd
    else if flag = 0x5A then
      match goSlice r.blte.data r.blte.Offset blockEnd with
      | .error e => .error e
      | .ok comp =>
        match env.blteDecompress comp with
        | some dec =>
          match goSlice r.buf r.blockWriteIdx r.buf.length with
          | .error e => .error e
          | .ok dst =>
            .ok { r with buf := r.buf.take r.blockWriteIdx.toNat ++ goCopy dst dec,
                         blte := r.blte.Seek blockEnd }
        | none => r.writeBuffer blockEnd
    else .error (.panic "BLTE: Unsupported block type")

/-- `handleBlock` with the nesting depth of encrypted blocks bounded by `fuel`. -/
def BLTEReader.handleBlockFuel (env : Env) :
    Nat → BLTEReader → Int → Nat → Except Fail BLTEReader
  | 0 => BLTEReader.handleBlockBody env (fun _ _ _ => .error .fuel)
  | fuel + 1 => BLTEReader.handleBlockBody env (BLTEReader.handleBlockFuel env fuel)

/-- `handleBlock(blockEnd, index)`: every nested block is shorter than the data
it is cut from, so the length of the data bounds the depth. -/
def BLTEReader.handleBlock (env : Env) (r : BLTEReader) (blockEnd : Int) (index : Nat) :
    Except Fail BLTEReader :=
  r.handleBlockFuel env r.blte.data.length blockEnd index

/-- `processNext()`: `false` with the reader unchanged when all blocks are done. -/
def BLTEReader.processNext (env : Env) (r : BLTEReader) : Except Fail (Bool × BLTEReader) :=
  if r.blockIndex = r.blocks.length then .ok (false, r)
  else
    match r.blocks[r.blockIndex]? with
    | none => .error (.panic "index out of range")
    | some blk =>
      let old := r.blockWriteIdx
      let bltePos := r.blte.Offset
      let checked : Except Fail BLTEReader :=
        if blk.Hash ≠ emptyMD5 then
          match r.blte.ReadBuffer blk.CompSize with
          | .error e => .error e
          | .ok (blockData, _) =>
            if blockData.CalculateMD5HexAll ≠ blk.Hash then
              .error (.panic ("BLTEIntegrityError: expected " ++ blk.Hash ++ ", got " ++
                blockData.CalculateMD5HexAll))
            else .ok { r with blte := r.blte.Seek bltePos }
        else .ok r
      match checked with
      | .error e => .error e
      | .ok r1 =>
        match r1.handleBlock env (bltePos + blk.CompSize) r1.blockIndex with
        | .error e => .error e
        | .ok r2 =>
          .ok (true, { r2 with blte := r2.blte.Seek (bltePos + blk.CompSize),
                               blockIndex := r2.blockIndex + 1,
                               blockWriteIdx := old + blk.DecompSize })

/-- `processAll()`, at most `fuel` calls of `processNext`. -/
def BLTEReader.processAllFuel (env : Env) : Nat → BLTEReader → Except Fail BLTEReader
  | 0, _ => .error .fuel
  | fuel + 1, r =>
    match r.processNext env with
    | .error e => .error e
    | .ok (true, r1) => BLTEReader.processAllFuel env fuel r1
    | .ok (false, r1) => .ok r1

/-- `processAll()`: each successful `processNext` counts `blockIndex` up, so
`len(blocks) + 1` calls reach the end. -/
def BLTEReader.processAll (env : Env) (r : BLTEReader) : Except Fail BLTEReader :=
  r.processAllFuel env (r.blocks.length + 1)

/-- `Output()`. -/
def BLTEReader.Output (env : Env) (r : BLTEReader) : Except Fail (List Nat) :=
  match r.processAll env with
  | .error e => .error e
  | .ok r1 => .ok r1.buf

/-- Decoding as done by every caller: `NewBLTEReader` followed by `Output`. -/
def decodeBLTE (env : Env) (raw : List Nat) (hash : String) (lenient : Bool) :
    Except Fail (List Nat) :=
  match NewBLTEReader raw hash lenient with
  | .error e => .error e
  | .ok r => r.Output env

/-! ## BLTE: notions used to state the properties -/

/-- What `handleBlock` and `processNext` leave alone: the block table, the
container bytes, the size of the output buffer, the mode and (for
`handleBlock`) the block counter. -/
def BLTEReader.sameFrame (r r1 : BLTEReader) : Prop :=
  r1.blocks = r.blocks ∧ r1.blte.data = r.blte.data ∧ r1.buf.length = r.buf.length ∧
    r1.lenient = r.lenient

/-- The 32-bit word stored most significant byte first at `d[j..j+4)`. -/
def be32At (d : List Nat) (j : Nat) : Nat :=
  d.getD j 0 <<< 24 ||| d.getD (j + 1) 0 <<< 16 ||| d.getD (j + 2) 0 <<< 8 ||| d.getD (j + 3) 0

/-- The mode byte at `pos` exists and is one of the supported modes. -/
def modeSupported (data : List Nat) (pos : Int) : Prop :=
  match goIndex data pos with
  | .ok m => m = 0x45 ∨ m = 0x4E ∨ m = 0x5A
  | .error _ => False

instance (data : List Nat) (pos : Int) : Decidable (modeSupported data pos) := by
  unfold modeSupported; split <;> infer_instance

/-- The MD5 of the `compSize` bytes of the block at `pos` equals the table hash. -/
def hashMatches (data : List Nat) (pos : Int) (blk : blteBlock) : Prop :=
  match goSlice data pos (pos + blk.CompSize) with
  | .ok d => md5Hex d = blk.Hash
  | .error _ => False

instance (data : List Nat) (pos : Int) (blk : blteBlock) : Decidable (hashMatches data pos blk) := by
  unfold hashMatches; split <;> infer_instance

/-- Every block of the table, laid out one after the other from `pos`, has a
supported mode byte and, unless its table hash is the all-zero sentinel, the
MD5 its table entry declares. -/
def blocksAccepted (data : List Nat) : Int → List blteBlock → Prop
  | _, [] => True
  | pos, blk :: rest =>
    (blk.Hash ≠ emptyMD5 → hashMatches data pos blk) ∧ modeSupported data pos ∧
      blocksAccepted data (pos + blk.CompSize) rest

instance blocksAcceptedDecidable (data : List Nat) :
    ∀ (pos : Int) (blocks : List blteBlock), Decidable (blocksAccepted data pos blocks)
  | _, [] => isTrue trivial
  | pos, blk :: rest =>
    have := blocksAcceptedDecidable data (pos + blk.CompSize) rest
    by unfold blocksAccepted; infer_instance

/-- A table of plain blocks that fit: every block is raw or zlib, has at least
its mode byte, lies within the data and declares a non-negative `decompSize`. -/
def blocksPlain (data : List Nat) : Int → List blteBlock → Prop
  | _, [] => True
  | pos, blk :: rest =>
    (goIndex data pos = .ok 0x4E ∨ goIndex data pos = .ok 0x5A) ∧ 1 ≤ blk.CompSize ∧
      pos + blk.CompSize ≤ (data.length : Int) ∧ 0 ≤ blk.DecompSize ∧
      blocksPlain data (pos + blk.CompSize) rest

/-- The declared `headerSize`: the big-endian `int32` at bytes 4..8. -/
def declaredHeaderSize (raw : List Nat) : Int := int32 (be32At raw 4)

/-- The declared number of blocks: the 24-bit big-endian count at bytes 9..12. -/
def declaredNumBlocks (raw : List Nat) : Nat :=
  raw.getD 9 0 <<< 16 ||| raw.getD 10 0 <<< 8 ||| raw.getD 11 0

/-- The block table as laid out in the container: `n` entries of 24 bytes from
byte `o`, each `compSize`, `decompSize` (big-endian `int32`) and a 16-byte MD5. -/
def tableBlocks (data : List Nat) (o n : Nat) : List blteBlock :=
  (List.range n).map fun i =>
    { CompSize := int32 (be32At data (o + 24 * i))
      DecompSize := int32 (be32At data (o + 24 * i + 4))
      Hash := hexEncode ((data.take (o + 24 * i + 24)).drop (o + 24 * i + 8)) }

/-- The single implicit block of a container with `headerSize == 0`. -/
def implicitBlock (raw : List Nat) : blteBlock :=
  { CompSize := (raw.length : Int) - 8, DecompSize := (raw.length : Int) - 9, Hash := emptyMD5 }

/-- The 8-byte header of a container with `headerSize == 0`: the magic `BLTE`
and four zero bytes. -/
def implicitHeader : List Nat := [0x42, 0x4C, 0x54, 0x45, 0, 0, 0, 0]

/-- The container of scenario S1 for payload `p`: the magic, a zero
`headerSize`, the mode byte `0x4E` and `p`. -/
def rawContainer (p : List Nat) : List Nat := implicitHeader ++ 0x4E :: p

/-- The reader `NewBLTEReader` returns for an implicit-block container with
body `m :: rest`. -/
def implicitReader (m : Nat) (rest : List Nat) (lenient : Bool) : BLTEReader :=
  { blte := { data := implicitHeader ++ m :: rest, offset := 8 }
    buf := List.replicate rest.length 0
    blocks := [{ CompSize := (rest.length : Int) + 1, DecompSize := (rest.length : Int),
                 Hash := emptyMD5 }]
    blockIndex := 0
    blockWriteIdx := 0
    lenient := lenient }

/-- A key ring with no key and an inflater that rejects every input. -/
def emptyEnv : Env := { blteDecompress := fun _ => none, tact := ∅ }

/-- The payload of scenario S1: `"hello"`. -/
def helloBytes : List Nat := [104, 101, 108, 108, 111]

/-- An implicit-block container whose block is cut off after the mode byte
`0x45`. -/
def truncatedEncrypted : List Nat := implicitHeader ++ [0x45]

/-- The body of an encrypted block with key name `01 .. 08`, a 4-byte IV and
one byte of ciphertext. -/
def encryptedBody : List Nat := [8, 1, 2, 3, 4, 5, 6, 7, 8, 4, 9, 9, 9, 9, 0x53, 0xAB]

/-- The key-ring identifier of an encrypted block: the hex of the 8 name bytes
taken in reverse order. -/
def ringName (name : List Nat) : String :=
  String.join ((name.map fun b => hexEncode [b]).reverse)

/-- An encrypted block: mode `0x45`, `keyNameSize` 8, the name bytes, `ivSize`,
the IV, `encryptType` `0x53` and the encrypted bytes. -/
def encryptedBlock (name iv enc : List Nat) : List Nat :=
  0x45 :: 8 :: (name ++ iv.length :: (iv ++ 0x53 :: enc))

/-- The first `n` calls of `processNext` made by `processAll`. -/
def BLTEReader.processSteps (env : Env) : Nat → BLTEReader → Except Fail BLTEReader
  | 0, r => .ok r
  | n + 1, r =>
    match r.processNext env with
    | .error e => .error e
    | .ok (true, r1) => BLTEReader.processSteps env n r1
    | .ok (false, r1) => .ok r1

/-- A framed container of two blocks: a raw block of five payload bytes that
declares `decompSize` 1, then an encrypted block that declares `decompSize` 4. -/
def overrunContainer : List Nat :=
  [0x42, 0x4C, 0x54, 0x45, 0, 0, 0, 60, 0x0F, 0, 0, 2] ++
    ([0, 0, 0, 6, 0, 0, 0, 1] ++ List.replicate 16 0) ++
    ([0, 0, 0, 17, 0, 0, 0, 4] ++ List.replicate 16 0) ++
    [0x4E, 1, 2, 3, 4, 5] ++ encryptedBlock [1, 2, 3, 4, 5, 6, 7, 8] [9, 9, 9, 9] [0xAB]

/-- The reader `NewBLTEReader` returns for a framed container of `n` blocks. -/
def framedReader (raw : List Nat) (n : Nat) (lenient : Bool) : BLTEReader :=
  { blte := { data := raw, offset := 24 * (n : Int) + 12 }
    buf := List.replicate ((tableBlocks raw 12 n).map blteBlock.DecompSize).sum.toNat 0
    blocks := tableBlocks raw 12 n
    blockIndex := 0
    blockWriteIdx := 0
    lenient := lenient }

/-- Encryption with the repository's own cipher: `process` of a fresh `newSalsa20`
instance (block counter 0). -/
def salsa20Encrypt (nonce key msg : List Nat) : List Nat :=
  match newSalsa20 nonce key 20 with
  | .ok s => (s.process msg).1
  | .error _ => []

/-- The 8-byte nonce of block index 0: the IV, zero padded. -/
def blockNonce (iv : List Nat) : List Nat := iv ++ List.replicate (8 - iv.length) 0

/-- A framed container with one block: magic, `headerSize` 36, frame control
`0F 00 00 01`, then the 4-byte `compSize` field `cs`, the 4-byte `decompSize`
field `ds`, the 16-byte block hash `bh` and the block. -/
def framedContainer1 (cs ds bh block : List Nat) : List Nat :=
  [0x42, 0x4C, 0x54, 0x45, 0, 0, 0, 36, 0x0F, 0, 0, 1] ++ (cs ++ (ds ++ (bh ++ block)))

/-- A key ring holding one 16-byte key under the name `0807060504030201`. -/
def oneKeyEnv : Env :=
  { blteDecompress := fun _ => none
    tact := AList.singleton "0807060504030201" (List.replicate 16 7) }

/-- The failure is the integrity panic of `processNext`, whose message starts
with `BLTEIntegrityError`. -/
def isIntegrityError : Fail → Prop
  | .panic m => m.data.take 18 = "BLTEIntegrityError".data
  | _ => False

/-- The run-time faults a block handler can end in. -/
def isBlockFault (e : Fail) : Prop :=
  e = .fuel ∨ e = .panic "index out of range" ∨ e = .panic "slice bounds out of range" ∨
    e = .panic "invalid salsa20 key length" ∨ e = .panic "BLTE: Unsupported block type"

/-- A reader standing before a single block of one byte with a table hash. -/
def hashedReader (h : String) : BLTEReader :=
  { blte := { data := [0x4E], offset := 0 }, buf := [],
    blocks := [{ CompSize := 1, DecompSize := 0, Hash := h }],
    blockIndex := 0, blockWriteIdx := 0, lenient := false }

/-- Two cipher states that differ at most in the contents of `block`. -/
def salsa20.sameCipher (s t : salsa20) : Prop :=
  s.rounds = t.rounds ∧ s.sigma = t.sigma ∧ s.keyWords = t.keyWords ∧
    s.nonceWords = t.nonceWords ∧ s.counter = t.counter ∧ s.blockUsed = t.blockUsed

/-! ## Salsa20 as specified (Bernstein, "Salsa20 specification") -/

/-- The quarter-round of the Salsa20 specification. -/
def specQuarterRound (y0 y1 y2 y3 : Nat) : Nat × Nat × Nat × Nat :=
  let z1 := y1 ^^^ rotl32 (add32 y0 y3) 7
  let z2 := y2 ^^^ rotl32 (add32 z1 y0) 9
  let z3 := y3 ^^^ rotl32 (add32 z2 z1) 13
  let z0 := y0 ^^^ rotl32 (add32 z3 z2) 18
  (z0, z1, z2, z3)

/-- The column round of the specification. -/
def specColumnRound (x : salsaWords) : salsaWords :=
  let a := specQuarterRound x.x0 x.x4 x.x8 x.x12
  let b := specQuarterRound x.x5 x.x9 x.x13 x.x1
  let c := specQuarterRound x.x10 x.x14 x.x2 x.x6
  let d := specQuarterRound x.x15 x.x3 x.x7 x.x11
  { x0 := a.1, x4 := a.2.1, x8 := a.2.2.1, x12 := a.2.2.2,
    x5 := b.1, x9 := b.2.1, x13 := b.2.2.1, x1 := b.2.2.2,
    x10 := c.1, x14 := c.2.1, x2 := c.2.2.1, x6 := c.2.2.2,
    x15 := d.1, x3 := d.2.1, x7 := d.2.2.1, x11 := d.2.2.2 }

/-- The row round of the specification. -/
def specRowRound (y : salsaWords) : salsaWords :=
  let a := specQuarterRound y.x0 y.x1 y.x2 y.x3
  let b := specQuarterRound y.x5 y.x6 y.x7 y.x4
  let c := specQuarterRound y.x10 y.x11 y.x8 y.x9
  let d := specQuarterRound y.x15 y.x12 y.x13 y.x14
  { x0 := a.1, x1 := a.2.1, x2 := a.2.2.1, x3 := a.2.2.2,
    x5 := b.1, x6 := b.2.1, x7 := b.2.2.1, x4 := b.2.2.2,
    x10 := c.1, x11 := c.2.1, x8 := c.2.2.1, x9 := c.2.2.2,
    x15 := d.1, x12 := d.2.1, x13 := d.2.2.1, x14 := d.2.2.2 }

/-- The double round of the specification: a column round, then a row round. -/
def specDoubleRound (x : salsaWords) : salsaWords :=
  specRowRound (specColumnRound x)

/-- The 16 words of a state, in order. -/
def salsaWords.toList (w : salsaWords) : List Nat :=
  [w.x0, w.x1, w.x2, w.x3, w.x4, w.x5, w.x6, w.x7, w.x8, w.x9, w.x10, w.x11, w.x12, w.x13,
   w.x14, w.x15]

/-- The input state `(c0, k0..k3, c1, n0, n1, ctr_lo, ctr_hi, c2, k4..k7, c3)` of the
specification for constants `c`, key words `k`, nonce words `n` and the 64-bit
block counter `ctr`. -/
def specState (c k n : List Nat) (ctr : Nat) : salsaWords :=
  { x0 := c.getD 0 0, x1 := k.getD 0 0, x2 := k.getD 1 0, x3 := k.getD 2 0, x4 := k.getD 3 0,
    x5 := c.getD 1 0, x6 := n.getD 0 0, x7 := n.getD 1 0,
    x8 := ctr % 2 ^ 32, x9 := ctr / 2 ^ 32 % 2 ^ 32,
    x10 := c.getD 2 0, x11 := k.getD 4 0, x12 := k.getD 5 0, x13 := k.getD 6 0,
    x14 := k.getD 7 0, x15 := c.getD 3 0 }

/-- The Salsa20/20 core of the specification on an input state: ten double
rounds, word-wise addition of the input, 16 little-endian words. -/
def specCore (j : salsaWords) : List Nat :=
  (List.zipWith add32 (Nat.iterate specDoubleRound 10 j).toList j.toList).flatMap le32Bytes

/-- Byte `i` of the keystream of the specification: byte `i mod 64` of the block
with counter `i / 64`. -/
def specStream (c k n : List Nat) (len : Nat) : List Nat :=
  (List.range len).map fun i => (specCore (specState c k n (i / 64))).getD (i % 64) 0

/-- The constants of the reference cipher: `expand 32-byte k` for a 32-byte key,
`expand 16-byte k` for a 16-byte key. -/
def refConstants (keyLen : Nat) : List Nat :=
  let t := (if keyLen = 32 then "expand 32-byte k" else "expand 16-byte k").data.map Char.toNat
  [le32At t 0, le32At t 4, le32At t 8, le32At t 12]

/-- The key words of the reference cipher: a 16-byte key is repeated. -/
def refKeyWords (key : List Nat) : List Nat :=
  let k := if key.length = 32 then key else key ++ key
  (List.range 8).map fun i => le32At k (4 * i)

/-- The reference Salsa20/20 stream cipher with block counter starting at 0. -/
def refSalsa20 (nonce key buf : List Nat) : List Nat :=
  List.zipWith (fun k b => k ^^^ b)
    (specStream (refConstants key.length) (refKeyWords key) [le32At nonce 0, le32At nonce 4]
      buf.length) buf

/-- The key of the first Salsa20/20 test vector of the ECRYPT stream cipher
project (256-bit key, set 1, vector 0): `80 00 .. 00`, with the all-zero IV. -/
def ecryptKey : List Nat := 0x80 :: List.replicate 31 0

/-- The two words of the 64-bit block counter `c`, low word first. -/
def ctrWords (c : Nat) : List Nat := [c % 2 ^ 32, c / 2 ^ 32 % 2 ^ 32]

/-- The cipher state `s`, with constants `c`, key words `k`, nonce words `n` and
20 rounds, stands before byte `p` of its keystream. -/
def salsa20.atPosition (c k n : List Nat) (s : salsa20) (p : Nat) : Prop :=
  s.rounds = 20 ∧ s.sigma = c ∧ s.keyWords = k ∧ s.nonceWords = n ∧
    s.counter = ctrWords ((p + 63) / 64) ∧
    ((s.blockUsed = 64 ∧ p % 64 = 0) ∨
      (s.blockUsed = p % 64 ∧ p % 64 ≠ 0 ∧ s.block = specCore (specState c k n (p / 64))))

/-- The nonce of an encrypted block as the format describes it: byte `j` of the
IV `v` XOR byte `j` of the block index for `j < 4`, `v[j]` for `4 ≤ j < ivSize`,
zero from `ivSize` on. -/
def indexedNonce (v : List Nat) (i : Nat) : List Nat :=
  (List.range 8).map fun j =>
    if j < 4 then v.getD j 0 ^^^ (i >>> (8 * j) &&& 0xFF)
    else if j < v.length then v.getD j 0 else 0

/-- A reader standing at the key-name size of an encrypted block with key name
`01 .. 08`, IV `09 0A 0B 0C` and two encrypted bytes. -/
def encryptedBodyReader : BLTEReader :=
  { blte := { data := [8, 1, 2, 3, 4, 5, 6, 7, 8, 4, 9, 10, 11, 12, 0x53, 0xAA, 0xBB],
              offset := 0 },
    buf := [0, 0], blocks := [{ CompSize := 18, DecompSize := 2, Hash := emptyMD5 }],
    blockIndex := 0, blockWriteIdx := 0, lenient := false }

/-- A framed container of two raw blocks whose payloads do not have the declared
sizes: three payload bytes declared as `decompSize` 1, then one payload byte
declared as `decompSize` 2. -/
def misfitContainer : List Nat :=
  [0x42, 0x4C, 0x54, 0x45, 0, 0, 0, 60, 0x0F, 0, 0, 2] ++
    ([0, 0, 0, 4, 0, 0, 0, 1] ++ List.replicate 16 0) ++
    ([0, 0, 0, 2, 0, 0, 0, 2] ++ List.replicate 16 0) ++
    [0x4E, 1, 2, 3] ++ [0x4E, 9]

/-- A framed container of two raw blocks with payloads of the declared sizes. -/
def fitContainer : List Nat :=
  [0x42, 0x4C, 0x54, 0x45, 0, 0, 0, 60, 0x0F, 0, 0, 2] ++
    ([0, 0, 0, 2, 0, 0, 0, 1] ++ List.replicate 16 0) ++
    ([0, 0, 0, 3, 0, 0, 0, 2] ++ List.replicate 16 0) ++
    [0x4E, 1] ++ [0x4E, 9, 8]

/-- The reader of `fitContainer` after `k` blocks, with output buffer `buf`, cursor
`pos` and write position `w`. -/
def fitReader (k : Nat) (buf : List Nat) (pos w : Int) : BLTEReader :=
  { blte := { data := fitContainer, offset := pos }, buf := buf,
    blocks := tableBlocks fitContainer 12 2, blockIndex := k, blockWriteIdx := w,
    lenient := false }

/-! ## Go's `strings` package, on strings as byte sequences -/

/-- A string literal of ASCII characters as its bytes. -/
def asciiBytes (s : String) : List Nat := s.data.map Char.toNat

/-- `strings.Split(s, sep)` for a separator of one byte. -/
def goSplit (sep : Nat) : List Nat → List (List Nat)
  | [] => [[]]
  | c :: cs =>
    if c = sep then [] :: goSplit sep cs
    else
      match goSplit sep cs with
      | [] => [[c]]
      | p :: ps => (c :: p) :: ps

/-- The text before and after the first `sep` of `s`, if there is one. -/
def goCut (sep : Nat) : List Nat → Option (List Nat × List Nat)
  | [] => none
  | c :: cs =>
    if c = sep then some ([], cs)
    else
      match goCut sep cs with
      | none => none
      | some (a, b) => some (c :: a, b)

/-- `strings.SplitN(s, sep, 2)` for a separator of one byte. -/
def goSplitN2 (sep : Nat) (s : List Nat) : List (List Nat) :=
  match goCut sep s with
  | none => [s]
  | some (a, b) => [a, b]

/-- `strings.TrimRight(s, cutset)` for a cutset of one ASCII byte. -/
def goTrimRight (c : Nat) (s : List Nat) : List Nat :=
  (s.reverse.dropWhile fun x => decide (x = c)).reverse

/-- `strings.HasPrefix(s, p)`. -/
def goHasPrefix (s p : List Nat) : Bool := p.isPrefixOf s

/-- The UTF-8 encodings of the runes with `unicode.IsSpace`: tab, LF, VT, FF, CR,
space, U+0085, U+00A0, U+1680, U+2000 .. U+200A, U+2028, U+2029, U+202F, U+205F
and U+3000. -/
def spaceRunes : List (List Nat) :=
  [[9], [10], [11], [12], [13], [32], [0xC2, 0x85], [0xC2, 0xA0], [0xE1, 0x9A, 0x80],
   [0xE2, 0x80, 0x80], [0xE2, 0x80, 0x81], [0xE2, 0x80, 0x82], [0xE2, 0x80, 0x83],
   [0xE2, 0x80, 0x84], [0xE2, 0x80, 0x85], [0xE2, 0x80, 0x86], [0xE2, 0x80, 0x87],
   [0xE2, 0x80, 0x88], [0xE2, 0x80, 0x89], [0xE2, 0x80, 0x8A], [0xE2, 0x80, 0xA8],
   [0xE2, 0x80, 0xA9], [0xE2, 0x80, 0xAF], [0xE2, 0x81, 0x9F], [0xE3, 0x80, 0x80]]

/-- The white-space rune `s` starts with, if any. -/
def leadingSpace (s : List Nat) : Option (List Nat) :=
  spaceRunes.find? fun p => p.isPrefixOf s

/-- The white-space rune `s` ends with, if any. -/
def trailingSpace (s : List Nat) : Option (List Nat) :=
  spaceRunes.find? fun p => p.isSuffixOf s

/-- Dropping leading white space, at most `n` runes. -/
def trimLeftSpace : Nat → List Nat → List Nat
  | 0, s => s
  | n + 1, s =>
    match leadingSpace s with
    | none => s
    | some p => trimLeftSpace n (s.drop p.length)

/-- Dropping trailing white space, at most `n` runes. -/
def trimRightSpace : Nat → List Nat → List Nat
  | 0, s => s
  | n + 1, s =>
    match trailingSpace s with
    | none => s
    | some p => trimRightSpace n (s.take (s.length - p.length))

/-- `strings.TrimSpace(s)`: every rune dropped takes at least one byte, so the
length of `s` bounds the number of runes to drop. -/
def goTrimSpace (s : List Nat) : List Nat :=
  trimRightSpace s.length (trimLeftSpace s.length s)

/-- `strings.ToUpper` of the one-byte string `s[:1]`: an ASCII letter is
upper-cased, a byte that is not ASCII is not valid UTF-8 by itself and becomes
the replacement character U+FFFD. -/
def goToUpper1 (c : Nat) : List Nat :=
  if 0x80 ≤ c then [0xEF, 0xBF, 0xBD]
  else if 0x61 ≤ c ∧ c ≤ 0x7A then [c - 0x20]
  else [c]

/-! ## cdn_config.go -/

/-- The loop body `parts[i] = strings.ToUpper(parts[i][:1]) + parts[i][1:]`, with
its guard `len(parts[i]) == 0`. -/
def upperFirst : List Nat → List Nat
  | [] => []
  | c :: cs => goToUpper1 c ++ cs

/-- `normalizeCDNKey(key)`. -/
def normalizeCDNKey (key : List Nat) : List Nat :=
  if 45 ∉ key then key
  else
    match goSplit 45 key with
    | [] => []
    | p :: ps => (p :: ps.map upperFirst).flatten

/-- `r.ReadString('\n')` on a fresh reader: the text up to and including the
first line feed, or all of it. -/
def firstLineOf : List Nat → List Nat
  | [] => []
  | c :: cs => if c = 10 then [c] else c :: firstLineOf cs

/-- The loop `for _, line := range strings.Split(rest, "\n")` of `ParseCDNConfig`. -/
def parseCDNLines : List (List Nat) → GoMap (List Nat) (List Nat) →
    Except Fail (GoMap (List Nat) (List Nat))
  | [], entries => .ok entries
  | line :: rest, entries =>
    let line := goTrimRight 13 line
    if goTrimSpace line = [] ∨ goHasPrefix line [35] = true then parseCDNLines rest entries
    else
      match goSplitN2 61 line with
      | [k, v] =>
        parseCDNLines rest (entries.insert (normalizeCDNKey (goTrimSpace k)) (goTrimSpace v))
      | _ => .error (.error "invalid token in CDN config")

/-- `ParseCDNConfig(data)`. -/
def ParseCDNConfig (data : List Nat) : Except Fail (GoMap (List Nat) (List Nat)) :=
  if goHasPrefix (goTrimSpace (firstLineOf data)) [35, 32] = false then
    .error (.error "invalid CDN config: unexpected start of config")
  else parseCDNLines (goSplit 10 data) ∅

/-! ## CDN config: notions used to state the properties -/

/-- The entry a line of a CDN config stands for: none for a blank line, a line
starting with `#` and a line without `=`; otherwise the normalised trimmed text
before the first `=` and the trimmed text after it. -/
def cdnEntry (line : List Nat) : Option (List Nat × List Nat) :=
  let l := goTrimRight 13 line
  if goTrimSpace l = [] ∨ goHasPrefix l [35] = true then none
  else
    match goCut 61 l with
    | none => none
    | some (k, v) => some (normalizeCDNKey (goTrimSpace k), goTrimSpace v)

/-- A line that must hold a value: neither blank nor starting with `#`. -/
def cdnValueLine (line : List Nat) : Prop :=
  goTrimSpace (goTrimRight 13 line) ≠ [] ∧ goHasPrefix (goTrimRight 13 line) [35] = false

/-- `strings.Join(parts, sep)` for a separator of one byte. -/
def goJoin (sep : Nat) : List (List Nat) → List Nat
  | [] => []
  | [p] => p
  | p :: q :: ps => p ++ sep :: goJoin sep (q :: ps)

/-- The S6 input. -/
def s6Config : List Nat := asciiBytes "# header\nencoding-key = abcd\nroot=1234\n"

/-- A byte that is ASCII and not white space. -/
def plainByte (c : Nat) : Prop :=
  c < 0x80 ∧ c ≠ 9 ∧ c ≠ 10 ∧ c ≠ 11 ∧ c ≠ 12 ∧ c ≠ 13 ∧ c ≠ 32

instance (c : Nat) : Decidable (plainByte c) := by
  unfold plainByte
  infer_instance

/-- An ASCII letter or digit. -/
def keyByte (c : Nat) : Prop :=
  (0x30 ≤ c ∧ c ≤ 0x39) ∨ (0x41 ≤ c ∧ c ≤ 0x5A) ∨ (0x61 ≤ c ∧ c ≤ 0x7A)

/-- Two keys made of letters, digits and `-` that differ at most in the case of
the first letter after a `-`. -/
def dashCaseVariants (k1 k2 : List Nat) : Prop :=
  ∃ (p : List Nat) (ps1 ps2 : List (List Nat)),
    k1 = goJoin 45 (p :: ps1) ∧ k2 = goJoin 45 (p :: ps2) ∧
    List.Forall₂ (fun a b => upperFirst a = upperFirst b) ps1 ps2 ∧
    (∀ q ∈ p :: ps1, ∀ c ∈ q, keyByte c) ∧ (∀ q ∈ p :: ps2, ∀ c ∈ q, keyByte c)

/-- Two lines that are equal, or are `k1=v` and `k2=v` with the same text `v` and
keys that differ at most in the case of the first letter after a `-`. -/
def cdnLineVariants (l1 l2 : List Nat) : Prop :=
  l1 = l2 ∨ ∃ k1 k2 v : List Nat, l1 = k1 ++ 61 :: v ∧ l2 = k2 ++ 61 :: v ∧
    dashCaseVariants k1 k2

/-! ## version_config.go -/

/-- `strings.ReplaceAll(s, "\r\n", "\n")`. -/
def replaceCRLF : List Nat → List Nat
  | [] => []
  | [c] => [c]
  | c :: d :: rest =>
    if c = 13 ∧ d = 10 then 10 :: replaceCRLF rest else c :: replaceCRLF (d :: rest)

/-- The field name of a header cell: `name[:strings.Index(name, "!")]` when there
is a `!`, then `strings.ReplaceAll(name, " ", "")`. -/
def headerField (cell : List Nat) : List Nat :=
  (cell.takeWhile fun c => decide (c ≠ 33)).filter fun c => decide (c ≠ 32)

/-- `bufio.MaxScanTokenSize`. -/
def MaxScanTokenSize : Nat := 64 * 1024

/-- The `dropCR` of `bufio.ScanLines`. -/
def dropCR (l : List Nat) : List Nat :=
  if l.getLast? = some 13 then l.dropLast else l

/-- The tokens of a `bufio.Scanner` (default split function `ScanLines`, default
buffer) over `text`: the lines, without their line feed and one trailing carriage
return; an empty last line is no token; the scan stops at the first line that
does not fit into the buffer of `MaxScanTokenSize` bytes together with its line
feed. -/
def scanLines (text : List Nat) : List (List Nat) :=
  let ls := goSplit 10 text
  let ls := if ls.getLast? = some [] then ls.dropLast else ls
  (ls.takeWhile fun l => decide (l.length < MaxScanTokenSize)).map dropCR

/-- The loop `for i := 0; i < len(parts) && i < len(fields); i++` filling `node`. -/
def versionRecord (fields parts : List (List Nat)) : GoMap (List Nat) (List Nat) :=
  (fields.zip parts).foldl (fun node fp => node.insert fp.1 fp.2) ∅

/-- The body of the scanner loop of `ParseVersionConfig`: the record of an entry
line, none for a line that is skipped. -/
def versionEntry (fields : List (List Nat)) (entry : List Nat) :
    Option (GoMap (List Nat) (List Nat)) :=
  let entry := goTrimSpace entry
  if entry = [] ∨ goHasPrefix entry [35] = true then none
  else some (versionRecord fields (goSplit 124 entry))

/-- `ParseVersionConfig(data)`. -/
def ParseVersionConfig (data : List Nat) : List (GoMap (List Nat) (List Nat)) :=
  match goSplit 10 (replaceCRLF data) with
  | [] => []
  | header :: rest =>
    let fields := (goSplit 124 header).map headerField
    (scanLines (goJoin 10 rest)).filterMap (versionEntry fields)

/-! ## jenkins96.go -/

/-- The difference `x - y` of two `uint32`. -/
def sub32 (x y : Nat) : Nat := (x + 2 ^ 32 - y % 2 ^ 32) % 2 ^ 32

/-- The little-endian word `uint32(k[o]) | uint32(k[o+1])<<8 | ..` read in the loop. -/
def jenkinsWord (k : List Nat) (o : Nat) : Nat :=
  k.getD o 0 ||| k.getD (o + 1) 0 <<< 8 ||| k.getD (o + 2) 0 <<< 16 ||| k.getD (o + 3) 0 <<< 24

/-- The six mixing lines of the loop body of `Jenkins96`. -/
def jenkinsMix (a b c : Nat) : Nat × Nat × Nat :=
  let a := sub32 a c
  let a := a ^^^ rotl32 c 4
  let c := add32 c b
  let b := sub32 b a
  let b := b ^^^ rotl32 a 6
  let a := add32 a c
  let c := sub32 c b
  let c := c ^^^ rotl32 b 8
  let b := add32 b a
  let a := sub32 a c
  let a := a ^^^ rotl32 c 16
  let c := add32 c b
  let b := sub32 b a
  let b := b ^^^ rotl32 a 19
  let a := add32 a c
  let c := sub32 c b
  let c := c ^^^ rotl32 b 4
  let b := add32 b a
  (a, b, c)

/-- The final mixing of `Jenkins96`. -/
def jenkinsFinal (a b c : Nat) : Nat × Nat × Nat :=
  let c := c ^^^ b
  let c := sub32 c (rotl32 b 14)
  let a := a ^^^ c
  let a := sub32 a (rotl32 c 11)
  let b := b ^^^ a
  let b := sub32 b (rotl32 a 25)
  let c := c ^^^ b
  let c := sub32 c (rotl32 b 16)
  let a := a ^^^ c
  let a := sub32 a (rotl32 c 4)
  let b := b ^^^ a
  let b := sub32 b (rotl32 a 14)
  let c := c ^^^ b
  let c := sub32 c (rotl32 b 24)
  (a, b, c)

/-- The loop `for l > 12` of `Jenkins96` on `(o, l, a, b, c)`, at most `n` passes. -/
def jenkinsLoop (k : List Nat) : Nat → Nat × Nat × Nat × Nat × Nat → Nat × Nat × Nat × Nat × Nat
  | 0, st => st
  | n + 1, (o, l, a, b, c) =>
    if l > 12 then
      let a := add32 a (jenkinsWord k o)
      let b := add32 b (jenkinsWord k (o + 4))
      let c := add32 c (jenkinsWord k (o + 8))
      let m := jenkinsMix a b c
      jenkinsLoop k n (o + 12, l - 12, m.1, m.2.1, m.2.2)
    else (o, l, a, b, c)

/-- The `switch l` of `Jenkins96`: a Go `switch` runs the one matching case. -/
def jenkinsTail (k : List Nat) (o l a b c : Nat) : Nat × Nat × Nat :=
  if l = 12 then (a, b, add32 c (k.getD (o + 11) 0 <<< 24))
  else if l = 11 then (a, b, add32 c (k.getD (o + 10) 0 <<< 16))
  else if l = 10 then (a, b, add32 c (k.getD (o + 9) 0 <<< 8))
  else if l = 9 then (a, b, add32 c (k.getD (o + 8) 0))
  else if l = 8 then (a, add32 b (k.getD (o + 7) 0 <<< 24), c)
  else if l = 7 then (a, add32 b (k.getD (o + 6) 0 <<< 16), c)
  else if l = 6 then (a, add32 b (k.getD (o + 5) 0 <<< 8), c)
  else if l = 5 then (a, add32 b (k.getD (o + 4) 0), c)
  else if l = 4 then (add32 a (k.getD (o + 3) 0 <<< 24), b, c)
  else if l = 3 then (add32 a (k.getD (o + 2) 0 <<< 16), b, c)
  else if l = 2 then (add32 a (k.getD (o + 1) 0 <<< 8), b, c)
  else if l = 1 then (add32 a (k.getD o 0), b, c)
  else (a, b, c)

/-- `Jenkins96(k, init, init2)`: the loop takes 12 from `l` on every pass, so `l`
passes are enough. -/
def Jenkins96 (k : List Nat) (init init2 : Nat) : Nat × Nat :=
  let l := k.length % 2 ^ 32
  let a := add32 (add32 0xDEADBEEF l) init
  let b := add32 (add32 0xDEADBEEF l) init
  let c := add32 (add32 0xDEADBEEF l) init2
  let st := jenkinsLoop k l (0, l, a, b, c)
  let o := st.1
  let l := st.2.1
  let a := st.2.2.1
  let b := st.2.2.2.1
  let c := st.2.2.2.2
  if l > 0 then
    let t := jenkinsTail k o l a b c
    let f := jenkinsFinal t.1 t.2.1 t.2.2
    (f.2.1, f.2.2)
  else (b, c)

/-! ## lookup3 `hashlittle2`, the reference of `Jenkins96` -/

/-- The tail of `hashlittle2`: its `switch(length)` falls through from the
matching case to `case 1`, adding every remaining byte. -/
def lookup3Tail (k : List Nat) (o l a b c : Nat) : Nat × Nat × Nat :=
  let byte := fun (i sh : Nat) => if i < l then k.getD (o + i) 0 <<< sh else 0
  (add32 a (byte 0 0 + byte 1 8 + byte 2 16 + byte 3 24),
   add32 b (byte 4 0 + byte 5 8 + byte 6 16 + byte 7 24),
   add32 c (byte 8 0 + byte 9 8 + byte 10 16 + byte 11 24))

/-- The reference `hashlittle2(k, length, &pc, &pb)` of lookup3, as the pair
`(pb, pc)` it leaves, the order `Jenkins96` returns `(b, c)` in. -/
def hashlittle2 (k : List Nat) (pc pb : Nat) : Nat × Nat :=
  let l := k.length % 2 ^ 32
  let a := add32 (add32 0xdeadbeef l) pc
  let b := a
  let c := add32 a pb
  let st := jenkinsLoop k l (0, l, a, b, c)
  if st.2.1 = 0 then (st.2.2.2.1, st.2.2.2.2)
  else
    let t := lookup3Tail k st.1 st.2.1 st.2.2.1 st.2.2.2.1 st.2.2.2.2
    let f := jenkinsFinal t.1 t.2.1 t.2.2
    (f.2.1, f.2.2)

/-! ## listfile.go -/

/-- `strings.ToLower` on ASCII text, the text of listfile names. -/
def goToLower (s : List Nat) : List Nat :=
  s.map fun c => if 0x41 ≤ c ∧ c ≤ 0x5A then c + 0x20 else c

/-- `strings.ReplaceAll(name, "\\", "/")`. -/
def slashes (s : List Nat) : List Nat :=
  s.map fun c => if c = 0x5C then 0x2F else c

/-- `filepath.Ext(path)`, scanning the reversed path: the suffix from the last dot
of the last path element, empty if there is none. -/
def extOfReversed : List Nat → List Nat → List Nat
  | [], _ => []
  | c :: cs, acc =>
    if c = 0x2F then []
    else if c = 0x2E then c :: acc
    else extOfReversed cs (c :: acc)

/-- `filepath.Ext(path)`. -/
def goExt (path : List Nat) : List Nat := extOfReversed path.reverse []

/-- `strings.HasSuffix(s, suffix)`. -/
def goHasSuffix (s suffix : List Nat) : Bool := suffix.isSuffixOf s

structure Listfile where
  idToName : GoMap Nat (List Nat)
  nameToID : GoMap (List Nat) Nat
  isLoaded : Bool

def NewListfile : Listfile := { idToName := ∅, nameToID := ∅, isLoaded := false }

/-- The loop `for i := 0; i < len(parts[0]); i++` of `LoadFromFile` on the `uint64`
`v`: a byte that is no digit ends it with `v = 0`. -/
def parseListfileID : List Nat → Nat → Nat
  | [], v => v
  | c :: cs, v =>
    if c < 0x30 ∨ c > 0x39 then 0
    else parseListfileID cs ((v * 10 + (c - 0x30)) % 2 ^ 64)

/-- The body of the scanner loop of `LoadFromFile` on the two maps being built. -/
def loadListfileLine (maps : GoMap Nat (List Nat) × GoMap (List Nat) Nat) (text : List Nat) :
    GoMap Nat (List Nat) × GoMap (List Nat) Nat :=
  let line := goTrimSpace text
  if line = [] ∨ goHasPrefix line [35] = true then maps
  else
    match goSplit 59 line with
    | [idText, nameText] =>
      let v := parseListfileID idText 0
      let name := goToLower nameText
      (maps.1.insert (v % 2 ^ 32) name, maps.2.insert name (v % 2 ^ 32))
    | _ => maps

/-- `LoadFromFile(path)` for a file that opens, with contents `content`; a line too
long for the scanner makes `sc.Err()` return `bufio.ErrTooLong`. -/
def Listfile.LoadFromFile (_s : Listfile) (content : List Nat) : Except Fail Listfile :=
  let maps := (scanLines content).foldl loadListfileLine (∅, ∅)
  if (goSplit 10 content).all fun l => decide (l.length < MaxScanTokenSize) then
    .ok { idToName := maps.1, nameToID := maps.2, isLoaded := true }
  else .error (.error "bufio.Scanner: token too long")

/-- `GetByID(id)`; the empty string for an id that is not there. -/
def Listfile.GetByID (s : Listfile) (id : Nat) : List Nat :=
  (s.idToName.lookup id).getD []

/-- `GetByFilename(name)`; 0 for a name that is not there. -/
def Listfile.GetByFilename (s : Listfile) (name : List Nat) : Nat :=
  let norm := goToLower (slashes name)
  match s.nameToID.lookup norm with
  | some id => id
  | none =>
    if goHasSuffix norm (asciiBytes ".mdl") = true ∨ goHasSuffix norm (asciiBytes "mdx") = true then
      let base := if goExt norm ≠ [] then norm.take (norm.length - (goExt norm).length) else norm
      match s.nameToID.lookup (base ++ asciiBytes ".m2") with
      | some id => id
      | none => 0
    else 0

/-- `AddEntry(id, name)`. -/
def Listfile.AddEntry (s : Listfile) (id : Nat) (name : List Nat) : Listfile :=
  { s with idToName := s.idToName.insert id name,
           nameToID := s.nameToID.insert (goToLower (slashes name)) id }

/-- `ApplyRootFilter(valid)`: every entry of `idToName` is visited once, in an
order that does not matter, and an entry whose id is not in `valid` is deleted
together with the `nameToID` entry under its name. -/
def Listfile.ApplyRootFilter (s : Listfile) (valid : List Nat) : Listfile :=
  if valid.length = 0 then s
  else
    s.idToName.entries.foldl
      (fun acc e =>
        if e.1 ∈ valid then acc
        else { acc with nameToID := acc.nameToID.erase e.2, idToName := acc.idToName.erase e.1 })
      s

/-- A listfile with the contents `content`, filtered by `valid`. -/
def filteredListfile (content : List Nat) (valid : List Nat) : Except Fail Listfile :=
  (NewListfile.LoadFromFile content).map fun s => s.ApplyRootFilter valid

/-! ## core/core.go -/

/-- The core view; `S` is the type of the sources a `casc.Source` value can point
to, `none` the nil interface value. -/
structure CoreView (S : Type) where
  Active : Option S
  Pending : Option S
deriving DecidableEq, Repr

def CoreView.New {S : Type} : CoreView S := { Active := none, Pending := none }

def CoreView.SetPending {S : Type} (v : CoreView S) (s : Option S) : CoreView S :=
  { v with Pending := s }

def CoreView.GetPending {S : Type} (v : CoreView S) : Option S := v.Pending

def CoreView.ActivatePending {S : Type} (v : CoreView S) : CoreView S :=
  { Active := v.Pending, Pending := none }

def CoreView.GetActive {S : Type} (v : CoreView S) : Option S := v.Active

/-! ## resthandlers/casc.go -/

/-- The `id` of the JSON answer of a handler. -/
inductive CascReply where
  | ERR_CASC_ACTIVE
  | ERR_INVALID_PARAMETERS
  | ERR_INVALID_INSTALL
  | CASC_INSTALL_BUILDS
  | ERR_NO_CASC_SETUP
  | ERR_INVALID_CASC_BUILD
  | CASC_INFO
  | CASC_UNAVAILABLE
deriving DecidableEq, Repr

/-- What a `loadCascLocal` or `loadCascRemote` request leads to outside the view:
a body that does not decode, a source whose `Init()` fails, or a source `src`
whose `Init()` succeeds. -/
inductive SetupRequest (S : Type) where
  | badBody
  | initFails
  | source (src : S)

/-- What a `loadCascBuild` request leads to outside the view: a body that does
not decode, a `LoadBuild` that fails, or a `LoadBuild` that succeeds, with the
answer of `IsLoaded()` afterwards. -/
inductive BuildRequest where
  | badBody
  | loadFails
  | loaded (isLoaded : Bool)

/-- The handler returned by `LoadCascLocal(state)`. -/
def LoadCascLocal {S : Type} (state : CoreView S) (req : SetupRequest S) :
    CascReply × CoreView S :=
  if state.GetActive.isSome then (.ERR_CASC_ACTIVE, state)
  else
    match req with
    | .badBody => (.ERR_INVALID_PARAMETERS, state)
    | .initFails => (.ERR_INVALID_INSTALL, state)
    | .source src => (.CASC_INSTALL_BUILDS, state.SetPending (some src))

/-- The handler returned by `LoadCascRemote(state)`. -/
def LoadCascRemote {S : Type} (state : CoreView S) (req : SetupRequest S) :
    CascReply × CoreView S :=
  if state.GetActive.isSome then (.ERR_CASC_ACTIVE, state)
  else
    match req with
    | .badBody => (.ERR_INVALID_PARAMETERS, state)
    | .initFails => (.ERR_INVALID_INSTALL, state)
    | .source src => (.CASC_INSTALL_BUILDS, state.SetPending (some src))

/-- The handler returned by `LoadCascBuild(state, list, cache)`, as far as the view
goes; its answer is that of `GetCascInfo`. -/
def LoadCascBuild {S : Type} (state : CoreView S) (req : BuildRequest) :
    CascReply × CoreView S :=
  match req with
  | .badBody => (.ERR_INVALID_PARAMETERS, state)
  | .loadFails =>
    if state.GetPending.isNone then (.ERR_NO_CASC_SETUP, state)
    else (.ERR_INVALID_CASC_BUILD, state)
  | .loaded isLoaded =>
    if state.GetPending.isNone then (.ERR_NO_CASC_SETUP, state)
    else
      let state := state.ActivatePending
      if state.GetActive.isNone ∨ isLoaded = false then (.CASC_UNAVAILABLE, state)
      else (.CASC_INFO, state)

/-- A request to one of the three handlers that touch the view. -/
inductive CascRequest (S : Type) where
  | loadCascLocal (req : SetupRequest S)
  | loadCascRemote (req : SetupRequest S)
  | loadCascBuild (req : BuildRequest)

/-- One request served. -/
def serve {S : Type} (state : CoreView S) : CascRequest S → CascReply × CoreView S
  | .loadCascLocal req => LoadCascLocal state req
  | .loadCascRemote req => LoadCascRemote state req
  | .loadCascBuild req => LoadCascBuild state req

/-- The view after the requests `reqs`, served one after another. -/
def serveAll {S : Type} (state : CoreView S) (reqs : List (CascRequest S)) : CoreView S :=
  reqs.foldl (fun v r => (serve v r).2) state

/-! ## tact_keys.go: loading the key ring -/

/-- `unicode.IsSpace`. -/
def goIsSpace (c : Char) : Bool :=
  c.toNat ∈ [9, 10, 11, 12, 13, 32, 0x85, 0xA0, 0x1680, 0x2000, 0x2001, 0x2002, 0x2003, 0x2004,
    0x2005, 0x2006, 0x2007, 0x2008, 0x2009, 0x200A, 0x2028, 0x2029, 0x202F, 0x205F, 0x3000]

/-- `strings.TrimSpace` on text. -/
def strTrimSpace (s : String) : String :=
  String.mk ((s.data.dropWhile goIsSpace).reverse.dropWhile goIsSpace).reverse

/-- `strings.Fields` on text; `cur` is the field being read, reversed. -/
def strFieldsAux : List Char → List Char → List String
  | [], cur => if cur = [] then [] else [String.mk cur.reverse]
  | c :: cs, cur =>
    if goIsSpace c then
      if cur = [] then strFieldsAux cs [] else String.mk cur.reverse :: strFieldsAux cs []
    else strFieldsAux cs (c :: cur)

/-- `strings.Fields(s)`. -/
def strFields (s : String) : List String := strFieldsAux s.data []

/-- `strings.TrimPrefix(s, p)`. -/
def strTrimPrefix (s p : String) : String :=
  if p.data.isPrefixOf s.data then String.mk (s.data.drop p.data.length) else s

/-- The value of a hex digit. -/
def hexValue (c : Char) : Option Nat :=
  if '0' ≤ c ∧ c ≤ '9' then some (c.toNat - 48)
  else if 'a' ≤ c ∧ c ≤ 'f' then some (c.toNat - 87)
  else if 'A' ≤ c ∧ c ≤ 'F' then some (c.toNat - 55)
  else none

/-- `hex.DecodeString` on the characters of a string; `none` for an error. -/
def hexDecodeChars : List Char → Option (List Nat)
  | [] => some []
  | [_] => none
  | a :: b :: rest =>
    match hexValue a, hexValue b, hexDecodeChars rest with
    | some x, some y, some r => some ((x * 16 + y) :: r)
    | _, _, _ => none

/-- `AddTACTKey(keyName, keyHex)` on the key ring `tact`: the new ring, or the ring
unchanged and `false` when the hex text does not decode. -/
def AddTACTKey (tact : GoMap String (List Nat)) (keyName keyHex : String) :
    GoMap String (List Nat) × Bool :=
  match hexDecodeChars (strTrimSpace keyHex).data with
  | none => (tact, false)
  | some b => (tact.insert (toLower keyName) b, true)

/-- The loop of `mergeTACTFromJSON` over the decoded object `m`: the ring, and
`false` when an entry made it return an error. -/
def mergeTACTEntries (tact : GoMap String (List Nat)) :
    List (String × String) → GoMap String (List Nat) × Bool
  | [] => (tact, true)
  | (k, v) :: rest =>
    match AddTACTKey tact (strTrimPrefix (toLower k) "0x") v with
    | (t, true) => mergeTACTEntries t rest
    | (t, false) => (t, false)

/-- The body of the line loop of `loadTACTFromFile`. -/
def loadTACTLine (tact : GoMap String (List Nat)) (text : String) : GoMap String (List Nat) :=
  let line := strTrimSpace text
  if line = "" ∨ "#".data.isPrefixOf line.data = true ∨ "//".data.isPrefixOf line.data = true then
    tact
  else
    match strFields line with
    | f0 :: key :: _ =>
      let name := strTrimPrefix (toLower f0) "0x"
      if name.utf8ByteSize ≠ 16 then tact
      else if key.utf8ByteSize ≠ 32 ∧ key.utf8ByteSize ≠ 64 then tact
      else (AddTACTKey tact name key).1
    | _ => tact

/-- `loadTACTFromFile(path)` for a file that can be read: `object` is what
`json.Unmarshal` makes of its bytes as a `map[string]string` (`none` for an
error), `lines` its text split into lines. -/
def loadTACTFromFile (tact : GoMap String (List Nat)) (object : Option (List (String × String)))
    (lines : List String) : GoMap String (List Nat) :=
  match object with
  | none => lines.foldl loadTACTLine tact
  | some m =>
    match mergeTACTEntries tact m with
    | (t, true) => t
    | (t, false) => lines.foldl loadTACTLine t

/-! ## build_cache.go -/

/-- What the build cache takes from its libraries: `filepath.Join` of two
elements, the hex SHA-1 of a byte string, and `json.Marshal` of the two maps. -/
structure CacheEnv where
  join : String → String → String
  sha1Hex : List Nat → String
  marshalIntegrity : GoMap String String → List Nat
  marshalManifest : GoMap String Int → List Nat

/-- The files on disk: their contents by path, the paths `os.WriteFile` fails on
and the paths `os.ReadFile` fails on with an error other than "does not exist". -/
structure Disk where
  files : GoMap String (List Nat)
  readOnly : List String
  unreadable : List String

/-- The error of `os.ReadFile`. -/
inductive ReadError where
  | notExist
  | other

/-- `os.WriteFile(path, data, perm)`; `none` for an error. -/
def Disk.WriteFile (d : Disk) (path : String) (data : List Nat) : Option Disk :=
  if path ∈ d.readOnly then none else some { d with files := d.files.insert path data }

/-- `os.ReadFile(path)`. -/
def Disk.ReadFile (d : Disk) (path : String) : Except ReadError (List Nat) :=
  if path ∈ d.unreadable then .error .other
  else
    match d.files.lookup path with
    | some b => .ok b
    | none => .error .notExist

/-- A `BuildCache`: `dir` is `filepath.Join(DirBuilds(), c.key)`, a nil map is
`none`. -/
structure BuildCache where
  dir : String
  integrity : Option (GoMap String String)
  manifest : Option (GoMap String Int)

/-- `c.filePath(name, subdir)`; the directories it makes hold no file contents. -/
def BuildCache.filePath (env : CacheEnv) (c : BuildCache) (name subdir : String) : String :=
  let dir := if subdir ≠ "" then env.join c.dir subdir else c.dir
  env.join dir name

def BuildCache.integrityPath (env : CacheEnv) (c : BuildCache) : String :=
  env.join c.dir "integrity.json"

def BuildCache.manifestPath (env : CacheEnv) (c : BuildCache) : String :=
  env.join c.dir "manifest.json"

/-- The key of a file in `c.integrity`: `rel`. -/
def relPath (env : CacheEnv) (name subdir : String) : String :=
  if subdir ≠ "" then env.join subdir name else name

/-- An `os.WriteFile` whose error is dropped. -/
def Disk.tryWrite (d : Disk) (path : String) (data : List Nat) : Disk :=
  match d.WriteFile path data with
  | some d1 => d1
  | none => d

/-- `_ = c.saveIntegrityLocked()`. -/
def BuildCache.saveIntegrityLocked (env : CacheEnv) (c : BuildCache) (d : Disk) : Disk :=
  d.tryWrite (c.integrityPath env) (env.marshalIntegrity (c.integrity.getD ∅))

/-- `_ = c.saveManifestLocked()`. -/
def BuildCache.saveManifestLocked (env : CacheEnv) (c : BuildCache) (d : Disk) : Disk :=
  d.tryWrite (c.manifestPath env) (env.marshalManifest (c.manifest.getD ∅))

/-- The lines `c.manifest["lastAccess"] = time.Now().UnixMilli()` and
`_ = c.saveManifestLocked()`, at time `now`. -/
def BuildCache.touch (env : CacheEnv) (c : BuildCache) (d : Disk) (now : Int) :
    BuildCache × Disk :=
  let c1 := { c with manifest := some ((c.manifest.getD ∅).insert "lastAccess" now) }
  (c1, c1.saveManifestLocked env d)

/-- `GetFile(name, subdir)` at time `now`: `.ok none` stands for `(nil, nil)`. -/
def BuildCache.GetFile (env : CacheEnv) (c : BuildCache) (d : Disk) (name subdir : String)
    (now : Int) : Except Fail (Option (List Nat)) × BuildCache × Disk :=
  match d.ReadFile (c.filePath env name subdir) with
  | .error .notExist => (.ok none, c, d)
  | .error .other => (.error (.error "read error"), c, d)
  | .ok b =>
    let rel := relPath env name subdir
    match (c.integrity.getD ∅).lookup rel with
    | some want =>
      if env.sha1Hex b ≠ want then (.ok none, c, d)
      else
        let t := c.touch env d now
        (.ok (some b), t.1, t.2)
    | none =>
      let t := c.touch env d now
      (.ok (some b), t.1, t.2)

/-- `StoreFile(name, data, subdir)` at time `now`: `none` stands for a nil error. -/
def BuildCache.StoreFile (env : CacheEnv) (c : BuildCache) (d : Disk) (name : String)
    (data : List Nat) (subdir : String) (now : Int) : Option Fail × BuildCache × Disk :=
  match d.WriteFile (c.filePath env name subdir) data with
  | none => (some (.error "write error"), c, d)
  | some d1 =>
    let rel := relPath env name subdir
    let c1 := { c with integrity := some ((c.integrity.getD ∅).insert rel (env.sha1Hex data)) }
    let d2 := c1.saveIntegrityLocked env d1
    let t := c1.touch env d2 now
    (none, t.1, t.2)

/-! ## Build cache: notions used to state the properties -/

/-- A cache environment to run examples in: paths joined with `/`, MD5 in the
place of SHA-1, and the two maps written as their number of entries. -/
def demoCacheEnv : CacheEnv :=
  { join := fun a b => a ++ "/" ++ b
    sha1Hex := md5Hex
    marshalIntegrity := fun m => asciiBytes "integrity" ++ [m.entries.length]
    marshalManifest := fun m => asciiBytes "manifest" ++ [m.entries.length] }

/-- A build cache before `Init`, in the directory `builds/k`. -/
def demoCache : BuildCache := { dir := "builds/k", integrity := none, manifest := none }

/-- A disk without files on which every path can be written and read. -/
def emptyDisk : Disk := { files := ∅, readOnly := [], unreadable := [] }

/-- The bytes of the file at `path` are changed to `data`. -/
def Disk.overwrite (d : Disk) (path : String) (data : List Nat) : Disk :=
  { d with files := d.files.insert path data }

/-! ## bytebuf.go: further readers -/

def ByteBuf.Move (b : ByteBuf) (n : Int) : ByteBuf := { b with offset := b.offset + n }

def ByteBuf.ReadInt32LE (b : ByteBuf) : Except Fail (Int × ByteBuf) :=
  match goSlice b.data b.offset (b.offset + 4) with
  | .error e => .error e
  | .ok d =>
    .ok (int32 (d.getD 0 0 ||| d.getD 1 0 <<< 8 ||| d.getD 2 0 <<< 16 ||| d.getD 3 0 <<< 24),
      { b with offset := b.offset + 4 })

def ByteBuf.ReadUInt16LE (b : ByteBuf) : Except Fail (Nat × ByteBuf) :=
  match goSlice b.data b.offset (b.offset + 2) with
  | .error e => .error e
  | .ok d => .ok (d.getD 0 0 ||| d.getD 1 0 <<< 8, { b with offset := b.offset + 2 })

def ByteBuf.ReadUInt32BE (b : ByteBuf) : Except Fail (Nat × ByteBuf) :=
  match goSlice b.data b.offset (b.offset + 4) with
  | .error e => .error e
  | .ok d =>
    .ok (d.getD 0 0 <<< 24 ||| d.getD 1 0 <<< 16 ||| d.getD 2 0 <<< 8 ||| d.getD 3 0,
      { b with offset := b.offset + 4 })

def ByteBuf.ReadInt16BE (b : ByteBuf) : Except Fail (Int × ByteBuf) :=
  match goSlice b.data b.offset (b.offset + 2) with
  | .error e => .error e
  | .ok d => .ok (((d.getD 0 0 <<< 8 ||| d.getD 1 0 : Nat) : Int), { b with offset := b.offset + 2 })

def ByteBuf.ReadInt40BE (b : ByteBuf) : Except Fail (Int × ByteBuf) :=
  match goSlice b.data b.offset (b.offset + 5) with
  | .error e => .error e
  | .ok d =>
    .ok (((d.getD 0 0 <<< 32 ||| d.getD 1 0 <<< 24 ||| d.getD 2 0 <<< 16 ||| d.getD 3 0 <<< 8 |||
      d.getD 4 0 : Nat) : Int), { b with offset := b.offset + 5 })

/-! ## casc_source_local.go: the journal (`.idx`) parser -/

structure indexEntry where
  index : Int
  offset : Int
  size : Int
deriving DecidableEq, Repr

/-- The loop `for i := 0; i < nBlocks; i++` of `parseIndex`, `n` entries to go. -/
def parseIndexEntries : Nat → ByteBuf → GoMap String indexEntry →
    Except Fail (GoMap String indexEntry × ByteBuf)
  | 0, idx, indexes => .ok (indexes, idx)
  | n + 1, idx, indexes =>
    match idx.ReadHexString 9 with
    | .error e => .error e
    | .ok (key, b1) =>
      if key ∈ indexes then parseIndexEntries n (b1.Seek (b1.Offset + 1 + 4 + 4)) indexes
      else
        match b1.ReadUInt8 with
        | .error e => .error e
        | .ok (idxHigh, b2) =>
          match b2.ReadUInt32BE with
          | .error e => .error e
          | .ok (idxLow, b3) =>
            match b3.ReadInt32LE with
            | .error e => .error e
            | .ok (size, b4) =>
              parseIndexEntries n b4
                (indexes.insert key
                  { index := ((idxHigh <<< 2 ||| (idxLow &&& 0xC0000000) >>> 30 : Nat) : Int),
                    offset := ((idxLow &&& 0x3FFFFFFF : Nat) : Int), size := size })

/-- The position `(8 + headerHashSize + 0x0F) & 0xFFFFFFF0` in 64-bit `int`. -/
def indexDataStart (headerHashSize : Int) : Int :=
  ((((8 + headerHashSize + 0x0F) % 2 ^ 64).toNat &&& 0xFFFFFFF0 : Nat) : Int)

/-- `parseIndex(path)` for a file that can be read, with contents `b`, on the map
`l.indexes`; `b` is taken to have no spare capacity, so that a read past its
length is a panic. -/
def Local.parseIndex (indexes : GoMap String indexEntry) (b : List Nat) :
    Except Fail (GoMap String indexEntry) :=
  match (NewByteBuf b).ReadInt32LE with
  | .error e => .error e
  | .ok (headerHashSize, idx) =>
    let idx := idx.Seek (idx.Offset + 4 + headerHashSize)
    let idx := idx.Seek (indexDataStart headerHashSize)
    match idx.ReadInt32LE with
    | .error e => .error e
    | .ok (dataLength, idx) =>
      let idx := idx.Seek (idx.Offset + 4)
      let nBlocks := dataLength.tdiv 18
      match parseIndexEntries nBlocks.toNat idx indexes with
      | .error e => .error e
      | .ok (indexes, _) => .ok indexes

/-! ## Journal: notions used to state the properties -/

/-- The fields of one 18-byte journal entry: the 9-byte key, the high byte, the
4-byte big-endian low word and the 4-byte little-endian size. -/
structure idxRecord where
  key : List Nat
  high : Nat
  low : List Nat
  size : List Nat

/-- The bytes of a journal entry. -/
def idxRecord.bytes (e : idxRecord) : List Nat := e.key ++ e.high :: (e.low ++ e.size)

def idxRecord.wellFormed (e : idxRecord) : Prop :=
  e.key.length = 9 ∧ e.low.length = 4 ∧ e.size.length = 4

/-- The file number, offset and size a journal entry stands for. -/
def idxRecord.entry (e : idxRecord) : indexEntry :=
  { index := ((e.high <<< 2 ||| (be32At e.low 0 &&& 0xC0000000) >>> 30 : Nat) : Int),
    offset := ((be32At e.low 0 &&& 0x3FFFFFFF : Nat) : Int),
    size := int32 (le32At e.size 0) }

/-- The map after the entries `es`, each key keeping its first occurrence. -/
def firstWins (indexes : GoMap String indexEntry) (es : List idxRecord) :
    GoMap String indexEntry :=
  es.foldl (fun m e => if hexEncode e.key ∈ m then m else m.insert (hexEncode e.key) e.entry)
    indexes

/-- An index file with a header of 16 bytes (`headerHashSize` 0) and three
entries, the second repeating the key of the first. -/
def demoIndexFile : List Nat :=
  [0, 0, 0, 0, 0, 0, 0, 0, 0, 0, 0, 0, 0, 0, 0, 0] ++ [54, 0, 0, 0] ++ [0, 0, 0, 0] ++
    ([1, 2, 3, 4, 5, 6, 7, 8, 9] ++ 1 :: ([0x40, 0, 0, 5] ++ [7, 0, 0, 0])) ++
    ([1, 2, 3, 4, 5, 6, 7, 8, 9] ++ 2 :: ([0x80, 0, 0, 6] ++ [8, 0, 0, 0])) ++
    ([9, 8, 7, 6, 5, 4, 3, 2, 1] ++ 3 :: ([0xC0, 0, 0, 7] ++ [9, 0, 0, 0]))

/-! ## encoding_root.go: the encoding table -/

def encMagic : Nat := 0x4E45

/-- The loop `for { keysCount := ...; if keysCount == 0 { break } ... }` over the
records of one page, at most `fuel` records. -/
def readEncodingPage (hashSizeCKey hashSizeEKey : Int) :
    Nat → ByteBuf → GoMap String Int → GoMap String String →
    Except Fail (ByteBuf × GoMap String Int × GoMap String String)
  | 0, _, _, _ => .error .fuel
  | fuel + 1, buf, encodingSizes, encodingKeys =>
    match buf.ReadUInt8 with
    | .error e => .error e
    | .ok (keysCount, b1) =>
      if keysCount = 0 then .ok (b1, encodingSizes, encodingKeys)
      else
        match b1.ReadInt40BE with
        | .error e => .error e
        | .ok (size, b2) =>
          match b2.ReadHexString hashSizeCKey with
          | .error e => .error e
          | .ok (cKey, b3) =>
            let encodingSizes := encodingSizes.insert cKey size
            match b3.ReadHexString hashSizeEKey with
            | .error e => .error e
            | .ok (eKey, b4) =>
              let encodingKeys := encodingKeys.insert cKey eKey
              readEncodingPage hashSizeCKey hashSizeEKey fuel
                (b4.Move (hashSizeEKey * ((keysCount : Int) - 1))) encodingSizes encodingKeys

/-- The loop `for i := 0; i < cKeyPageCount; i++` from page `i` on, `n` pages to
go; a record takes six bytes or more, so a page holds fewer records than the
table has bytes. -/
def readEncodingPages (hashSizeCKey hashSizeEKey cKeyPageSize pagesStart : Int) :
    Nat → Nat → ByteBuf → GoMap String Int → GoMap String String →
    Except Fail (GoMap String Int × GoMap String String)
  | 0, _, _, encodingSizes, encodingKeys => .ok (encodingSizes, encodingKeys)
  | n + 1, i, buf, encodingSizes, encodingKeys =>
    match readEncodingPage hashSizeCKey hashSizeEKey (buf.data.length + 1)
        (buf.Seek (pagesStart + cKeyPageSize * (i : Int))) encodingSizes encodingKeys with
    | .error e => .error e
    | .ok (b1, s1, k1) =>
      readEncodingPages hashSizeCKey hashSizeEKey cKeyPageSize pagesStart n (i + 1) b1 s1 k1

/-- `parseEncodingFile` from `buf := NewByteBuf(blte.Output())` on, `table` being
the decoded output. -/
def parseEncodingTable (table : List Nat) (encodingSizes : GoMap String Int)
    (encodingKeys : GoMap String String) :
    Except Fail (GoMap String Int × GoMap String String) :=
  let buf := NewByteBuf table
  match buf.ReadUInt16LE with
  | .error e => .error e
  | .ok (magic, buf) =>
    if magic % 2 ^ 16 ≠ encMagic then .error (.error "invalid encoding magic")
    else
      let buf := buf.Move 1
      match buf.ReadUInt8 with
      | .error e => .error e
      | .ok (hashSizeCKey, buf) =>
        match buf.ReadUInt8 with
        | .error e => .error e
        | .ok (hashSizeEKey, buf) =>
          match buf.ReadInt16BE with
          | .error e => .error e
          | .ok (pageKB, buf) =>
            let cKeyPageSize := pageKB * 1024
            let buf := buf.Move 2
            match buf.ReadInt32BE with
            | .error e => .error e
            | .ok (cKeyPageCount, buf) =>
              let buf := buf.Move (4 + 1)
              match buf.ReadInt32BE with
              | .error e => .error e
              | .ok (specBlockSize, buf) =>
                let buf := buf.Move (specBlockSize + cKeyPageCount * ((hashSizeCKey : Int) + 16))
                let pagesStart := buf.Offset
                readEncodingPages hashSizeCKey hashSizeEKey cKeyPageSize pagesStart
                  cKeyPageCount.toNat 0 buf encodingSizes encodingKeys

/-- `parseEncodingFile(raw, hash, encodingSizes, encodingKeys)`: the two maps as
they are filled. -/
def parseEncodingFile (env : Env) (raw : List Nat) (hash : String)
    (encodingSizes : GoMap String Int) (encodingKeys : GoMap String String) :
    Except Fail (GoMap String Int × GoMap String String) :=
  match NewBLTEReader raw hash false with
  | .error e => .error e
  | .ok blte =>
    match blte.Output env with
    | .error e => .error e
    | .ok out => parseEncodingTable out encodingSizes encodingKeys

/-! ## Encoding table: notions used to state the properties -/

/-- The fields of a record of a content-key page: the 5-byte big-endian size, the
content key, the first encoding key and the further (alias) encoding keys. -/
structure encRecord where
  size : List Nat
  cKey : List Nat
  eKey : List Nat
  aliases : List (List Nat)

/-- The bytes of a record: the key count, the size, the content key, the encoding
keys. -/
def encRecord.bytes (r : encRecord) : List Nat :=
  (r.aliases.length + 1) :: (r.size ++ r.cKey ++ r.eKey ++ r.aliases.flatten)

/-- A record for content keys of `ck` bytes and encoding keys of `ek` bytes. -/
def encRecord.wellFormed (ck ek : Nat) (r : encRecord) : Prop :=
  r.size.length = 5 ∧ r.cKey.length = ck ∧ r.eKey.length = ek ∧
    ∀ a ∈ r.aliases, a.length = ek

/-- The 40-bit big-endian value of five bytes. -/
def be40 (d : List Nat) : Int :=
  ((d.getD 0 0 <<< 32 ||| d.getD 1 0 <<< 24 ||| d.getD 2 0 <<< 16 ||| d.getD 3 0 <<< 8 |||
    d.getD 4 0 : Nat) : Int)

/-- The size map after the records `rs`. -/
def sizesAfter (encodingSizes : GoMap String Int) (rs : List encRecord) : GoMap String Int :=
  rs.foldl (fun m r => m.insert (hexEncode r.cKey) (be40 r.size)) encodingSizes

/-- The key map after the records `rs`: each content key with the first encoding
key of its record. -/
def keysAfter (encodingKeys : GoMap String String) (rs : List encRecord) :
    GoMap String String :=
  rs.foldl (fun m r => m.insert (hexEncode r.cKey) (hexEncode r.eKey)) encodingKeys

/-- The bytes of a page: its records, the key count 0 that ends it, padding. -/
def encPageBytes (p : List encRecord × List Nat) : List Nat :=
  p.1.flatMap encRecord.bytes ++ 0 :: p.2

/-- Two records with keys of one byte, the second with one alias key, and the
padding that fills the page to 1 KiB. -/
def demoEncodingPages : List (List encRecord × List Nat) :=
  [([{ size := [0, 0, 0, 1, 0], cKey := [0xA1], eKey := [0xE1], aliases := [] },
     { size := [0, 0, 0, 0, 7], cKey := [0xA2], eKey := [0xE2], aliases := [[0xE3]] }],
    List.replicate 1006 0)]

/-- A table with keys of one byte and the one page of `demoEncodingPages`: header,
no spec block, one page digest of 17 bytes, the page. -/
def demoEncodingTable : List Nat :=
  [0x45, 0x4E] ++ [1] ++ [1] ++ [1] ++ [0, 1] ++ [0, 1] ++ [0, 0, 0, 1] ++ [0, 0, 0, 0, 0] ++
    [0, 0, 0, 0] ++ List.replicate 17 0xEE ++ demoEncodingPages.flatMap encPageBytes ++ []

/-! ## casc_source_remote.go: the archive index -/

structure archiveEntry where
  key : String
  size : Int
  offset : Int
deriving DecidableEq, Repr

/-- The loop `for i := 0; i < count; i++` of `scanArchiveIndex`, `n` records to
go, on the map `r.archives`. -/
def scanArchiveRecords (key : String) : Nat → ByteBuf → GoMap String archiveEntry →
    Except Fail (GoMap String archiveEntry)
  | 0, _, archives => .ok archives
  | n + 1, buf, archives =>
    match buf.ReadHexString 16 with
    | .error e => .error e
    | .ok (hash, b1) =>
      match (if hash = emptyMD5 then b1.ReadHexString 16 else .ok (hash, b1)) with
      | .error e => .error e
      | .ok (hash, b2) =>
        match b2.ReadInt32BE with
        | .error e => .error e
        | .ok (size, b3) =>
          match b3.ReadInt32BE with
          | .error e => .error e
          | .ok (ofs, b4) =>
            scanArchiveRecords key n b4
              (archives.insert hash { key := key, size := size, offset := ofs })

/-- `scanArchiveIndex(b, key)` on the map `r.archives`. -/
def Remote.scanArchiveIndex (archives : GoMap String archiveEntry) (b : List Nat)
    (key : String) : Except Fail (GoMap String archiveEntry) :=
  let buf := NewByteBuf b
  let last : Int := (b.length : Int) - 12
  if last < 0 then .ok archives
  else
    let buf := buf.Seek last
    match buf.ReadInt32LE with
    | .error e => .error e
    | .ok (count, buf) =>
      if count * 24 > (b.length : Int) then .ok archives
      else
        let buf := buf.Seek 0
        scanArchiveRecords key count.toNat buf archives

/-! ## Archive index: notions used to state the properties -/

/-- The fields of one record of an archive index: whether 16 zero bytes stand in
front of it, the 16-byte encoding key, the big-endian size and offset. -/
structure archRecord where
  sentinel : Bool
  ekey : List Nat
  size : List Nat
  ofs : List Nat

/-- The bytes of a record. -/
def archRecord.bytes (r : archRecord) : List Nat :=
  (if r.sentinel then List.replicate 16 0 else []) ++ (r.ekey ++ (r.size ++ r.ofs))

/-- A record: field widths 16, 4 and 4, and a key that is not all zero unless the
16 zero bytes stand in front of it. -/
def archRecord.wellFormed (r : archRecord) : Prop :=
  r.ekey.length = 16 ∧ r.size.length = 4 ∧ r.ofs.length = 4 ∧
    (r.sentinel = false → hexEncode r.ekey ≠ emptyMD5)

/-- The entry a record stands for in the archive `key`. -/
def archRecord.entry (key : String) (r : archRecord) : archiveEntry :=
  { key := key, size := int32 (be32At r.size 0), offset := int32 (be32At r.ofs 0) }

/-- The map after the records `rs` of the archive `key`. -/
def archivesAfter (archives : GoMap String archiveEntry) (key : String)
    (rs : List archRecord) : GoMap String archiveEntry :=
  rs.foldl (fun m r => m.insert (hexEncode r.ekey) (r.entry key)) archives

/-- The record count of an archive index: the little-endian `int32` 12 bytes
before the end. -/
def archiveCount (b : List Nat) : Int := int32 (le32At (b.drop (b.length - 12)) 0)

/-- An index of 36 bytes: 16 zero bytes, 8 zero bytes, the count 1, 8 zero bytes. -/
def sentinelIndex : List Nat :=
  List.replicate 24 0 ++ [1, 0, 0, 0] ++ List.replicate 8 0

/-- One record: key `01 .. 10`, size 256, offset 9. -/
def demoArchiveRecords : List archRecord :=
  [archRecord.mk false [1, 2, 3, 4, 5, 6, 7, 8, 9, 10, 11, 12, 13, 14, 15, 16] [0, 0, 1, 0]
    [0, 0, 0, 9]]

/-- An index of one record and the 12 bytes that hold the count. -/
def demoArchiveIndex : List Nat :=
  demoArchiveRecords.flatMap archRecord.bytes ++ ([1, 0, 0, 0] ++ List.replicate 8 0)

/-! ## bytebuf.go on a slice with spare capacity

The reads of `bytebuf.go` once more, for a slice whose backing array is longer
than the slice: a slice expression `s[lo:hi]` is checked against the capacity of
`s`, an index expression `s[i]` against its length. -/

namespace Backed

/-- The cursor over a slice `data` whose backing array goes on with the bytes
`spare`: `len(data)` is `data.length`, `cap(data)` is
`data.length + spare.length`. -/
structure ByteBuf where
  data : List Nat
  spare : List Nat
  offset : Int
deriving DecidableEq, Repr

/-- The slice expression `s[lo:hi]` on a slice `s` followed by `spare` in its
backing array. -/
def goSlice (s spare : List Nat) (lo hi : Int) : Except Fail (List Nat) :=
  if 0 ≤ lo ∧ lo ≤ hi ∧ hi ≤ ((s.length + spare.length : Nat) : Int) then
    .ok (((s ++ spare).take hi.toNat).drop lo.toNat)
  else .error (.panic "slice bounds out of range")

def ByteBuf.ReadUInt8 (b : ByteBuf) : Except Fail (Nat × ByteBuf) :=
  match goIndex b.data b.offset with
  | .error e => .error e
  | .ok v => .ok (v, { b with offset := b.offset + 1 })

def ByteBuf.ReadUInt32LE (b : ByteBuf) : Except Fail (Nat × ByteBuf) :=
  match goSlice b.data b.spare b.offset (b.offset + 4) with
  | .error e => .error e
  | .ok d =>
    .ok (d.getD 0 0 ||| d.getD 1 0 <<< 8 ||| d.getD 2 0 <<< 16 ||| d.getD 3 0 <<< 24,
      { b with offset := b.offset + 4 })

def ByteBuf.ReadInt32LE (b : ByteBuf) : Except Fail (Int × ByteBuf) :=
  match goSlice b.data b.spare b.offset (b.offset + 4) with
  | .error e => .error e
  | .ok d =>
    .ok (int32 (d.getD 0 0 ||| d.getD 1 0 <<< 8 ||| d.getD 2 0 <<< 16 ||| d.getD 3 0 <<< 24),
      { b with offset := b.offset + 4 })

def ByteBuf.ReadUInt16LE (b : ByteBuf) : Except Fail (Nat × ByteBuf) :=
  match goSlice b.data b.spare b.offset (b.offset + 2) with
  | .error e => .error e
  | .ok d => .ok (d.getD 0 0 ||| d.getD 1 0 <<< 8, { b with offset := b.offset + 2 })

def ByteBuf.ReadInt32BE (b : ByteBuf) : Except Fail (Int × ByteBuf) :=
  match goSlice b.data b.spare b.offset (b.offset + 4) with
  | .error e => .error e
  | .ok d =>
    .ok (int32 (d.getD 0 0 <<< 24 ||| d.getD 1 0 <<< 16 ||| d.getD 2 0 <<< 8 ||| d.getD 3 0),
      { b with offset := b.offset + 4 })

def ByteBuf.ReadUInt32BE (b : ByteBuf) : Except Fail (Nat × ByteBuf) :=
  match goSlice b.data b.spare b.offset (b.offset + 4) with
  | .error e => .error e
  | .ok d =>
    .ok (d.getD 0 0 <<< 24 ||| d.getD 1 0 <<< 16 ||| d.getD 2 0 <<< 8 ||| d.getD 3 0,
      { b with offset := b.offset + 4 })

def ByteBuf.ReadInt16BE (b : ByteBuf) : Except Fail (Int × ByteBuf) :=
  match goSlice b.data b.spare b.offset (b.offset + 2) with
  | .error e => .error e
  | .ok d => .ok (((d.getD 0 0 <<< 8 ||| d.getD 1 0 : Nat) : Int), { b with offset := b.offset + 2 })

def ByteBuf.ReadInt40BE (b : ByteBuf) : Except Fail (Int × ByteBuf) :=
  match goSlice b.data b.spare b.offset (b.offset + 5) with
  | .error e => .error e
  | .ok d =>
    .ok (((d.getD 0 0 <<< 32 ||| d.getD 1 0 <<< 24 ||| d.getD 2 0 <<< 16 ||| d.getD 3 0 <<< 8 |||
      d.getD 4 0 : Nat) : Int), { b with offset := b.offset + 5 })

def ByteBuf.ReadHexString (b : ByteBuf) (n : Int) : Except Fail (String × ByteBuf) :=
  match goSlice b.data b.spare b.offset (b.offset + n) with
  | .error e => .error e
  | .ok d => .ok (hexEncode d, { b with offset := b.offset + n })

/-- `ReadBuffer(n)`: the new cursor is over a copy made by `make([]byte, len(d))`,
a slice without spare capacity. -/
def ByteBuf.ReadBuffer (b : ByteBuf) (n : Int) : Except Fail (ByteBuf × ByteBuf) :=
  match goSlice b.data b.spare b.offset (b.offset + n) with
  | .error e => .error e
  | .ok d => .ok ({ data := d, spare := [], offset := 0 }, { b with offset := b.offset + n })

/-- `CalculateMD5HexOfRange(start, end)`: the range is checked against the
length. -/
def ByteBuf.CalculateMD5HexOfRange (b : ByteBuf) (start stop : Int) : Except Fail String :=
  if start < 0 ∨ stop > (b.data.length : Int) ∨ start > stop then
    .error (.error "invalid range")
  else
    match goSlice b.data b.spare start stop with
    | .error e => .error e
    | .ok d => .ok (md5Hex d)

end Backed

/-! ## fileio/png_writer.go -/

/-- The writer; `int` values are taken not to overflow. -/
structure PNGWriter where
  Width : Int
  Height : Int
  bytesPerPixel : Int
  bitDepth : Nat
  colorType : Nat
  data : List Nat
deriving DecidableEq, Repr

def NewPNGWriter (width height : Int) : Except Fail PNGWriter :=
  match goMake (width * height * 4) with
  | .error e => .error e
  | .ok data =>
    .ok { Width := width, Height := height, bytesPerPixel := 4, bitDepth := 8, colorType := 6,
          data := data }

def absI (v : Int) : Int := if v < 0 then -v else v

def paeth (left up upLeft : Nat) : Nat :=
  let p : Int := (left : Int) + (up : Int) - (upLeft : Int)
  let pLeft := absI (p - (left : Int))
  let pUp := absI (p - (up : Int))
  let pUpLeft := absI (p - (upLeft : Int))
  if pLeft ≤ pUp ∧ pLeft ≤ pUpLeft then left
  else if pUp ≤ pUpLeft then up
  else upLeft

/-- The difference `a - b` of two bytes. -/
def sub8 (a b : Nat) : Nat := (a + 256 - b % 256) % 256

/-- The conversion `int8(u)` of a byte. -/
def int8 (u : Nat) : Int :=
  if u % 256 < 128 then ((u % 256 : Nat) : Int) else ((u % 256 : Nat) : Int) - 256

/-- The statements `v := int(int8(d)); if v < 0 { v = -v }`. -/
def absInt8 (d : Nat) : Int := if int8 d < 0 then -(int8 d) else int8 d

/-- A loop `for x := 0; x < byteWidth; x++ { ...; sum += v }` of `filterSum`, from
`x` on with `n` rounds to go; `term x` is the `v` of round `x`. -/
def filterSumLoop (term : Int → Except Fail Int) : Nat → Int → Int → Except Fail Int
  | 0, _, sum => .ok sum
  | n + 1, x, sum =>
    match term x with
    | .error e => .error e
    | .ok v => filterSumLoop term n (x + 1) (sum + v)

def filterSum (bytesPerPixel : Nat) (byteWidth row filter : Int) (data : List Nat) :
    Except Fail Int :=
  let ofs := row * byteWidth
  if filter = 0 then
    filterSumLoop (fun i =>
      match goIndex data (ofs + i) with
      | .error e => .error e
      | .ok d => .ok (absI (d : Int))) byteWidth.toNat 0 0
  else if filter = 1 then
    let bpp : Int := (bytesPerPixel : Int)
    filterSumLoop (fun x =>
      match (if x ≥ bpp then goIndex data (ofs + x - bpp) else .ok 0) with
      | .error e => .error e
      | .ok left =>
        match goIndex data (ofs + x) with
        | .error e => .error e
        | .ok d => .ok (absInt8 (sub8 d left))) byteWidth.toNat 0 0
  else if filter = 2 then
    let prev := ofs - byteWidth
    filterSumLoop (fun x =>
      match (if prev ≥ 0 then goIndex data (prev + x) else .ok 0) with
      | .error e => .error e
      | .ok up =>
        match goIndex data (ofs + x) with
        | .error e => .error e
        | .ok d => .ok (absInt8 (sub8 d up))) byteWidth.toNat 0 0
  else if filter = 3 then
    let bpp : Int := (bytesPerPixel : Int)
    let prev := ofs - byteWidth
    filterSumLoop (fun x =>
      match (if x ≥ bpp then goIndex data (ofs + x - bpp) else .ok 0) with
      | .error e => .error e
      | .ok left =>
        match (if prev ≥ 0 then goIndex data (prev + x) else .ok 0) with
        | .error e => .error e
        | .ok up =>
          match goIndex data (ofs + x) with
          | .error e => .error e
          | .ok d => .ok (absInt8 (sub8 d (((left + up) >>> 1) % 256)))) byteWidth.toNat 0 0
  else if filter = 4 then
    let bpp : Int := (bytesPerPixel : Int)
    let prev := ofs - byteWidth
    filterSumLoop (fun x =>
      match (if x ≥ bpp then goIndex data (ofs + x - bpp) else .ok 0) with
      | .error e => .error e
      | .ok left =>
        match (if prev ≥ 0 then
            match goIndex data (prev + x) with
            | .error e => .error e
            | .ok up =>
              match (if x ≥ bpp then goIndex data (prev + x - bpp) else .ok 0) with
              | .error e => .error e
              | .ok upLeft => .ok (up, upLeft)
          else .ok (0, 0) : Except Fail (Nat × Nat)) with
        | .error e => .error e
        | .ok (up, upLeft) =>
          match goIndex data (ofs + x) with
          | .error e => .error e
          | .ok d => .ok (absInt8 (sub8 d (paeth left up upLeft)))) byteWidth.toNat 0 0
  else .ok 0

/-- The assignment `s[i] = v`. -/
def goStore (s : List Nat) (i : Int) (v : Nat) : Except Fail (List Nat) :=
  if 0 ≤ i ∧ i < (s.length : Int) then .ok (s.set i.toNat v)
  else .error (.panic "index out of range")

/-- A loop `for x := 0; x < byteWidth; x++ { ...; dst[x] = src[x] - p }` of
`applyFilter`, from `x` on with `n` rounds to go; `pred x` is the `p` of round
`x`. -/
def applyFilterLoop (src : List Nat) (pred : Int → Except Fail Nat) :
    Nat → Int → List Nat → Except Fail (List Nat)
  | 0, _, dst => .ok dst
  | n + 1, x, dst =>
    match pred x with
    | .error e => .error e
    | .ok p =>
      match goIndex src x with
      | .error e => .error e
      | .ok d =>
        match goStore dst x (sub8 d p) with
        | .error e => .error e
        | .ok dst1 => applyFilterLoop src pred n (x + 1) dst1

/-- `applyFilter(bytesPerPixel, filter, src, dst, prevRow)`: the new contents of
`dst`. -/
def applyFilter (bytesPerPixel filter : Nat) (src dst prevRow : List Nat) :
    Except Fail (List Nat) :=
  let byteWidth := src.length
  if filter = 0 then .ok (goCopy dst src)
  else if filter = 1 then
    let bpp : Int := (bytesPerPixel : Int)
    applyFilterLoop src (fun x => if x ≥ bpp then goIndex src (x - bpp) else .ok 0)
      byteWidth 0 dst
  else if filter = 2 then
    applyFilterLoop src (fun x => if prevRow.length ≥ byteWidth then goIndex prevRow x else .ok 0)
      byteWidth 0 dst
  else if filter = 3 then
    let bpp : Int := (bytesPerPixel : Int)
    applyFilterLoop src (fun x =>
      match (if x ≥ bpp then goIndex src (x - bpp) else .ok 0) with
      | .error e => .error e
      | .ok left =>
        match (if prevRow.length ≥ byteWidth then goIndex prevRow x else .ok 0) with
        | .error e => .error e
        | .ok up => .ok (((left + up) >>> 1) % 256)) byteWidth 0 dst
  else if filter = 4 then
    let bpp : Int := (bytesPerPixel : Int)
    applyFilterLoop src (fun x =>
      match (if x ≥ bpp then
          match goIndex src (x - bpp) with
          | .error e => .error e
          | .ok left =>
            match (if prevRow.length ≥ byteWidth then goIndex prevRow (x - bpp) else .ok 0) with
            | .error e => .error e
            | .ok upLeft => .ok (left, upLeft)
        else .ok (0, 0) : Except Fail (Nat × Nat)) with
      | .error e => .error e
      | .ok (left, upLeft) =>
        match (if prevRow.length ≥ byteWidth then goIndex prevRow x else .ok 0) with
        | .error e => .error e
        | .ok up => .ok (paeth left up upLeft)) byteWidth 0 dst
  else .ok dst

/-- The loop `for f := 0; f <= 4; f++` of `getFilteredRaw` over the filters still
to try, with `bestFilter` and `bestSum` so far. -/
def bestFilterLoop (bytesPerPixel : Nat) (byteWidth y : Int) (data : List Nat) :
    List Nat → Nat × Int → Except Fail (Nat × Int)
  | [], best => .ok best
  | f :: fs, best =>
    match filterSum bytesPerPixel byteWidth y f data with
    | .error e => .error e
    | .ok sum => bestFilterLoop bytesPerPixel byteWidth y data fs
        (if sum < best.2 then (f, sum) else best)

/-- The loop `for y := 0; y < w.Height; y++` of `getFilteredRaw`, from row `y` on
with `n` rows to go; `dst` and `prevRow` are windows of `raw`, so that what
`applyFilter` writes to `dst` is written to `raw`. -/
def filteredRows (w : PNGWriter) (byteWidth : Int) :
    Nat → Int → List Nat → Except Fail (List Nat)
  | 0, _, raw => .ok raw
  | n + 1, y, raw =>
    let dataOfs := y * byteWidth
    let rawOfs := y * (byteWidth + 1) + 1
    match bestFilterLoop (w.bytesPerPixel % 256).toNat byteWidth y w.data [0, 1, 2, 3, 4]
        (0, 2 ^ 63 - 1) with
    | .error e => .error e
    | .ok best =>
      match goStore raw (rawOfs - 1) best.1 with
      | .error e => .error e
      | .ok raw1 =>
        match goSlice w.data dataOfs (dataOfs + byteWidth) with
        | .error e => .error e
        | .ok src =>
          match goSlice raw1 rawOfs (rawOfs + byteWidth) with
          | .error e => .error e
          | .ok dst =>
            match goSlice raw1 (rawOfs - byteWidth - 1) (rawOfs - 1) with
            | .error e => .error e
            | .ok prevRow =>
              match applyFilter (w.bytesPerPixel % 256).toNat best.1 src dst prevRow with
              | .error e => .error e
              | .ok dst1 =>
                filteredRows w byteWidth n (y + 1)
                  (raw1.take rawOfs.toNat ++ dst1 ++ raw1.drop (rawOfs + byteWidth).toNat)

def PNGWriter.getFilteredRaw (w : PNGWriter) : Except Fail (List Nat) :=
  let byteWidth := w.Width * w.bytesPerPixel
  match goMake ((byteWidth + 1) * w.Height) with
  | .error e => .error e
  | .ok raw => filteredRows w byteWidth w.Height.toNat 0 raw

/-- The writer of a picture of one pixel. -/
def onePixel : PNGWriter :=
  { Width := 1, Height := 1, bytesPerPixel := 4, bitDepth := 8, colorType := 6,
    data := [10, 20, 30, 255] }

/-! ## encoding_root.go: the root file -/

def rootMagic : Nat := 0x4D465354
def ContentNoNameHash : Nat := 0x10000000

/-- The loop `for i := 0; i < numRecords; i++ { nextID := fileDataID +
uint32(buf.ReadInt32LE()); ... }`, `n` records to go. -/
def readFileDataIDs : Nat → ByteBuf → Nat → Except Fail (List Nat × ByteBuf)
  | 0, buf, _ => .ok ([], buf)
  | n + 1, buf, fileDataID =>
    match buf.ReadInt32LE with
    | .error e => .error e
    | .ok (d, b1) =>
      let nextID := (fileDataID + (d % 2 ^ 32).toNat) % 2 ^ 32
      match readFileDataIDs n b1 ((nextID + 1) % 2 ^ 32) with
      | .error e => .error e
      | .ok (rest, b2) => .ok (nextID :: rest, b2)

/-- The statements `entry := rootEntries[fdid]; if entry == nil { ... };
entry[typeIndex] = key`. -/
def storeRootKey (rootEntries : GoMap Nat (GoMap Int String)) (fdid : Nat) (typeIndex : Int)
    (key : String) : GoMap Nat (GoMap Int String) :=
  match rootEntries.lookup fdid with
  | none => rootEntries.insert fdid ((∅ : GoMap Int String).insert typeIndex key)
  | some entry => rootEntries.insert fdid (entry.insert typeIndex key)

/-- The content-key loop of a block of a root with magic, over the file data ids
of the block. -/
def readContentKeys (typeIndex : Int) : List Nat → ByteBuf → GoMap Nat (GoMap Int String) →
    Except Fail (GoMap Nat (GoMap Int String) × ByteBuf)
  | [], buf, rootEntries => .ok (rootEntries, buf)
  | fdid :: rest, buf, rootEntries =>
    match buf.ReadHexString 16 with
    | .error e => .error e
    | .ok (key, b1) => readContentKeys typeIndex rest b1 (storeRootKey rootEntries fdid typeIndex key)

/-- The content-key loop of a block of a Classic root: `key :=
buf.ReadHexString(16); buf.Move(8)` per record. -/
def readClassicKeys (typeIndex : Int) : List Nat → ByteBuf → GoMap Nat (GoMap Int String) →
    Except Fail (GoMap Nat (GoMap Int String) × ByteBuf)
  | [], buf, rootEntries => .ok (rootEntries, buf)
  | fdid :: rest, buf, rootEntries =>
    match buf.ReadHexString 16 with
    | .error e => .error e
    | .ok (key, b1) =>
      readClassicKeys typeIndex rest (b1.Move 8) (storeRootKey rootEntries fdid typeIndex key)

/-- The flags of a block of a root with magic: `contentFlags`, `localeFlags`. -/
def readBlockFlags (version : Nat) (buf : ByteBuf) : Except Fail (Nat × Nat × ByteBuf) :=
  if version = 0 ∨ version = 1 then
    match buf.ReadUInt32LE with
    | .error e => .error e
    | .ok (contentFlags, b1) =>
      match b1.ReadUInt32LE with
      | .error e => .error e
      | .ok (localeFlags, b2) => .ok (contentFlags, localeFlags, b2)
  else
    match buf.ReadUInt32LE with
    | .error e => .error e
    | .ok (localeFlags, b1) =>
      match b1.ReadUInt32LE with
      | .error e => .error e
      | .ok (c1, b2) =>
        match b2.ReadUInt32LE with
        | .error e => .error e
        | .ok (c2, b3) =>
          match b3.ReadUInt8 with
          | .error e => .error e
          | .ok (c3, b4) =>
            .ok (c1 ||| c2 ||| c3 <<< 17, localeFlags, b4)

/-- The loop `for buf.Remaining() > 0` of a root with magic, at most `fuel`
blocks. -/
def readRootBlocks (version : Nat) (allowNameless : Bool) :
    Nat → ByteBuf → List rootType → GoMap Nat (GoMap Int String) →
    Except Fail (List rootType × GoMap Nat (GoMap Int String))
  | 0, _, _, _ => .error .fuel
  | fuel + 1, buf, rootTypes, rootEntries =>
    if buf.Remaining > 0 then
      match buf.ReadUInt32LE with
      | .error e => .error e
      | .ok (numRecords, b1) =>
        match readBlockFlags version b1 with
        | .error e => .error e
        | .ok (contentFlags, localeFlags, b2) =>
          match readFileDataIDs numRecords b2 0 with
          | .error e => .error e
          | .ok (fileDataIDs, b3) =>
            match readContentKeys (rootTypes.length : Int) fileDataIDs b3 rootEntries with
            | .error e => .error e
            | .ok (rootEntries, b4) =>
              let b5 :=
                if ¬ (allowNameless = true ∧ contentFlags &&& ContentNoNameHash ≠ 0) then
                  b4.Move (8 * (numRecords : Int))
                else b4
              readRootBlocks version allowNameless fuel b5
                (rootTypes ++ [{ contentFlags := contentFlags, localeFlags := localeFlags }])
                rootEntries
    else .ok (rootTypes, rootEntries)

/-- The loop `for buf.Remaining() > 0` of a Classic root, at most `fuel` blocks. -/
def readClassicBlocks : Nat → ByteBuf → List rootType → GoMap Nat (GoMap Int String) →
    Except Fail (List rootType × GoMap Nat (GoMap Int String))
  | 0, _, _, _ => .error .fuel
  | fuel + 1, buf, rootTypes, rootEntries =>
    if buf.Remaining > 0 then
      match buf.ReadUInt32LE with
      | .error e => .error e
      | .ok (numRecords, b1) =>
        match b1.ReadUInt32LE with
        | .error e => .error e
        | .ok (contentFlags, b2) =>
          match b2.ReadUInt32LE with
          | .error e => .error e
          | .ok (localeFlags, b3) =>
            match readFileDataIDs numRecords b3 0 with
            | .error e => .error e
            | .ok (fileDataIDs, b4) =>
              match readClassicKeys (rootTypes.length : Int) fileDataIDs b4 rootEntries with
              | .error e => .error e
              | .ok (rootEntries, b5) =>
                readClassicBlocks fuel b5
                  (rootTypes ++ [{ contentFlags := contentFlags, localeFlags := localeFlags }])
                  rootEntries
    else .ok (rootTypes, rootEntries)

/-- The header of a root with magic, read after the magic: `version`,
`allowNameless` and the cursor after `buf.Seek(int(headerSize))`. -/
def readRootHeader (buf : ByteBuf) : Except Fail (Nat × Bool × ByteBuf) :=
  match buf.ReadUInt32LE with
  | .error e => .error e
  | .ok (headerSize, b1) =>
    match b1.ReadUInt32LE with
    | .error e => .error e
    | .ok (version, b2) =>
      if headerSize = 0x18 ∧ version ≠ 1 ∧ version ≠ 2 then
        .error (.error "unknown root version")
      else
        let version := if headerSize ≠ 0x18 then 0 else version
        if version = 0 then
          let totalFileCount := headerSize
          let namedFileCount := version
          let headerSize : Int := 12
          .ok (version, decide (totalFileCount ≠ namedFileCount), b2.Seek headerSize)
        else
          match b2.ReadUInt32LE with
          | .error e => .error e
          | .ok (totalFileCount, b3) =>
            match b3.ReadUInt32LE with
            | .error e => .error e
            | .ok (namedFileCount, b4) =>
              .ok (version, decide (totalFileCount ≠ namedFileCount), b4.Seek (headerSize : Int))

/-- `parseRootFile` from `buf := NewByteBuf(blte.Output())` on, `table` being the
decoded output: the number returned, `rootTypes` and `rootEntries`. A block takes
12 bytes or more, so there are fewer blocks than the table has bytes. -/
def parseRootTable (table : List Nat) (rootTypes : List rootType)
    (rootEntries : GoMap Nat (GoMap Int String)) :
    Except Fail (Nat × List rootType × GoMap Nat (GoMap Int String)) :=
  let buf := NewByteBuf table
  match buf.ReadUInt32LE with
  | .error e => .error e
  | .ok (magic, buf) =>
    match (if magic = rootMagic then
        match readRootHeader buf with
        | .error e => .error e
        | .ok (version, allowNameless, buf) =>
          readRootBlocks version allowNameless (table.length + 1) buf rootTypes rootEntries
      else readClassicBlocks (table.length + 1) (buf.Seek 0) rootTypes rootEntries) with
    | .error e => .error e
    | .ok (rootTypes, rootEntries) => .ok (rootEntries.entries.length, rootTypes, rootEntries)

/-- `parseRootFile(raw, hash, rootTypes, rootEntries)`. -/
def parseRootFile (env : Env) (raw : List Nat) (hash : String) (rootTypes : List rootType)
    (rootEntries : GoMap Nat (GoMap Int String)) :
    Except Fail (Nat × List rootType × GoMap Nat (GoMap Int String)) :=
  match NewBLTEReader raw hash false with
  | .error e => .error e
  | .ok blte =>
    match blte.Output env with
    | .error e => .error e
    | .ok out => parseRootTable out rootTypes rootEntries

/-- The content key stored for file data id `fdid` under the root type
`typeIndex`. -/
def rootKey (rootEntries : GoMap Nat (GoMap Int String)) (fdid : Nat) (typeIndex : Int) :
    Option String :=
  match rootEntries.lookup fdid with
  | none => none
  | some entry => entry.lookup typeIndex

/-! ## Root file: notions used to state the properties -/

/-- The file data ids that the 32-bit deltas `ds` stand for when the id expected
next is `base`: each id is `base` plus its delta, and the id after it is expected
next, all modulo 2^32. -/
def deltaIDs : Nat → List Nat → List Nat
  | _, [] => []
  | base, d :: ds => (base + d) % 2 ^ 32 :: deltaIDs (((base + d) % 2 ^ 32 + 1) % 2 ^ 32) ds

/-- The fields of one block of a root file: the 4-byte record count, the bytes of
the flags, the 4-byte deltas, the 16-byte content keys and the 8-byte name hashes
of the records. -/
structure rootBlock where
  count : List Nat
  flags : List Nat
  deltas : List (List Nat)
  keys : List (List Nat)
  hashes : List (List Nat)

/-- The content and locale flags that the flag bytes of a block hold. -/
def blockType (version : Nat) (flags : List Nat) : rootType :=
  if version = 0 ∨ version = 1 then
    { contentFlags := le32At flags 0, localeFlags := le32At flags 4 }
  else
    { contentFlags := le32At flags 4 ||| le32At flags 8 ||| flags.getD 12 0 <<< 17,
      localeFlags := le32At flags 0 }

/-- The name hashes of a block are in the file. -/
def hasNameHashes (version : Nat) (allowNameless : Bool) (b : rootBlock) : Prop :=
  ¬ (allowNameless = true ∧ (blockType version b.flags).contentFlags &&& ContentNoNameHash ≠ 0)

instance (version : Nat) (allowNameless : Bool) (b : rootBlock) :
    Decidable (hasNameHashes version allowNameless b) := by
  unfold hasNameHashes
  infer_instance

/-- The bytes of a block of a root with magic: count, flags, deltas, all content
keys, then the name hashes if there are any. -/
def rootBlock.bytes (version : Nat) (allowNameless : Bool) (b : rootBlock) : List Nat :=
  b.count ++ b.flags ++ b.deltas.flatten ++ b.keys.flatten ++
    (if hasNameHashes version allowNameless b then b.hashes.flatten else [])

/-- The bytes of a block of a Classic root: count, flags, deltas, then per record
its content key followed by its name hash. -/
def rootBlock.classicBytes (b : rootBlock) : List Nat :=
  b.count ++ b.flags ++ b.deltas.flatten ++ (List.zipWith (fun k h => k ++ h) b.keys b.hashes).flatten

def rootBlock.wellFormed (version : Nat) (b : rootBlock) : Prop :=
  b.count.length = 4 ∧ le32At b.count 0 = b.deltas.length ∧
    b.flags.length = (if version = 0 ∨ version = 1 then 8 else 13) ∧
    (∀ d ∈ b.deltas, d.length = 4) ∧ (∀ k ∈ b.keys, k.length = 16) ∧
    (∀ h ∈ b.hashes, h.length = 8) ∧ b.keys.length = b.deltas.length ∧
    b.hashes.length = b.deltas.length

/-- The file data ids of the records of a block. -/
def rootBlock.ids (b : rootBlock) : List Nat := deltaIDs 0 (b.deltas.map fun d => le32At d 0)

/-- The entries after the content keys `keys` are stored for the ids `ids` under
the root type `typeIndex`. -/
def storeKeys (typeIndex : Int) (rootEntries : GoMap Nat (GoMap Int String))
    (ids : List Nat) (keys : List (List Nat)) : GoMap Nat (GoMap Int String) :=
  (ids.zip keys).foldl (fun m p => storeRootKey m p.1 typeIndex (hexEncode p.2)) rootEntries

/-- The root types and entries after the blocks `bs`: each block adds its type at
the end of the list and stores its keys under the index of that type. -/
def rootAfter (version : Nat) : List rootBlock → List rootType → GoMap Nat (GoMap Int String) →
    List rootType × GoMap Nat (GoMap Int String)
  | [], rootTypes, rootEntries => (rootTypes, rootEntries)
  | b :: bs, rootTypes, rootEntries =>
    rootAfter version bs (rootTypes ++ [blockType version b.flags])
      (storeKeys (rootTypes.length : Int) rootEntries b.ids b.keys)

/-- The content key of the last record of the block `b` with file data id `fdid`. -/
def rootBlock.keyOf (b : rootBlock) (fdid : Nat) : Option String :=
  ((b.ids.zip b.keys).reverse.find? fun p => decide (p.1 = fdid)).map fun p => hexEncode p.2

/-- A Classic root of one block with two records, ids 1 and 3. -/
def demoClassicRoot : List Nat :=
  [2, 0, 0, 0] ++ [0, 0, 0, 0, 2, 0, 0, 0] ++ ([1, 0, 0, 0] ++ [1, 0, 0, 0]) ++
    (List.replicate 16 0xA0 ++ List.replicate 8 0xB0 ++
     (List.replicate 16 0xA1 ++ List.replicate 8 0xB1))

/-- The 16 bytes `data[o : o+16]`. -/
def keyAt (data : List Nat) (o : Nat) : List Nat := (data.take (o + 16)).drop o

/-- A root with magic and the two words 5 and 5: a block of one record, id 7,
whose content flags have the `NoNameHash` bit, the 8 bytes of its name hash, and a
block of one record, id 0, with its name hash. -/
def demoImplicitRoot : List Nat :=
  [0x54, 0x53, 0x46, 0x4D] ++ [5, 0, 0, 0] ++ [5, 0, 0, 0] ++
    ([1, 0, 0, 0] ++ [0, 0, 0, 0x10, 2, 0, 0, 0] ++ [7, 0, 0, 0] ++ List.replicate 16 0xC7) ++
    List.replicate 8 0 ++
    ([1, 0, 0, 0] ++ [0, 0, 0, 0, 0, 0, 0, 0] ++ [0, 0, 0, 0] ++ List.replicate 16 0 ++
      List.replicate 8 0)

/-- A key ring holding the 32-byte key `ecryptKey` under the name
`0807060504030201`. -/
def ecryptEnv : Env :=
  { blteDecompress := fun _ => none
    tact := AList.singleton "0807060504030201" ecryptKey }

/-- The container of scenario S3 for the key `ecryptKey`: one block `0x45`, name
`01 .. 08`, IV `00 00 00 00`, `0x53`, then the Salsa20/20 encryption of
`0x4E "x"`; `compSize` 18, `decompSize` 1, no block hash. -/
def referenceEncryptedContainer : List Nat :=
  framedContainer1 [0, 0, 0, 18] [0, 0, 0, 1] (List.replicate 16 0)
    (encryptedBlock [1, 2, 3, 4, 5, 6, 7, 8] [0, 0, 0, 0]
      (refSalsa20 (blockNonce [0, 0, 0, 0]) ecryptKey [0x4E, 120]))

/-! ## Resolution: lemmas -/

theorem qualifiesAt_zero_iff (ek : GoMap String String) (loc : Nat) (entry : GoMap Int String)
    (rts : List rootType) (j : Nat) :
    qualifiesAt ek loc entry 0 rts j ↔ qualifies ek rts loc entry j := by
  unfold qualifiesAt qualifies
  rw [Nat.zero_add]

theorem qualifiesAt_succ (ek : GoMap String String) (loc : Nat) (entry : GoMap Int String)
    (i : Nat) (rt : rootType) (rest : List rootType) (j : Nat) :
    qualifiesAt ek loc entry i (rt :: rest) (j + 1) ↔ qualifiesAt ek loc entry (i + 1) rest j := by
  have h : i + (j + 1) = i + 1 + j := by omega
  unfold qualifiesAt
  rw [h]
  simp

theorem filter_iff_not_visible (loc : Nat) (rt : rootType) :
    ((rt.localeFlags &&& loc) = 0 ∨ (rt.contentFlags &&& ContentLowViolence) ≠ 0) ↔
      ¬ visible loc rt := by
  unfold visible ContentLowViolence
  tauto

/-- The loop returns `ekey` exactly when `ekey` is the encoding key of the first
qualifying root type. -/
theorem resolveLoop_ok_iff (ek : GoMap String String) (loc : Nat) (entry : GoMap Int String)
    (rest : List rootType) : ∀ (i : Nat) (ekey : String),
    resolveLoop ek loc entry i rest = .ok ekey ↔
      ∃ k ckey, qualifiesAt ek loc entry i rest k ∧
        (∀ j, j < k → ¬ qualifiesAt ek loc entry i rest j) ∧
        entry.lookup ((i + k : Nat) : Int) = some ckey ∧ ek.lookup ckey = some ekey := by
  induction rest with
  | nil =>
    intro i ekey
    simp [resolveLoop, qualifiesAt]
  | cons rt rest ih =>
    intro i ekey
    have shift : (∃ k ckey, qualifiesAt ek loc entry (i + 1) rest k ∧
          (∀ j, j < k → ¬ qualifiesAt ek loc entry (i + 1) rest j) ∧
          entry.lookup ((i + 1 + k : Nat) : Int) = some ckey ∧ ek.lookup ckey = some ekey) →
        ¬ qualifiesAt ek loc entry i (rt :: rest) 0 →
        ∃ k ckey, qualifiesAt ek loc entry i (rt :: rest) k ∧
          (∀ j, j < k → ¬ qualifiesAt ek loc entry i (rt :: rest) j) ∧
          entry.lookup ((i + k : Nat) : Int) = some ckey ∧ ek.lookup ckey = some ekey := by
      rintro ⟨k, ckey, hq, hmin, hl, he⟩ h0
      refine ⟨k + 1, ckey, (qualifiesAt_succ ek loc entry i rt rest k).2 hq, ?_, ?_, he⟩
      · intro j hj
        cases j with
        | zero => exact h0
        | succ j =>
          rw [qualifiesAt_succ]
          exact hmin j (by omega)
      · have h : i + (k + 1) = i + 1 + k := by omega
        rw [h]; exact hl
    have unshift : (∃ k ckey, qualifiesAt ek loc entry i (rt :: rest) k ∧
          (∀ j, j < k → ¬ qualifiesAt ek loc entry i (rt :: rest) j) ∧
          entry.lookup ((i + k : Nat) : Int) = some ckey ∧ ek.lookup ckey = some ekey) →
        ¬ qualifiesAt ek loc entry i (rt :: rest) 0 →
        ∃ k ckey, qualifiesAt ek loc entry (i + 1) rest k ∧
          (∀ j, j < k → ¬ qualifiesAt ek loc entry (i + 1) rest j) ∧
          entry.lookup ((i + 1 + k : Nat) : Int) = some ckey ∧ ek.lookup ckey = some ekey := by
      rintro ⟨k, ckey, hq, hmin, hl, he⟩ h0
      cases k with
      | zero => exact absurd hq h0
      | succ k =>
        refine ⟨k, ckey, (qualifiesAt_succ ek loc entry i rt rest k).1 hq, ?_, ?_, he⟩
        · intro j hj
          rw [← qualifiesAt_succ ek loc entry i rt]
          exact hmin (j + 1) (by omega)
        · have h : i + 1 + k = i + (k + 1) := by omega
          rw [h]; exact hl
    have skip : ¬ qualifiesAt ek loc entry i (rt :: rest) 0 →
        (resolveLoop ek loc entry (i + 1) rest = .ok ekey ↔
          ∃ k ckey, qualifiesAt ek loc entry i (rt :: rest) k ∧
            (∀ j, j < k → ¬ qualifiesAt ek loc entry i (rt :: rest) j) ∧
            entry.lookup ((i + k : Nat) : Int) = some ckey ∧ ek.lookup ckey = some ekey) := by
      intro h0
      rw [ih (i + 1) ekey]
      exact ⟨fun h => shift h h0, fun h => unshift h h0⟩
    by_cases hv : visible loc rt
    · have hf : ¬ ((rt.localeFlags &&& loc) = 0 ∨ (rt.contentFlags &&& ContentLowViolence) ≠ 0) := by
        rw [filter_iff_not_visible]; exact not_not.2 hv
      cases hl : entry.lookup (i : Int) with
      | none =>
        have h0 : ¬ qualifiesAt ek loc entry i (rt :: rest) 0 := by
          rintro ⟨rt1, ckey, _, _, hl1, _⟩
          simp [hl] at hl1
        simp only [resolveLoop, if_neg hf, hl]
        exact skip h0
      | some ckey =>
        cases he : ek.lookup ckey with
        | none =>
          have h0 : ¬ qualifiesAt ek loc entry i (rt :: rest) 0 := by
            rintro ⟨rt1, ckey1, _, _, hl1, hm⟩
            simp only [Nat.add_zero, hl, Option.some.injEq] at hl1
            subst hl1
            exact (AList.lookup_eq_none.1 he) hm
          simp only [resolveLoop, if_neg hf, hl, he]
          exact skip h0
        | some ekey1 =>
          have hq0 : qualifiesAt ek loc entry i (rt :: rest) 0 :=
            ⟨rt, ckey, by simp, hv, by simpa using hl,
              AList.lookup_isSome.1 (by simp [he])⟩
          simp only [resolveLoop, if_neg hf, hl, he, Except.ok.injEq]
          constructor
          · intro h
            subst h
            exact ⟨0, ckey, hq0, fun j hj => absurd hj (Nat.not_lt_zero j),
              by simpa using hl, he⟩
          · rintro ⟨k, ckey1, _, hmin, hl1, he1⟩
            cases k with
            | zero =>
              simp only [Nat.add_zero, hl, Option.some.injEq] at hl1
              subst hl1
              rw [he] at he1
              exact Option.some.inj he1
            | succ k => exact absurd hq0 (hmin 0 (by omega))
    · have hf : (rt.localeFlags &&& loc) = 0 ∨ (rt.contentFlags &&& ContentLowViolence) ≠ 0 :=
        (filter_iff_not_visible loc rt).2 hv
      have h0 : ¬ qualifiesAt ek loc entry i (rt :: rest) 0 := by
        rintro ⟨rt1, ckey, hr, hv1, _, _⟩
        simp only [List.getElem?_cons_zero, Option.some.injEq] at hr
        subst hr
        exact hv hv1
      simp only [resolveLoop, if_pos hf]
      exact skip h0

/-- The loop fails exactly when no root type qualifies. -/
theorem resolveLoop_error_iff (ek : GoMap String String) (loc : Nat) (entry : GoMap Int String)
    (rest : List rootType) (i : Nat) :
    (∃ e, resolveLoop ek loc entry i rest = .error e) ↔
      ∀ k, ¬ qualifiesAt ek loc entry i rest k := by
  classical
  constructor
  · rintro ⟨e, he⟩ k hk
    have hex : ∃ k, qualifiesAt ek loc entry i rest k := ⟨k, hk⟩
    obtain ⟨rt, ckey, hr, hv, hl, hm⟩ := Nat.find_spec hex
    obtain ⟨ekey, hek⟩ := Option.isSome_iff_exists.1 (AList.lookup_isSome.2 hm)
    have hok : resolveLoop ek loc entry i rest = .ok ekey :=
      (resolveLoop_ok_iff ek loc entry rest i ekey).2
        ⟨Nat.find hex, ckey, ⟨rt, ckey, hr, hv, hl, hm⟩,
          fun j hj => Nat.find_min hex hj, hl, hek⟩
    rw [he] at hok
    cases hok
  · intro h
    cases hr : resolveLoop ek loc entry i rest with
    | error e => exact ⟨e, rfl⟩
    | ok ekey =>
      obtain ⟨k, _, hq, _⟩ := (resolveLoop_ok_iff ek loc entry rest i ekey).1 hr
      exact absurd hq (h k)

/-- The inner loop of `GetValidRootEntries` finds a root type exactly when one
passes the filter and has an entry. -/
theorem validLoop_iff (loc : Nat) (entry : GoMap Int String) (rest : List rootType) :
    ∀ i : Nat, validLoop loc entry i rest = true ↔
      ∃ k rt, rest[k]? = some rt ∧ visible loc rt ∧ (((i + k : Nat) : Int) ∈ entry) := by
  induction rest with
  | nil => intro i; simp [validLoop]
  | cons rt rest ih =>
    intro i
    have step : (∃ k rt1, rest[k]? = some rt1 ∧ visible loc rt1 ∧
          (((i + 1 + k : Nat) : Int) ∈ entry)) →
        ∃ k rt1, (rt :: rest)[k]? = some rt1 ∧ visible loc rt1 ∧
          (((i + k : Nat) : Int) ∈ entry) := by
      rintro ⟨k, rt1, hr, hv, hm⟩
      have h : i + (k + 1) = i + 1 + k := by omega
      exact ⟨k + 1, rt1, by simpa using hr, hv, by rw [h]; exact hm⟩
    have back : (∃ k rt1, (rt :: rest)[k]? = some rt1 ∧ visible loc rt1 ∧
          (((i + k : Nat) : Int) ∈ entry)) →
        ¬ (visible loc rt ∧ ((i : Int) ∈ entry)) →
        ∃ k rt1, rest[k]? = some rt1 ∧ visible loc rt1 ∧
          (((i + 1 + k : Nat) : Int) ∈ entry) := by
      rintro ⟨k, rt1, hr, hv, hm⟩ h0
      cases k with
      | zero =>
        simp only [List.getElem?_cons_zero, Option.some.injEq] at hr
        subst hr
        exact absurd ⟨hv, by simpa using hm⟩ h0
      | succ k =>
        have h : i + 1 + k = i + (k + 1) := by omega
        exact ⟨k, rt1, by simpa using hr, hv, by rw [h]; exact hm⟩
    by_cases hv : visible loc rt
    · have hf : ¬ ((rt.localeFlags &&& loc) = 0 ∨ (rt.contentFlags &&& ContentLowViolence) ≠ 0) := by
        rw [filter_iff_not_visible]; exact not_not.2 hv
      cases hl : entry.lookup (i : Int) with
      | none =>
        simp only [validLoop, if_neg hf, hl]
        rw [ih (i + 1)]
        exact ⟨step, fun h => back h (fun h0 => (AList.lookup_eq_none.1 hl) h0.2)⟩
      | some ckey =>
        simp only [validLoop, if_neg hf, hl, true_iff]
        exact ⟨0, rt, by simp, hv, AList.lookup_isSome.1 (by simp [hl])⟩
    · have hf : (rt.localeFlags &&& loc) = 0 ∨ (rt.contentFlags &&& ContentLowViolence) ≠ 0 :=
        (filter_iff_not_visible loc rt).2 hv
      simp only [validLoop, if_pos hf]
      rw [ih (i + 1)]
      exact ⟨step, fun h => back h (fun h0 => hv h0.1)⟩

/-- The outer loop appends, in map order, the keys of the entries the inner loop
accepts. -/
theorem validEntries_eq (rts : List rootType) (loc : Nat)
    (entries : List (Sigma fun _ : Nat => GoMap Int String)) :
    validEntries rts loc entries =
      (entries.filter (fun e => validLoop loc e.2 0 rts)).map Sigma.fst := by
  unfold validEntries
  suffices h : ∀ acc : List Nat,
      entries.foldl
        (fun out e => if validLoop loc e.2 0 rts then out ++ [e.1] else out) acc =
        acc ++ (entries.filter (fun e => validLoop loc e.2 0 rts)).map Sigma.fst by
    simpa using h []
  induction entries with
  | nil => intro acc; simp
  | cons e es ih =>
    intro acc
    by_cases hv : validLoop loc e.2 0 rts = true
    · simp [List.foldl_cons, hv, ih, List.filter_cons]
    · simp [List.foldl_cons, hv, ih, List.filter_cons]

theorem validEntries_nodup (rts : List rootType) (loc : Nat)
    (m : GoMap Nat (GoMap Int String)) : (validEntries rts loc m.entries).Nodup := by
  rw [validEntries_eq]
  have hk : (m.entries.map Sigma.fst).Nodup := m.nodupKeys
  exact hk.sublist ((List.filter_sublist m.entries).map Sigma.fst)

theorem mem_validEntries_iff (rts : List rootType) (loc : Nat)
    (m : GoMap Nat (GoMap Int String)) (f : Nat) :
    f ∈ validEntries rts loc m.entries ↔
      ∃ (entry : GoMap Int String) (i : Nat) (rt : rootType),
        m.lookup f = some entry ∧ rts[i]? = some rt ∧ (((i : Nat) : Int) ∈ entry) ∧
        (rt.localeFlags &&& loc) ≠ 0 ∧ (rt.contentFlags &&& 0x80) = 0 := by
  rw [validEntries_eq]
  simp only [List.mem_map, List.mem_filter]
  constructor
  · rintro ⟨⟨f1, entry⟩, ⟨hm, hv⟩, rfl⟩
    obtain ⟨k, rt, hr, hvis, hk⟩ := (validLoop_iff loc entry rts 0).1 hv
    rw [Nat.zero_add] at hk
    exact ⟨entry, k, rt, AList.mem_lookup_iff.2 hm, hr, hk, hvis.1, hvis.2⟩
  · rintro ⟨entry, i, rt, hl, hr, hi, h1, h2⟩
    refine ⟨⟨f, entry⟩, ⟨AList.mem_lookup_iff.1 hl, ?_⟩, rfl⟩
    exact (validLoop_iff loc entry rts 0).2 ⟨i, rt, hr, ⟨h1, h2⟩, by rw [Nat.zero_add]; exact hi⟩

theorem resolve_ok_iff (l : Local) (fdid : Nat) (ekey : String) :
    l.ResolveEncodingKeyByFileID fdid = .ok ekey ↔
      ∃ (entry : GoMap Int String) (i : Nat) (ckey : String),
        l.rootEntries.lookup fdid = some entry ∧
        qualifies l.encodingKeys l.rootTypes l.locale entry i ∧
        (∀ j, j < i → ¬ qualifies l.encodingKeys l.rootTypes l.locale entry j) ∧
        entry.lookup ((i : Nat) : Int) = some ckey ∧ l.encodingKeys.lookup ckey = some ekey := by
  unfold Local.ResolveEncodingKeyByFileID
  cases hl : l.rootEntries.lookup fdid with
  | none => simp
  | some entry =>
    rw [resolveLoop_ok_iff]
    simp only [qualifiesAt_zero_iff, Nat.zero_add, Option.some.injEq]
    constructor
    · rintro ⟨k, ckey, hq, hmin, hl1, he⟩
      rw [Nat.zero_add] at hl1
      exact ⟨entry, k, ckey, rfl, hq, hmin, hl1, he⟩
    · rintro ⟨entry1, i, ckey, h1, hq, hmin, hl1, he⟩
      subst h1
      refine ⟨i, ckey, hq, hmin, ?_, he⟩
      rw [Nat.zero_add]
      exact hl1

theorem resolve_error_iff (l : Local) (fdid : Nat) :
    (∃ e, l.ResolveEncodingKeyByFileID fdid = .error e) ↔
      (l.rootEntries.lookup fdid = none ∨
        ∃ entry, l.rootEntries.lookup fdid = some entry ∧
          ∀ i, ¬ qualifies l.encodingKeys l.rootTypes l.locale entry i) := by
  unfold Local.ResolveEncodingKeyByFileID
  cases hl : l.rootEntries.lookup fdid with
  | none => simp
  | some entry =>
    simp only [Option.some.injEq, exists_eq_left', false_or, reduceCtorEq]
    rw [resolveLoop_error_iff]
    simp only [qualifiesAt_zero_iff]

/-! ## Resolution: the claims -/

/-- C1: `ResolveEncodingKeyByFileID(fdid)` returns `encodingKeys[c]` for the
content key `c` stored under the smallest qualifying rootType index (type passes
the locale/content filter, `rootEntries[fdid]` has an entry there, and that
content key is in the encoding table); it fails exactly when `fdid` has no root
entry or no index qualifies; in scenario S5 the result is type 1's encoding key. -/
theorem resolve_returns_first_qualifying :
    (∀ (l : Local) (fdid : Nat),
      (∀ ekey, l.ResolveEncodingKeyByFileID fdid = .ok ekey ↔
        ∃ (entry : GoMap Int String) (i : Nat) (ckey : String),
          l.rootEntries.lookup fdid = some entry ∧
          qualifies l.encodingKeys l.rootTypes l.locale entry i ∧
          (∀ j, j < i → ¬ qualifies l.encodingKeys l.rootTypes l.locale entry j) ∧
          entry.lookup ((i : Nat) : Int) = some ckey ∧
          l.encodingKeys.lookup ckey = some ekey) ∧
      ((∃ e, l.ResolveEncodingKeyByFileID fdid = .error e) ↔
        (l.rootEntries.lookup fdid = none ∨
          ∃ entry, l.rootEntries.lookup fdid = some entry ∧
            ∀ i, ¬ qualifies l.encodingKeys l.rootTypes l.locale entry i))) ∧
    s5Local.ResolveEncodingKeyByFileID 100 = .ok "ek1" :=
  ⟨fun l fdid => ⟨resolve_ok_iff l fdid, resolve_error_iff l fdid⟩, by decide⟩

/-- C2, as the code has it: a FileDataID returned by `GetValidRootEntries()`
resolves to an encoding key provided the encoding table holds the content key of
each of its entries under a root type that passes the filter. -/
theorem valid_entry_resolves_when_encoded (l : Local) (f : Nat)
    (hf : f ∈ l.GetValidRootEntries)
    (hcov : ∀ (entry : GoMap Int String) (i : Nat) (rt : rootType) (ckey : String),
      l.rootEntries.lookup f = some entry →
      l.rootTypes[i]? = some rt → visible l.locale rt →
      entry.lookup ((i : Nat) : Int) = some ckey → ckey ∈ l.encodingKeys) :
    ∃ ekey, l.ResolveEncodingKeyByFileID f = .ok ekey := by
  obtain ⟨entry, i, rt, hl, hr, hi, h1, h2⟩ :=
    (mem_validEntries_iff l.rootTypes l.locale l.rootEntries f).1 hf
  obtain ⟨ckey, hck⟩ := Option.isSome_iff_exists.1 (AList.lookup_isSome.2 hi)
  have hq : qualifies l.encodingKeys l.rootTypes l.locale entry i :=
    ⟨rt, ckey, hr, ⟨h1, h2⟩, hck, hcov entry i rt ckey hl hr ⟨h1, h2⟩ hck⟩
  cases hres : l.ResolveEncodingKeyByFileID f with
  | ok ekey => exact ⟨ekey, rfl⟩
  | error e =>
    have herr := (resolve_error_iff l f).1 ⟨e, hres⟩
    rcases herr with hn | ⟨entry1, hl1, hno⟩
    · rw [hl] at hn; cases hn
    · rw [hl] at hl1
      cases hl1
      exact absurd hq (hno i)

theorem valid_entry_resolves_when_encoded_witness :
    (100 ∈ tinyLocal.GetValidRootEntries) ∧
      ∃ ekey, tinyLocal.ResolveEncodingKeyByFileID 100 = .ok ekey :=
  ⟨by decide, valid_entry_resolves_when_encoded tinyLocal 100 (by decide) (by
    intro entry i rt ckey hl hr _ hc
    have hl1 : tinyLocal.rootEntries.lookup 100 =
        some (AList.singleton (0 : Int) "ck" : GoMap Int String) := rfl
    rw [hl1] at hl
    cases hl
    have hi : i = 0 := by
      cases i with
      | zero => rfl
      | succ n => simp [tinyLocal] at hr
    subst hi
    have hc1 : (AList.singleton (0 : Int) "ck" : GoMap Int String).lookup ((0 : Nat) : Int) =
        some "ck" := rfl
    rw [hc1] at hc
    cases hc
    decide)⟩

/-- C2 as stated fails: FileDataID 100 is returned by `GetValidRootEntries()`
but its only content key is absent from the encoding table, so resolution
returns an error. -/
theorem valid_entry_unresolved :
    (100 ∈ orphanLocal.GetValidRootEntries) ∧
      ¬ ∃ ekey, orphanLocal.ResolveEncodingKeyByFileID 100 = .ok ekey := by
  refine ⟨by decide, ?_⟩
  have h : orphanLocal.ResolveEncodingKeyByFileID 100 =
      .error "no encoding key for fileDataID" := by decide
  rw [h]
  rintro ⟨ekey, hk⟩
  cases hk

/-- C3: `GetValidRootEntries()` (Local and Remote) returns each FileDataID at
most once, and returns `f` exactly when `rootEntries[f]` has an entry at some
rootType index `i` with `(localeFlags & currentLocale) != 0` and
`(contentFlags & 0x80) == 0`. -/
theorem validRootEntries_exact :
    (∀ l : Local, l.GetValidRootEntries.Nodup ∧
      ∀ f, f ∈ l.GetValidRootEntries ↔
        ∃ (entry : GoMap Int String) (i : Nat) (rt : rootType),
          l.rootEntries.lookup f = some entry ∧ l.rootTypes[i]? = some rt ∧
          (((i : Nat) : Int) ∈ entry) ∧ (rt.localeFlags &&& l.locale) ≠ 0 ∧
          (rt.contentFlags &&& 0x80) = 0) ∧
    (∀ r : Remote, r.GetValidRootEntries.Nodup ∧
      ∀ f, f ∈ r.GetValidRootEntries ↔
        ∃ (entry : GoMap Int String) (i : Nat) (rt : rootType),
          r.rootEntries.lookup f = some entry ∧ r.rootTypes[i]? = some rt ∧
          (((i : Nat) : Int) ∈ entry) ∧ (rt.localeFlags &&& r.locale) ≠ 0 ∧
          (rt.contentFlags &&& 0x80) = 0) :=
  ⟨fun l => ⟨validEntries_nodup l.rootTypes l.locale l.rootEntries,
      mem_validEntries_iff l.rootTypes l.locale l.rootEntries⟩,
    fun r => ⟨validEntries_nodup r.rootTypes r.locale r.rootEntries,
      mem_validEntries_iff r.rootTypes r.locale r.rootEntries⟩⟩

/-- C4 fails on the code: `NewRemote` leaves `locale` at its zero value while
`NewLocal` sets enUS, so on identical tables the Remote filter rejects every root
type: resolution fails and no FileDataID is valid where Local succeeds. -/
theorem newRemote_locale_is_zero :
    (∀ region, (NewRemote region).locale = 0) ∧ NewLocal.locale = 0x2 ∧
    tinyLocal.ResolveEncodingKeyByFileID 100 = .ok "ek" ∧
    tinyRemote.ResolveEncodingKeyByFileID 100 = .error "no encoding key for fileDataID" ∧
    tinyLocal.GetValidRootEntries = [100] ∧ tinyRemote.GetValidRootEntries = [] :=
  ⟨fun _ => rfl, rfl, by decide, by decide, by decide, by decide⟩

/-! ## BLTE: lemmas on the Go primitives -/

theorem goSlice_ok {s d : List Nat} {lo hi : Int} (h : goSlice s lo hi = .ok d) :
    0 ≤ lo ∧ lo ≤ hi ∧ hi ≤ (s.length : Int) ∧ d = (s.take hi.toNat).drop lo.toNat := by
  unfold goSlice at h
  split at h
  · rename_i hc
    cases h
    exact ⟨hc.1, hc.2.1, hc.2.2, rfl⟩
  · cases h

theorem goSlice_of_bounds (s : List Nat) (lo hi : Int) (h1 : 0 ≤ lo) (h2 : lo ≤ hi)
    (h3 : hi ≤ (s.length : Int)) :
    goSlice s lo hi = .ok ((s.take hi.toNat).drop lo.toNat) := by
  unfold goSlice
  rw [if_pos ⟨h1, h2, h3⟩]

theorem goSlice_length {s d : List Nat} {lo hi : Int} (h : goSlice s lo hi = .ok d) :
    (d.length : Int) = hi - lo := by
  obtain ⟨h1, h2, h3, rfl⟩ := goSlice_ok h
  rw [List.length_drop, List.length_take]
  omega

theorem goCopy_length (dst src : List Nat) : (goCopy dst src).length = dst.length := by
  unfold goCopy
  rw [List.length_append, List.length_take, List.length_drop]
  omega

/-- Writing through `buf[idx:]` keeps the length of `buf`. -/
theorem length_take_append_tail {buf dst new : List Nat} {idx : Int}
    (h : goSlice buf idx buf.length = .ok dst) (hn : new.length = dst.length) :
    (buf.take idx.toNat ++ new).length = buf.length := by
  have hl := goSlice_length h
  obtain ⟨h1, h2, _, _⟩ := goSlice_ok h
  rw [List.length_append, List.length_take, hn]
  omega

theorem goIndex_ok {s : List Nat} {i : Int} {v : Nat} (h : goIndex s i = .ok v) :
    0 ≤ i ∧ i < (s.length : Int) ∧ v = s.getD i.toNat 0 := by
  unfold goIndex at h
  split at h
  · rename_i hc
    cases h
    exact ⟨hc.1, hc.2, rfl⟩
  · cases h

theorem ReadUInt8_ok {b b1 : ByteBuf} {v : Nat} (h : b.ReadUInt8 = .ok (v, b1)) :
    goIndex b.data b.offset = .ok v ∧ b1 = { b with offset := b.offset + 1 } := by
  unfold ByteBuf.ReadUInt8 at h
  split at h
  · cases h
  · rename_i w hw
    cases h
    exact ⟨hw, rfl⟩

theorem ReadHexString_ok {b b1 : ByteBuf} {n : Int} {v : String}
    (h : b.ReadHexString n = .ok (v, b1)) :
    (∃ d, goSlice b.data b.offset (b.offset + n) = .ok d ∧ v = hexEncode d) ∧
      b1 = { b with offset := b.offset + n } := by
  unfold ByteBuf.ReadHexString at h
  split at h
  · cases h
  · rename_i w hw
    cases h
    exact ⟨⟨w, hw, rfl⟩, rfl⟩

theorem ReadInt32BE_ok {b b1 : ByteBuf} {v : Int} (h : b.ReadInt32BE = .ok (v, b1)) :
    (∃ d, goSlice b.data b.offset (b.offset + 4) = .ok d ∧
      v = int32 (d.getD 0 0 <<< 24 ||| d.getD 1 0 <<< 16 ||| d.getD 2 0 <<< 8 ||| d.getD 3 0)) ∧
      b1 = { b with offset := b.offset + 4 } := by
  unfold ByteBuf.ReadInt32BE at h
  split at h
  · cases h
  · rename_i w hw
    cases h
    exact ⟨⟨w, hw, rfl⟩, rfl⟩

theorem readKeyNameBytes_data : ∀ (n : Nat) (b b1 : ByteBuf) (l : List String),
    readKeyNameBytes n b = .ok (l, b1) → b1.data = b.data := by
  intro n
  induction n with
  | zero =>
    intro b b1 l h
    simp only [readKeyNameBytes, Except.ok.injEq, Prod.mk.injEq] at h
    rw [h.2]
  | succ n ih =>
    intro b b1 l h
    simp only [readKeyNameBytes] at h
    split at h
    · cases h
    · rename_i h0 bb hb
      split at h
      · cases h
      · rename_i rest b2 hr
        cases h
        rw [ih _ _ _ hr, (ReadHexString_ok hb).2]

/-! ## BLTE: what a block leaves alone -/

theorem sameFrame_refl (r : BLTEReader) : r.sameFrame r := ⟨rfl, rfl, rfl, rfl⟩

theorem sameFrame_trans {r r1 r2 : BLTEReader} (h1 : r.sameFrame r1) (h2 : r1.sameFrame r2) :
    r.sameFrame r2 :=
  ⟨h2.1.trans h1.1, h2.2.1.trans h1.2.1, h2.2.2.1.trans h1.2.2.1, h2.2.2.2.trans h1.2.2.2⟩

theorem writeBuffer_sameFrame {r r1 : BLTEReader} {blockEnd : Int}
    (h : r.writeBuffer blockEnd = .ok r1) :
    r.sameFrame r1 ∧ r1.blockIndex = r.blockIndex := by
  unfold BLTEReader.writeBuffer at h
  split at h
  · cases h
  · rename_i dst hdst
    split at h
    · cases h
    · rename_i src hsrc
      cases h
      exact ⟨⟨rfl, rfl, length_take_append_tail hdst (goCopy_length dst src), rfl⟩, rfl⟩

/-- `decryptBlock` moves the cursor only. -/
theorem decryptBlock_frame {env : Env} {r r1 : BLTEReader} {blockEnd : Int} {index : Nat}
    {o : Option (List Nat)} (h : r.decryptBlock env blockEnd index = .ok (o, r1)) :
    ∃ b : ByteBuf, b.data = r.blte.data ∧ r1 = { r with blte := b } := by
  unfold BLTEReader.decryptBlock at h
  split at h
  · cases h
  · rename_i keyNameSize b1 hb1
    have e1 := (ReadUInt8_ok hb1).2
    split at h
    · cases h; exact ⟨b1, by rw [e1], rfl⟩
    · split at h
      · cases h
      · rename_i names b2 hb2
        have e2 := readKeyNameBytes_data _ _ _ _ hb2
        split at h
        · cases h
        · rename_i ivSize b3 hb3
          have e3 := (ReadUInt8_ok hb3).2
          have d3 : b3.data = r.blte.data := by rw [e3]; simp only; rw [e2, e1]
          split at h
          · cases h; exact ⟨b3, d3, rfl⟩
          · split at h
            · cases h
            · rename_i ivSrc hiv
              simp only at h
              split at h
              · cases h; exact ⟨b3.Seek (b3.Offset + (ivSize : Int)), d3, rfl⟩
              · split at h
                · cases h
                · rename_i encryptType b5 hb5
                  have e5 := (ReadUInt8_ok hb5).2
                  have d5 : b5.data = r.blte.data := by rw [e5]; simp only [ByteBuf.Seek]; exact d3
                  split at h
                  · cases h; exact ⟨b5, d5, rfl⟩
                  · split at h
                    · cases h; exact ⟨b5, d5, rfl⟩
                    · split at h
                      · cases h
                      · split at h
                        · cases h
                        · cases h; exact ⟨b5, d5, rfl⟩


theorem handleBlockBody_ok {env : Env} {recur : BLTEReader → Int → Nat → Except Fail BLTEReader}
    {r r1 : BLTEReader} {blockEnd : Int} {index : Nat}
    (hrec : ∀ s e i s1, recur s e i = .ok s1 → s1.buf.length = s.buf.length)
    (h : r.handleBlockBody env recur blockEnd index = .ok r1) :
    r.sameFrame r1 ∧ r1.blockIndex = r.blockIndex ∧ modeSupported r.blte.data r.blte.offset := by
  unfold BLTEReader.handleBlockBody at h
  split at h
  · cases h
  · rename_i flag b1 hb1
    obtain ⟨hflag, e1⟩ := ReadUInt8_ok hb1
    have hmode : flag = 0x45 ∨ flag = 0x4E ∨ flag = 0x5A → modeSupported r.blte.data r.blte.offset := by
      intro hm
      unfold modeSupported
      rw [hflag]
      exact hm
    have d1 : b1.data = r.blte.data := by rw [e1]
    simp only at h
    split at h
    · rename_i hf
      refine ⟨?_, ?_, hmode (Or.inl hf)⟩
      all_goals
        split at h
        · cases h
        · rename_i dec r2 hdec
          obtain ⟨b, hb, e2⟩ := decryptBlock_frame hdec
          subst e2
          split at h
          · cases h
          · rename_i subBuf hsub
            split at h
            · cases h
            · rename_i sub hrecur
              cases h
              have hl := hrec _ _ _ _ hrecur
              first
                | exact ⟨rfl, hb.trans d1, length_take_append_tail hsub hl, rfl⟩
                | rfl
        · rename_i r2 hdec
          obtain ⟨b, hb, e2⟩ := decryptBlock_frame hdec
          subst e2
          split at h
          · split at h
            · cases h
            · cases h
              first
                | exact ⟨rfl, hb.trans d1, rfl, rfl⟩
                | rfl
          · cases h
            first
              | exact ⟨rfl, hb.trans d1, rfl, rfl⟩
              | rfl
    · split at h
      · rename_i hf
        obtain ⟨hs, hi⟩ := writeBuffer_sameFrame h
        exact ⟨⟨hs.1, hs.2.1.trans d1, hs.2.2.1, hs.2.2.2⟩, hi, hmode (Or.inr (Or.inl hf))⟩
      · split at h
        · rename_i hf
          refine ⟨?_, ?_, hmode (Or.inr (Or.inr hf))⟩
          all_goals
            split at h
            · cases h
            · rename_i comp hcomp
              split at h
              · split at h
                · cases h
                · rename_i dec hdec dst hdst
                  cases h
                  first
                    | exact ⟨rfl, d1, length_take_append_tail hdst (goCopy_length _ _), rfl⟩
                    | rfl
              · obtain ⟨hs, hi⟩ := writeBuffer_sameFrame h
                first
                  | exact ⟨hs.1, hs.2.1.trans d1, hs.2.2.1, hs.2.2.2⟩
                  | exact hi
        · cases h

theorem handleBlockFuel_ok (env : Env) : ∀ (fuel : Nat) (r r1 : BLTEReader) (blockEnd : Int)
    (index : Nat), r.handleBlockFuel env fuel blockEnd index = .ok r1 →
    r.sameFrame r1 ∧ r1.blockIndex = r.blockIndex ∧ modeSupported r.blte.data r.blte.offset := by
  intro fuel
  induction fuel with
  | zero =>
    intro r r1 blockEnd index h
    exact handleBlockBody_ok (fun _ _ _ _ h => by cases h) h
  | succ n ih =>
    intro r r1 blockEnd index h
    exact handleBlockBody_ok (fun s e i s1 hs => (ih s s1 e i hs).1.2.2.1) h

theorem processNext_false {env : Env} {r r1 : BLTEReader}
    (h : r.processNext env = .ok (false, r1)) : r1 = r ∧ r.blockIndex = r.blocks.length := by
  unfold BLTEReader.processNext at h
  split at h
  · rename_i hc
    cases h
    exact ⟨rfl, hc⟩
  · split at h
    · cases h
    · simp only at h
      split at h
      · cases h
      · split at h
        · cases h
        · cases h

theorem processNext_true {env : Env} {r r1 : BLTEReader}
    (h : r.processNext env = .ok (true, r1)) :
    ∃ blk, r.blocks[r.blockIndex]? = some blk ∧ r.sameFrame r1 ∧
      r1.blockIndex = r.blockIndex + 1 ∧ r1.blte.offset = r.blte.offset + blk.CompSize ∧
      r1.blockWriteIdx = r.blockWriteIdx + blk.DecompSize ∧
      (blk.Hash ≠ emptyMD5 → hashMatches r.blte.data r.blte.offset blk) ∧
      modeSupported r.blte.data r.blte.offset := by
  unfold BLTEReader.processNext at h
  split at h
  · cases h
  · split at h
    · cases h
    · rename_i blk hblk
      simp only at h
      split at h
      · cases h
      · rename_i rc hrc
        split at h
        · cases h
        · rename_i r2 hr2
          cases h
          have hchk : rc = r ∧ (blk.Hash ≠ emptyMD5 → hashMatches r.blte.data r.blte.offset blk) := by
            split at hrc
            · rename_i hne
              split at hrc
              · cases hrc
              · rename_i bd b1 hbd
                split at hrc
                · cases hrc
                · rename_i hmd
                  cases hrc
                  refine ⟨rfl, fun _ => ?_⟩
                  unfold ByteBuf.ReadBuffer at hbd
                  split at hbd
                  · cases hbd
                  · rename_i d hd
                    cases hbd
                    unfold hashMatches
                    rw [hd]
                    exact not_not.1 hmd
            · rename_i hne
              cases hrc
              exact ⟨rfl, fun hh => absurd hh hne⟩
          obtain ⟨hrc1, hhash⟩ := hchk
          subst hrc1
          obtain ⟨hs, hi, hm⟩ := handleBlockFuel_ok env _ _ _ _ _ hr2
          exact ⟨blk, hblk, ⟨hs.1, hs.2.1, hs.2.2.1, hs.2.2.2⟩, by simp only [hi], rfl, rfl,
            hhash, hm⟩

theorem processAllFuel_ok (env : Env) : ∀ (fuel : Nat) (r r1 : BLTEReader),
    r.processAllFuel env fuel = .ok r1 →
    r.sameFrame r1 ∧ blocksAccepted r.blte.data r.blte.offset (r.blocks.drop r.blockIndex) := by
  intro fuel
  induction fuel with
  | zero => intro r r1 h; cases h
  | succ n ih =>
    intro r r1 h
    simp only [BLTEReader.processAllFuel] at h
    split at h
    · cases h
    · rename_i r2 hn
      obtain ⟨blk, hblk, hs, hi, ho, _, hh, hm⟩ := processNext_true hn
      obtain ⟨hs2, hacc⟩ := ih r2 r1 h
      refine ⟨sameFrame_trans hs hs2, ?_⟩
      have hlt : r.blockIndex < r.blocks.length := by
        rcases List.getElem?_eq_some_iff.1 hblk with ⟨hlt, _⟩
        exact hlt
      have hget : r.blocks[r.blockIndex] = blk := by
        rcases List.getElem?_eq_some_iff.1 hblk with ⟨_, hg⟩
        exact hg
      rw [List.drop_eq_getElem_cons hlt, hget]
      rw [hs.1, hs.2.1, hi, ho] at hacc
      exact ⟨hh, hm, hacc⟩
    · rename_i r2 hn
      cases h
      obtain ⟨e, hlen⟩ := processNext_false hn
      subst e
      refine ⟨sameFrame_refl _, ?_⟩
      rw [hlen, List.drop_length]
      trivial


/-! ## BLTE: what `NewBLTEReader` returns -/

theorem getD_slice (s : List Nat) (lo hi k : Nat) (hk : lo + k < hi) (_hh : hi ≤ s.length) :
    ((s.take hi).drop lo).getD k 0 = s.getD (lo + k) 0 := by
  rw [List.getD_eq_getElem?_getD, List.getD_eq_getElem?_getD, List.getElem?_drop,
    List.getElem?_take_of_lt hk]

theorem slice4_be32 {s d : List Nat} {o : Nat} (h : goSlice s (o : Int) ((o : Int) + 4) = .ok d) :
    (d.getD 0 0 <<< 24 ||| d.getD 1 0 <<< 16 ||| d.getD 2 0 <<< 8 ||| d.getD 3 0) = be32At s o := by
  obtain ⟨_, _, h3, rfl⟩ := goSlice_ok h
  have e1 : ((o : Int) + 4).toNat = o + 4 := by omega
  have e2 : ((o : Int)).toNat = o := by omega
  have hh : o + 4 ≤ s.length := by omega
  rw [e1, e2]
  unfold be32At
  rw [getD_slice s o (o + 4) 0 (by omega) hh, getD_slice s o (o + 4) 1 (by omega) hh,
    getD_slice s o (o + 4) 2 (by omega) hh, getD_slice s o (o + 4) 3 (by omega) hh]
  rfl

theorem tableBlocks_succ (data : List Nat) (o n : Nat) :
    tableBlocks data o (n + 1) =
      { CompSize := int32 (be32At data o), DecompSize := int32 (be32At data (o + 4)),
        Hash := hexEncode ((data.take (o + 24)).drop (o + 8)) } ::
        tableBlocks data (o + 24) n := by
  unfold tableBlocks
  rw [List.range_succ_eq_map, List.map_cons, List.map_map]
  refine congrArg₂ List.cons ?_ ?_
  · simp only [Nat.mul_zero, Nat.add_zero]
  · apply List.map_congr_left
    intro i _
    have a1 : o + 24 + 24 * i = o + 24 * (i + 1) := by ring
    simp only [Function.comp_apply, Nat.succ_eq_add_one, a1]

theorem readBlockTable_zero : ∀ (n : Nat) (b b1 : ByteBuf) (blocks : List blteBlock),
    readBlockTable 0 n b = .ok (blocks, b1) →
    blocks = List.replicate n (implicitBlock b.data) ∧ b1 = b := by
  intro n
  induction n with
  | zero =>
    intro b b1 blocks h
    simp only [readBlockTable, Except.ok.injEq, Prod.mk.injEq] at h
    exact ⟨h.1.symm, h.2.symm⟩
  | succ n ih =>
    intro b b1 blocks h
    simp only [readBlockTable, ne_eq, not_true_eq_false, if_false] at h
    split at h
    · cases h
    · rename_i rest b4 hr
      cases h
      obtain ⟨e1, e2⟩ := ih _ _ _ hr
      subst e1 e2
      exact ⟨rfl, rfl⟩

theorem readBlockTable_table (hs : Int) (hne : hs ≠ 0) : ∀ (n o : Nat) (b b1 : ByteBuf)
    (blocks : List blteBlock), b.offset = (o : Int) →
    readBlockTable hs n b = .ok (blocks, b1) →
    blocks = tableBlocks b.data o n ∧ b1.data = b.data ∧ b1.offset = (o : Int) + 24 * (n : Int) := by
  intro n
  induction n with
  | zero =>
    intro o b b1 blocks ho h
    simp only [readBlockTable, Except.ok.injEq, Prod.mk.injEq] at h
    obtain ⟨h1, h2⟩ := h
    subst h1 h2
    exact ⟨rfl, rfl, by simpa using ho⟩
  | succ n ih =>
    intro o b b1 blocks ho h
    simp only [readBlockTable, if_pos hne] at h
    split at h
    · cases h
    · rename_i c bb1 hc
      obtain ⟨⟨dc, hdc, ec⟩, eb1⟩ := ReadInt32BE_ok hc
      split at h
      · cases h
      · rename_i d bb2 hd
        obtain ⟨⟨dd, hdd, ed⟩, eb2⟩ := ReadInt32BE_ok hd
        split at h
        · cases h
        · rename_i hx bb3 hh
          obtain ⟨⟨dh, hdh, eh⟩, eb3⟩ := ReadHexString_ok hh
          split at h
          · cases h
          · rename_i rest bb4 hr
            cases h
            subst eb1
            subst eb2
            subst eb3
            simp only [ho] at hdc hdd hdh hr
            have o2 : ((o : Int) + 4) = ((o + 4 : Nat) : Int) := by push_cast; ring
            have o3 : ((o : Int) + 4 + 4 + 16) = ((o + 24 : Nat) : Int) := by push_cast; ring
            obtain ⟨ih1, ih2, ih3⟩ := ih (o + 24) _ _ _ o3 hr
            simp only at ih1 ih2 ih3
            rw [o2] at hdd
            rw [slice4_be32 hdc] at ec
            rw [slice4_be32 hdd] at ed
            obtain ⟨_, _, hlen, edh⟩ := goSlice_ok hdh
            have t1 : ((o : Int) + 4 + 4 + 16).toNat = o + 24 := by omega
            have t2 : ((o : Int) + 4 + 4).toNat = o + 8 := by omega
            rw [t1, t2] at edh
            refine ⟨?_, ih2, ?_⟩
            · rw [tableBlocks_succ, ih1, ec, ed, eh, edh]
            · rw [ih3]
              push_cast
              ring


theorem readFrameHeader_ok {hs : Int} {b b4 : ByteBuf} {n : Nat} (ho : b.offset = 8)
    (h : readFrameHeader hs b = .ok (n, b4)) :
    n = declaredNumBlocks b.data ∧ b.data.getD 8 0 = 0x0F ∧ n ≠ 0 ∧ hs = 24 * (n : Int) + 12 ∧
      hs ≤ (b.data.length : Int) ∧ b4.data = b.data ∧ b4.offset = 12 := by
  unfold readFrameHeader at h
  split at h
  · cases h
  · split at h
    · cases h
    · rename_i fc0 b1 h0
      obtain ⟨g0, e1⟩ := ReadUInt8_ok h0
      subst e1
      split at h
      · cases h
      · rename_i fc1 b2 h1
        obtain ⟨g1, e2⟩ := ReadUInt8_ok h1
        subst e2
        split at h
        · cases h
        · rename_i fc2 b3 h2
          obtain ⟨g2, e3⟩ := ReadUInt8_ok h2
          subst e3
          split at h
          · cases h
          · rename_i fc3 b5 h3
            obtain ⟨g3, e4⟩ := ReadUInt8_ok h3
            subst e4
            simp only [ho] at g0 g1 g2 g3
            obtain ⟨_, _, v0⟩ := goIndex_ok g0
            obtain ⟨_, _, v1⟩ := goIndex_ok g1
            obtain ⟨_, _, v2⟩ := goIndex_ok g2
            obtain ⟨_, _, v3⟩ := goIndex_ok g3
            have t0 : (8 : Int).toNat = 8 := rfl
            have t1 : ((8 : Int) + 1).toNat = 9 := rfl
            have t2 : ((8 : Int) + 1 + 1).toNat = 10 := rfl
            have t3 : ((8 : Int) + 1 + 1 + 1).toNat = 11 := rfl
            rw [t0] at v0
            rw [t1] at v1
            rw [t2] at v2
            rw [t3] at v3
            simp only at h
            split at h
            · cases h
            · rename_i hfc
              split at h
              · cases h
              · rename_i hhs
                split at h
                · cases h
                · rename_i hlen
                  simp only [Except.ok.injEq, Prod.mk.injEq] at h
                  obtain ⟨hn, hb⟩ := h
                  subst hb
                  have hn1 : n = declaredNumBlocks b.data := by
                    rw [← hn, v1, v2, v3]
                    rfl
                  refine ⟨hn1, ?_, ?_, ?_, ?_, rfl, ?_⟩
                  · rw [← v0]
                    by_contra hc
                    exact hfc (Or.inl hc)
                  · rw [← hn]
                    intro hc
                    exact hfc (Or.inr hc)
                  · rw [← hn]
                    exact not_not.1 hhs
                  · have := not_not.1 hhs
                    unfold ByteBuf.ByteLength at hlen
                    omega
                  · simp only [ho]
                    rfl

theorem NewBLTEReader_ok {raw : List Nat} {hash : String} {lenient : Bool} {r : BLTEReader}
    (h : NewBLTEReader raw hash lenient = .ok r) :
    r.blte.data = raw ∧ r.blockIndex = 0 ∧ r.blockWriteIdx = 0 ∧ r.lenient = lenient ∧
      0 ≤ (r.blocks.map blteBlock.DecompSize).sum ∧
      r.buf = List.replicate (r.blocks.map blteBlock.DecompSize).sum.toNat 0 ∧
      (declaredHeaderSize raw = 0 →
        r.blocks = [implicitBlock raw] ∧ r.blte.offset = 8 ∧ hash = md5Hex raw) ∧
      (0 < declaredHeaderSize raw →
        r.blocks = tableBlocks raw 12 (declaredNumBlocks raw) ∧
        r.blte.offset = declaredHeaderSize raw ∧
        declaredHeaderSize raw = 24 * (declaredNumBlocks raw : Int) + 12 ∧
        declaredNumBlocks raw ≠ 0 ∧ raw.getD 8 0 = 0x0F ∧
        declaredHeaderSize raw ≤ (raw.length : Int) ∧
        hash = md5Hex (raw.take (declaredHeaderSize raw).toNat)) := by
  unfold NewBLTEReader at h
  simp only at h
  split at h
  · cases h
  · split at h
    · cases h
    · rename_i magic b1 hm
      split at h
      · cases h
      · split at h
        · cases h
        · rename_i headerSize b2 hhs
          have eb1 : b1 = { data := raw, offset := 4 } := by
            unfold ByteBuf.ReadUInt32LE at hm
            split at hm
            · cases hm
            · cases hm
              rfl
          subst eb1
          obtain ⟨⟨d, hd, ehs⟩, eb2⟩ := ReadInt32BE_ok hhs
          subst eb2
          simp only at hd
          have hd1 : goSlice raw ((4 : Nat) : Int) (((4 : Nat) : Int) + 4) = .ok d := hd
          rw [slice4_be32 hd1] at ehs
          have ehs1 : headerSize = declaredHeaderSize raw := ehs
          split at h
          · cases h
          · rename_i hashed hhashed
            split at h
            · cases h
            · rename_i hmd5
              have hmd : md5Hex hashed = hash := not_not.1 hmd5
              split at h
              · cases h
              · rename_i numBlocks b4 hfh
                split at h
                · cases h
                · rename_i blocks b5 htab
                  split at h
                  · cases h
                  · rename_i out hout
                    cases h
                    have hmk : 0 ≤ (blocks.map blteBlock.DecompSize).sum ∧
                        out = List.replicate (blocks.map blteBlock.DecompSize).sum.toNat 0 := by
                      unfold goMake at hout
                      split at hout
                      · rename_i hc
                        cases hout
                        exact ⟨hc, rfl⟩
                      · cases hout
                    by_cases hpos : headerSize > 0
                    · rw [if_pos hpos] at hhashed hfh
                      obtain ⟨hn, hf0, hn0, hsz, hle, hd4, ho4⟩ :=
                        readFrameHeader_ok (b := ({ data := raw, offset := 4 + 4 } : ByteBuf).Seek
                          ({ data := raw, offset := 4 + 4 } : ByteBuf).Offset) rfl hfh
                      have ho12 : b4.offset = ((12 : Nat) : Int) := ho4
                      have hne : headerSize ≠ 0 := by omega
                      obtain ⟨t1, t2, t3⟩ := readBlockTable_table headerSize hne numBlocks 12 b4 b5
                        blocks ho12 htab
                      have hd4r : b4.data = raw := hd4
                      rw [hd4r] at t1 t2
                      obtain ⟨_, _, _, ehashed⟩ := goSlice_ok hhashed
                      refine ⟨t2, rfl, rfl, rfl, hmk.1, hmk.2, ?_, ?_⟩
                      · intro h0
                        rw [← ehs1] at h0
                        omega
                      · intro _
                        rw [← ehs1]
                        have hn' : numBlocks = declaredNumBlocks raw := hn
                        rw [← hn']
                        refine ⟨t1, ?_, hsz, hn0, hf0, hle, ?_⟩
                        · simp only
                          rw [t3, hsz]
                          push_cast
                          ring
                        · rw [← hmd, ehashed]
                          simp
                    · rw [if_neg hpos] at hhashed hfh
                      cases hhashed
                      simp only [Except.ok.injEq, Prod.mk.injEq] at hfh
                      obtain ⟨hn, hb4⟩ := hfh
                      subst hn hb4
                      refine ⟨?_, rfl, rfl, rfl, hmk.1, hmk.2, ?_, ?_⟩
                      · by_cases h0 : headerSize = 0
                        · subst h0
                          rw [(readBlockTable_zero _ _ _ _ htab).2]
                          rfl
                        · exact (readBlockTable_table headerSize h0 1 8 _ b5 blocks rfl htab).2.1
                      · intro h0
                        rw [← ehs1] at h0
                        subst h0
                        obtain ⟨e1, e2⟩ := readBlockTable_zero _ _ _ _ htab
                        subst e1 e2
                        exact ⟨rfl, rfl, hmd.symm⟩
                      · intro h0
                        rw [← ehs1] at h0
                        exact absurd h0 hpos

/-! ## BLTE: plain blocks -/

theorem handleBlockFuel_raw (env : Env) (fuel : Nat) (r : BLTEReader) (blockEnd : Int)
    (index : Nat) (h : goIndex r.blte.data r.blte.offset = .ok 0x4E) :
    r.handleBlockFuel env fuel blockEnd index =
      ({ r with blte := { r.blte with offset := r.blte.offset + 1 } }).writeBuffer blockEnd := by
  cases fuel <;>
    simp [BLTEReader.handleBlockFuel, BLTEReader.handleBlockBody, ByteBuf.ReadUInt8, h]

theorem handleBlockFuel_zlib (env : Env) (fuel : Nat) (r : BLTEReader) (blockEnd : Int)
    (index : Nat) (h : goIndex r.blte.data r.blte.offset = .ok 0x5A) :
    r.handleBlockFuel env fuel blockEnd index =
      match goSlice r.blte.data (r.blte.offset + 1) blockEnd with
      | .error e => .error e
      | .ok comp =>
        match env.blteDecompress comp with
        | some dec =>
          match goSlice r.buf r.blockWriteIdx r.buf.length with
          | .error e => .error e
          | .ok dst =>
            .ok { r with buf := r.buf.take r.blockWriteIdx.toNat ++ goCopy dst dec,
                         blte := { r.blte with offset := blockEnd } }
        | none =>
          ({ r with blte := { r.blte with offset := r.blte.offset + 1 } }).writeBuffer blockEnd := by
  cases fuel <;>
    simp [BLTEReader.handleBlockFuel, BLTEReader.handleBlockBody, ByteBuf.ReadUInt8, h,
      ByteBuf.Offset, ByteBuf.Seek]

theorem writeBuffer_succeeds (r : BLTEReader) (blockEnd : Int)
    (h1 : 0 ≤ r.blockWriteIdx) (h2 : r.blockWriteIdx ≤ (r.buf.length : Int))
    (h3 : 0 ≤ r.blte.offset) (h4 : r.blte.offset ≤ blockEnd)
    (h5 : blockEnd ≤ (r.blte.data.length : Int)) :
    ∃ r1, r.writeBuffer blockEnd = .ok r1 := by
  unfold BLTEReader.writeBuffer
  rw [goSlice_of_bounds r.buf r.blockWriteIdx r.buf.length h1 h2 (le_refl _)]
  simp only [ByteBuf.Offset]
  rw [goSlice_of_bounds r.blte.data r.blte.offset blockEnd h3 h4 h5]
  exact ⟨_, rfl⟩

/-- A plain block that fits is handled without a fault. -/
theorem handleBlock_plain_succeeds (env : Env) (r : BLTEReader) (blk : blteBlock)
    (hm : goIndex r.blte.data r.blte.offset = .ok 0x4E ∨
      goIndex r.blte.data r.blte.offset = .ok 0x5A)
    (hc : 1 ≤ blk.CompSize) (hfit : r.blte.offset + blk.CompSize ≤ (r.blte.data.length : Int))
    (h1 : 0 ≤ r.blockWriteIdx) (h2 : r.blockWriteIdx ≤ (r.buf.length : Int)) :
    ∃ r1, r.handleBlock env (r.blte.Offset + blk.CompSize) r.blockIndex = .ok r1 := by
  unfold BLTEReader.handleBlock
  have hpos : 0 ≤ r.blte.offset := by
    rcases hm with hm | hm <;> exact (goIndex_ok hm).1
  have hwb : ∃ r1, ({ r with blte := { r.blte with offset := r.blte.offset + 1 } } :
      BLTEReader).writeBuffer (r.blte.Offset + blk.CompSize) = .ok r1 := by
    apply writeBuffer_succeeds
    · exact h1
    · exact h2
    · show 0 ≤ r.blte.offset + 1
      omega
    · show r.blte.offset + 1 ≤ r.blte.offset + blk.CompSize
      omega
    · exact hfit
  rcases hm with hm | hm
  · rw [handleBlockFuel_raw env _ r _ _ hm]
    exact hwb
  · rw [handleBlockFuel_zlib env _ r _ _ hm]
    rw [goSlice_of_bounds r.blte.data (r.blte.offset + 1) (r.blte.Offset + blk.CompSize)
      (by omega) (by show r.blte.offset + 1 ≤ r.blte.offset + blk.CompSize; omega) hfit]
    simp only
    cases env.blteDecompress _ with
    | none => exact hwb
    | some dec =>
      simp only
      rw [goSlice_of_bounds r.buf r.blockWriteIdx r.buf.length h1 h2 (le_refl _)]
      exact ⟨_, rfl⟩

theorem processNext_plain_succeeds (env : Env) (r : BLTEReader) (blk : blteBlock)
    (hblk : r.blocks[r.blockIndex]? = some blk)
    (hm : goIndex r.blte.data r.blte.offset = .ok 0x4E ∨
      goIndex r.blte.data r.blte.offset = .ok 0x5A)
    (hc : 1 ≤ blk.CompSize) (hfit : r.blte.offset + blk.CompSize ≤ (r.blte.data.length : Int))
    (h1 : 0 ≤ r.blockWriteIdx) (h2 : r.blockWriteIdx ≤ (r.buf.length : Int))
    (hh : blk.Hash ≠ emptyMD5 → hashMatches r.blte.data r.blte.offset blk) :
    ∃ r1, r.processNext env = .ok (true, r1) := by
  have hlt : r.blockIndex < r.blocks.length := (List.getElem?_eq_some_iff.1 hblk).1
  obtain ⟨r2, hr2⟩ := handleBlock_plain_succeeds env r blk hm hc hfit h1 h2
  unfold BLTEReader.processNext
  rw [if_neg (Nat.ne_of_lt hlt), hblk]
  simp only
  by_cases hne : blk.Hash ≠ emptyMD5
  · have hmat := hh hne
    unfold hashMatches at hmat
    split at hmat
    · rename_i d hd
      simp only [if_pos hne, ByteBuf.ReadBuffer, hd, ByteBuf.CalculateMD5HexAll, NewByteBuf,
        hmat, ne_eq, not_true_eq_false, if_false, ByteBuf.Seek, ByteBuf.Offset]
      simp only [ByteBuf.Offset] at hr2
      rw [hr2]
      exact ⟨_, rfl⟩
    · exact absurd hmat id
  · simp only [if_neg hne]
    rw [hr2]
    exact ⟨_, rfl⟩

theorem processAllFuel_plain_succeeds (env : Env) : ∀ (fuel : Nat) (r : BLTEReader),
    r.blocks.length < r.blockIndex + fuel → r.blockIndex ≤ r.blocks.length →
    blocksPlain r.blte.data r.blte.offset (r.blocks.drop r.blockIndex) →
    blocksAccepted r.blte.data r.blte.offset (r.blocks.drop r.blockIndex) →
    0 ≤ r.blockWriteIdx →
    r.blockWriteIdx + ((r.blocks.drop r.blockIndex).map blteBlock.DecompSize).sum ≤
      (r.buf.length : Int) →
    ∃ r1, r.processAllFuel env fuel = .ok r1 := by
  intro fuel
  induction fuel with
  | zero => intro r h1 h2; omega
  | succ n ih =>
    intro r hfuel hle hplain hacc hw0 hw1
    simp only [BLTEReader.processAllFuel]
    by_cases hend : r.blockIndex = r.blocks.length
    · have : r.processNext env = .ok (false, r) := by
        unfold BLTEReader.processNext
        rw [if_pos hend]
      rw [this]
      exact ⟨r, rfl⟩
    · have hlt : r.blockIndex < r.blocks.length := by omega
      have hdrop := List.drop_eq_getElem_cons hlt
      rw [hdrop] at hplain hacc hw1
      obtain ⟨pm, pc, pfit, pd, prest⟩ := hplain
      obtain ⟨ah, _, arest⟩ := hacc
      have hblk : r.blocks[r.blockIndex]? = some r.blocks[r.blockIndex] :=
        List.getElem?_eq_getElem hlt
      simp only [List.map_cons, List.sum_cons] at hw1
      have hsum0 : ∀ (pos : Int) (l : List blteBlock), blocksPlain r.blte.data pos l →
          0 ≤ (l.map blteBlock.DecompSize).sum := by
        intro pos l
        induction l generalizing pos with
        | nil => intro _; simp
        | cons b l ihl =>
          intro hp
          obtain ⟨_, _, _, hd, hrest⟩ := hp
          simp only [List.map_cons, List.sum_cons]
          have := ihl _ hrest
          omega
      have hs0 := hsum0 _ _ prest
      obtain ⟨r1, hr1⟩ := processNext_plain_succeeds env r _ hblk pm pc pfit hw0 (by omega) ah
      obtain ⟨blk, hblk2, hs, hi, ho, hwi, _, _⟩ := processNext_true hr1
      rw [hblk] at hblk2
      cases hblk2
      rw [hr1]
      simp only
      apply ih r1
      · rw [hs.1, hi]; omega
      · rw [hs.1, hi]; omega
      · rw [hs.1, hs.2.1, hi, ho]; exact prest
      · rw [hs.1, hs.2.1, hi, ho]; exact arest
      · rw [hwi]; omega
      · rw [hs.1, hs.2.2.1, hi, hwi]; omega

/-! ## BLTE: the claims -/

/-- C5: for every container that `NewBLTEReader` accepts and whose decoding
completes, `Output()` has as many bytes as the sum of the `decompSize` fields of
the block table (the single implicit block when `headerSize == 0`). -/
theorem output_length_is_sum_of_decompSize (env : Env) (raw : List Nat) (hash : String)
    (lenient : Bool) (r : BLTEReader) (out : List Nat)
    (hr : NewBLTEReader raw hash lenient = .ok r) (ho : r.Output env = .ok out) :
    (out.length : Int) = (r.blocks.map blteBlock.DecompSize).sum ∧
      (declaredHeaderSize raw = 0 → r.blocks = [implicitBlock raw]) ∧
      (0 < declaredHeaderSize raw → r.blocks = tableBlocks raw 12 (declaredNumBlocks raw)) := by
  obtain ⟨_, _, _, _, hsum, hbuf, h0, hpos⟩ := NewBLTEReader_ok hr
  refine ⟨?_, fun h => (h0 h).1, fun h => (hpos h).1⟩
  unfold BLTEReader.Output at ho
  split at ho
  · cases ho
  · rename_i r1 hr1
    cases ho
    obtain ⟨hs, _⟩ := processAllFuel_ok env _ _ _ hr1
    rw [hs.2.2.1, hbuf, List.length_replicate]
    omega

/-- C6, as the code has it: when `NewBLTEReader` accepts the container (the
EncodingKey is the MD5 of the header and the frame header is well formed),
decoding succeeds only if every non-sentinel block hash matches and every block
mode is supported; for a table of raw or zlib blocks that lie within the data
with `compSize >= 1` and `decompSize >= 0` it succeeds exactly then. -/
theorem decode_succeeds_iff_accepted (env : Env) (raw : List Nat) (hash : String)
    (lenient : Bool) (r : BLTEReader) (hr : NewBLTEReader raw hash lenient = .ok r) :
    r.blte.data = raw ∧
      ((∃ out, r.Output env = .ok out) → blocksAccepted raw r.blte.offset r.blocks) ∧
      (blocksPlain raw r.blte.offset r.blocks →
        ((∃ out, r.Output env = .ok out) ↔ blocksAccepted raw r.blte.offset r.blocks)) := by
  obtain ⟨hd, hi, hw, _, hsum, hbuf, _, _⟩ := NewBLTEReader_ok hr
  have fwd : (∃ out, r.Output env = .ok out) → blocksAccepted raw r.blte.offset r.blocks := by
    rintro ⟨out, ho⟩
    unfold BLTEReader.Output at ho
    split at ho
    · cases ho
    · rename_i r1 hr1
      obtain ⟨_, hacc⟩ := processAllFuel_ok env _ _ _ hr1
      rw [hi, List.drop_zero, hd] at hacc
      exact hacc
  refine ⟨hd, fwd, fun hplain => ⟨fwd, fun hacc => ?_⟩⟩
  have hex : ∃ r1, r.processAllFuel env (r.blocks.length + 1) = .ok r1 := by
    apply processAllFuel_plain_succeeds
    · omega
    · omega
    · rw [hi, List.drop_zero, hd]; exact hplain
    · rw [hi, List.drop_zero, hd]; exact hacc
    · omega
    · rw [hi, List.drop_zero, hw, hbuf, List.length_replicate]
      omega
  obtain ⟨r1, hr1⟩ := hex
  exact ⟨r1.buf, by unfold BLTEReader.Output BLTEReader.processAll; rw [hr1]⟩


/-! ## BLTE: reading at a known position -/

theorem goSlice_append (a b c : List Nat) :
    goSlice (a ++ b ++ c) (a.length : Int) ((a.length : Int) + (b.length : Int)) = .ok b := by
  have e1 : ((a.length : Int) + (b.length : Int)).toNat = a.length + b.length := by omega
  have e2 : ((a.length : Int)).toNat = a.length := by omega
  rw [goSlice_of_bounds _ _ _ (by omega) (by omega)
    (by rw [List.length_append, List.length_append]; push_cast; omega), e1, e2]
  congr 1
  rw [← List.length_append, List.take_left' rfl, List.drop_left' rfl]

theorem goSlice_at (s a b c : List Nat) (lo hi : Int) (hs : s = a ++ b ++ c)
    (hlo : lo = (a.length : Int)) (hhi : hi = (a.length : Int) + (b.length : Int)) :
    goSlice s lo hi = .ok b := by
  subst hs hlo hhi
  exact goSlice_append a b c

theorem goIndex_at (s a : List Nat) (x : Nat) (c : List Nat) (i : Int) (hs : s = a ++ x :: c)
    (hi : i = (a.length : Int)) : goIndex s i = .ok x := by
  subst hs hi
  unfold goIndex
  rw [if_pos ⟨by omega, by rw [List.length_append, List.length_cons]; push_cast; omega⟩]
  congr 1
  rw [Int.toNat_ofNat, List.getD_eq_getElem?_getD, List.getElem?_append_right (le_refl _)]
  simp

theorem goSlice_all (s : List Nat) : goSlice s 0 (s.length : Int) = .ok s := by
  rw [goSlice_of_bounds s 0 _ (le_refl _) (by omega) (le_refl _)]
  simp

theorem goCopy_zeros (p : List Nat) : goCopy (List.replicate p.length 0) p = p := by
  unfold goCopy
  simp

/-- `NewBLTEReader` accepts a container with `headerSize == 0` and a non-empty
body when given the MD5 of the whole container. -/
theorem NewBLTEReader_implicit (m : Nat) (rest : List Nat) (lenient : Bool) :
    NewBLTEReader (implicitHeader ++ m :: rest) (md5Hex (implicitHeader ++ m :: rest)) lenient =
      .ok (implicitReader m rest lenient) := by
  have hlen : ((implicitHeader ++ m :: rest).length : Int) = (rest.length : Int) + 9 := by
    simp only [implicitHeader, List.length_append, List.length_cons, List.length_nil]
    push_cast
    omega
  have g1 : goSlice (implicitHeader ++ m :: rest) 0 (0 + 4) = .ok [0x42, 0x4C, 0x54, 0x45] :=
    goSlice_at _ [] [0x42, 0x4C, 0x54, 0x45] (0 :: 0 :: 0 :: 0 :: m :: rest) _ _ rfl rfl rfl
  have g2 : goSlice (implicitHeader ++ m :: rest) (0 + 4) (0 + 4 + 4) = .ok [0, 0, 0, 0] :=
    goSlice_at _ [0x42, 0x4C, 0x54, 0x45] [0, 0, 0, 0] (m :: rest) _ _ rfl rfl rfl
  have hmagic : ¬ ((0x42 ||| 0x4C <<< 8 ||| 0x54 <<< 16 ||| 0x45 <<< 24 : Nat) ≠ blteMagic) := by
    decide
  have hzero : int32 (0 <<< 24 ||| 0 <<< 16 ||| 0 <<< 8 ||| 0) = 0 := by decide
  unfold NewBLTEReader
  simp only [NewByteBuf, ByteBuf.ByteLength, hlen, ByteBuf.ReadUInt32LE, g1, ByteBuf.ReadInt32BE,
    g2, List.getD_cons_zero, List.getD_cons_succ, hzero, ByteBuf.Offset, ByteBuf.Seek]
  rw [if_neg (by omega), if_neg hmagic]
  simp only [gt_iff_lt, lt_self_iff_false, if_false, ne_eq, not_true_eq_false, readBlockTable,
    ByteBuf.ByteLength, hlen, List.map_cons, List.map_nil, List.sum_cons, List.sum_nil]
  have hmk : goMake ((rest.length : Int) + 9 - 9 + 0) = .ok (List.replicate rest.length 0) := by
    unfold goMake
    rw [if_pos (by omega)]
    congr 2
    omega
  have e1 : (0 : Int) + 4 + 4 = 8 := by norm_num
  have e2 : (rest.length : Int) + 9 - 8 = (rest.length : Int) + 1 := by omega
  have e3 : (rest.length : Int) + 9 - 9 = (rest.length : Int) := by omega
  rw [hmk]
  simp only [implicitReader, e1, e2, e3]


/-- An implicit-block container holding a raw block decodes to its payload. -/
theorem implicitReader_raw_output (env : Env) (p : List Nat) (lenient : Bool) :
    (implicitReader 0x4E p lenient).Output env = .ok p := by
  have hidx : goIndex (implicitReader 0x4E p lenient).blte.data
      (implicitReader 0x4E p lenient).blte.offset = .ok 0x4E :=
    goIndex_at _ implicitHeader 0x4E p _ rfl rfl
  have hsl : goSlice (implicitHeader ++ 0x4E :: p) (8 + 1) (8 + ((p.length : Int) + 1)) = .ok p :=
    goSlice_at _ (implicitHeader ++ [0x4E]) p [] _ _ (by simp) (by simp [implicitHeader])
      (by simp [implicitHeader]; ring)
  have hb : goSlice (List.replicate p.length 0) 0 ((List.replicate p.length 0).length : Int) =
      .ok (List.replicate p.length 0) := goSlice_all _
  have hnext : (implicitReader 0x4E p lenient).processNext env =
      .ok (true, { blte := { data := implicitHeader ++ 0x4E :: p,
                              offset := 8 + ((p.length : Int) + 1) }
                   buf := p
                   blocks := (implicitReader 0x4E p lenient).blocks
                   blockIndex := 1
                   blockWriteIdx := 0 + (p.length : Int)
                   lenient := lenient }) := by
    unfold BLTEReader.processNext
    simp only [implicitReader, List.length_cons, List.length_nil, Nat.zero_add,
      Nat.zero_ne_one, if_false, List.getElem?_cons_zero, ne_eq, not_true_eq_false,
      ByteBuf.Offset, BLTEReader.handleBlock]
    have := handleBlockFuel_raw env (implicitHeader ++ 0x4E :: p).length
      (implicitReader 0x4E p lenient) (8 + ((p.length : Int) + 1)) 0 hidx
    simp only [implicitReader] at this
    rw [this]
    simp only [BLTEReader.writeBuffer, ByteBuf.Offset, hb, hsl, ByteBuf.Seek, goCopy_zeros,
      Int.toNat_zero, List.take_zero, List.nil_append]
  unfold BLTEReader.Output BLTEReader.processAll
  simp only [BLTEReader.processAllFuel, hnext]
  simp [BLTEReader.processNext, implicitReader]

/-- C10: for every payload `p`, the container made of the BLTE magic, a zero
`headerSize`, the mode byte `0x4E` and `p`, presented with the MD5 of the whole
container, is accepted and decodes to exactly `p`; so does S1 with `"hello"`. -/
theorem raw_container_decodes_to_payload :
    (∀ (env : Env) (p : List Nat) (lenient : Bool),
      (∃ r, NewBLTEReader (rawContainer p) (md5Hex (rawContainer p)) lenient = .ok r ∧
        r.blocks = [implicitBlock (rawContainer p)] ∧
        (implicitBlock (rawContainer p)).CompSize = ((rawContainer p).length : Int) - 8) ∧
      decodeBLTE env (rawContainer p) (md5Hex (rawContainer p)) lenient = .ok p) ∧
    decodeBLTE emptyEnv (rawContainer helloBytes) (md5Hex (rawContainer helloBytes)) false =
      .ok helloBytes := by
  have h : ∀ (env : Env) (p : List Nat) (lenient : Bool),
      decodeBLTE env (rawContainer p) (md5Hex (rawContainer p)) lenient = .ok p := by
    intro env p lenient
    unfold decodeBLTE rawContainer
    rw [NewBLTEReader_implicit]
    exact implicitReader_raw_output env p lenient
  refine ⟨fun env p lenient => ⟨⟨implicitReader 0x4E p lenient,
    NewBLTEReader_implicit 0x4E p lenient, ?_, rfl⟩, h env p lenient⟩, h _ _ _⟩
  simp only [implicitReader, implicitBlock, rawContainer, implicitHeader, List.length_append,
    List.length_cons, List.length_nil, List.cons.injEq, and_true, blteBlock.mk.injEq]
  push_cast
  constructor <;> omega

theorem output_length_is_sum_of_decompSize_witness :
    NewBLTEReader (rawContainer helloBytes) (md5Hex (rawContainer helloBytes)) false =
        .ok (implicitReader 0x4E helloBytes false) ∧
      (implicitReader 0x4E helloBytes false).Output emptyEnv = .ok helloBytes ∧
      ((helloBytes.length : Int) =
          ((implicitReader 0x4E helloBytes false).blocks.map blteBlock.DecompSize).sum ∧
        (declaredHeaderSize (rawContainer helloBytes) = 0 →
          (implicitReader 0x4E helloBytes false).blocks =
            [implicitBlock (rawContainer helloBytes)]) ∧
        (0 < declaredHeaderSize (rawContainer helloBytes) →
          (implicitReader 0x4E helloBytes false).blocks =
            tableBlocks (rawContainer helloBytes) 12
              (declaredNumBlocks (rawContainer helloBytes)))) :=
  ⟨NewBLTEReader_implicit 0x4E helloBytes false,
    implicitReader_raw_output emptyEnv helloBytes false,
    output_length_is_sum_of_decompSize emptyEnv (rawContainer helloBytes)
      (md5Hex (rawContainer helloBytes)) false (implicitReader 0x4E helloBytes false) helloBytes
      (NewBLTEReader_implicit 0x4E helloBytes false)
      (implicitReader_raw_output emptyEnv helloBytes false)⟩

theorem decode_succeeds_iff_accepted_witness :
    NewBLTEReader (rawContainer helloBytes) (md5Hex (rawContainer helloBytes)) false =
        .ok (implicitReader 0x4E helloBytes false) ∧
      ((implicitReader 0x4E helloBytes false).blte.data = rawContainer helloBytes ∧
        ((∃ out, (implicitReader 0x4E helloBytes false).Output emptyEnv = .ok out) →
          blocksAccepted (rawContainer helloBytes)
            (implicitReader 0x4E helloBytes false).blte.offset
            (implicitReader 0x4E helloBytes false).blocks) ∧
        (blocksPlain (rawContainer helloBytes)
            (implicitReader 0x4E helloBytes false).blte.offset
            (implicitReader 0x4E helloBytes false).blocks →
          ((∃ out, (implicitReader 0x4E helloBytes false).Output emptyEnv = .ok out) ↔
            blocksAccepted (rawContainer helloBytes)
              (implicitReader 0x4E helloBytes false).blte.offset
              (implicitReader 0x4E helloBytes false).blocks))) :=
  ⟨NewBLTEReader_implicit 0x4E helloBytes false,
    decode_succeeds_iff_accepted emptyEnv (rawContainer helloBytes)
      (md5Hex (rawContainer helloBytes)) false (implicitReader 0x4E helloBytes false)
      (NewBLTEReader_implicit 0x4E helloBytes false)⟩

/-- C6 as stated fails: the container is accepted with the MD5 of its header,
its only block has the sentinel hash and the supported mode `0x45`, yet decoding
faults reading the encryption header past the end of the data. -/
theorem truncated_encrypted_block_faults :
    NewBLTEReader truncatedEncrypted (md5Hex truncatedEncrypted) false =
        .ok (implicitReader 0x45 [] false) ∧
      blocksAccepted truncatedEncrypted (implicitReader 0x45 [] false).blte.offset
        (implicitReader 0x45 [] false).blocks ∧
      decodeBLTE emptyEnv truncatedEncrypted (md5Hex truncatedEncrypted) false =
        .error (.panic "index out of range") := by
  refine ⟨NewBLTEReader_implicit 0x45 [] false, by decide, ?_⟩
  unfold decodeBLTE truncatedEncrypted
  rw [NewBLTEReader_implicit]
  decide

/-- C7 fails on the code: with `partial = false` and an empty key ring, the
container with one well-formed encrypted block is accepted and `Output()`
returns a buffer of zero bytes; no MissingKey error is raised. -/
theorem missing_key_strict_returns_buffer :
    decodeBLTE emptyEnv (implicitHeader ++ 0x45 :: encryptedBody)
        (md5Hex (implicitHeader ++ 0x45 :: encryptedBody)) false =
      .ok (List.replicate 16 0) := by
  unfold decodeBLTE
  rw [NewBLTEReader_implicit]
  decide


theorem ReadUInt8_at (b : ByteBuf) (a : List Nat) (x : Nat) (c : List Nat)
    (hs : b.data = a ++ x :: c) (hi : b.offset = (a.length : Int)) :
    b.ReadUInt8 = .ok (x, { b with offset := b.offset + 1 }) := by
  unfold ByteBuf.ReadUInt8
  rw [goIndex_at b.data a x c b.offset hs hi]

theorem readKeyNameBytes_at : ∀ (name : List Nat) (b : ByteBuf) (a c : List Nat),
    b.data = a ++ name ++ c → b.offset = (a.length : Int) →
    readKeyNameBytes name.length b =
      .ok (name.map fun x => hexEncode [x],
        { b with offset := b.offset + (name.length : Int) }) := by
  intro name
  induction name with
  | nil =>
    intro b a c _ _
    simp [readKeyNameBytes]
  | cons x name ih =>
    intro b a c hs hi
    have h1 : goSlice b.data b.offset (b.offset + 1) = .ok [x] :=
      goSlice_at b.data a [x] (name ++ c) _ _ (by rw [hs]; simp) hi (by rw [hi]; simp)
    have h2 := ih { b with offset := b.offset + 1 } (a ++ [x]) c (by simp [hs])
      (by simp [hi])
    simp only [List.length_cons, readKeyNameBytes, ByteBuf.ReadHexString, h1, h2, List.map_cons]
    congr 3
    push_cast
    ring

/-- `decryptBlock` on a well-formed encryption header: the key is looked up under
`ringName name`; a missing key gives `nil`, a key gives the Salsa20 decryption of
the bytes up to `blockEnd`. -/
theorem decryptBlock_at (env : Env) (r : BLTEReader) (pre name iv rest : List Nat)
    (blockEnd : Int) (index : Nat)
    (hd : r.blte.data = pre ++ 8 :: (name ++ iv.length :: (iv ++ 0x53 :: rest)))
    (ho : r.blte.offset = (pre.length : Int)) (hn : name.length = 8)
    (hiv : iv.length = 4 ∨ iv.length = 8) :
    r.decryptBlock env blockEnd index =
      if (GetTACTKey env.tact (ringName name)).length = 0 then
        .ok (none, { r with blte := { r.blte with
          offset := r.blte.offset + 1 + 8 + 1 + (iv.length : Int) + 1 } })
      else
        match newSalsa20 (goCopy (List.replicate 8 0) (xorBlockIndex iv index))
            (GetTACTKey env.tact (ringName name)) 20 with
        | .error e => .error e
        | .ok s =>
          match goSlice r.blte.data (r.blte.offset + 1 + 8 + 1 + (iv.length : Int) + 1)
              blockEnd with
          | .error e => .error e
          | .ok enc =>
            .ok (some (s.process enc).1, { r with blte := { r.blte with
              offset := r.blte.offset + 1 + 8 + 1 + (iv.length : Int) + 1 } }) := by
  have k1 := ReadUInt8_at r.blte pre 8 _ hd ho
  have k2 := readKeyNameBytes_at name { r.blte with offset := r.blte.offset + 1 } (pre ++ [8])
    (iv.length :: (iv ++ 0x53 :: rest)) (by simp [hd]) (by simp [ho])
  rw [hn] at k2
  have k3 := ReadUInt8_at { r.blte with offset := r.blte.offset + 1 + ((8 : Nat) : Int) }
    (pre ++ 8 :: name) iv.length (iv ++ 0x53 :: rest) (by simp [hd])
    (by simp [ho, hn]; ring)
  have k4 : goSlice r.blte.data (r.blte.offset + 1 + ((8 : Nat) : Int) + 1)
      (r.blte.offset + 1 + ((8 : Nat) : Int) + 1 + (iv.length : Int)) = .ok iv :=
    goSlice_at _ (pre ++ 8 :: (name ++ [iv.length])) iv (0x53 :: rest) _ _
      (by simp [hd]) (by simp [ho, hn]; ring) (by simp [ho, hn]; ring)
  have k5 := ReadUInt8_at
    { r.blte with offset := r.blte.offset + 1 + ((8 : Nat) : Int) + 1 + (iv.length : Int) }
    (pre ++ 8 :: (name ++ iv.length :: iv)) 0x53 rest (by simp [hd])
    (by simp [ho, hn]; ring)
  have hrem : ¬ ((r.blte.data.length : Int) -
      (r.blte.offset + 1 + ((8 : Nat) : Int) + 1 + (iv.length : Int)) = 0) := by
    rw [hd, ho]
    simp only [List.length_append, List.length_cons, hn]
    push_cast
    omega
  have hivc : ¬ ((iv.length ≠ 4 ∧ iv.length ≠ 8) ∨ iv.length > 8) := by omega
  simp only [Nat.cast_ofNat] at k2 k3 k4 k5 hrem
  unfold BLTEReader.decryptBlock
  simp only [k1, k2, k3, ByteBuf.Offset, ByteBuf.Seek, ByteBuf.Remaining, k4, k5,
    goCopy_zeros, hrem, hivc, if_false, encTypeSalsa20, ne_eq, not_true_eq_false,
    OfNat.ofNat_ne_zero, or_self, Nat.cast_ofNat, ringName]


/-! ## BLTE: an encrypted block whose key is missing -/

theorem GetTACTKey_absent (tact : GoMap String (List Nat)) (keyName : String)
    (h : toLower keyName ∉ tact) : GetTACTKey tact keyName = [] := by
  unfold GetTACTKey
  rw [AList.lookup_eq_none.2 h]

/-- An encrypted block whose key is missing leaves the output buffer as it is. -/
theorem handleBlockFuel_missing_key (env : Env) (fuel : Nat) (r : BLTEReader)
    (pre name iv rest : List Nat) (blockEnd : Int) (index : Nat) (blk : blteBlock)
    (hd : r.blte.data = pre ++ 0x45 :: 8 :: (name ++ iv.length :: (iv ++ 0x53 :: rest)))
    (ho : r.blte.offset = (pre.length : Int)) (hn : name.length = 8)
    (hiv : iv.length = 4 ∨ iv.length = 8)
    (hkey : toLower (ringName name) ∉ env.tact) (hblk : r.blocks[index]? = some blk) :
    ∃ r1, r.handleBlockFuel env fuel blockEnd index = .ok r1 ∧ r1.buf = r.buf := by
  have k0 := ReadUInt8_at r.blte pre 0x45 _ hd ho
  have kd := decryptBlock_at env { r with blte := { r.blte with offset := r.blte.offset + 1 } }
    (pre ++ [0x45]) name iv rest blockEnd index (by simp [hd]) (by simp [ho]) hn hiv
  rw [GetTACTKey_absent env.tact _ hkey] at kd
  simp only [List.length_nil, if_true] at kd
  cases fuel <;>
  · simp only [BLTEReader.handleBlockFuel, BLTEReader.handleBlockBody, k0, if_true, kd, hblk]
    cases r.lenient
    · exact ⟨_, rfl, rfl⟩
    · exact ⟨_, rfl, rfl⟩

/-! ## BLTE: where blocks write -/

theorem take_take_append (buf x : List Nat) (n : Nat) (h : n ≤ buf.length) :
    (buf.take n ++ x).take n = buf.take n := by
  rw [List.take_append_of_le_length (by rw [List.length_take]; omega), List.take_take]
  simp

theorem writeBuffer_head {r r1 : BLTEReader} {blockEnd : Int}
    (h : r.writeBuffer blockEnd = .ok r1) :
    r1.buf.take r.blockWriteIdx.toNat = r.buf.take r.blockWriteIdx.toNat := by
  unfold BLTEReader.writeBuffer at h
  split at h
  · cases h
  · rename_i dst hdst
    split at h
    · cases h
    · cases h
      obtain ⟨h1, h2, _, _⟩ := goSlice_ok hdst
      exact take_take_append _ _ _ (by omega)

/-- A block only writes at or after `blockWriteIdx`. -/
theorem handleBlockBody_head {env : Env}
    {recur : BLTEReader → Int → Nat → Except Fail BLTEReader}
    {r r1 : BLTEReader} {blockEnd : Int} {index : Nat}
    (h : r.handleBlockBody env recur blockEnd index = .ok r1) :
    r1.buf.take r.blockWriteIdx.toNat = r.buf.take r.blockWriteIdx.toNat := by
  unfold BLTEReader.handleBlockBody at h
  split at h
  · cases h
  · rename_i flag b1 hb1
    simp only at h
    split at h
    · split at h
      · cases h
      · rename_i dec r2 hdec
        obtain ⟨b, hb, e2⟩ := decryptBlock_frame hdec
        subst e2
        split at h
        · cases h
        · rename_i subBuf hsub
          split at h
          · cases h
          · cases h
            obtain ⟨h1, h2, _, _⟩ := goSlice_ok hsub
            exact take_take_append _ _ _ (by first | omega | (simp only at h1 h2 ⊢; omega))
      · rename_i r2 hdec
        obtain ⟨b, hb, e2⟩ := decryptBlock_frame hdec
        subst e2
        split at h
        · split at h
          · cases h
          · cases h; rfl
        · cases h; rfl
    · split at h
      · have := writeBuffer_head h
        exact this
      · split at h
        · split at h
          · cases h
          · split at h
            · split at h
              · cases h
              · rename_i dst hdst
                cases h
                obtain ⟨h1, h2, _, _⟩ := goSlice_ok hdst
                exact take_take_append _ _ _ (by omega)
            · have := writeBuffer_head h
              exact this
        · cases h

theorem handleBlockFuel_head {env : Env} {fuel : Nat} {r r1 : BLTEReader} {blockEnd : Int}
    {index : Nat} (h : r.handleBlockFuel env fuel blockEnd index = .ok r1) :
    r1.buf.take r.blockWriteIdx.toNat = r.buf.take r.blockWriteIdx.toNat := by
  cases fuel <;> exact handleBlockBody_head h

theorem processNext_head {env : Env} {r r1 : BLTEReader}
    (h : r.processNext env = .ok (true, r1)) :
    r1.buf.take r.blockWriteIdx.toNat = r.buf.take r.blockWriteIdx.toNat := by
  unfold BLTEReader.processNext at h
  split at h
  · cases h
  · split at h
    · cases h
    · rename_i blk hblk
      simp only at h
      split at h
      · cases h
      · rename_i rc hrc
        split at h
        · cases h
        · rename_i r2 hr2
          cases h
          have hchk : rc = r := by
            split at hrc
            · split at hrc
              · cases hrc
              · split at hrc
                · cases hrc
                · cases hrc; rfl
            · cases hrc; rfl
          subst hchk
          have := handleBlockFuel_head hr2
          exact this

theorem take_eq_of_take_eq {a b : List Nat} {n m : Nat} (h : a.take m = b.take m) (hnm : n ≤ m) :
    a.take n = b.take n := by
  have h1 : (a.take m).take n = (b.take m).take n := by rw [h]
  rw [List.take_take, List.take_take, Nat.min_eq_left hnm] at h1
  exact h1

/-- With non-negative `decompSize`s the remaining blocks leave everything before
the current write position alone. -/
theorem processAllFuel_head (env : Env) : ∀ (fuel : Nat) (r r1 : BLTEReader) (n : Nat),
    r.processAllFuel env fuel = .ok r1 →
    (∀ b ∈ r.blocks.drop r.blockIndex, 0 ≤ b.DecompSize) → (n : Int) ≤ r.blockWriteIdx →
    r1.buf.take n = r.buf.take n := by
  intro fuel
  induction fuel with
  | zero => intro r r1 n h; cases h
  | succ f ih =>
    intro r r1 n h hnn hn
    simp only [BLTEReader.processAllFuel] at h
    split at h
    · cases h
    · rename_i r2 hstep
      obtain ⟨blk, hblk, hs, hi, _, hw, _, _⟩ := processNext_true hstep
      have hlt : r.blockIndex < r.blocks.length := (List.getElem?_eq_some_iff.1 hblk).1
      have hget : r.blocks[r.blockIndex] = blk := (List.getElem?_eq_some_iff.1 hblk).2
      rw [List.drop_eq_getElem_cons hlt, hget] at hnn
      have hd0 : 0 ≤ blk.DecompSize := hnn blk (List.mem_cons_self _ _)
      have h2 := ih r2 r1 n h
        (by rw [hs.1, hi]; exact fun b hb => hnn b (List.mem_cons_of_mem _ hb))
        (by rw [hw]; omega)
      rw [h2]
      exact take_eq_of_take_eq (processNext_head hstep) (by omega)
    · rename_i r2 hstep
      cases h
      rw [(processNext_false hstep).1]

/-- After `n` successful steps the rest of `processAll` continues from the state
reached. -/
theorem processAllFuel_after_steps (env : Env) : ∀ (n : Nat) (r rn : BLTEReader) (f : Nat),
    r.processSteps env n = .ok rn → rn.blockIndex = r.blockIndex + n →
    r.processAllFuel env (n + f) = rn.processAllFuel env f ∧ r.sameFrame rn ∧
      rn.blockWriteIdx = r.blockWriteIdx +
        (((r.blocks.drop r.blockIndex).take n).map blteBlock.DecompSize).sum := by
  intro n
  induction n with
  | zero =>
    intro r rn f h _
    cases h
    simp [sameFrame_refl]
  | succ n ih =>
    intro r rn f h hidx
    simp only [BLTEReader.processSteps] at h
    split at h
    · cases h
    · rename_i r1 hstep
      obtain ⟨blk, hblk, hs, hi, _, hw, _, _⟩ := processNext_true hstep
      obtain ⟨e1, e2, e3⟩ := ih r1 rn f h (by rw [hi, hidx]; omega)
      have hlt : r.blockIndex < r.blocks.length := (List.getElem?_eq_some_iff.1 hblk).1
      have hget : r.blocks[r.blockIndex] = blk := (List.getElem?_eq_some_iff.1 hblk).2
      refine ⟨?_, sameFrame_trans hs e2, ?_⟩
      · have : n + 1 + f = (n + f) + 1 := by omega
        rw [this]
        simp only [BLTEReader.processAllFuel, hstep]
        exact e1
      · rw [e3, hw, hs.1, hi, List.drop_eq_getElem_cons hlt, hget, List.take_succ_cons,
          List.map_cons, List.sum_cons]
        ring
    · rename_i r1 hstep
      cases h
      obtain ⟨e, _⟩ := processNext_false hstep
      subst e
      omega


theorem processNext_true_buf {env : Env} {r r1 : BLTEReader}
    (h : r.processNext env = .ok (true, r1)) :
    ∃ blk r2, r.blocks[r.blockIndex]? = some blk ∧
      r.handleBlockFuel env r.blte.data.length (r.blte.offset + blk.CompSize) r.blockIndex =
        .ok r2 ∧ r1.buf = r2.buf := by
  unfold BLTEReader.processNext at h
  split at h
  · cases h
  · split at h
    · cases h
    · rename_i blk hblk
      simp only at h
      split at h
      · cases h
      · rename_i rc hrc
        split at h
        · cases h
        · rename_i r2 hr2
          cases h
          have hchk : rc = r := by
            split at hrc
            · split at hrc
              · cases hrc
              · split at hrc
                · cases hrc
                · cases hrc; rfl
            · cases hrc; rfl
          subst hchk
          exact ⟨blk, r2, hblk, hr2, rfl⟩

theorem getD_eq_of_take_eq {a b : List Nat} {n k : Nat} (h : a.take n = b.take n) (hk : k < n) :
    a.getD k 0 = b.getD k 0 := by
  have h1 : (a.take n).getD k 0 = (b.take n).getD k 0 := by rw [h]
  rw [List.getD_eq_getElem?_getD, List.getD_eq_getElem?_getD, List.getElem?_take_of_lt hk,
    List.getElem?_take_of_lt hk] at h1
  rw [List.getD_eq_getElem?_getD, List.getD_eq_getElem?_getD]
  exact h1

/-- C8, as the code has it: in `partial` mode, when the decoder reaches an
encrypted block `i` whose key is absent from the ring, the block is at its
declared offset (the sum of the earlier `decompSize`s), it is passed over without
an error and without a write, the next block starts `decompSize` further on, and
when all `decompSize`s are non-negative the following blocks leave its range
alone: the range is zero in the output if no earlier block wrote into it. -/
theorem skipped_block_range_stays_zero (env : Env) (raw : List Nat) (hash : String)
    (r0 ri : BLTEReader) (i : Nat) (blk : blteBlock) (pre name iv enc post out : List Nat)
    (hr0 : NewBLTEReader raw hash true = .ok r0)
    (hsteps : r0.processSteps env i = .ok ri) (hidx : ri.blockIndex = i)
    (hblk : r0.blocks[i]? = some blk)
    (hd : raw = pre ++ encryptedBlock name iv enc ++ post)
    (ho : ri.blte.offset = (pre.length : Int)) (hn : name.length = 8)
    (hiv : iv.length = 4 ∨ iv.length = 8)
    (hkey : toLower (ringName name) ∉ env.tact)
    (hnn : ∀ b ∈ r0.blocks, 0 ≤ b.DecompSize)
    (hz : ∀ k, ri.blockWriteIdx.toNat ≤ k → k < (ri.blockWriteIdx + blk.DecompSize).toNat →
      ri.buf.getD k 0 = 0)
    (hout : r0.Output env = .ok out) :
    ri.blockWriteIdx = ((r0.blocks.take i).map blteBlock.DecompSize).sum ∧
      (∃ r1, ri.processNext env = .ok (true, r1) ∧ r1.buf = ri.buf ∧
        r1.blockWriteIdx = ri.blockWriteIdx + blk.DecompSize) ∧
      ∀ k, ri.blockWriteIdx.toNat ≤ k → k < (ri.blockWriteIdx + blk.DecompSize).toNat →
        out.getD k 0 = 0 := by
  obtain ⟨hdata, hi0, hw0, _, _, _, _, _⟩ := NewBLTEReader_ok hr0
  have hlt : i < r0.blocks.length := (List.getElem?_eq_some_iff.1 hblk).1
  obtain ⟨e1, hs, ew⟩ := processAllFuel_after_steps env i r0 ri (r0.blocks.length - i + 1)
    hsteps (by rw [hi0, hidx]; omega)
  rw [hi0, List.drop_zero, hw0, Int.zero_add] at ew
  have hfuel : i + (r0.blocks.length - i + 1) = r0.blocks.length + 1 := by omega
  rw [hfuel] at e1
  unfold BLTEReader.Output BLTEReader.processAll at hout
  rw [e1] at hout
  have hblk_i : ri.blocks[ri.blockIndex]? = some blk := by rw [hs.1, hidx]; exact hblk
  have hdi : ri.blte.data =
      pre ++ 0x45 :: 8 :: (name ++ iv.length :: (iv ++ 0x53 :: (enc ++ post))) := by
    rw [hs.2.1, hdata, hd]
    simp [encryptedBlock]
  simp only [BLTEReader.processAllFuel] at hout
  split at hout
  · cases hout
  · rename_i rf hrf
    cases hout
    split at hrf
    · cases hrf
    · rename_i r1 hstep
      obtain ⟨blk1, hb1, hsf, hi1, _, hw1, _, _⟩ := processNext_true hstep
      rw [hblk_i] at hb1
      cases hb1
      obtain ⟨blk2, r2, hb2, hh2, hbuf⟩ := processNext_true_buf hstep
      rw [hblk_i] at hb2
      cases hb2
      obtain ⟨r3, hh3, hbuf3⟩ := handleBlockFuel_missing_key env ri.blte.data.length ri pre
        name iv (enc ++ post) (ri.blte.offset + blk.CompSize) ri.blockIndex blk hdi ho hn hiv hkey
        hblk_i
      rw [hh3] at hh2
      cases hh2
      have hb : r1.buf = ri.buf := hbuf.trans hbuf3
      refine ⟨ew, ⟨r1, hstep, hb, hw1⟩, ?_⟩
      intro k hk1 hk2
      have hpre := processAllFuel_head env _ r1 rf (ri.blockWriteIdx + blk.DecompSize).toNat hrf
        (by
          intro b hb'
          rw [hsf.1, hs.1] at hb'
          exact hnn b (List.mem_of_mem_drop hb'))
        (by rw [hw1]; omega)
      rw [getD_eq_of_take_eq hpre hk2, hb]
      exact hz k hk1 hk2
    · rename_i r1 hstep
      obtain ⟨_, hend⟩ := processNext_false hstep
      rw [hs.1, hidx] at hend
      omega


/-! ## BLTE: framed containers are accepted -/

theorem readBlockTable_succeeds (hs : Int) (hne : hs ≠ 0) : ∀ (n : Nat) (b : ByteBuf),
    0 ≤ b.offset → b.offset + 24 * (n : Int) ≤ (b.data.length : Int) →
    ∃ blocks b1, readBlockTable hs n b = .ok (blocks, b1) := by
  intro n
  induction n with
  | zero => intro b _ _; exact ⟨[], b, rfl⟩
  | succ n ih =>
    intro b h0 hl
    push_cast at hl
    obtain ⟨blocks, b1, hrest⟩ := ih { b with offset := b.offset + 4 + 4 + 16 }
      (by simp only; omega) (by simp only; omega)
    simp only [readBlockTable, if_pos hne, ByteBuf.ReadInt32BE, ByteBuf.ReadHexString]
    rw [goSlice_of_bounds b.data b.offset (b.offset + 4) h0 (by omega) (by omega)]
    simp only
    rw [goSlice_of_bounds b.data (b.offset + 4) (b.offset + 4 + 4) (by omega) (by omega)
      (by omega)]
    simp only
    rw [goSlice_of_bounds b.data (b.offset + 4 + 4) (b.offset + 4 + 4 + 16) (by omega)
      (by omega) (by omega)]
    simp only [hrest]
    exact ⟨_, _, rfl⟩

theorem goIndex_of_bounds (s : List Nat) (i : Nat) (h : i < s.length) :
    goIndex s (i : Int) = .ok (s.getD i 0) := by
  unfold goIndex
  rw [if_pos ⟨by omega, by omega⟩, Int.toNat_ofNat]

/-- `NewBLTEReader` accepts a container with a well-formed frame header of `n`
blocks when given the MD5 of its first `24 n + 12` bytes. -/
theorem NewBLTEReader_framed_exists (raw : List Nat) (n : Nat) (lenient : Bool)
    (hm : raw.take 4 = [0x42, 0x4C, 0x54, 0x45])
    (hh : declaredHeaderSize raw = 24 * (n : Int) + 12)
    (hf : raw.getD 8 0 = 0x0F) (hn : declaredNumBlocks raw = n) (hn0 : n ≠ 0)
    (hl : 24 * n + 12 ≤ raw.length)
    (hs : 0 ≤ ((tableBlocks raw 12 n).map blteBlock.DecompSize).sum) :
    ∃ r, NewBLTEReader raw (md5Hex (raw.take (24 * n + 12))) lenient = .ok r := by
  have g1 : goSlice raw 0 (0 + 4) = .ok [0x42, 0x4C, 0x54, 0x45] := by
    rw [goSlice_of_bounds raw 0 (0 + 4) (by omega) (by omega) (by omega), ← hm]
    rfl
  have g2 : goSlice raw ((4 : Nat) : Int) (((4 : Nat) : Int) + 4) =
      .ok ((raw.take 8).drop 4) :=
    goSlice_of_bounds raw _ _ (by omega) (by omega) (by push_cast; omega)
  have e2 := slice4_be32 g2
  have g2' : goSlice raw (0 + 4) (0 + 4 + 4) = .ok ((raw.take 8).drop 4) := g2
  have hmagic : ¬ ((0x42 ||| 0x4C <<< 8 ||| 0x54 <<< 16 ||| 0x45 <<< 24 : Nat) ≠ blteMagic) := by
    decide
  have hhs : int32 (((raw.take 8).drop 4).getD 0 0 <<< 24 ||| ((raw.take 8).drop 4).getD 1 0 <<< 16 |||
      ((raw.take 8).drop 4).getD 2 0 <<< 8 ||| ((raw.take 8).drop 4).getD 3 0) =
      24 * (n : Int) + 12 := by
    rw [e2]
    exact hh
  have hpos : (24 * (n : Int) + 12 > 0) := by omega
  have g3 : goSlice raw 0 (24 * (n : Int) + 12) = .ok (raw.take (24 * n + 12)) := by
    have : (24 * (n : Int) + 12).toNat = 24 * n + 12 := by omega
    rw [goSlice_of_bounds raw 0 _ (by omega) (by omega) (by omega), this]
    rfl
  have i0 : goIndex raw (0 + 4 + 4) = .ok 0x0F := by
    have := goIndex_of_bounds raw 8 (by omega)
    rw [hf] at this
    exact this
  have i1 : goIndex raw (0 + 4 + 4 + 1) = .ok (raw.getD 9 0) := goIndex_of_bounds raw 9 (by omega)
  have i2 : goIndex raw (0 + 4 + 4 + 1 + 1) = .ok (raw.getD 10 0) :=
    goIndex_of_bounds raw 10 (by omega)
  have i3 : goIndex raw (0 + 4 + 4 + 1 + 1 + 1) = .ok (raw.getD 11 0) :=
    goIndex_of_bounds raw 11 (by omega)
  have hnum : raw.getD 9 0 <<< 16 ||| raw.getD 10 0 <<< 8 ||| raw.getD 11 0 = n := hn
  obtain ⟨blocks, b5, htab⟩ := readBlockTable_succeeds (24 * (n : Int) + 12) (by omega) n
    { data := raw, offset := 0 + 4 + 4 + 1 + 1 + 1 + 1 } (by simp only; omega)
    (by simp only; omega)
  have htab' := (readBlockTable_table (24 * (n : Int) + 12) (by omega) n 12
    { data := raw, offset := 0 + 4 + 4 + 1 + 1 + 1 + 1 } b5 blocks rfl htab).1
  simp only at htab'
  subst htab'
  unfold NewBLTEReader
  simp only [NewByteBuf, ByteBuf.ByteLength, ByteBuf.ReadUInt32LE, g1, ByteBuf.ReadInt32BE, g2',
    hhs, List.getD_cons_zero, List.getD_cons_succ, ByteBuf.Offset, ByteBuf.Seek, hpos, if_true,
    g3, ne_eq, not_true_eq_false, if_false, readFrameHeader, ByteBuf.ReadUInt8, i0, i1, i2, i3,
    hnum, hn0, or_self, htab]
  rw [if_neg (by omega), if_neg hmagic, if_neg (by omega)]
  rw [if_neg (by omega)]
  simp only [htab]
  unfold goMake
  rw [if_pos hs]
  exact ⟨_, rfl⟩

theorem NewBLTEReader_framed (raw : List Nat) (n : Nat) (lenient : Bool)
    (hm : raw.take 4 = [0x42, 0x4C, 0x54, 0x45])
    (hh : declaredHeaderSize raw = 24 * (n : Int) + 12)
    (hf : raw.getD 8 0 = 0x0F) (hn : declaredNumBlocks raw = n) (hn0 : n ≠ 0)
    (hl : 24 * n + 12 ≤ raw.length)
    (hs : 0 ≤ ((tableBlocks raw 12 n).map blteBlock.DecompSize).sum) :
    NewBLTEReader raw (md5Hex (raw.take (24 * n + 12))) lenient =
      .ok (framedReader raw n lenient) := by
  obtain ⟨r, hr⟩ := NewBLTEReader_framed_exists raw n lenient hm hh hf hn hn0 hl hs
  rw [hr]
  obtain ⟨h1, h2, h3, h4, _, h6, _, h8⟩ := NewBLTEReader_ok hr
  obtain ⟨h9, h10, _⟩ := h8 (by omega)
  rw [hn] at h9
  rw [hh] at h10
  congr 1
  cases r with
  | mk blte buf blocks blockIndex blockWriteIdx len =>
    cases blte with
    | mk data offset =>
      simp only at h1 h2 h3 h4 h6 h9 h10
      subst h1 h2 h3 h4 h9 h10
      rw [h6]
      rfl


theorem skipped_block_range_stays_zero_witness :
    (implicitReader 0x45 encryptedBody true).blockWriteIdx =
        (((implicitReader 0x45 encryptedBody true).blocks.take 0).map blteBlock.DecompSize).sum ∧
      (∃ r1, (implicitReader 0x45 encryptedBody true).processNext emptyEnv = .ok (true, r1) ∧
        r1.buf = (implicitReader 0x45 encryptedBody true).buf ∧
        r1.blockWriteIdx = (implicitReader 0x45 encryptedBody true).blockWriteIdx + 16) ∧
      ∀ k, (implicitReader 0x45 encryptedBody true).blockWriteIdx.toNat ≤ k →
        k < ((implicitReader 0x45 encryptedBody true).blockWriteIdx + 16).toNat →
        (List.replicate 16 0).getD k 0 = 0 :=
  skipped_block_range_stays_zero emptyEnv (implicitHeader ++ 0x45 :: encryptedBody)
    (md5Hex (implicitHeader ++ 0x45 :: encryptedBody))
    (implicitReader 0x45 encryptedBody true) (implicitReader 0x45 encryptedBody true) 0
    { CompSize := 17, DecompSize := 16, Hash := emptyMD5 }
    implicitHeader [1, 2, 3, 4, 5, 6, 7, 8] [9, 9, 9, 9] [0xAB] [] (List.replicate 16 0)
    (NewBLTEReader_implicit 0x45 encryptedBody true) rfl rfl rfl rfl rfl rfl (Or.inl rfl)
    (by decide) (by decide) (by
      intro k _ hk
      have hk16 : k < 16 := hk
      interval_cases k <;> rfl)
    (by decide)

set_option maxRecDepth 100000

/-- C8 as stated fails: in `partial` mode with an empty key ring the container is
accepted and decoded to `[1, 2, 3, 4, 5]`; its second block is encrypted with a
missing key and declares the range `[1, 5)`, which holds the overrun of the first
block instead of zero bytes. -/
theorem skipped_block_range_overrun :
    tableBlocks overrunContainer 12 2 =
        [{ CompSize := 6, DecompSize := 1, Hash := emptyMD5 },
         { CompSize := 17, DecompSize := 4, Hash := emptyMD5 }] ∧
      overrunContainer.drop 66 = encryptedBlock [1, 2, 3, 4, 5, 6, 7, 8] [9, 9, 9, 9] [0xAB] ∧
      decodeBLTE emptyEnv overrunContainer (md5Hex (overrunContainer.take 60)) true =
        .ok [1, 2, 3, 4, 5] := by
  refine ⟨by decide, by decide, ?_⟩
  unfold decodeBLTE
  rw [NewBLTEReader_framed overrunContainer 2 true (by decide) (by decide) (by decide)
    (by decide) (by decide) (by decide) (by decide)]
  decide


/-! ## Salsa20: decryption undoes encryption -/

theorem getBytes_length : ∀ (n : Nat) (s : salsa20), (s.getBytes n).1.length = n := by
  intro n
  induction n with
  | zero => intro s; rfl
  | succ n ih =>
    intro s
    simp only [salsa20.getBytes, List.length_cons, ih]

theorem zipWith_xor_cancel : ∀ (ks x : List Nat), ks.length = x.length →
    List.zipWith (fun k b => k ^^^ b) ks (List.zipWith (fun k b => k ^^^ b) ks x) = x := by
  intro ks
  induction ks with
  | nil =>
    intro x h
    cases x with
    | nil => rfl
    | cons a x => cases h
  | cons k ks ih =>
    intro x h
    cases x with
    | nil => cases h
    | cons a x =>
      simp only [List.zipWith_cons_cons, List.cons.injEq]
      refine ⟨?_, ih x (by simpa using h)⟩
      rw [← Nat.xor_assoc, Nat.xor_self, Nat.zero_xor]

theorem process_length (s : salsa20) (x : List Nat) : (s.process x).1.length = x.length := by
  unfold salsa20.process
  simp only [List.length_zipWith, getBytes_length, Nat.min_self]

/-- Processing twice from the same cipher state gives the input back. -/
theorem process_process (s : salsa20) (x : List Nat) : (s.process (s.process x).1).1 = x := by
  have hl := process_length s x
  unfold salsa20.process at hl ⊢
  simp only at hl ⊢
  rw [hl]
  exact zipWith_xor_cancel _ _ (getBytes_length _ _)

theorem newSalsa20_succeeds (nonce key : List Nat) (h : key.length = 16 ∨ key.length = 32) :
    ∃ s, newSalsa20 nonce key 20 = .ok s := by
  unfold newSalsa20
  rcases h with h | h
  · rw [if_neg (by omega), if_neg (by omega)]
    exact ⟨_, rfl⟩
  · rw [if_pos h]
    exact ⟨_, rfl⟩

theorem salsa20Encrypt_length (nonce key msg : List Nat)
    (h : key.length = 16 ∨ key.length = 32) :
    (salsa20Encrypt nonce key msg).length = msg.length := by
  obtain ⟨s, hs⟩ := newSalsa20_succeeds nonce key h
  unfold salsa20Encrypt
  rw [hs]
  exact process_length s msg

theorem length_four {l : List Nat} (h : l.length = 4) : ∃ a b c d, l = [a, b, c, d] := by
  match l, h with
  | [a, b, c, d], _ => exact ⟨a, b, c, d, rfl⟩

theorem length_eight {l : List Nat} (h : l.length = 8) :
    ∃ a b c d e f g k, l = [a, b, c, d, e, f, g, k] := by
  match l, h with
  | [a, b, c, d, e, f, g, k], _ => exact ⟨a, b, c, d, e, f, g, k, rfl⟩

/-- For block index 0 the nonce is the IV, zero padded. -/
theorem nonce_index_zero (iv : List Nat) (h : iv.length = 4 ∨ iv.length = 8) :
    goCopy (List.replicate 8 0) (xorBlockIndex iv 0) = blockNonce iv := by
  rcases h with h | h
  · obtain ⟨a, b, c, d, rfl⟩ := length_four h
    simp [goCopy, xorBlockIndex, le32Bytes, blockNonce]
  · obtain ⟨a, b, c, d, e, f, g, k, rfl⟩ := length_eight h
    simp [goCopy, xorBlockIndex, le32Bytes, blockNonce]


/-! ## BLTE: an encrypted block whose key is in the ring -/

/-- An encrypted block at index 0 that wraps the raw block `0x4E ‖ p`, handled
with an empty output buffer of `|p|` bytes, writes `p`. -/
theorem handleBlockFuel_encrypted_raw (env : Env) (m : Nat) (r : BLTEReader)
    (pre name iv p K : List Nat) (blockEnd : Int)
    (hd : r.blte.data = pre ++ encryptedBlock name iv (salsa20Encrypt (blockNonce iv) K (0x4E :: p)))
    (ho : r.blte.offset = (pre.length : Int)) (hn : name.length = 8)
    (hiv : iv.length = 4 ∨ iv.length = 8)
    (hkey : GetTACTKey env.tact (ringName name) = K) (hK : K.length = 16 ∨ K.length = 32)
    (he : blockEnd = (r.blte.data.length : Int))
    (hw : r.blockWriteIdx = 0) (hbuf : r.buf = List.replicate p.length 0) :
    ∃ r1, r.handleBlockFuel env (m + 1) blockEnd 0 = .ok r1 ∧ r1.buf = p := by
  obtain ⟨s, hs⟩ := newSalsa20_succeeds (blockNonce iv) K hK
  have henc : salsa20Encrypt (blockNonce iv) K (0x4E :: p) = (s.process (0x4E :: p)).1 := by
    unfold salsa20Encrypt
    rw [hs]
  have hd1 : r.blte.data = pre ++ 0x45 :: 8 :: (name ++ iv.length ::
      (iv ++ 0x53 :: (s.process (0x4E :: p)).1)) := by
    rw [hd, henc]
    rfl
  have k0 := ReadUInt8_at r.blte pre 0x45 _ hd1 ho
  have kd := decryptBlock_at env { r with blte := { r.blte with offset := r.blte.offset + 1 } }
    (pre ++ [0x45]) name iv (s.process (0x4E :: p)).1 blockEnd 0 (by simp [hd1]) (by simp [ho])
    hn hiv
  have hklen : ¬ (K.length = 0) := by omega
  rw [hkey, if_neg hklen, nonce_index_zero iv hiv, hs] at kd
  have k6 : goSlice r.blte.data (r.blte.offset + 1 + 1 + 8 + 1 + (iv.length : Int) + 1) blockEnd =
      .ok (s.process (0x4E :: p)).1 :=
    goSlice_at _ (pre ++ 0x45 :: 8 :: (name ++ iv.length :: (iv ++ [0x53])))
      (s.process (0x4E :: p)).1 [] _ _ (by simp [hd1]) (by simp [ho, hn]; ring)
      (by rw [he, hd1]; simp [hn]; ring)
  simp only at kd
  rw [k6] at kd
  simp only [process_process] at kd
  have hsub : goSlice r.buf r.blockWriteIdx (r.buf.length : Int) = .ok (List.replicate p.length 0) := by
    rw [hw, hbuf]
    exact goSlice_all _
  have hraw := handleBlockFuel_raw env m
    { blte := NewByteBuf (0x4E :: p), buf := List.replicate p.length 0,
      blocks := [{ CompSize := ((p.length + 1 : Nat) : Int),
                   DecompSize := ((p.length + 1 : Nat) : Int), Hash := emptyMD5 }],
      blockIndex := 0, blockWriteIdx := 0, lenient := false }
    ((p.length + 1 : Nat) : Int) 0 (goIndex_at _ [] 0x4E p _ rfl rfl)
  have hin : goSlice (0x4E :: p) (0 + 1) ((p.length + 1 : Nat) : Int) = .ok p :=
    goSlice_at _ [0x4E] p [] _ _ (by simp) (by simp) (by simp; ring)
  have hb0 : goSlice (List.replicate p.length 0) 0 ((List.replicate p.length 0).length : Int) =
      .ok (List.replicate p.length 0) := goSlice_all _
  simp only [BLTEReader.writeBuffer, NewByteBuf, ByteBuf.Offset, hb0, hin, goCopy_zeros,
    Int.toNat_zero, List.take_zero, List.nil_append, ByteBuf.Seek] at hraw
  simp only [BLTEReader.handleBlockFuel, BLTEReader.handleBlockBody, k0, if_true, kd]
  simp only [hsub, List.length_cons, NewByteBuf, hraw]
  refine ⟨_, rfl, ?_⟩
  simp only [hw, Int.toNat_zero, List.take_zero, List.nil_append]


/-- A reader at its last block: one successful `processNext` finishes the
decoding. -/
theorem output_of_last_step (env : Env) (r r1 : BLTEReader)
    (hlast : r.blockIndex + 1 = r.blocks.length)
    (h : r.processNext env = .ok (true, r1)) : r.Output env = .ok r1.buf := by
  obtain ⟨blk, _, hs, hi, _⟩ := processNext_true h
  have hend : r1.processNext env = .ok (false, r1) := by
    unfold BLTEReader.processNext
    rw [if_pos (by rw [hi, hs.1]; exact hlast)]
  unfold BLTEReader.Output BLTEReader.processAll
  have hf : r.blocks.length + 1 = (0 + 1) + 1 + (r.blocks.length - 1) := by omega
  cases hl : r.blocks.length with
  | zero => omega
  | succ k =>
    cases k with
    | zero => simp only [BLTEReader.processAllFuel, h, hend]
    | succ k => simp only [BLTEReader.processAllFuel, h, hend]

/-- `processNext` on a block whose table hash is the sentinel or matches. -/
theorem processNext_of_handleBlock (env : Env) (r r2 : BLTEReader) (blk : blteBlock)
    (block post : List Nat) (pre : List Nat)
    (hblk : r.blocks[r.blockIndex]? = some blk)
    (hd : r.blte.data = pre ++ block ++ post) (ho : r.blte.offset = (pre.length : Int))
    (hc : blk.CompSize = (block.length : Int))
    (hhash : blk.Hash = emptyMD5 ∨ blk.Hash = md5Hex block)
    (hh : r.handleBlockFuel env r.blte.data.length (r.blte.offset + blk.CompSize) r.blockIndex =
      .ok r2) :
    ∃ r1, r.processNext env = .ok (true, r1) ∧ r1.buf = r2.buf := by
  have hlt : r.blockIndex < r.blocks.length := (List.getElem?_eq_some_iff.1 hblk).1
  unfold BLTEReader.processNext
  rw [if_neg (Nat.ne_of_lt hlt), hblk]
  simp only [ByteBuf.Offset, BLTEReader.handleBlock]
  have hsl : goSlice r.blte.data r.blte.offset (r.blte.offset + blk.CompSize) = .ok block :=
    goSlice_at _ pre block post _ _ hd ho (by rw [ho, hc])
  split
  · rename_i e heq
    exfalso
    split at heq
    · rename_i hne
      simp only [ByteBuf.ReadBuffer, hsl, ByteBuf.CalculateMD5HexAll, NewByteBuf] at heq
      split at heq
      · rename_i hmm
        rcases hhash with h | h
        · exact hne h
        · exact hmm h.symm
      · cases heq
    · cases heq
  · rename_i rc heq
    have hrc : rc = r := by
      split at heq
      · simp only [ByteBuf.ReadBuffer, hsl] at heq
        split at heq
        · cases heq
        · cases heq; rfl
      · cases heq; rfl
    subst hrc
    rw [hh]
    exact ⟨_, rfl, rfl⟩


/-- The round trip of an encrypted block under the repository's own cipher. For a
key `K` of 16 or 32 bytes held in the ring under the hex of the 8 name bytes
reversed, an IV of 4 or 8 bytes and any payload `p`, the one-block container
whose block is `0x45, 0x08`, the name, `ivSize`, the IV, `0x53` and the
encryption by `salsa20Encrypt` (key `K`, nonce the zero padded IV, block index 0)
of `0x4E ‖ p`, whose table declares `compSize` the length of the block and
`decompSize = |p|`, decodes to exactly `p`. -/
theorem encrypted_block_round_trip (env : Env) (K name iv p cs ds bh : List Nat)
    (lenient : Bool)
    (hK : K.length = 16 ∨ K.length = 32) (hn : name.length = 8)
    (hiv : iv.length = 4 ∨ iv.length = 8)
    (hring : env.tact.lookup (toLower (ringName name)) = some K)
    (hcs : cs.length = 4) (hds : ds.length = 4) (hbh : bh.length = 16)
    (hcomp : int32 (be32At cs 0) =
      ((encryptedBlock name iv (salsa20Encrypt (blockNonce iv) K (0x4E :: p))).length : Int))
    (hdecomp : int32 (be32At ds 0) = (p.length : Int))
    (hhash : hexEncode bh = emptyMD5 ∨
      hexEncode bh = md5Hex (encryptedBlock name iv (salsa20Encrypt (blockNonce iv) K (0x4E :: p)))) :
    decodeBLTE env
        (framedContainer1 cs ds bh
          (encryptedBlock name iv (salsa20Encrypt (blockNonce iv) K (0x4E :: p))))
        (md5Hex ((framedContainer1 cs ds bh
          (encryptedBlock name iv (salsa20Encrypt (blockNonce iv) K (0x4E :: p)))).take 36))
        lenient = .ok p := by
  obtain ⟨c0, c1, c2, c3, rfl⟩ := length_four hcs
  obtain ⟨d0, d1, d2, d3, rfl⟩ := length_four hds
  generalize hblock : encryptedBlock name iv (salsa20Encrypt (blockNonce iv) K (0x4E :: p)) = block
    at hcomp hhash ⊢
  have hkey : GetTACTKey env.tact (ringName name) = K := by
    unfold GetTACTKey
    rw [hring]
  have hpre : framedContainer1 [c0, c1, c2, c3] [d0, d1, d2, d3] bh block =
      ([0x42, 0x4C, 0x54, 0x45, 0, 0, 0, 36, 0x0F, 0, 0, 1, c0, c1, c2, c3, d0, d1, d2, d3] ++ bh) ++
        block ++ [] := by
    simp [framedContainer1]
  have hprelen : ([0x42, 0x4C, 0x54, 0x45, 0, 0, 0, 36, 0x0F, 0, 0, 1, c0, c1, c2, c3, d0, d1, d2,
      d3] ++ bh).length = 36 := by
    simp [hbh]
  have htable : tableBlocks (framedContainer1 [c0, c1, c2, c3] [d0, d1, d2, d3] bh block) 12 1 =
      [{ CompSize := (block.length : Int), DecompSize := (p.length : Int),
         Hash := hexEncode bh }] := by
    have hb : ((framedContainer1 [c0, c1, c2, c3] [d0, d1, d2, d3] bh block).take 36).drop 20 =
        bh := by
      rw [hpre, List.append_nil, List.take_left' hprelen]
      exact @List.drop_left' Nat [0x42, 0x4C, 0x54, 0x45, 0, 0, 0, 36, 0x0F, 0, 0, 1, c0, c1,
        c2, c3, d0, d1, d2, d3] bh 20 rfl
    rw [tableBlocks_succ]
    simp only [tableBlocks, List.range_zero, List.map_nil, hb]
    rw [← hcomp, ← hdecomp]
    rfl
  have hhs : declaredHeaderSize (framedContainer1 [c0, c1, c2, c3] [d0, d1, d2, d3] bh block) =
      24 * ((1 : Nat) : Int) + 12 := by
    simp only [declaredHeaderSize, be32At, framedContainer1, List.cons_append, List.getD_cons_succ,
      List.getD_cons_zero]
    decide
  have hnb : declaredNumBlocks (framedContainer1 [c0, c1, c2, c3] [d0, d1, d2, d3] bh block) =
      1 := by
    simp only [declaredNumBlocks, framedContainer1, List.cons_append, List.getD_cons_succ,
      List.getD_cons_zero]
    decide
  have hacc : NewBLTEReader (framedContainer1 [c0, c1, c2, c3] [d0, d1, d2, d3] bh block)
      (md5Hex ((framedContainer1 [c0, c1, c2, c3] [d0, d1, d2, d3] bh block).take 36)) lenient =
      .ok (framedReader (framedContainer1 [c0, c1, c2, c3] [d0, d1, d2, d3] bh block) 1 lenient) :=
    NewBLTEReader_framed _ 1 lenient rfl hhs rfl hnb (by decide)
      (by rw [hpre]; simp only [List.length_append, hprelen]; omega)
      (by rw [htable]; simp)
  unfold decodeBLTE
  rw [hacc]
  simp only
  obtain ⟨m, hm⟩ : ∃ m, (framedContainer1 [c0, c1, c2, c3] [d0, d1, d2, d3] bh block).length =
      m + 1 := by
    rw [hpre]
    simp only [List.length_append, hprelen]
    exact ⟨35 + block.length + [].length, by omega⟩
  have hbuf : (framedReader (framedContainer1 [c0, c1, c2, c3] [d0, d1, d2, d3] bh block) 1
      lenient).buf = List.replicate p.length 0 := by
    simp only [framedReader, htable, List.map_cons, List.map_nil, List.sum_cons, List.sum_nil,
      Int.add_zero, Int.toNat_ofNat]
  have hblocks : (framedReader (framedContainer1 [c0, c1, c2, c3] [d0, d1, d2, d3] bh block) 1
      lenient).blocks = [blteBlock.mk (block.length : Int) (p.length : Int) (hexEncode bh)] :=
    htable
  have hdata : (framedReader (framedContainer1 [c0, c1, c2, c3] [d0, d1, d2, d3] bh block) 1
      lenient).blte.data =
      ([0x42, 0x4C, 0x54, 0x45, 0, 0, 0, 36, 0x0F, 0, 0, 1, c0, c1, c2, c3, d0, d1, d2, d3] ++ bh) ++
        block := by
    rw [← List.append_nil (_ ++ block), ← hpre]
    rfl
  have hoff : (framedReader (framedContainer1 [c0, c1, c2, c3] [d0, d1, d2, d3] bh block) 1
      lenient).blte.offset = ((([0x42, 0x4C, 0x54, 0x45, 0, 0, 0, 36, 0x0F, 0, 0, 1, c0, c1, c2,
      c3, d0, d1, d2, d3] ++ bh).length : Nat) : Int) := by
    rw [hprelen]
    rfl
  obtain ⟨r2, hr2, hr2buf⟩ := handleBlockFuel_encrypted_raw env m
    (framedReader (framedContainer1 [c0, c1, c2, c3] [d0, d1, d2, d3] bh block) 1 lenient)
    ([0x42, 0x4C, 0x54, 0x45, 0, 0, 0, 36, 0x0F, 0, 0, 1, c0, c1, c2, c3, d0, d1, d2, d3] ++ bh)
    name iv p K
    ((framedReader (framedContainer1 [c0, c1, c2, c3] [d0, d1, d2, d3] bh block) 1
      lenient).blte.offset + (block.length : Int))
    (by rw [hdata, hblock]) hoff hn hiv hkey hK
    (by simp only [hoff, hdata, List.length_append]; push_cast; ring) rfl hbuf
  obtain ⟨r1, hr1, hr1buf⟩ := processNext_of_handleBlock env
    (framedReader (framedContainer1 [c0, c1, c2, c3] [d0, d1, d2, d3] bh block) 1 lenient) r2
    (blteBlock.mk (block.length : Int) (p.length : Int) (hexEncode bh))
    block []
    ([0x42, 0x4C, 0x54, 0x45, 0, 0, 0, 36, 0x0F, 0, 0, 1, c0, c1, c2, c3, d0, d1, d2, d3] ++ bh)
    (by rw [hblocks]; rfl) (by rw [hdata, List.append_nil]) hoff rfl hhash
    (by
      have : (framedReader (framedContainer1 [c0, c1, c2, c3] [d0, d1, d2, d3] bh block) 1
          lenient).blte.data.length = m + 1 := hm
      rw [this]
      exact hr2)
  rw [output_of_last_step env _ r1 (by rw [hblocks]; rfl) hr1, hr1buf, hr2buf]


theorem encrypted_block_round_trip_witness :
    oneKeyEnv.tact.lookup (toLower (ringName [1, 2, 3, 4, 5, 6, 7, 8])) =
        some (List.replicate 16 7) ∧
      decodeBLTE oneKeyEnv
        (framedContainer1 [0, 0, 0, 18] [0, 0, 0, 1] (List.replicate 16 0)
          (encryptedBlock [1, 2, 3, 4, 5, 6, 7, 8] [9, 9, 9, 9]
            (salsa20Encrypt (blockNonce [9, 9, 9, 9]) (List.replicate 16 7) [0x4E, 120])))
        (md5Hex ((framedContainer1 [0, 0, 0, 18] [0, 0, 0, 1] (List.replicate 16 0)
          (encryptedBlock [1, 2, 3, 4, 5, 6, 7, 8] [9, 9, 9, 9]
            (salsa20Encrypt (blockNonce [9, 9, 9, 9]) (List.replicate 16 7)
              [0x4E, 120]))).take 36))
        false = .ok [120] :=
  ⟨by decide,
    encrypted_block_round_trip oneKeyEnv (List.replicate 16 7) [1, 2, 3, 4, 5, 6, 7, 8]
      [9, 9, 9, 9] [120] [0, 0, 0, 18] [0, 0, 0, 1] (List.replicate 16 0) false
      (Or.inl (by decide)) rfl (Or.inl rfl) (by decide) rfl rfl (by decide)
      (by
        have hl : (encryptedBlock [1, 2, 3, 4, 5, 6, 7, 8] [9, 9, 9, 9]
            (salsa20Encrypt (blockNonce [9, 9, 9, 9]) (List.replicate 16 7) [0x4E, 120])).length =
            18 := by
          have h2 := salsa20Encrypt_length (blockNonce [9, 9, 9, 9]) (List.replicate 16 7)
            [0x4E, 120] (Or.inl (List.length_replicate 16 7))
          simp only [encryptedBlock, List.length_cons, List.length_append, h2, List.length_nil]
        rw [hl]
        decide)
      (by decide) (Or.inl (by decide))⟩


/-! ## BLTE: the recursion fuel is never used up -/

theorem goSlice_not_fuel {s : List Nat} {lo hi : Int} : goSlice s lo hi ≠ .error .fuel := by
  unfold goSlice
  split
  · intro h; cases h
  · intro h; cases h

theorem goIndex_not_fuel {s : List Nat} {i : Int} : goIndex s i ≠ .error .fuel := by
  unfold goIndex
  split
  · intro h; cases h
  · intro h; cases h

theorem ReadUInt8_not_fuel {b : ByteBuf} : b.ReadUInt8 ≠ .error .fuel := by
  unfold ByteBuf.ReadUInt8
  split
  · rename_i e he
    intro h
    cases h
    exact goIndex_not_fuel he
  · intro h; cases h

theorem readKeyNameBytes_not_fuel : ∀ (n : Nat) (b : ByteBuf),
    readKeyNameBytes n b ≠ .error .fuel := by
  intro n
  induction n with
  | zero => intro b h; cases h
  | succ n ih =>
    intro b h
    simp only [readKeyNameBytes, ByteBuf.ReadHexString] at h
    split at h
    · rename_i e he
      split at he
      · rename_i e1 he1
        cases he
        cases h
        exact goSlice_not_fuel he1
      · cases he
    · split at h
      · rename_i e he
        cases h
        exact ih _ he
      · cases h

theorem readKeyNameBytes_offset : ∀ (n : Nat) (b b1 : ByteBuf) (l : List String),
    readKeyNameBytes n b = .ok (l, b1) → b1.offset = b.offset + (n : Int) := by
  intro n
  induction n with
  | zero =>
    intro b b1 l h
    simp only [readKeyNameBytes, Except.ok.injEq, Prod.mk.injEq] at h
    rw [← h.2]
    simp
  | succ n ih =>
    intro b b1 l h
    simp only [readKeyNameBytes] at h
    split at h
    · cases h
    · rename_i h0 bb hb
      split at h
      · cases h
      · rename_i rest b2 hr
        cases h
        rw [ih _ _ _ hr, (ReadHexString_ok hb).2]
        push_cast
        ring

theorem writeBuffer_not_fuel {r : BLTEReader} {blockEnd : Int} :
    r.writeBuffer blockEnd ≠ .error .fuel := by
  unfold BLTEReader.writeBuffer
  split
  · rename_i e he
    intro h
    cases h
    exact goSlice_not_fuel he
  · split
    · rename_i e he
      intro h
      cases h
      exact goSlice_not_fuel he
    · intro h; cases h

theorem newSalsa20_not_fuel {nonce key : List Nat} {rounds : Nat} :
    newSalsa20 nonce key rounds ≠ .error .fuel := by
  intro h
  unfold newSalsa20 at h
  simp only at h
  split at h
  · cases h
  · split at h
    · cases h
    · cases h

/-- `decryptBlock` fails only by a panic. -/
theorem decryptBlock_not_fuel {env : Env} {r : BLTEReader} {blockEnd : Int} {index : Nat} :
    r.decryptBlock env blockEnd index ≠ .error .fuel := by
  intro h
  unfold BLTEReader.decryptBlock at h
  split at h
  · rename_i e he
    cases h
    exact ReadUInt8_not_fuel he
  · split at h
    · cases h
    · split at h
      · rename_i e he
        cases h
        exact readKeyNameBytes_not_fuel _ _ he
      · split at h
        · rename_i e he
          cases h
          exact ReadUInt8_not_fuel he
        · split at h
          · cases h
          · split at h
            · rename_i e he
              cases h
              exact goSlice_not_fuel he
            · simp only at h
              split at h
              · cases h
              · split at h
                · rename_i e he
                  cases h
                  exact ReadUInt8_not_fuel he
                · split at h
                  · cases h
                  · split at h
                    · cases h
                    · split at h
                      · rename_i e he
                        cases h
                        exact newSalsa20_not_fuel he
                      · split at h
                        · rename_i e he
                          cases h
                          exact goSlice_not_fuel he
                        · cases h

/-- What `decryptBlock` decrypts is shorter than the data left at the cursor. -/
theorem decryptBlock_bound {env : Env} {r r1 : BLTEReader} {blockEnd : Int} {index : Nat}
    {dec : List Nat} (h : r.decryptBlock env blockEnd index = .ok (some dec, r1)) :
    0 ≤ r.blte.offset ∧ (dec.length : Int) < (r.blte.data.length : Int) - r.blte.offset := by
  unfold BLTEReader.decryptBlock at h
  split at h
  · cases h
  · rename_i keyNameSize b1 hb1
    obtain ⟨g1, e1⟩ := ReadUInt8_ok hb1
    obtain ⟨p1, _, _⟩ := goIndex_ok g1
    split at h
    · cases h
    · split at h
      · cases h
      · rename_i names b2 hb2
        have o2 := readKeyNameBytes_offset _ _ _ _ hb2
        have d2 := readKeyNameBytes_data _ _ _ _ hb2
        split at h
        · cases h
        · rename_i ivSize b3 hb3
          obtain ⟨_, e3⟩ := ReadUInt8_ok hb3
          split at h
          · cases h
          · split at h
            · cases h
            · simp only at h
              split at h
              · cases h
              · split at h
                · cases h
                · rename_i encryptType b5 hb5
                  obtain ⟨_, e5⟩ := ReadUInt8_ok hb5
                  split at h
                  · cases h
                  · split at h
                    · cases h
                    · split at h
                      · cases h
                      · split at h
                        · cases h
                        · rename_i s hs _ enc henc
                          simp only [Except.ok.injEq, Prod.mk.injEq, Option.some.injEq] at h
                          obtain ⟨hdec, _⟩ := h
                          obtain ⟨q1, q2, q3, _⟩ := goSlice_ok henc
                          have hl := goSlice_length henc
                          have hpl := process_length s enc
                          rw [← hdec, hpl]
                          subst e5
                          subst e3
                          simp only [ByteBuf.Seek, ByteBuf.Offset] at hl q1 q2 q3
                          rw [d2] at q3
                          rw [o2] at hl
                          subst e1
                          simp only at hl q3 ⊢
                          constructor
                          · exact p1
                          · omega

/-- When `handleBlockBody` reports exhausted fuel, it was its recursive call, made
on strictly shorter data. -/
theorem handleBlockBody_fuel {env : Env} {recur : BLTEReader → Int → Nat → Except Fail BLTEReader}
    {r : BLTEReader} {blockEnd : Int} {index : Nat}
    (h : r.handleBlockBody env recur blockEnd index = .error .fuel) :
    ∃ s e i, recur s e i = .error .fuel ∧ s.blte.data.length < r.blte.data.length := by
  unfold BLTEReader.handleBlockBody at h
  split at h
  · rename_i e he
    cases h
    exact absurd he ReadUInt8_not_fuel
  · rename_i flag b1 hb1
    obtain ⟨g1, e1⟩ := ReadUInt8_ok hb1
    obtain ⟨p1, _, _⟩ := goIndex_ok g1
    simp only at h
    split at h
    · split at h
      · rename_i e he
        cases h
        exact absurd he decryptBlock_not_fuel
      · rename_i dec r2 hdec
        obtain ⟨q0, q1⟩ := decryptBlock_bound hdec
        split at h
        · rename_i e he
          cases h
          exact absurd he goSlice_not_fuel
        · split at h
          · rename_i e he
            cases h
            refine ⟨_, _, _, he, ?_⟩
            subst e1
            simp only [NewByteBuf] at q0 q1 ⊢
            omega
          · cases h
      · split at h
        · split at h
          · cases h
          · cases h
        · cases h
    · split at h
      · exact absurd h writeBuffer_not_fuel
      · split at h
        · split at h
          · rename_i e he
            cases h
            exact absurd he goSlice_not_fuel
          · split at h
            · split at h
              · rename_i e he
                cases h
                exact absurd he goSlice_not_fuel
              · cases h
            · exact absurd h writeBuffer_not_fuel
        · cases h

theorem handleBlockFuel_not_fuel (env : Env) : ∀ (fuel : Nat) (r : BLTEReader) (blockEnd : Int)
    (index : Nat), r.blte.data.length ≤ fuel →
    r.handleBlockFuel env fuel blockEnd index ≠ .error .fuel := by
  intro fuel
  induction fuel with
  | zero =>
    intro r blockEnd index hlen h
    obtain ⟨s, e, i, _, hlt⟩ := handleBlockBody_fuel h
    omega
  | succ n ih =>
    intro r blockEnd index hlen h
    obtain ⟨s, e, i, hs, hlt⟩ := handleBlockBody_fuel h
    exact ih s e i (by omega) hs

theorem processNext_not_fuel (env : Env) (r : BLTEReader) :
    r.processNext env ≠ .error .fuel := by
  intro h
  unfold BLTEReader.processNext at h
  split at h
  · cases h
  · split at h
    · cases h
    · simp only at h
      split at h
      · rename_i e he
        cases h
        split at he
        · split at he
          · rename_i e1 he1
            cases he
            unfold ByteBuf.ReadBuffer at he1
            split at he1
            · rename_i e2 he2
              cases he1
              exact goSlice_not_fuel he2
            · cases he1
          · split at he
            · cases he
            · cases he
        · cases he
      · rename_i rc hrc
        split at h
        · rename_i e he
          cases h
          exact handleBlockFuel_not_fuel env _ _ _ _ (le_refl _) he
        · cases h

theorem processAllFuel_not_fuel (env : Env) : ∀ (fuel : Nat) (r : BLTEReader),
    r.blockIndex ≤ r.blocks.length → r.blocks.length < r.blockIndex + fuel →
    r.processAllFuel env fuel ≠ .error .fuel := by
  intro fuel
  induction fuel with
  | zero => intro r hle hf; omega
  | succ n ih =>
    intro r hle hf h
    simp only [BLTEReader.processAllFuel] at h
    split at h
    · rename_i e he
      cases h
      exact processNext_not_fuel env r he
    · rename_i r1 hstep
      obtain ⟨blk, hblk, hs, hi, _⟩ := processNext_true hstep
      have hlt : r.blockIndex < r.blocks.length := (List.getElem?_eq_some_iff.1 hblk).1
      exact ih r1 (by rw [hs.1, hi]; omega) (by rw [hs.1, hi]; omega) h
    · cases h

theorem readBlockTable_not_fuel (hs : Int) : ∀ (n : Nat) (b : ByteBuf),
    readBlockTable hs n b ≠ .error .fuel := by
  intro n
  induction n with
  | zero => intro b h; cases h
  | succ n ih =>
    intro b h
    simp only [readBlockTable, ByteBuf.ReadInt32BE, ByteBuf.ReadHexString] at h
    split at h
    · split at h
      · rename_i e he
        split at he
        · rename_i e1 he1
          cases he
          cases h
          exact goSlice_not_fuel he1
        · cases he
      · split at h
        · rename_i e he
          split at he
          · rename_i e1 he1
            cases he
            cases h
            exact goSlice_not_fuel he1
          · cases he
        · split at h
          · rename_i e he
            split at he
            · rename_i e1 he1
              cases he
              cases h
              exact goSlice_not_fuel he1
            · cases he
          · split at h
            · rename_i e he
              cases h
              exact ih _ he
            · cases h
    · split at h
      · rename_i e he
        cases h
        exact ih _ he
      · cases h

theorem readFrameHeader_not_fuel (hs : Int) (b : ByteBuf) :
    readFrameHeader hs b ≠ .error .fuel := by
  intro h
  unfold readFrameHeader at h
  split at h
  · cases h
  · split at h
    · rename_i e he
      cases h
      exact ReadUInt8_not_fuel he
    · split at h
      · rename_i e he
        cases h
        exact ReadUInt8_not_fuel he
      · split at h
        · rename_i e he
          cases h
          exact ReadUInt8_not_fuel he
        · split at h
          · rename_i e he
            cases h
            exact ReadUInt8_not_fuel he
          · simp only at h
            split at h
            · cases h
            · split at h
              · cases h
              · split at h
                · cases h
                · cases h

theorem NewBLTEReader_not_fuel (raw : List Nat) (hash : String) (lenient : Bool) :
    NewBLTEReader raw hash lenient ≠ .error .fuel := by
  intro h
  unfold NewBLTEReader at h
  simp only [ByteBuf.ReadUInt32LE, ByteBuf.ReadInt32BE] at h
  split at h
  · cases h
  · split at h
    · rename_i e he
      split at he
      · rename_i e1 he1
        cases he
        cases h
        exact goSlice_not_fuel he1
      · cases he
    · split at h
      · cases h
      · split at h
        · rename_i e he
          split at he
          · rename_i e1 he1
            cases he
            cases h
            exact goSlice_not_fuel he1
          · cases he
        · split at h
          · rename_i e he
            cases h
            split at he
            · exact goSlice_not_fuel he
            · cases he
          · split at h
            · cases h
            · split at h
              · rename_i e he
                cases h
                split at he
                · exact readFrameHeader_not_fuel _ _ he
                · cases he
              · split at h
                · rename_i e he
                  cases h
                  exact readBlockTable_not_fuel _ _ _ he
                · split at h
                  · rename_i e he
                    cases h
                    unfold goMake at he
                    split at he
                    · cases he
                    · cases he
                  · cases h

/-- Decoding never ends because the embedding ran out of fuel: every failure is
an `error` returned by `NewBLTEReader` or a panic. -/
theorem decodeBLTE_not_fuel (env : Env) (raw : List Nat) (hash : String) (lenient : Bool) :
    decodeBLTE env raw hash lenient ≠ .error .fuel := by
  intro h
  unfold decodeBLTE at h
  split at h
  · rename_i e he
    cases h
    exact NewBLTEReader_not_fuel raw hash lenient he
  · rename_i r hr
    obtain ⟨_, hi, _⟩ := NewBLTEReader_ok hr
    unfold BLTEReader.Output at h
    split at h
    · rename_i e he
      cases h
      exact processAllFuel_not_fuel env _ r (by rw [hi]; omega) (by rw [hi]; omega) he
    · cases h

/-! ## BLTE: the header hash check -/

theorem hexByte_lowercase (b : Nat) : ∀ c ∈ hexByte b, c ∈ "0123456789abcdef".data := by
  intro c hc
  unfold hexByte at hc
  have key : ∀ i : Nat, "0123456789abcdef".data.getD i '0' ∈ "0123456789abcdef".data := by
    intro i
    by_cases hi : i < 16
    · interval_cases i <;> decide
    · rw [List.getD_eq_default _ _ (by simpa using hi)]
      decide
  simp only [List.mem_cons, List.mem_singleton, List.not_mem_nil, or_false] at hc
  rcases hc with hc | hc
  · rw [hc]; exact key _
  · rw [hc]; exact key _

theorem hexEncode_lowercase (d : List Nat) :
    ∀ c ∈ (hexEncode d).data, c ∈ "0123456789abcdef".data := by
  intro c hc
  unfold hexEncode at hc
  simp only [List.mem_flatMap] at hc
  obtain ⟨b, _, hb⟩ := hc
  exact hexByte_lowercase b c hb

theorem ReadUInt32LE_start (raw : List Nat) (h : 8 ≤ raw.length) :
    ∃ v, (NewByteBuf raw).ReadUInt32LE = .ok (v, { data := raw, offset := 4 }) := by
  unfold ByteBuf.ReadUInt32LE NewByteBuf
  simp only
  rw [goSlice_of_bounds raw 0 (0 + 4) (by decide) (by decide) (by simp; omega)]
  exact ⟨_, rfl⟩

theorem ReadInt32BE_at4 (raw : List Nat) (h : 8 ≤ raw.length) :
    ({ data := raw, offset := 4 } : ByteBuf).ReadInt32BE =
      .ok (declaredHeaderSize raw, { data := raw, offset := 8 }) := by
  have hb : goSlice raw ((4 : Nat) : Int) (((4 : Nat) : Int) + 4) =
      .ok ((raw.take ((((4 : Nat) : Int) + 4).toNat)).drop (((4 : Nat) : Int)).toNat) :=
    goSlice_of_bounds raw _ _ (by decide) (by decide) (by simp; omega)
  have e := slice4_be32 hb
  unfold ByteBuf.ReadInt32BE
  simp only
  have hb' : goSlice raw 4 (4 + 4) =
      .ok ((raw.take ((((4 : Nat) : Int) + 4).toNat)).drop (((4 : Nat) : Int)).toNat) := hb
  rw [hb']
  simp only
  unfold declaredHeaderSize
  rw [← e]
  rfl

/-- The bytes `NewBLTEReader` hashes: the first `headerSize` bytes when
`headerSize > 0`, the whole container otherwise. -/
theorem NewBLTEReader_bad_md5 (raw : List Nat) (hash : String) (lenient : Bool)
    (hsz : declaredHeaderSize raw ≤ (raw.length : Int))
    (hne : hash ≠ md5Hex (if 0 < declaredHeaderSize raw
      then raw.take (declaredHeaderSize raw).toNat else raw)) :
    ∃ msg, NewBLTEReader raw hash lenient = .error (.error msg) := by
  unfold NewBLTEReader
  simp only
  by_cases h8 : (NewByteBuf raw).ByteLength < 8
  · rw [if_pos h8]
    exact ⟨_, rfl⟩
  · rw [if_neg h8]
    have hlen : 8 ≤ raw.length := by
      unfold ByteBuf.ByteLength NewByteBuf at h8
      simp only at h8
      omega
    obtain ⟨v, hv⟩ := ReadUInt32LE_start raw hlen
    rw [hv]
    simp only
    by_cases hm : v ≠ blteMagic
    · rw [if_pos hm]
      exact ⟨_, rfl⟩
    · rw [if_neg hm, ReadInt32BE_at4 raw hlen]
      simp only
      by_cases hpos : declaredHeaderSize raw > 0
      · rw [if_pos hpos] at hne
        rw [if_pos hpos, goSlice_of_bounds raw 0 _ (le_refl _) (le_of_lt hpos) hsz]
        simp only [Int.toNat_zero, List.drop_zero]
        rw [if_pos (fun h => hne h.symm)]
        exact ⟨_, rfl⟩
      · rw [if_neg hpos] at hne
        rw [if_neg hpos]
        simp only
        rw [if_pos (fun h => hne h.symm)]
        exact ⟨_, rfl⟩

/-- C11. `NewBLTEReader(raw, hash, partial)` returns an error, with no reader and
so before any block is read, whenever `hash` differs from the lowercase hex MD5
of the first `headerSize` bytes of `raw` (for `headerSize > 0`, those bytes being
there) or of all of `raw` (for `headerSize == 0`); when it returns a reader,
which then stands before block 0, `hash` equals that MD5, a string of lowercase
hex digits. -/
theorem newBLTEReader_checks_header_md5 (raw : List Nat) (hash : String) (lenient : Bool) :
    (0 < declaredHeaderSize raw → declaredHeaderSize raw ≤ (raw.length : Int) →
      hash ≠ md5Hex (raw.take (declaredHeaderSize raw).toNat) →
      ∃ msg, NewBLTEReader raw hash lenient = .error (.error msg)) ∧
    (declaredHeaderSize raw = 0 → hash ≠ md5Hex raw →
      ∃ msg, NewBLTEReader raw hash lenient = .error (.error msg)) ∧
    (∀ r, NewBLTEReader raw hash lenient = .ok r →
      r.blockIndex = 0 ∧
      (0 < declaredHeaderSize raw → hash = md5Hex (raw.take (declaredHeaderSize raw).toNat)) ∧
      (declaredHeaderSize raw = 0 → hash = md5Hex raw)) ∧
    (∀ d : List Nat, ∀ c ∈ (md5Hex d).data, c ∈ "0123456789abcdef".data) := by
  refine ⟨?_, ?_, ?_, ?_⟩
  · intro hpos hsz hne
    apply NewBLTEReader_bad_md5 raw hash lenient hsz
    rw [if_pos hpos]
    exact hne
  · intro h0 hne
    apply NewBLTEReader_bad_md5 raw hash lenient (by rw [h0]; exact Int.natCast_nonneg _)
    rw [if_neg (by omega)]
    exact hne
  · intro r hr
    obtain ⟨_, hi, _, _, _, _, hz, hp⟩ := NewBLTEReader_ok hr
    exact ⟨hi, fun h => (hp h).2.2.2.2.2.2, fun h => (hz h).2.2⟩
  · intro d
    exact hexEncode_lowercase (md5Sum d)

/-! ## BLTE: the integrity check of a block -/

theorem integrity_message (a b : String) :
    isIntegrityError (.panic ("BLTEIntegrityError: expected " ++ a ++ ", got " ++ b)) := by
  unfold isIntegrityError
  simp only [String.data_append, List.append_assoc]
  rfl

theorem blockFault_not_integrity {e : Fail} (h : isBlockFault e) : ¬ isIntegrityError e := by
  rcases h with h | h | h | h | h <;> subst h <;> unfold isIntegrityError <;> decide

theorem goSlice_fault {s : List Nat} {lo hi : Int} {e : Fail} (h : goSlice s lo hi = .error e) :
    isBlockFault e := by
  unfold goSlice at h
  split at h
  · cases h
  · cases h
    exact Or.inr (Or.inr (Or.inl rfl))

theorem goIndex_fault {s : List Nat} {i : Int} {e : Fail} (h : goIndex s i = .error e) :
    isBlockFault e := by
  unfold goIndex at h
  split at h
  · cases h
  · cases h
    exact Or.inr (Or.inl rfl)

theorem ReadUInt8_fault {b : ByteBuf} {e : Fail} (h : b.ReadUInt8 = .error e) :
    isBlockFault e := by
  unfold ByteBuf.ReadUInt8 at h
  split at h
  · rename_i e1 he
    cases h
    exact goIndex_fault he
  · cases h

theorem readKeyNameBytes_fault : ∀ (n : Nat) (b : ByteBuf) (e : Fail),
    readKeyNameBytes n b = .error e → isBlockFault e := by
  intro n
  induction n with
  | zero => intro b e h; cases h
  | succ n ih =>
    intro b e h
    simp only [readKeyNameBytes, ByteBuf.ReadHexString] at h
    split at h
    · rename_i e0 he
      split at he
      · rename_i e1 he1
        cases he
        cases h
        exact goSlice_fault he1
      · cases he
    · split at h
      · rename_i e0 he
        cases h
        exact ih _ _ he
      · cases h

theorem writeBuffer_fault {r : BLTEReader} {blockEnd : Int} {e : Fail}
    (h : r.writeBuffer blockEnd = .error e) : isBlockFault e := by
  unfold BLTEReader.writeBuffer at h
  split at h
  · rename_i e0 he
    cases h
    exact goSlice_fault he
  · split at h
    · rename_i e0 he
      cases h
      exact goSlice_fault he
    · cases h

theorem newSalsa20_fault {nonce key : List Nat} {rounds : Nat} {e : Fail}
    (h : newSalsa20 nonce key rounds = .error e) : isBlockFault e := by
  unfold newSalsa20 at h
  simp only at h
  split at h
  · cases h
  · split at h
    · cases h
      exact Or.inr (Or.inr (Or.inr (Or.inl rfl)))
    · cases h

theorem decryptBlock_fault {env : Env} {r : BLTEReader} {blockEnd : Int} {index : Nat}
    {e : Fail} (h : r.decryptBlock env blockEnd index = .error e) : isBlockFault e := by
  unfold BLTEReader.decryptBlock at h
  split at h
  · rename_i e0 he
    cases h
    exact ReadUInt8_fault he
  · split at h
    · cases h
    · split at h
      · rename_i e0 he
        cases h
        exact readKeyNameBytes_fault _ _ _ he
      · split at h
        · rename_i e0 he
          cases h
          exact ReadUInt8_fault he
        · split at h
          · cases h
          · split at h
            · rename_i e0 he
              cases h
              exact goSlice_fault he
            · simp only at h
              split at h
              · cases h
              · split at h
                · rename_i e0 he
                  cases h
                  exact ReadUInt8_fault he
                · split at h
                  · cases h
                  · split at h
                    · cases h
                    · split at h
                      · rename_i e0 he
                        cases h
                        exact newSalsa20_fault he
                      · split at h
                        · rename_i e0 he
                          cases h
                          exact goSlice_fault he
                        · cases h

theorem handleBlockBody_fault {env : Env}
    {recur : BLTEReader → Int → Nat → Except Fail BLTEReader}
    (hrec : ∀ s b i e, recur s b i = .error e → isBlockFault e)
    {r : BLTEReader} {blockEnd : Int} {index : Nat} {e : Fail}
    (h : r.handleBlockBody env recur blockEnd index = .error e) : isBlockFault e := by
  unfold BLTEReader.handleBlockBody at h
  split at h
  · rename_i e0 he
    cases h
    exact ReadUInt8_fault he
  · simp only at h
    split at h
    · split at h
      · rename_i e0 he
        cases h
        exact decryptBlock_fault he
      · split at h
        · rename_i e0 he
          cases h
          exact goSlice_fault he
        · split at h
          · rename_i e0 he
            cases h
            exact hrec _ _ _ _ he
          · cases h
      · split at h
        · split at h
          · cases h
            exact Or.inr (Or.inl rfl)
          · cases h
        · cases h
    · split at h
      · exact writeBuffer_fault h
      · split at h
        · split at h
          · rename_i e0 he
            cases h
            exact goSlice_fault he
          · split at h
            · split at h
              · rename_i e0 he
                cases h
                exact goSlice_fault he
              · cases h
            · exact writeBuffer_fault h
        · cases h
          exact Or.inr (Or.inr (Or.inr (Or.inr rfl)))

theorem handleBlockFuel_fault (env : Env) : ∀ (fuel : Nat) (r : BLTEReader) (blockEnd : Int)
    (index : Nat) (e : Fail), r.handleBlockFuel env fuel blockEnd index = .error e →
    isBlockFault e := by
  intro fuel
  induction fuel with
  | zero =>
    intro r blockEnd index e h
    refine handleBlockBody_fault ?_ h
    intro s b i e1 h1
    cases h1
    exact Or.inl rfl
  | succ n ih =>
    intro r blockEnd index e h
    exact handleBlockBody_fault (fun s b i e1 h1 => ih s b i e1 h1) h

/-- C12. For the block `processNext` stands before: when its table hash is not
the all-zero sentinel (and its `compSize` bytes are there to be hashed), the call
fails with an integrity error if and only if the MD5 of those `compSize` bytes,
mode byte included, differs from the table hash, and the error then names both
hashes; when the table hash is the sentinel the result is that of handling the
block, with no hash taken and no integrity error. -/
theorem block_integrity_error_iff (env : Env) (r : BLTEReader) (blk : blteBlock)
    (hidx : r.blockIndex ≠ r.blocks.length ∧ r.blocks[r.blockIndex]? = some blk) :
    (∀ d, blk.Hash ≠ emptyMD5 →
      goSlice r.blte.data r.blte.offset (r.blte.offset + blk.CompSize) = .ok d →
      ((∃ e, r.processNext env = .error e ∧ isIntegrityError e) ↔ md5Hex d ≠ blk.Hash) ∧
      (md5Hex d ≠ blk.Hash → r.processNext env =
        .error (.panic ("BLTEIntegrityError: expected " ++ blk.Hash ++ ", got " ++ md5Hex d)))) ∧
    (blk.Hash = emptyMD5 →
      (¬ ∃ e, r.processNext env = .error e ∧ isIntegrityError e) ∧
      r.processNext env =
        match r.handleBlock env (r.blte.offset + blk.CompSize) r.blockIndex with
        | .error e => .error e
        | .ok r2 => .ok (true, { r2 with blte := r2.blte.Seek (r.blte.offset + blk.CompSize),
                                         blockIndex := r2.blockIndex + 1,
                                         blockWriteIdx := r.blockWriteIdx + blk.DecompSize })) := by
  obtain ⟨hne, hblk⟩ := hidx
  constructor
  · intro d hh hd
    have hbad : md5Hex d ≠ blk.Hash → r.processNext env =
        .error (.panic ("BLTEIntegrityError: expected " ++ blk.Hash ++ ", got " ++ md5Hex d)) := by
      intro hm
      unfold BLTEReader.processNext
      rw [if_neg hne, hblk]
      simp only [ByteBuf.ReadBuffer, ByteBuf.Offset, hd, if_pos hh, ByteBuf.CalculateMD5HexAll,
        NewByteBuf, if_pos hm]
    refine ⟨⟨?_, ?_⟩, hbad⟩
    · rintro ⟨e, he, hi⟩ hm
      unfold BLTEReader.processNext at he
      rw [if_neg hne, hblk] at he
      simp only [ByteBuf.ReadBuffer, ByteBuf.Offset, hd, if_pos hh, ByteBuf.CalculateMD5HexAll,
        NewByteBuf, hm, ne_eq, not_true_eq_false, if_false] at he
      split at he
      · rename_i e0 he0
        cases he
        exact blockFault_not_integrity (handleBlockFuel_fault env _ _ _ _ _ he0) hi
      · cases he
    · intro hm
      exact ⟨_, hbad hm, integrity_message _ _⟩
  · intro hh
    have heq : r.processNext env =
        match r.handleBlock env (r.blte.offset + blk.CompSize) r.blockIndex with
        | .error e => .error e
        | .ok r2 => .ok (true, { r2 with blte := r2.blte.Seek (r.blte.offset + blk.CompSize),
                                         blockIndex := r2.blockIndex + 1,
                                         blockWriteIdx := r.blockWriteIdx + blk.DecompSize }) := by
      unfold BLTEReader.processNext
      rw [if_neg hne, hblk]
      simp only [hh, ne_eq, not_true_eq_false, if_false, ByteBuf.Offset]
    refine ⟨?_, heq⟩
    rintro ⟨e, he, hi⟩
    rw [heq] at he
    split at he
    · rename_i e0 he0
      cases he
      exact blockFault_not_integrity (handleBlockFuel_fault env _ _ _ _ _ he0) hi
    · cases he

theorem block_integrity_error_iff_witness :
    ((∃ e, (hashedReader "00").processNext emptyEnv = .error e ∧ isIntegrityError e) ↔
      md5Hex [0x4E] ≠ "00") :=
  ((block_integrity_error_iff emptyEnv (hashedReader "00")
    { CompSize := 1, DecompSize := 0, Hash := "00" } ⟨by decide, rfl⟩).1 [0x4E]
    (by decide) (by decide)).1

/-! ## Salsa20: starting again from counter 0 -/

theorem getBytes_keeps : ∀ (n : Nat) (s : salsa20),
    (s.getBytes n).2.rounds = s.rounds ∧ (s.getBytes n).2.sigma = s.sigma ∧
      (s.getBytes n).2.keyWords = s.keyWords ∧ (s.getBytes n).2.nonceWords = s.nonceWords := by
  intro n
  induction n with
  | zero => intro s; exact ⟨rfl, rfl, rfl, rfl⟩
  | succ n ih =>
    intro s
    simp only [salsa20.getBytes]
    have key : ∀ u : Nat, (({ s.generateBlock.increment with blockUsed := u } : salsa20).rounds
          = s.rounds) ∧
        (({ s.generateBlock.increment with blockUsed := u } : salsa20).sigma = s.sigma) ∧
        (({ s.generateBlock.increment with blockUsed := u } : salsa20).keyWords = s.keyWords) ∧
        (({ s.generateBlock.increment with blockUsed := u } : salsa20).nonceWords
          = s.nonceWords) := by
      intro u
      unfold salsa20.increment salsa20.generateBlock
      simp only
      split <;> exact ⟨rfl, rfl, rfl, rfl⟩
    by_cases h : s.blockUsed = 64
    · rw [if_pos h]
      exact ⟨(ih _).1.trans (key _).1, (ih _).2.1.trans (key _).2.1,
        (ih _).2.2.1.trans (key _).2.2.1, (ih _).2.2.2.trans (key _).2.2.2⟩
    · rw [if_neg h]
      exact ih _

theorem getBytes_sameCipher {s t : salsa20} (h : s.sameCipher t) (h64 : s.blockUsed = 64)
    (n : Nat) : (s.getBytes n).1 = (t.getBytes n).1 := by
  cases n with
  | zero => rfl
  | succ n =>
    obtain ⟨h1, h2, h3, h4, h5, h6⟩ := h
    have ht : t.blockUsed = 64 := by rw [← h6, h64]
    have e : s.generateBlock.increment = t.generateBlock.increment := by
      unfold salsa20.increment salsa20.generateBlock salsa20.inputWords
      simp only [h1, h2, h3, h4, h5, h6]
    simp only [salsa20.getBytes, if_pos h64, if_pos ht]
    rw [e]

theorem newSalsa20_fresh {nonce key : List Nat} {rounds : Nat} {s : salsa20}
    (h : newSalsa20 nonce key rounds = .ok s) : s.counter = [0, 0] ∧ s.blockUsed = 64 := by
  unfold newSalsa20 at h
  simp only at h
  split at h
  · cases h
    exact ⟨rfl, rfl⟩
  · split at h
    · cases h
    · cases h
      exact ⟨rfl, rfl⟩

theorem process_after_reset (s : salsa20) (hc : s.counter = [0, 0]) (hu : s.blockUsed = 64)
    (x y : List Nat) : (((s.process x).2.reset).process y).1 = (s.process y).1 := by
  unfold salsa20.process
  simp only
  obtain ⟨a, b, c, d⟩ := getBytes_keeps x.length s
  rw [getBytes_sameCipher (s := (s.getBytes x.length).2.reset) (t := s)
    ⟨a, b, c, d, by rw [hc]; rfl, by rw [hu]; rfl⟩ rfl]

/-- C13. Salsa20 invertibility: for every key of 16 or 32 bytes, every nonce and
every number of rounds, `newSalsa20` returns a cipher, and for every buffer `x`
applying `process` to `process(x)` returns `x`, whether the second application
is made by a fresh instance with the same key and nonce or by the same instance
after `reset()`. -/
theorem salsa20_process_inverts (nonce key : List Nat) (rounds : Nat)
    (hk : key.length = 16 ∨ key.length = 32) :
    ∃ s, newSalsa20 nonce key rounds = .ok s ∧ ∀ x : List Nat,
      (s.process (s.process x).1).1 = x ∧
      (((s.process x).2.reset).process (s.process x).1).1 = x := by
  have hex : ∃ s, newSalsa20 nonce key rounds = .ok s := by
    unfold newSalsa20
    rcases hk with h | h
    · rw [if_neg (by omega), if_neg (by omega)]
      exact ⟨_, rfl⟩
    · rw [if_pos h]
      exact ⟨_, rfl⟩
  obtain ⟨s, hs⟩ := hex
  obtain ⟨hc, hu⟩ := newSalsa20_fresh hs
  refine ⟨s, hs, fun x => ⟨process_process s x, ?_⟩⟩
  rw [process_after_reset s hc hu]
  exact process_process s x

theorem salsa20_process_inverts_witness :
    ∃ s, newSalsa20 [1, 2, 3, 4, 5, 6, 7, 8] (List.replicate 16 7) 20 = .ok s ∧
      ∀ x : List Nat, (s.process (s.process x).1).1 = x ∧
        (((s.process x).2.reset).process (s.process x).1).1 = x :=
  salsa20_process_inverts [1, 2, 3, 4, 5, 6, 7, 8] (List.replicate 16 7) 20 (Or.inl rfl)

/-! ## Salsa20: the code against the specification -/

theorem salsaLoopBody_eq_spec : salsaLoopBody = specDoubleRound := by
  funext w
  rfl

theorem generateBlock_spec (s : salsa20) (ctr : Nat) (hr : s.rounds = 20)
    (hc : s.counter = ctrWords ctr) :
    s.generateBlock.block = specCore (specState s.sigma s.keyWords s.nonceWords ctr) := by
  have hj : s.inputWords = specState s.sigma s.keyWords s.nonceWords ctr := by
    unfold salsa20.inputWords specState
    rw [hc]
    rfl
  unfold salsa20.generateBlock specCore
  simp only [hr, hj, salsaLoopBody_eq_spec]
  rfl

theorem increment_spec (s : salsa20) (ctr : Nat) (hc : s.counter = ctrWords ctr) :
    s.increment.counter = ctrWords (ctr + 1) ∧ s.increment.block = s.block ∧
      s.increment.rounds = s.rounds ∧ s.increment.sigma = s.sigma ∧
      s.increment.keyWords = s.keyWords ∧ s.increment.nonceWords = s.nonceWords := by
  unfold salsa20.increment
  rw [hc]
  simp only [ctrWords, List.getD_cons_zero, List.getD_cons_succ]
  split
  · rename_i h
    refine ⟨?_, rfl, rfl, rfl, rfl, rfl⟩
    simp only [List.cons.injEq, and_true]
    constructor <;> omega
  · rename_i h
    refine ⟨?_, rfl, rfl, rfl, rfl, rfl⟩
    simp only [List.cons.injEq, and_true]
    constructor <;> omega

theorem getBytes_stream (c k nn : List Nat) : ∀ (n : Nat) (s : salsa20) (p : Nat),
    s.atPosition c k nn p →
    (s.getBytes n).1 = (List.range n).map
      (fun i => (specCore (specState c k nn ((p + i) / 64))).getD ((p + i) % 64) 0) ∧
    (s.getBytes n).2.atPosition c k nn (p + n) := by
  intro n
  induction n with
  | zero =>
    intro s p h
    exact ⟨rfl, h⟩
  | succ n ih =>
    intro s p h
    obtain ⟨h1, h2, h3, h4, h5, h6⟩ := h
    rw [List.range_succ_eq_map]
    simp only [salsa20.getBytes, List.map_cons, List.map_map, Nat.add_zero]
    rcases h6 with ⟨hu, hp⟩ | ⟨hu, hp, hb⟩
    · rw [if_pos hu]
      have hg := generateBlock_spec s ((p + 63) / 64) h1 h5
      have hk : s.generateBlock.counter = ctrWords ((p + 63) / 64) := h5
      obtain ⟨i1, i2, i3, i4, i5, i6⟩ := increment_spec s.generateBlock ((p + 63) / 64) hk
      have e63 : (p + 63) / 64 = p / 64 := by omega
      have hnext : salsa20.atPosition c k nn
          { s.generateBlock.increment with blockUsed := 0 + 1 } (p + 1) := by
        refine ⟨i3.trans h1, ?_, ?_, ?_, ?_, Or.inr ⟨?_, ?_, ?_⟩⟩
        · rw [← h2]; exact i4
        · rw [← h3]; exact i5
        · rw [← h4]; exact i6
        · rw [i1]
          congr 1
          omega
        · simp only
          omega
        · omega
        · show s.generateBlock.increment.block = _
          rw [i2, hg, h2, h3, h4, e63]
          congr 2
          omega
      obtain ⟨r1, r2⟩ := ih _ (p + 1) hnext
      constructor
      · simp only
        rw [r1]
        refine congrArg₂ List.cons ?_ ?_
        · show s.generateBlock.increment.block.getD 0 0 = _
          rw [i2, hg, h2, h3, h4, e63, hp]
        · apply List.map_congr_left
          intro i _
          simp only [Function.comp]
          rw [show p + 1 + i = p + (i + 1) by omega]
      · simp only
        rw [show p + (n + 1) = p + 1 + n by omega]
        exact r2
    · have hu64 : s.blockUsed ≠ 64 := by omega
      rw [if_neg hu64]
      have hnext : salsa20.atPosition c k nn
          { s with blockUsed := s.blockUsed + 1 } (p + 1) := by
        refine ⟨h1, h2, h3, h4, ?_, ?_⟩
        · show s.counter = _
          rw [h5]
          congr 1
          omega
        · by_cases he : p % 64 + 1 = 64
          · left
            simp only
            constructor <;> omega
          · right
            refine ⟨?_, ?_, ?_⟩
            · simp only
              omega
            · omega
            · show s.block = _
              rw [hb]
              congr 2
              omega
      obtain ⟨r1, r2⟩ := ih _ (p + 1) hnext
      constructor
      · rw [r1]
        refine congrArg₂ List.cons ?_ ?_
        · rw [hb, hu]
        · apply List.map_congr_left
          intro i _
          simp only [Function.comp]
          rw [show p + 1 + i = p + (i + 1) by omega]
      · rw [show p + (n + 1) = p + 1 + n by omega]
        exact r2

theorem newSalsa20_atPosition {nonce key : List Nat} {s : salsa20}
    (h : newSalsa20 nonce key 20 = .ok s) :
    s.atPosition s.sigma s.keyWords s.nonceWords 0 := by
  unfold newSalsa20 at h
  simp only at h
  split at h
  · cases h
    exact ⟨rfl, rfl, rfl, rfl, rfl, Or.inl ⟨rfl, rfl⟩⟩
  · split at h
    · cases h
    · cases h
      exact ⟨rfl, rfl, rfl, rfl, rfl, Or.inl ⟨rfl, rfl⟩⟩

theorem getBytes_fresh {nonce key : List Nat} {s : salsa20}
    (h : newSalsa20 nonce key 20 = .ok s) (n : Nat) :
    (s.getBytes n).1 = specStream s.sigma s.keyWords s.nonceWords n := by
  rw [(getBytes_stream _ _ _ n s 0 (newSalsa20_atPosition h)).1]
  unfold specStream
  simp only [Nat.zero_add]

/-- C30. `generateBlock` with `rounds = 20` computes the Salsa20 core of the
specification on the state `(c0, k0..k3, c1, n0, n1, ctr_lo, ctr_hi, c2, k4..k7, c3)`:
the loop body is one double round (a column round, then a row round, of the
quarter-round with rotations 7, 9, 13, 18), run ten times, followed by word-wise
addition of the input state modulo 2^32 and serialisation as 16 little-endian
words; `increment` adds one to the 64-bit counter with carry from the low into
the high word; and byte `i` of the keystream of a fresh cipher is byte `i mod 64`
of the block with counter `i / 64`. -/
theorem generateBlock_is_salsa20_core :
    (∀ w, salsaLoopBody w = specRowRound (specColumnRound w)) ∧
    (∀ (s : salsa20) (ctr : Nat), s.rounds = 20 → s.counter = ctrWords ctr →
      s.generateBlock.block = specCore (specState s.sigma s.keyWords s.nonceWords ctr) ∧
      s.generateBlock.increment.counter = ctrWords (ctr + 1)) ∧
    (∀ (nonce key : List Nat) (s : salsa20) (n : Nat), newSalsa20 nonce key 20 = .ok s →
      s.counter = ctrWords 0 ∧
      (s.getBytes n).1 = (List.range n).map fun i =>
        (specCore (specState s.sigma s.keyWords s.nonceWords (i / 64))).getD (i % 64) 0) := by
  refine ⟨?_, ?_, ?_⟩
  · intro w
    rw [salsaLoopBody_eq_spec]
    rfl
  · intro s ctr hr hc
    exact ⟨generateBlock_spec s ctr hr hc, (increment_spec s.generateBlock ctr hc).1⟩
  · intro nonce key s n h
    exact ⟨(newSalsa20_fresh h).1, getBytes_fresh h n⟩


theorem goCopy_key16 (key : List Nat) (h : key.length = 16) :
    (goCopy (List.replicate 32 0) key).take 16 ++
      goCopy ((goCopy (List.replicate 32 0) key).drop 16) key = key ++ key := by
  have e1 : goCopy (List.replicate 32 0) key = key ++ List.replicate 16 0 := by
    unfold goCopy
    rw [List.length_replicate, List.take_of_length_le (by omega), h]
    rfl
  rw [e1, List.take_left' h, List.drop_left' h]
  unfold goCopy
  rw [List.length_replicate, List.take_of_length_le (by omega), h]
  simp

theorem newSalsa20_schedule (nonce key : List Nat) (h : key.length = 16 ∨ key.length = 32) :
    ∃ s, newSalsa20 nonce key 20 = .ok s ∧ s.sigma = refConstants (48 - key.length) ∧
      s.keyWords = refKeyWords key ∧ s.nonceWords = [le32At nonce 0, le32At nonce 4] := by
  unfold newSalsa20
  simp only
  rcases h with h | h
  · rw [if_neg (by omega), if_neg (by omega)]
    refine ⟨_, rfl, ?_, ?_, rfl⟩
    · rw [h]
      show [1634760805, 857760878, 2036477234, 1797285236] = refConstants (48 - 16)
      decide
    · simp only
      rw [goCopy_key16 key h]
      unfold refKeyWords
      rw [if_neg (by omega)]
  · rw [if_pos h]
    refine ⟨_, rfl, ?_, ?_, rfl⟩
    · rw [h]
      show [1634760805, 824206446, 2036477238, 1797285236] = refConstants (48 - 32)
      decide
    · unfold refKeyWords
      rw [if_pos h]

set_option maxRecDepth 1000000 in
/-- C14. What `process` computes on a fresh instance is the buffer XOR the
keystream of the specification run with the constants of the other key length:
`expand 16-byte k` for a 32-byte key and `expand 32-byte k` for a 16-byte key
(`refConstants (48 - len(key))`), the key words and the nonce being those of the
reference cipher. On the first test vector of the ECRYPT project (256-bit key
`80 00 .. 00`, zero IV) the reference cipher gives the published keystream
`e3 be 8f dd ..` and `process` gives `f6 27 93 13 ..`. -/
theorem salsa20_constants_swapped :
    (∀ nonce key buf : List Nat, key.length = 16 ∨ key.length = 32 →
      ∃ s, newSalsa20 nonce key 20 = .ok s ∧
        (s.process buf).1 = List.zipWith (fun k b => k ^^^ b)
          (specStream (refConstants (48 - key.length)) (refKeyWords key)
            [le32At nonce 0, le32At nonce 4] buf.length) buf) ∧
    refConstants 32 ≠ refConstants 16 ∧
    refSalsa20 (List.replicate 8 0) ecryptKey (List.replicate 16 0) = [0xe3, 0xbe, 0x8f, 0xdd, 0x8b, 0xec, 0xa2, 0xe3, 0xea, 0x8e, 0xf9, 0x47, 0x5b, 0x29, 0xa6, 0xe7] ∧
    (∃ s, newSalsa20 (List.replicate 8 0) ecryptKey 20 = .ok s ∧
      (s.process (List.replicate 16 0)).1 = [0xf6, 0x27, 0x93, 0x13, 0x4f, 0x2e, 0x80, 0x5e, 0x44, 0x04, 0x83, 0x66, 0xb6, 0x5d, 0x19, 0x44]) := by
  refine ⟨?_, by decide, by decide, ⟨_, rfl, by decide⟩⟩
  intro nonce key buf hk
  obtain ⟨s, hs, h1, h2, h3⟩ := newSalsa20_schedule nonce key hk
  refine ⟨s, hs, ?_⟩
  unfold salsa20.process
  simp only
  rw [getBytes_fresh hs, h1, h2, h3]

/-! ## BLTE: the nonce and the key of an encrypted block -/

theorem and_255 (x : Nat) : x &&& 0xFF = x % 256 :=
  Nat.and_pow_two_sub_one_eq_mod x 8

theorem nonce_eq_indexedNonce (iv : List Nat) (index : Nat)
    (h : iv.length = 4 ∨ iv.length = 8) :
    goCopy (List.replicate 8 0) (xorBlockIndex iv index) = indexedNonce iv index := by
  rcases h with h | h
  · obtain ⟨a, b, c, d, rfl⟩ := length_four h
    simp [goCopy, xorBlockIndex, le32Bytes, indexedNonce, List.range_succ, and_255]
  · obtain ⟨a, b, c, d, e, f, g, k, rfl⟩ := length_eight h
    simp [goCopy, xorBlockIndex, le32Bytes, indexedNonce, List.range_succ, and_255]

theorem foldl_append_data (l : List String) : ∀ (acc : String),
    (l.foldl (fun r s => r ++ s) acc).data = acc.data ++ l.flatMap String.data := by
  induction l with
  | nil => intro acc; simp
  | cons s l ih =>
    intro acc
    simp only [List.foldl_cons, List.flatMap_cons]
    rw [ih, String.data_append, List.append_assoc]

theorem ringName_eq (name : List Nat) : ringName name = hexEncode name.reverse := by
  unfold ringName hexEncode String.join
  apply String.ext
  rw [foldl_append_data]
  simp only [String.data_append, List.nil_append]
  show _ = name.reverse.flatMap hexByte
  rw [← List.map_reverse, List.flatMap_map]
  simp only [hexEncode, List.flatMap_cons, List.flatMap_nil, List.append_nil]

theorem toLower_hexEncode (d : List Nat) : toLower (hexEncode d) = hexEncode d := by
  unfold toLower
  apply String.ext
  show (hexEncode d).data.map Char.toLower = (hexEncode d).data
  have hfix : ∀ c ∈ "0123456789abcdef".data, Char.toLower c = id c := by decide
  have h : ∀ c ∈ (hexEncode d).data, Char.toLower c = id c :=
    fun c hc => hfix c (hexEncode_lowercase d c hc)
  rw [List.map_congr_left h, List.map_id]

theorem GetTACTKey_ringName (tact : GoMap String (List Nat)) (name : List Nat) :
    GetTACTKey tact (ringName name) = (tact.lookup (hexEncode name.reverse)).getD [] := by
  unfold GetTACTKey
  rw [ringName_eq, toLower_hexEncode]
  cases tact.lookup (hexEncode name.reverse) <;> rfl

/-- C29. For an encrypted block with key name `name` (8 bytes), IV `iv` of 4 or 8
bytes and encryption type `0x53`, decrypted with block index `index`: the key is
the key-ring entry under the lowercase hex of the name bytes in reverse order,
and the Salsa20 nonce is `indexedNonce iv index`, whose byte `j` is
`iv[j] xor ((index >> 8j) & 0xFF)` for `j < 4`, `iv[j]` for `4 ≤ j < ivSize` and
0 for `j ≥ ivSize`; without that key the block yields `nil`. -/
theorem encrypted_block_nonce_and_key (env : Env) (r : BLTEReader)
    (pre name iv rest : List Nat) (blockEnd : Int) (index : Nat)
    (hd : r.blte.data = pre ++ 8 :: (name ++ iv.length :: (iv ++ 0x53 :: rest)))
    (ho : r.blte.offset = (pre.length : Int)) (hn : name.length = 8)
    (hiv : iv.length = 4 ∨ iv.length = 8) :
    (hexEncode name.reverse).data.length = 16 ∧
    (∀ c ∈ (hexEncode name.reverse).data, c ∈ "0123456789abcdef".data) ∧
    (indexedNonce iv index).length = 8 ∧
    r.decryptBlock env blockEnd index =
      if ((env.tact.lookup (hexEncode name.reverse)).getD []).length = 0 then
        .ok (none, { r with blte := { r.blte with
          offset := r.blte.offset + 1 + 8 + 1 + (iv.length : Int) + 1 } })
      else
        match newSalsa20 (indexedNonce iv index)
            ((env.tact.lookup (hexEncode name.reverse)).getD []) 20 with
        | .error e => .error e
        | .ok s =>
          match goSlice r.blte.data (r.blte.offset + 1 + 8 + 1 + (iv.length : Int) + 1)
              blockEnd with
          | .error e => .error e
          | .ok enc =>
            .ok (some (s.process enc).1, { r with blte := { r.blte with
              offset := r.blte.offset + 1 + 8 + 1 + (iv.length : Int) + 1 } }) := by
  refine ⟨?_, hexEncode_lowercase _, ?_, ?_⟩
  · unfold hexEncode
    obtain ⟨a, b, c, d, e, f, g, k, rfl⟩ := length_eight hn
    simp [hexByte]
  · simp [indexedNonce]
  · rw [decryptBlock_at env r pre name iv rest blockEnd index hd ho hn hiv,
      GetTACTKey_ringName, nonce_eq_indexedNonce iv index hiv]

theorem encrypted_block_nonce_and_key_witness :
    indexedNonce [9, 10, 11, 12] 0x0201 = [8, 8, 11, 12, 0, 0, 0, 0] ∧
    encryptedBodyReader.decryptBlock emptyEnv 17 0x0201 =
      .ok (none, { encryptedBodyReader with blte := { encryptedBodyReader.blte with
        offset := 15 } }) :=
  ⟨by decide,
   (encrypted_block_nonce_and_key emptyEnv encryptedBodyReader [] [1, 2, 3, 4, 5, 6, 7, 8]
    [9, 10, 11, 12] [0xAA, 0xBB] 17 0x0201 rfl rfl rfl (Or.inl rfl)).2.2.2.trans (by rfl)⟩

/-! ## BLTE: the range a block writes -/

set_option maxRecDepth 100000 in
/-- C28 as stated fails: the container is decoded successfully to `[1, 9, 3]`, yet
its first block, which declares the range `[0, 1)`, writes the three bytes
`1, 2, 3` (the output after that block is `[1, 2, 3]`), and its second block,
which declares the range `[1, 3)`, writes the single byte `9`. -/
theorem block_writes_outside_declared_range :
    tableBlocks misfitContainer 12 2 =
        [{ CompSize := 4, DecompSize := 1, Hash := emptyMD5 },
         { CompSize := 2, DecompSize := 2, Hash := emptyMD5 }] ∧
      (framedReader misfitContainer 2 false).buf = [0, 0, 0] ∧
      ((framedReader misfitContainer 2 false).processSteps emptyEnv 1).map BLTEReader.buf =
        .ok [1, 2, 3] ∧
      decodeBLTE emptyEnv misfitContainer (md5Hex (misfitContainer.take 60)) false =
        .ok [1, 9, 3] := by
  refine ⟨by decide, by decide, by decide, ?_⟩
  unfold decodeBLTE
  rw [NewBLTEReader_framed misfitContainer 2 false (by decide) (by decide) (by decide)
    (by decide) (by decide) (by decide) (by decide)]
  decide

theorem writeBuffer_exact {r r1 : BLTEReader} {blockEnd : Int} {payload : List Nat} {d : Int}
    (h : r.writeBuffer blockEnd = .ok r1)
    (hp : goSlice r.blte.data r.blte.offset blockEnd = .ok payload)
    (hl : (payload.length : Int) = d)
    (hfit : r.blockWriteIdx + d ≤ (r.buf.length : Int)) :
    r1.buf = r.buf.take r.blockWriteIdx.toNat ++ payload ++
      r.buf.drop (r.blockWriteIdx + d).toNat := by
  unfold BLTEReader.writeBuffer at h
  split at h
  · cases h
  · rename_i dst hdst
    simp only [ByteBuf.Offset, hp] at h
    cases h
    obtain ⟨w0, _, _, edst⟩ := goSlice_ok hdst
    simp only [List.append_assoc, List.append_cancel_left_eq]
    have e1 : dst = r.buf.drop r.blockWriteIdx.toNat := by
      rw [edst, Int.toNat_ofNat, List.take_length]
    have hlen : payload.length ≤ dst.length := by
      rw [e1, List.length_drop]
      omega
    unfold goCopy
    rw [List.take_of_length_le hlen, e1, List.drop_drop]
    congr 2
    omega

/-- C28, as the code has it: for a container `NewBLTEReader` accepts, decoding
block `i` starts at the output offset `off_i`, the sum of the `decompSize`s of
the earlier blocks, keeps the size of the output and modifies no byte before
`off_i`; and a raw block (mode `0x4E`) whose payload, the `compSize_i - 1` bytes
after the mode byte, has exactly `decompSize_i` bytes that fit in the output,
writes that payload into `[off_i, off_i + decompSize_i)` and modifies no byte
outside that range. -/
theorem block_write_range (env : Env) (raw : List Nat) (hash : String) (lenient : Bool)
    (r0 ri ri1 : BLTEReader) (i : Nat)
    (hr0 : NewBLTEReader raw hash lenient = .ok r0)
    (hsteps : r0.processSteps env i = .ok ri) (hidx : ri.blockIndex = i)
    (hnext : ri.processNext env = .ok (true, ri1)) :
    ri.blockWriteIdx = ((r0.blocks.take i).map blteBlock.DecompSize).sum ∧
    ri1.buf.length = ri.buf.length ∧
    ri1.buf.take ri.blockWriteIdx.toNat = ri.buf.take ri.blockWriteIdx.toNat ∧
    ∀ (blk : blteBlock) (payload : List Nat), r0.blocks[i]? = some blk →
      goIndex raw ri.blte.offset = .ok 0x4E →
      goSlice raw (ri.blte.offset + 1) (ri.blte.offset + blk.CompSize) = .ok payload →
      (payload.length : Int) = blk.DecompSize →
      ri.blockWriteIdx + blk.DecompSize ≤ (ri.buf.length : Int) →
      ri1.buf = ri.buf.take ri.blockWriteIdx.toNat ++ payload ++
        ri.buf.drop (ri.blockWriteIdx + blk.DecompSize).toNat := by
  obtain ⟨hdata, hi0, hw0, _, _, _, _, _⟩ := NewBLTEReader_ok hr0
  obtain ⟨_, hs, ew⟩ := processAllFuel_after_steps env i r0 ri 0 hsteps
    (by rw [hi0, hidx]; omega)
  rw [hi0, List.drop_zero, hw0, Int.zero_add] at ew
  obtain ⟨_, _, hsf, _, _, _, _, _⟩ := processNext_true hnext
  refine ⟨ew, hsf.2.2.1, processNext_head hnext, ?_⟩
  intro blk payload hblk hmode hpay hlen hfit
  obtain ⟨blk1, r2, hb1, hh, hbuf⟩ := processNext_true_buf hnext
  rw [hs.1, hidx, hblk] at hb1
  cases hb1
  have hdi : ri.blte.data = raw := by rw [hs.2.1, hdata]
  rw [handleBlockFuel_raw env _ ri _ _ (by rw [hdi]; exact hmode)] at hh
  rw [hbuf]
  have key := @writeBuffer_exact _ r2 _ payload blk.DecompSize hh
    (by simp only [hdi]; exact hpay) hlen hfit
  exact key

theorem block_write_range_witness :
    (fitReader 1 [1, 0, 0] 62 1).blockWriteIdx =
        (((framedReader fitContainer 2 false).blocks.take 1).map blteBlock.DecompSize).sum ∧
      (fitReader 2 [1, 9, 8] 65 3).buf = [1] ++ [9, 8] ++ [] :=
  have h := block_write_range emptyEnv fitContainer (md5Hex (fitContainer.take (24 * 2 + 12)))
    false (framedReader fitContainer 2 false) (fitReader 1 [1, 0, 0] 62 1)
    (fitReader 2 [1, 9, 8] 65 3) 1
    (NewBLTEReader_framed fitContainer 2 false (by decide) (by decide) (by decide)
      (by decide) (by decide) (by decide) (by decide))
    (by decide) rfl (by decide)
  ⟨h.1, h.2.2.2 { CompSize := 3, DecompSize := 2, Hash := emptyMD5 } [9, 8] (by decide)
    (by decide) (by decide) (by decide) (by decide)⟩

/-! ## Go's `strings` package: lemmas -/

theorem goCut_none_iff (sep : Nat) : ∀ s : List Nat, goCut sep s = none ↔ sep ∉ s := by
  intro s
  induction s with
  | nil => simp [goCut]
  | cons c cs ih =>
    unfold goCut
    by_cases h : c = sep
    · simp [h]
    · rw [if_neg h]
      have hne : ¬ sep = c := fun e => h e.symm
      cases hc : goCut sep cs with
      | none => simp [hne, ih.1 hc]
      | some ab =>
        have : sep ∈ cs := by
          by_contra hn
          rw [ih.2 hn] at hc
          cases hc
        simp [this]

theorem goCut_append (sep : Nat) (v : List Nat) : ∀ k : List Nat, sep ∉ k →
    goCut sep (k ++ sep :: v) = some (k, v) := by
  intro k
  induction k with
  | nil => intro _; simp [goCut]
  | cons c cs ih =>
    intro h
    have hc : ¬ c = sep := fun e => h (by simp [e])
    have hcs : sep ∉ cs := fun e => h (by simp [e])
    simp only [List.cons_append, goCut, if_neg hc, List.append_eq, ih hcs]

theorem goCut_some (sep : Nat) : ∀ (s k v : List Nat), goCut sep s = some (k, v) →
    s = k ++ sep :: v ∧ sep ∉ k := by
  intro s
  induction s with
  | nil => intro k v h; cases h
  | cons c cs ih =>
    intro k v h
    unfold goCut at h
    by_cases hc : c = sep
    · rw [if_pos hc] at h
      cases h
      simp [hc]
    · rw [if_neg hc] at h
      cases hcs : goCut sep cs with
      | none => rw [hcs] at h; cases h
      | some ab =>
        obtain ⟨a, b⟩ := ab
        rw [hcs] at h
        cases h
        obtain ⟨e1, e2⟩ := ih a v hcs
        constructor
        · rw [e1]; rfl
        · intro hm
          rcases List.mem_cons.1 hm with hm | hm
          · exact hc hm.symm
          · exact e2 hm

theorem mem_dropWhile_of_not {p : Nat → Bool} {x : Nat} (hx : p x = false) :
    ∀ l : List Nat, x ∈ l → x ∈ l.dropWhile p := by
  intro l
  induction l with
  | nil => intro h; cases h
  | cons a l ih =>
    intro h
    rw [List.dropWhile_cons]
    split
    · rename_i hp
      rcases List.mem_cons.1 h with h | h
      · rw [h, hp] at hx
        cases hx
      · exact ih h
    · exact h

theorem mem_goTrimRight {c x : Nat} (hx : x ≠ c) (s : List Nat) :
    x ∈ goTrimRight c s ↔ x ∈ s := by
  unfold goTrimRight
  rw [List.mem_reverse]
  constructor
  · intro h
    exact List.mem_reverse.1 ((List.dropWhile_sublist _).subset h)
  · intro h
    exact mem_dropWhile_of_not (by simpa using hx) _ (List.mem_reverse.2 h)

theorem goSplit_ne_nil (sep : Nat) : ∀ s : List Nat, goSplit sep s ≠ [] := by
  intro s
  cases s with
  | nil => simp [goSplit]
  | cons c cs =>
    unfold goSplit
    split
    · simp
    · split <;> simp

theorem goSplit_no_sep (sep : Nat) : ∀ (s : List Nat), ∀ p ∈ goSplit sep s, sep ∉ p := by
  intro s
  induction s with
  | nil =>
    intro p hp
    simp only [goSplit, List.mem_singleton] at hp
    rw [hp]
    exact List.not_mem_nil _
  | cons c cs ih =>
    intro p hp
    unfold goSplit at hp
    by_cases hc : c = sep
    · rw [if_pos hc] at hp
      rcases List.mem_cons.1 hp with hp | hp
      · rw [hp]
        exact List.not_mem_nil _
      · exact ih p hp
    · rw [if_neg hc] at hp
      cases hs : goSplit sep cs with
      | nil => exact absurd hs (goSplit_ne_nil sep cs)
      | cons q qs =>
        rw [hs] at hp ih
        rcases List.mem_cons.1 hp with hp | hp
        · rw [hp]
          intro hm
          rcases List.mem_cons.1 hm with hm | hm
          · exact hc hm.symm
          · exact ih q (List.mem_cons_self _ _) hm
        · exact ih p (List.mem_cons_of_mem _ hp)

theorem goSplit_of_not_mem (sep : Nat) : ∀ p : List Nat, sep ∉ p → goSplit sep p = [p] := by
  intro p
  induction p with
  | nil => intro _; rfl
  | cons c cs ih =>
    intro h
    have hc : ¬ c = sep := fun e => h (by simp [e])
    have hcs : sep ∉ cs := fun e => h (by simp [e])
    simp only [goSplit, if_neg hc, ih hcs]

theorem goSplit_append_sep (sep : Nat) (rest : List Nat) : ∀ p : List Nat, sep ∉ p →
    goSplit sep (p ++ sep :: rest) = p :: goSplit sep rest := by
  intro p
  induction p with
  | nil => intro _; simp [goSplit]
  | cons c cs ih =>
    intro h
    have hc : ¬ c = sep := fun e => h (by simp [e])
    have hcs : sep ∉ cs := fun e => h (by simp [e])
    simp only [List.cons_append, goSplit, if_neg hc, List.append_eq, ih hcs]

theorem goSplit_goJoin (sep : Nat) : ∀ parts : List (List Nat), parts ≠ [] →
    (∀ p ∈ parts, sep ∉ p) → goSplit sep (goJoin sep parts) = parts := by
  intro parts
  induction parts with
  | nil => intro h; exact absurd rfl h
  | cons p ps ih =>
    intro _ hall
    cases ps with
    | nil => exact goSplit_of_not_mem sep p (hall p (List.mem_cons_self _ _))
    | cons q qs =>
      simp only [goJoin]
      rw [goSplit_append_sep sep _ p (hall p (List.mem_cons_self _ _)),
        ih (by simp) (fun x hx => hall x (List.mem_cons_of_mem _ hx))]

theorem mem_goJoin_sep (sep : Nat) (p q : List Nat) (ps : List (List Nat)) :
    sep ∈ goJoin sep (p :: q :: ps) := by
  simp [goJoin]

/-! ## CDN config: key normalisation -/

theorem goToUpper1_no_dash (c : Nat) (h : c ≠ 45) : 45 ∉ goToUpper1 c := by
  unfold goToUpper1
  split
  · decide
  · split
    · rename_i h1 h2
      simp only [List.mem_singleton]
      omega
    · simp only [List.mem_singleton]
      exact fun e => h e.symm

theorem upperFirst_no_dash (p : List Nat) (h : 45 ∉ p) : 45 ∉ upperFirst p := by
  cases p with
  | nil => exact h
  | cons c cs =>
    unfold upperFirst
    rw [List.mem_append]
    rintro (hm | hm)
    · exact goToUpper1_no_dash c (fun e => h (by simp [e])) hm
    · exact h (List.mem_cons_of_mem _ hm)

theorem normalizeCDNKey_of_no_dash (k : List Nat) (h : 45 ∉ k) : normalizeCDNKey k = k := by
  unfold normalizeCDNKey
  rw [if_pos h]

theorem normalizeCDNKey_no_dash (k : List Nat) (h : 45 ∈ k) : 45 ∉ normalizeCDNKey k := by
  unfold normalizeCDNKey
  rw [if_neg (not_not.2 h)]
  have hall := goSplit_no_sep 45 k
  cases hs : goSplit 45 k with
  | nil => exact List.not_mem_nil _
  | cons p ps =>
    rw [hs] at hall
    simp only [List.flatten_cons, List.mem_append, List.mem_flatten, List.mem_map]
    rintro (hm | ⟨l, ⟨q, hq, rfl⟩, hm⟩)
    · exact hall p (List.mem_cons_self _ _) hm
    · exact upperFirst_no_dash q (hall q (List.mem_cons_of_mem _ hq)) hm

theorem normalizeCDNKey_goJoin (p : List Nat) (ps : List (List Nat)) (hne : ps ≠ [])
    (hall : ∀ q ∈ p :: ps, 45 ∉ q) :
    normalizeCDNKey (goJoin 45 (p :: ps)) = p ++ (ps.map upperFirst).flatten := by
  unfold normalizeCDNKey
  cases ps with
  | nil => exact absurd rfl hne
  | cons q qs =>
    rw [if_neg (not_not.2 (mem_goJoin_sep 45 p q qs)), goSplit_goJoin 45 _ (by simp) hall]
    rfl

/-! ## CDN config: what the parser returns -/

theorem goSplitN2_pair (sep : Nat) (s k v : List Nat) :
    goSplitN2 sep s = [k, v] ↔ goCut sep s = some (k, v) := by
  unfold goSplitN2
  cases h : goCut sep s with
  | none => simp
  | some ab =>
    obtain ⟨a, b⟩ := ab
    simp

theorem parseCDNLines_ok : ∀ (lines : List (List Nat)) (m0 m : GoMap (List Nat) (List Nat)),
    parseCDNLines lines m0 = .ok m →
    ∀ key, m.lookup key =
      match ((lines.filterMap cdnEntry).reverse.find? fun e => decide (e.1 = key)) with
      | some e => some e.2
      | none => m0.lookup key := by
  intro lines
  induction lines with
  | nil =>
    intro m0 m h key
    simp only [parseCDNLines, Except.ok.injEq] at h
    rw [← h]
    rfl
  | cons line rest ih =>
    intro m0 m h key
    simp only [parseCDNLines] at h
    by_cases hskip : goTrimSpace (goTrimRight 13 line) = [] ∨
        goHasPrefix (goTrimRight 13 line) [35] = true
    · rw [if_pos hskip] at h
      have he : cdnEntry line = none := by
        unfold cdnEntry
        simp only
        rw [if_pos hskip]
      rw [List.filterMap_cons, he]
      exact ih m0 m h key
    · rw [if_neg hskip] at h
      cases hc : goCut 61 (goTrimRight 13 line) with
      | none =>
        unfold goSplitN2 at h
        rw [hc] at h
        cases h
      | some kv =>
        obtain ⟨k, v⟩ := kv
        have hs : goSplitN2 61 (goTrimRight 13 line) = [k, v] := (goSplitN2_pair _ _ _ _).2 hc
        rw [hs] at h
        have he : cdnEntry line = some (normalizeCDNKey (goTrimSpace k), goTrimSpace v) := by
          unfold cdnEntry
          simp only
          rw [if_neg hskip, hc]
        rw [List.filterMap_cons, he, List.reverse_cons, List.find?_append]
        have hi := ih _ m h key
        rw [hi]
        cases hf : List.find? (fun e => decide (e.1 = key)) (List.filterMap cdnEntry rest).reverse with
        | some e => rfl
        | none =>
          simp only [Option.none_or, List.find?_cons, List.find?_nil]
          by_cases hk : normalizeCDNKey (goTrimSpace k) = key
          · simp only [hk, decide_True]
            rw [AList.lookup_insert]
          · simp only [hk, decide_False]
            rw [AList.lookup_insert_ne (fun e => hk e.symm)]

theorem parseCDNLines_error_iff : ∀ (lines : List (List Nat))
    (m0 : GoMap (List Nat) (List Nat)) (e : Fail),
    parseCDNLines lines m0 = .error e ↔
      (e = .error "invalid token in CDN config" ∧
        ∃ line ∈ lines, cdnValueLine line ∧ 61 ∉ line) := by
  intro lines
  induction lines with
  | nil =>
    intro m0 e
    simp [parseCDNLines]
  | cons line rest ih =>
    intro m0 e
    simp only [parseCDNLines]
    by_cases hskip : goTrimSpace (goTrimRight 13 line) = [] ∨
        goHasPrefix (goTrimRight 13 line) [35] = true
    · rw [if_pos hskip, ih]
      have hnv : ¬ cdnValueLine line := by
        unfold cdnValueLine
        rcases hskip with h | h
        · exact fun hv => hv.1 h
        · intro hv
          rw [hv.2] at h
          cases h
      simp [hnv]
    · rw [if_neg hskip]
      have hv : cdnValueLine line := by
        unfold cdnValueLine
        constructor
        · exact fun h => hskip (Or.inl h)
        · cases hb : goHasPrefix (goTrimRight 13 line) [35] with
          | false => rfl
          | true => exact absurd (Or.inr hb) hskip
      cases hc : goCut 61 (goTrimRight 13 line) with
      | none =>
        have h61 : 61 ∉ line := by
          have := (goCut_none_iff 61 _).1 hc
          rwa [mem_goTrimRight (by decide)] at this
        unfold goSplitN2
        rw [hc]
        simp only [Except.error.injEq]
        constructor
        · intro h
          exact ⟨h.symm, line, List.mem_cons_self _ _, hv, h61⟩
        · intro h
          exact h.1.symm
      | some kv =>
        obtain ⟨k, v⟩ := kv
        have hs : goSplitN2 61 (goTrimRight 13 line) = [k, v] := (goSplitN2_pair _ _ _ _).2 hc
        rw [hs]
        simp only
        rw [ih]
        have h61 : 61 ∈ line := by
          have : 61 ∈ goTrimRight 13 line := by
            by_contra hn
            rw [(goCut_none_iff 61 _).2 hn] at hc
            cases hc
          rwa [mem_goTrimRight (by decide)] at this
        constructor
        · rintro ⟨he, l, hl, hv1, hn⟩
          exact ⟨he, l, List.mem_cons_of_mem _ hl, hv1, hn⟩
        · rintro ⟨he, l, hl, hv1, hn⟩
          rcases List.mem_cons.1 hl with hl | hl
          · rw [hl] at hn
            exact absurd h61 hn
          · exact ⟨he, l, hl, hv1, hn⟩

theorem parseCDNLines_total (lines : List (List Nat)) (m0 : GoMap (List Nat) (List Nat))
    (h : ∀ line ∈ lines, cdnValueLine line → 61 ∈ line) :
    ∃ m, parseCDNLines lines m0 = .ok m := by
  cases hr : parseCDNLines lines m0 with
  | ok m => exact ⟨m, rfl⟩
  | error e =>
    obtain ⟨_, line, hl, hv, hn⟩ := (parseCDNLines_error_iff lines m0 e).1 hr
    exact absurd (h line hl hv) hn

set_option maxRecDepth 100000 in
/-- C15. On an input with a valid header in which every line that is neither blank
nor starts with `#` holds an `=`, `ParseCDNConfig` returns a map, and the map holds
under each key the value of the last line `k = v` (split once at the first `=`)
whose entry `normalizeCDNKey(trim(k)) -> trim(v)` has that key, and nothing for
other keys; `normalizeCDNKey` leaves a key without `-` alone and maps
`p-q1-..-qn` to `p` followed by `q1 .. qn` with their first letters upper-cased;
the S6 input yields exactly `encodingKey -> abcd` and `root -> 1234`. -/
theorem parseCDNConfig_entries :
    (∀ data : List Nat, goHasPrefix (goTrimSpace (firstLineOf data)) [35, 32] = true →
      (∀ line ∈ goSplit 10 data, cdnValueLine line → 61 ∈ line) →
      ∃ m, ParseCDNConfig data = .ok m ∧
        ∀ key, m.lookup key =
          (((goSplit 10 data).filterMap cdnEntry).reverse.find?
            fun e => decide (e.1 = key)).map Prod.snd) ∧
    (∀ k : List Nat, 45 ∉ k → normalizeCDNKey k = k) ∧
    (∀ (p : List Nat) (ps : List (List Nat)), ps ≠ [] → (∀ q ∈ p :: ps, 45 ∉ q) →
      normalizeCDNKey (goJoin 45 (p :: ps)) = p ++ (ps.map upperFirst).flatten) ∧
    upperFirst (asciiBytes "key") = asciiBytes "Key" ∧
    (ParseCDNConfig s6Config).map AList.entries =
      .ok [⟨asciiBytes "root", asciiBytes "1234"⟩, ⟨asciiBytes "encodingKey", asciiBytes "abcd"⟩] := by
  refine ⟨?_, normalizeCDNKey_of_no_dash, normalizeCDNKey_goJoin, by decide, by decide⟩
  intro data hh hl
  obtain ⟨m, hm⟩ := parseCDNLines_total (goSplit 10 data) ∅ hl
  refine ⟨m, ?_, ?_⟩
  · unfold ParseCDNConfig
    rw [hh]
    exact hm
  · intro key
    rw [parseCDNLines_ok _ _ _ hm key]
    cases List.find? (fun e => decide (e.1 = key))
      (List.filterMap cdnEntry (goSplit 10 data)).reverse with
    | some e => rfl
    | none => rfl

/-- C17. CDN-config key normalisation is idempotent. -/
theorem normalizeCDNKey_idempotent (k : List Nat) :
    normalizeCDNKey (normalizeCDNKey k) = normalizeCDNKey k := by
  by_cases h : 45 ∈ k
  · exact normalizeCDNKey_of_no_dash _ (normalizeCDNKey_no_dash k h)
  · rw [normalizeCDNKey_of_no_dash k h, normalizeCDNKey_of_no_dash k h]

set_option maxRecDepth 100000 in
/-- C16 as stated fails: the header line `# header` preceded by a blank line is
rejected. -/
theorem blank_line_before_header_rejected :
    ParseCDNConfig (asciiBytes "\n# header\nroot=1\n") =
      .error (.error "invalid CDN config: unexpected start of config") := by
  decide

/-- C16, as the code has it: `ParseCDNConfig` fails with an error if and only if
the first line of the input (the text up to the first line feed), trimmed of
white space, does not start with `# `, or some line of the input that is neither
blank nor starts with `#`, the first line included, has no `=`. -/
theorem parseCDNConfig_fails_iff (data : List Nat) :
    (∃ e, ParseCDNConfig data = .error e) ↔
      (goHasPrefix (goTrimSpace (firstLineOf data)) [35, 32] = false ∨
        ∃ line ∈ goSplit 10 data, cdnValueLine line ∧ 61 ∉ line) := by
  unfold ParseCDNConfig
  by_cases hh : goHasPrefix (goTrimSpace (firstLineOf data)) [35, 32] = false
  · rw [if_pos hh]
    simp [hh]
  · rw [if_neg hh]
    constructor
    · rintro ⟨e, he⟩
      exact Or.inr ((parseCDNLines_error_iff _ _ e).1 he).2
    · rintro (h | h)
      · exact absurd h hh
      · exact ⟨_, (parseCDNLines_error_iff _ _ _).2 ⟨rfl, h⟩⟩


/-! ## CDN config: the letter case of keys -/

theorem spaceRunes_not_plain : ∀ p ∈ spaceRunes, ∀ b ∈ p, ¬ plainByte b := by decide

theorem spaceRunes_ne_nil : ∀ p ∈ spaceRunes, p ≠ [] := by decide

theorem leadingSpace_plain (c : Nat) (t : List Nat) (hc : plainByte c) :
    leadingSpace (c :: t) = none := by
  unfold leadingSpace
  rw [List.find?_eq_none]
  intro p hp hpre
  cases p with
  | nil => exact spaceRunes_ne_nil [] hp rfl
  | cons b p1 =>
    have hbc : b = c := by
      have := List.isPrefixOf_iff_prefix.1 hpre
      obtain ⟨u, hu⟩ := this
      simp only [List.cons_append, List.cons.injEq] at hu
      exact hu.1
    exact spaceRunes_not_plain _ hp b (List.mem_cons_self _ _) (hbc ▸ hc)

theorem trimLeftSpace_plain (n : Nat) (c : Nat) (t : List Nat) (hc : plainByte c) :
    trimLeftSpace n (c :: t) = c :: t := by
  cases n with
  | zero => rfl
  | succ n => simp only [trimLeftSpace, leadingSpace_plain c t hc]

theorem trimRightSpace_head : ∀ (n : Nat) (c : Nat) (t : List Nat), plainByte c →
    ∃ t1, trimRightSpace n (c :: t) = c :: t1 := by
  intro n
  induction n with
  | zero => intro c t _; exact ⟨t, rfl⟩
  | succ n ih =>
    intro c t hc
    simp only [trimRightSpace]
    cases hts : trailingSpace (c :: t) with
    | none => exact ⟨t, rfl⟩
    | some p =>
      simp only
      have hp := List.find?_some hts
      have hmem : p ∈ spaceRunes := List.mem_of_find?_eq_some hts
      obtain ⟨u, hu⟩ := List.isSuffixOf_iff_suffix.1 hp
      cases u with
      | nil =>
        simp only [List.nil_append] at hu
        exact absurd hc (spaceRunes_not_plain p hmem c (by rw [hu]; exact List.mem_cons_self _ _))
      | cons a u1 =>
        simp only [List.cons_append, List.cons.injEq] at hu
        obtain ⟨ha, hu1⟩ := hu
        subst ha
        have e : (a :: t).take ((a :: t).length - p.length) = a :: u1 := by
          rw [← hu1]
          simp only [List.length_cons, List.length_append]
          rw [show u1.length + p.length + 1 - p.length = u1.length + 1 by omega]
          simp
        rw [e]
        exact ih a u1 hc

theorem goTrimSpace_ne_nil (c : Nat) (t : List Nat) (hc : plainByte c) :
    goTrimSpace (c :: t) ≠ [] := by
  unfold goTrimSpace
  rw [trimLeftSpace_plain _ c t hc]
  obtain ⟨t1, h1⟩ := trimRightSpace_head (c :: t).length c t hc
  rw [h1]
  exact List.cons_ne_nil _ _

theorem trailingSpace_plain (s : List Nat) (c : Nat) (hc : plainByte c) :
    trailingSpace (s ++ [c]) = none := by
  unfold trailingSpace
  rw [List.find?_eq_none]
  intro p hp hsuf
  obtain ⟨u, hu⟩ := List.isSuffixOf_iff_suffix.1 hsuf
  have hne := spaceRunes_ne_nil p hp
  have hl : (u ++ p).getLast? = (s ++ [c]).getLast? := by rw [hu]
  rw [List.getLast?_append_of_ne_nil _ hne, List.getLast?_append_of_ne_nil _ (by simp)] at hl
  simp only [List.getLast?_singleton] at hl
  exact spaceRunes_not_plain p hp c (List.mem_of_getLast?_eq_some hl) hc

theorem goTrimSpace_plain (k : List Nat) (h : ∀ c ∈ k, plainByte c) : goTrimSpace k = k := by
  unfold goTrimSpace
  cases hk : k with
  | nil => rfl
  | cons c t =>
    rw [trimLeftSpace_plain _ c t (h c (by rw [hk]; exact List.mem_cons_self _ _))]
    obtain ⟨s, d, hsd⟩ : ∃ s d, c :: t = s ++ [d] := by
      have hne : c :: t ≠ [] := List.cons_ne_nil _ _
      exact ⟨(c :: t).dropLast, (c :: t).getLast hne, (List.dropLast_append_getLast hne).symm⟩
    have hd : plainByte d := h d (by rw [hk, hsd]; simp)
    rw [hsd]
    cases hn : (s ++ [d]).length with
    | zero => rfl
    | succ n => simp only [trimRightSpace, trailingSpace_plain s d hd]

theorem dropWhile_append_stop {p : Nat → Bool} {x : Nat} (hx : p x = false) (b : List Nat) :
    ∀ a : List Nat, (a ++ x :: b).dropWhile p = a.dropWhile p ++ x :: b := by
  intro a
  induction a with
  | nil => simp [List.dropWhile_cons, hx]
  | cons c a ih =>
    simp only [List.cons_append, List.dropWhile_cons]
    split
    · exact ih
    · rfl

theorem goTrimRight_append (k v : List Nat) :
    goTrimRight 13 (k ++ 61 :: v) = k ++ 61 :: goTrimRight 13 v := by
  unfold goTrimRight
  rw [List.reverse_append, List.reverse_cons, List.append_assoc, List.singleton_append,
    dropWhile_append_stop (by decide), List.reverse_append, List.reverse_cons,
    List.reverse_reverse, List.append_assoc, List.singleton_append]

theorem keyByte_plain {c : Nat} (h : keyByte c) : plainByte c ∧ c ≠ 35 ∧ c ≠ 61 ∧ c ≠ 45 := by
  unfold keyByte at h
  unfold plainByte
  omega

theorem mem_goJoin (sep : Nat) : ∀ (parts : List (List Nat)) (c : Nat), c ∈ goJoin sep parts →
    c = sep ∨ ∃ q ∈ parts, c ∈ q := by
  intro parts
  induction parts with
  | nil => intro c h; cases h
  | cons p ps ih =>
    intro c h
    cases ps with
    | nil => exact Or.inr ⟨p, List.mem_cons_self _ _, h⟩
    | cons q qs =>
      simp only [goJoin, List.mem_append, List.mem_cons] at h
      rcases h with h | h | h
      · exact Or.inr ⟨p, List.mem_cons_self _ _, h⟩
      · exact Or.inl h
      · rcases ih c h with h1 | ⟨x, hx, hc⟩
        · exact Or.inl h1
        · exact Or.inr ⟨x, List.mem_cons_of_mem _ hx, hc⟩

theorem goJoin_key_bytes (parts : List (List Nat)) (h : ∀ q ∈ parts, ∀ c ∈ q, keyByte c) :
    ∀ c ∈ goJoin 45 parts, plainByte c ∧ c ≠ 35 ∧ c ≠ 61 := by
  intro c hc
  rcases mem_goJoin 45 parts c hc with h1 | ⟨q, hq, hcq⟩
  · subst h1
    decide
  · have := keyByte_plain (h q hq c hcq)
    exact ⟨this.1, this.2.1, this.2.2.1⟩

theorem flatten_map_upperFirst {ps1 ps2 : List (List Nat)}
    (h : List.Forall₂ (fun a b => upperFirst a = upperFirst b) ps1 ps2) :
    (ps1.map upperFirst).flatten = (ps2.map upperFirst).flatten := by
  induction h with
  | nil => rfl
  | cons hab _ ih => simp only [List.map_cons, List.flatten_cons, hab, ih]

theorem normalizeCDNKey_variants {k1 k2 : List Nat} (h : dashCaseVariants k1 k2) :
    normalizeCDNKey k1 = normalizeCDNKey k2 := by
  obtain ⟨p, ps1, ps2, e1, e2, hf, h1, h2⟩ := h
  have hd1 : ∀ q ∈ p :: ps1, 45 ∉ q := fun q hq hm => (keyByte_plain (h1 q hq 45 hm)).2.2.2 rfl
  have hd2 : ∀ q ∈ p :: ps2, 45 ∉ q := fun q hq hm => (keyByte_plain (h2 q hq 45 hm)).2.2.2 rfl
  cases hf with
  | nil => rw [e1, e2]
  | cons hab hrest =>
    rw [e1, e2, normalizeCDNKey_goJoin p _ (by simp) hd1,
      normalizeCDNKey_goJoin p _ (by simp) hd2,
      flatten_map_upperFirst (List.Forall₂.cons hab hrest)]

/-- What `parseCDNLines` does with a line `k=v` whose key is made of letters,
digits and `-`. -/
theorem parseCDNLines_key_line (parts : List (List Nat)) (v : List Nat)
    (rest : List (List Nat)) (m : GoMap (List Nat) (List Nat))
    (h : ∀ q ∈ parts, ∀ c ∈ q, keyByte c) :
    parseCDNLines ((goJoin 45 parts ++ 61 :: v) :: rest) m =
      parseCDNLines rest (m.insert (normalizeCDNKey (goJoin 45 parts))
        (goTrimSpace (goTrimRight 13 v))) := by
  have hb := goJoin_key_bytes parts h
  have h61 : 61 ∉ goJoin 45 parts := fun hm => (hb 61 hm).2.2 rfl
  have hne : goTrimSpace (goJoin 45 parts ++ 61 :: goTrimRight 13 v) ≠ [] := by
    cases hk : goJoin 45 parts with
    | nil => exact goTrimSpace_ne_nil 61 _ (by decide)
    | cons c t =>
      exact goTrimSpace_ne_nil c _ (hb c (by rw [hk]; exact List.mem_cons_self _ _)).1
  have hpre : goHasPrefix (goJoin 45 parts ++ 61 :: goTrimRight 13 v) [35] = false := by
    unfold goHasPrefix
    cases hk : goJoin 45 parts with
    | nil => rfl
    | cons c t =>
      have hc : c ≠ 35 := (hb c (by rw [hk]; exact List.mem_cons_self _ _)).2.1
      simp only [List.cons_append, List.isPrefixOf, Bool.and_eq_false_imp, beq_iff_eq]
      intro e
      exact absurd e.symm hc
  simp only [parseCDNLines, goTrimRight_append]
  rw [if_neg (by simp [hne, hpre])]
  unfold goSplitN2
  rw [goCut_append 61 _ _ h61]
  simp only
  rw [goTrimSpace_plain _ (fun c hc => (hb c hc).1)]

theorem parseCDNLines_variants {ls1 ls2 : List (List Nat)}
    (h : List.Forall₂ cdnLineVariants ls1 ls2) :
    ∀ m : GoMap (List Nat) (List Nat), parseCDNLines ls1 m = parseCDNLines ls2 m := by
  induction h with
  | nil => intro m; rfl
  | @cons l1 l2 r1 r2 hl _ ih =>
    intro m
    rcases hl with hl | ⟨k1, k2, v, e1, e2, hv⟩
    · subst hl
      simp only [parseCDNLines]
      split
      · exact ih m
      · split
        · exact ih _
        · rfl
    · have hn := normalizeCDNKey_variants hv
      obtain ⟨p, ps1, ps2, f1, f2, _, h1, h2⟩ := hv
      subst f1 f2 e1 e2
      rw [parseCDNLines_key_line _ v r1 m h1, parseCDNLines_key_line _ v r2 m h2, hn]
      exact ih _

set_option maxRecDepth 100000 in
/-- C18 as stated fails: two configs that differ only in the letter case of a key
(`Root` against `root`) are parsed into different maps. -/
theorem key_case_is_kept :
    (ParseCDNConfig (asciiBytes "# h\nRoot=1\n")).map AList.entries =
        .ok [⟨asciiBytes "Root", asciiBytes "1"⟩] ∧
      (ParseCDNConfig (asciiBytes "# h\nroot=1\n")).map AList.entries =
        .ok [⟨asciiBytes "root", asciiBytes "1"⟩] ∧
      ParseCDNConfig (asciiBytes "# h\nRoot=1\n") ≠ ParseCDNConfig (asciiBytes "# h\nroot=1\n") := by
  have h1 : (ParseCDNConfig (asciiBytes "# h\nRoot=1\n")).map AList.entries =
      .ok [⟨asciiBytes "Root", asciiBytes "1"⟩] := by decide
  have h2 : (ParseCDNConfig (asciiBytes "# h\nroot=1\n")).map AList.entries =
      .ok [⟨asciiBytes "root", asciiBytes "1"⟩] := by decide
  refine ⟨h1, h2, ?_⟩
  intro h
  rw [h, h2] at h1
  revert h1
  decide

/-- C18, as the code has it: two CDN configs with the same first line whose lines
are pairwise equal, or are `k1=v` and `k2=v` with the same `v` and keys of
letters, digits and `-` differing at most in the case of the first letter after a
`-`, are parsed by `ParseCDNConfig` into equal results. -/
theorem parseCDNConfig_dash_case (data1 data2 : List Nat)
    (hfirst : firstLineOf data1 = firstLineOf data2)
    (hlines : List.Forall₂ cdnLineVariants (goSplit 10 data1) (goSplit 10 data2)) :
    ParseCDNConfig data1 = ParseCDNConfig data2 := by
  unfold ParseCDNConfig
  rw [hfirst, parseCDNLines_variants hlines]

set_option maxRecDepth 100000 in
theorem parseCDNConfig_dash_case_witness :
    ParseCDNConfig (asciiBytes "# h\nencoding-key=1\n") =
      ParseCDNConfig (asciiBytes "# h\nencoding-Key=1\n") :=
  parseCDNConfig_dash_case _ _ (by decide) (by
    show List.Forall₂ cdnLineVariants
      [asciiBytes "# h", asciiBytes "encoding-key=1", []]
      [asciiBytes "# h", asciiBytes "encoding-Key=1", []]
    refine List.Forall₂.cons (Or.inl rfl) (List.Forall₂.cons (Or.inr ?_)
      (List.Forall₂.cons (Or.inl rfl) List.Forall₂.nil))
    refine ⟨asciiBytes "encoding-key", asciiBytes "encoding-Key", asciiBytes "1", by decide,
      by decide, asciiBytes "encoding", [asciiBytes "key"], [asciiBytes "Key"], by decide,
      by decide, List.Forall₂.cons (by decide) List.Forall₂.nil, ?_, ?_⟩
    · intro q hq c hc
      simp only [List.mem_cons, List.mem_singleton, List.not_mem_nil, or_false] at hq
      rcases hq with rfl | rfl <;> revert c <;> unfold keyByte <;> decide
    · intro q hq c hc
      simp only [List.mem_cons, List.mem_singleton, List.not_mem_nil, or_false] at hq
      rcases hq with rfl | rfl <;> revert c <;> unfold keyByte <;> decide)


/-! ## `strings.TrimSpace`: the rune bound is never reached -/

theorem leadingSpace_nil : leadingSpace [] = none := by decide

theorem trailingSpace_nil : trailingSpace [] = none := by decide

theorem trimLeftSpace_done : ∀ (n : Nat) (s : List Nat), s.length ≤ n →
    leadingSpace (trimLeftSpace n s) = none := by
  intro n
  induction n with
  | zero =>
    intro s h
    have : s = [] := List.length_eq_zero.1 (by omega)
    subst this
    exact leadingSpace_nil
  | succ n ih =>
    intro s h
    simp only [trimLeftSpace]
    cases hl : leadingSpace s with
    | none => exact hl
    | some p =>
      simp only
      apply ih
      have hne := spaceRunes_ne_nil p (List.mem_of_find?_eq_some hl)
      have hp : 0 < p.length := List.length_pos.2 hne
      rw [List.length_drop]
      omega

theorem trimRightSpace_done : ∀ (n : Nat) (s : List Nat), s.length ≤ n →
    trailingSpace (trimRightSpace n s) = none := by
  intro n
  induction n with
  | zero =>
    intro s h
    have : s = [] := List.length_eq_zero.1 (by omega)
    subst this
    exact trailingSpace_nil
  | succ n ih =>
    intro s h
    simp only [trimRightSpace]
    cases hl : trailingSpace s with
    | none => exact hl
    | some p =>
      simp only
      apply ih
      have hne := spaceRunes_ne_nil p (List.mem_of_find?_eq_some hl)
      have hp : 0 < p.length := List.length_pos.2 hne
      rw [List.length_take]
      omega

theorem trimLeftSpace_length : ∀ (n : Nat) (s : List Nat),
    (trimLeftSpace n s).length ≤ s.length := by
  intro n
  induction n with
  | zero => intro s; exact le_refl _
  | succ n ih =>
    intro s
    simp only [trimLeftSpace]
    cases leadingSpace s with
    | none => exact le_refl _
    | some p =>
      simp only
      refine le_trans (ih _) ?_
      rw [List.length_drop]
      omega

/-- What `goTrimSpace` returns ends in no white-space rune, and what its first
pass returns starts with none. -/
theorem goTrimSpace_done (s : List Nat) :
    leadingSpace (trimLeftSpace s.length s) = none ∧ trailingSpace (goTrimSpace s) = none :=
  ⟨trimLeftSpace_done _ s (le_refl _),
   trimRightSpace_done _ _ (trimLeftSpace_length _ s)⟩

/-! ## Version config: lemmas -/

theorem replaceCRLF_header (rest : List Nat) : ∀ hdr : List Nat, 10 ∉ hdr →
    hdr.getLast? ≠ some 13 → replaceCRLF (hdr ++ 10 :: rest) = hdr ++ 10 :: replaceCRLF rest := by
  intro hdr
  induction hdr with
  | nil =>
    intro _ _
    cases rest with
    | nil => rfl
    | cons d r =>
      simp only [List.nil_append, replaceCRLF]
      rw [if_neg (by omega)]
  | cons c t ih =>
    intro h10 hcr
    have hc : c ≠ 10 := fun e => h10 (by simp [e])
    have ht : 10 ∉ t := fun e => h10 (List.mem_cons_of_mem _ e)
    cases t with
    | nil =>
      have hc13 : c ≠ 13 := fun e => hcr (by simp [e])
      simp only [List.cons_append, List.nil_append, replaceCRLF]
      rw [if_neg (by omega)]
      have := ih (by simp) (by simp)
      simp only [List.nil_append] at this
      rw [this]
    | cons d t1 =>
      have hd : d ≠ 10 := fun e => ht (by simp [e])
      simp only [List.cons_append, replaceCRLF]
      rw [if_neg (by omega)]
      have := ih ht (by simpa [List.getLast?_cons_cons] using hcr)
      simp only [List.cons_append] at this
      rw [List.append_eq, this]

theorem replaceCRLF_header_crlf (rest : List Nat) : ∀ hdr : List Nat, 10 ∉ hdr →
    replaceCRLF (hdr ++ 13 :: 10 :: rest) = hdr ++ 10 :: replaceCRLF rest := by
  intro hdr
  induction hdr with
  | nil =>
    intro _
    simp only [List.nil_append, replaceCRLF, and_self, if_true]
  | cons c t ih =>
    intro h10
    have hc : c ≠ 10 := fun e => h10 (by simp [e])
    have ht : 10 ∉ t := fun e => h10 (List.mem_cons_of_mem _ e)
    cases t with
    | nil =>
      simp only [List.cons_append, List.nil_append, replaceCRLF, and_self, if_true]
      rw [if_neg (by omega)]
    | cons d t1 =>
      have hd : d ≠ 10 := fun e => ht (by simp [e])
      simp only [List.cons_append, replaceCRLF]
      rw [if_neg (by omega)]
      have := ih ht
      simp only [List.cons_append] at this
      rw [List.append_eq, this]

theorem goJoin_cons_cons (sep c : Nat) (p : List Nat) (ps : List (List Nat)) :
    goJoin sep ((c :: p) :: ps) = c :: goJoin sep (p :: ps) := by
  cases ps with
  | nil => rfl
  | cons q qs => rfl

theorem goJoin_goSplit (sep : Nat) : ∀ s : List Nat, goJoin sep (goSplit sep s) = s := by
  intro s
  induction s with
  | nil => rfl
  | cons c cs ih =>
    unfold goSplit
    by_cases hc : c = sep
    · rw [if_pos hc]
      cases hs : goSplit sep cs with
      | nil => exact absurd hs (goSplit_ne_nil sep cs)
      | cons q qs =>
        rw [hs] at ih
        simp only [goJoin, List.nil_append, ih, hc]
    · rw [if_neg hc]
      cases hs : goSplit sep cs with
      | nil => exact absurd hs (goSplit_ne_nil sep cs)
      | cons q qs =>
        rw [hs] at ih
        simp only
        rw [goJoin_cons_cons, ih]

theorem parseVersionConfig_of_lines (data hdr rest : List Nat)
    (h10 : 10 ∉ hdr) (h : replaceCRLF data = hdr ++ 10 :: rest) :
    ParseVersionConfig data =
      (scanLines rest).filterMap (versionEntry ((goSplit 124 hdr).map headerField)) := by
  unfold ParseVersionConfig
  rw [h, goSplit_append_sep 10 rest hdr h10]
  simp only
  rw [goJoin_goSplit]

theorem lookup_foldl_insert (key : List Nat) : ∀ (l : List (List Nat × List Nat))
    (m0 : GoMap (List Nat) (List Nat)),
    (l.foldl (fun node fp => node.insert fp.1 fp.2) m0).lookup key =
      match (l.reverse.find? fun e => decide (e.1 = key)) with
      | some e => some e.2
      | none => m0.lookup key := by
  intro l
  induction l with
  | nil => intro m0; rfl
  | cons e l ih =>
    intro m0
    rw [List.foldl_cons, ih, List.reverse_cons, List.find?_append]
    cases hf : List.find? (fun e => decide (e.1 = key)) l.reverse with
    | some e1 => rfl
    | none =>
      simp only [Option.none_or, List.find?_cons, List.find?_nil]
      by_cases hk : e.1 = key
      · simp only [hk, decide_True]
        rw [AList.lookup_insert]
      · simp only [hk, decide_False]
        rw [AList.lookup_insert_ne (fun h => hk h.symm)]

theorem versionRecord_lookup (fields parts : List (List Nat)) (key : List Nat) :
    (versionRecord fields parts).lookup key =
      (((fields.zip parts).reverse.find? fun e => decide (e.1 = key)).map Prod.snd) := by
  unfold versionRecord
  rw [lookup_foldl_insert]
  cases List.find? (fun e => decide (e.1 = key)) (fields.zip parts).reverse with
  | some e => rfl
  | none => rfl

theorem zip_getElem?_of_mem {fields parts : List (List Nat)} {e : List Nat × List Nat}
    (h : e ∈ fields.zip parts) : ∃ i : Nat, fields[i]? = some e.1 ∧ parts[i]? = some e.2 := by
  obtain ⟨i, hi, he⟩ := List.getElem_of_mem h
  refine ⟨i, ?_, ?_⟩
  · rw [← he, List.getElem_zip]
    simp only [List.length_zip] at hi
    exact List.getElem?_eq_getElem (by omega)
  · rw [← he, List.getElem_zip]
    simp only [List.length_zip] at hi
    exact List.getElem?_eq_getElem (by omega)

theorem versionRecord_nodup (fields parts : List (List Nat)) (hnd : fields.Nodup)
    (i : Nat) (h f : List Nat) (hi : fields[i]? = some h) (hp : parts[i]? = some f) :
    (versionRecord fields parts).lookup h = some f := by
  rw [versionRecord_lookup]
  have hmem : (h, f) ∈ (fields.zip parts).reverse := by
    rw [List.mem_reverse]
    obtain ⟨h1, e1⟩ := List.getElem?_eq_some_iff.1 hi
    obtain ⟨h2, e2⟩ := List.getElem?_eq_some_iff.1 hp
    have hz : i < (fields.zip parts).length := by
      simp only [List.length_zip]
      omega
    have : (fields.zip parts)[i] = (h, f) := by
      rw [List.getElem_zip, e1, e2]
    rw [← this]
    exact List.getElem_mem hz
  cases hf : List.find? (fun e => decide (e.1 = h)) (fields.zip parts).reverse with
  | none =>
    have := List.find?_eq_none.1 hf (h, f) hmem
    simp at this
  | some e =>
    have he1 : e.1 = h := by simpa using List.find?_some hf
    have hem : e ∈ fields.zip parts := List.mem_reverse.1 (List.mem_of_find?_eq_some hf)
    obtain ⟨j, hj1, hj2⟩ := zip_getElem?_of_mem hem
    rw [he1] at hj1
    have hij : i = j := by
      obtain ⟨a1, b1⟩ := List.getElem?_eq_some_iff.1 hi
      obtain ⟨a2, b2⟩ := List.getElem?_eq_some_iff.1 hj1
      exact (List.Nodup.getElem_inj_iff hnd).1 (b1.trans b2.symm)
    subst hij
    rw [hp] at hj2
    simp only [Option.map_some', Option.some.injEq]
    exact (Option.some.inj hj2).symm

theorem versionRecord_absent (fields parts : List (List Nat)) (h : List Nat)
    (hn : ∀ i, i < parts.length → fields[i]? ≠ some h) :
    (versionRecord fields parts).lookup h = none := by
  rw [versionRecord_lookup]
  cases hf : List.find? (fun e => decide (e.1 = h)) (fields.zip parts).reverse with
  | none => rfl
  | some e =>
    have he1 : e.1 = h := by simpa using List.find?_some hf
    have hem : e ∈ fields.zip parts := List.mem_reverse.1 (List.mem_of_find?_eq_some hf)
    obtain ⟨j, hj1, hj2⟩ := zip_getElem?_of_mem hem
    rw [he1] at hj1
    exact absurd hj1 (hn j (List.getElem?_eq_some_iff.1 hj2).1)

theorem headerField_bang (a b : List Nat) (h : 33 ∉ a) :
    headerField (a ++ 33 :: b) = a.filter fun c => decide (c ≠ 32) := by
  unfold headerField
  congr 1
  induction a with
  | nil => simp
  | cons c a ih =>
    have hc : c ≠ 33 := fun e => h (by simp [e])
    simp only [List.cons_append, List.takeWhile_cons, hc, ne_eq, not_false_eq_true, decide_True,
      if_true, List.cons.injEq, true_and]
    exact ih (fun e => h (List.mem_cons_of_mem _ e))

theorem headerField_plain (a : List Nat) (h : 33 ∉ a) :
    headerField a = a.filter fun c => decide (c ≠ 32) := by
  unfold headerField
  congr 1
  rw [List.takeWhile_eq_self_iff]
  intro c hc
  simp only [ne_eq, decide_eq_true_eq]
  exact fun e => h (e ▸ hc)

set_option maxRecDepth 100000 in
/-- C19 as stated fails: a first line that starts with `#` is used as the header,
not skipped; the line `A|B` that follows becomes a record. -/
theorem comment_line_used_as_header :
    (ParseVersionConfig (asciiBytes "# c\nA|B\n1|2\n")).map AList.entries =
      [[⟨asciiBytes "#c", asciiBytes "A"⟩], [⟨asciiBytes "#c", asciiBytes "1"⟩]] := by
  decide

/-- C19, as the code has it: `ParseVersionConfig` takes as header the first line of
the input, the text `hdr` before the first line feed (a carriage return before
that line feed not counted), whatever it holds: the field names are those of the
cells of `hdr` between `|`, each the cell text before the first `!` with spaces
removed, and the records are read from the lines after it. -/
theorem parseVersionConfig_header (hdr rest : List Nat) (h10 : 10 ∉ hdr) :
    (hdr.getLast? ≠ some 13 → ParseVersionConfig (hdr ++ 10 :: rest) =
      (scanLines (replaceCRLF rest)).filterMap
        (versionEntry ((goSplit 124 hdr).map headerField))) ∧
    ParseVersionConfig (hdr ++ 13 :: 10 :: rest) =
      (scanLines (replaceCRLF rest)).filterMap
        (versionEntry ((goSplit 124 hdr).map headerField)) ∧
    (∀ a b : List Nat, 33 ∉ a → headerField (a ++ 33 :: b) = a.filter fun c => decide (c ≠ 32)) ∧
    (∀ a : List Nat, 33 ∉ a → headerField a = a.filter fun c => decide (c ≠ 32)) := by
  refine ⟨?_, ?_, headerField_bang, headerField_plain⟩
  · intro hcr
    exact parseVersionConfig_of_lines _ hdr _ h10 (replaceCRLF_header rest hdr h10 hcr)
  · exact parseVersionConfig_of_lines _ hdr _ h10 (replaceCRLF_header_crlf rest hdr h10)

set_option maxRecDepth 100000 in
theorem parseVersionConfig_header_witness :
    ParseVersionConfig (asciiBytes "Region!STRING:0|Build Id!DEC:4" ++ 13 :: 10 ::
        asciiBytes "us|77\n") =
      (scanLines (replaceCRLF (asciiBytes "us|77\n"))).filterMap
        (versionEntry ((goSplit 124 (asciiBytes "Region!STRING:0|Build Id!DEC:4")).map
          headerField)) :=
  (parseVersionConfig_header (asciiBytes "Region!STRING:0|Build Id!DEC:4")
    (asciiBytes "us|77\n") (by decide)).2.1

set_option maxRecDepth 100000 in
/-- C20 as stated fails: under a header that names two columns `A`, the record of
the line `1|2` maps `A` to the second field, not the first. -/
theorem duplicate_header_name_last_wins :
    (ParseVersionConfig (asciiBytes "A|A\n1|2\n")).map AList.entries =
      [[⟨asciiBytes "A", asciiBytes "2"⟩]] := by
  decide

/-- C20, as the code has it: the records are those of the lines the scanner
yields after the header, in input order, one for every line that after trimming
is neither empty nor starts with `#`; the scanner yields every line (less its line
end) up to the first one of `MaxScanTokenSize` bytes or more; the record of a
line with fields `f_0 .. f_{m-1}` (the trimmed line split at `|`) under header
names `h_0 .. h_{n-1}` maps a name to the field of the last `i < min(m, n)` with
that name, so, when the names are distinct, `h_i` to `f_i` for exactly the
`i < min(m, n)`. -/
theorem parseVersionConfig_records (hdr rest : List Nat) (h10 : 10 ∉ hdr)
    (hcr : hdr.getLast? ≠ some 13) :
    ParseVersionConfig (hdr ++ 10 :: rest) =
      (scanLines (replaceCRLF rest)).filterMap
        (versionEntry ((goSplit 124 hdr).map headerField)) ∧
    (∀ (fields : List (List Nat)) (entry : List Nat),
      versionEntry fields entry =
        if goTrimSpace entry = [] ∨ goHasPrefix (goTrimSpace entry) [35] = true then none
        else some (versionRecord fields (goSplit 124 (goTrimSpace entry)))) ∧
    (∀ text : List Nat, (∀ l ∈ goSplit 10 text, l.length < MaxScanTokenSize) →
      scanLines text = (if (goSplit 10 text).getLast? = some [] then (goSplit 10 text).dropLast
        else goSplit 10 text).map dropCR) ∧
    (∀ (fields parts : List (List Nat)) (h : List Nat),
      (versionRecord fields parts).lookup h =
        (((fields.zip parts).reverse.find? fun e => decide (e.1 = h)).map Prod.snd)) ∧
    (∀ (fields parts : List (List Nat)), fields.Nodup →
      (∀ (i : Nat) (h f : List Nat), fields[i]? = some h → parts[i]? = some f →
        (versionRecord fields parts).lookup h = some f) ∧
      (∀ h : List Nat, (∀ i, i < parts.length → fields[i]? ≠ some h) →
        (versionRecord fields parts).lookup h = none)) := by
  refine ⟨parseVersionConfig_of_lines _ hdr _ h10 (replaceCRLF_header rest hdr h10 hcr),
    fun _ _ => rfl, ?_, versionRecord_lookup, ?_⟩
  · intro text hall
    unfold scanLines
    simp only
    congr 1
    rw [List.takeWhile_eq_self_iff]
    intro l hl
    simp only [decide_eq_true_eq]
    apply hall
    split at hl
    · exact List.mem_of_mem_dropLast hl
    · exact hl
  · intro fields parts hnd
    exact ⟨versionRecord_nodup fields parts hnd,
      fun h hn => versionRecord_absent fields parts h hn⟩

set_option maxRecDepth 100000 in
theorem parseVersionConfig_records_witness :
    (ParseVersionConfig (asciiBytes "Region|Id" ++ 10 :: asciiBytes "us|77|x\n\neu\n")).map
        AList.entries =
      [[⟨asciiBytes "Id", asciiBytes "77"⟩, ⟨asciiBytes "Region", asciiBytes "us"⟩],
       [⟨asciiBytes "Region", asciiBytes "eu"⟩]] :=
  (congrArg (List.map AList.entries)
    (parseVersionConfig_records (asciiBytes "Region|Id") (asciiBytes "us|77|x\n\neu\n")
      (by decide) (by decide)).1).trans (by decide)

/-! ## Jenkins96 against lookup3 -/

theorem jenkins96_two_bytes (x y : Nat) :
    Jenkins96 [x, y] 0 0 =
      ((jenkinsFinal (add32 (add32 (add32 0xDEADBEEF 2) 0) (y <<< 8))
          (add32 (add32 0xDEADBEEF 2) 0) (add32 (add32 0xDEADBEEF 2) 0)).2.1,
       (jenkinsFinal (add32 (add32 (add32 0xDEADBEEF 2) 0) (y <<< 8))
          (add32 (add32 0xDEADBEEF 2) 0) (add32 (add32 0xDEADBEEF 2) 0)).2.2) := by
  simp [Jenkins96, jenkinsLoop, jenkinsTail]

set_option maxRecDepth 1000000 in
/-- C26 as stated fails. On the key `Four score and seven years ago` of the
lookup3 self-test the reference `hashlittle2` with both seeds 0 leaves
`c = 0x17770551`, `b = 0xce7226e6`, and `Jenkins96` returns another pair; its
`switch` adds the one byte of the matching case only, so that for a key of two
bytes the result does not depend on the first byte. -/
theorem jenkins96_tail_adds_one_byte :
    hashlittle2 (asciiBytes "Four score and seven years ago") 0 0 = (0xce7226e6, 0x17770551) ∧
    Jenkins96 (asciiBytes "Four score and seven years ago") 0 0 = (816528413, 1683361783) ∧
    Jenkins96 [1, 2] 0 0 = (2928234529, 2703246015) ∧
    hashlittle2 [1, 2] 0 0 = (2319848650, 561410255) ∧
    (∀ x1 x2 y : Nat, Jenkins96 [x1, y] 0 0 = Jenkins96 [x2, y] 0 0) := by
  refine ⟨by decide, by decide, by decide, by decide, ?_⟩
  intro x1 x2 y
  rw [jenkins96_two_bytes, jenkins96_two_bytes]

/-! ## Listfile: the root filter -/

set_option maxRecDepth 1000000 in
/-- C27 as stated fails. After loading the lines `1;a` and `2;a`, id 2 has the
name `a` and `a` resolves to 2; `ApplyRootFilter([2])` keeps id 2 with its name,
yet deletes the entry of `a` along with id 1, so that `GetByFilename("a")` returns
0. After loading `1;a` and `1;b`, `ApplyRootFilter([2])` leaves `a` resolving to
id 1, which is not in the list. -/
theorem applyRootFilter_deletes_by_current_name :
    (NewListfile.LoadFromFile (asciiBytes "1;a\n2;a\n")).map
        (fun s => (s.GetByID 2, s.GetByFilename (asciiBytes "a"))) =
      .ok (asciiBytes "a", 2) ∧
    (filteredListfile (asciiBytes "1;a\n2;a\n") [2]).map
        (fun s => (s.GetByID 2, s.GetByFilename (asciiBytes "a"))) =
      .ok (asciiBytes "a", 0) ∧
    (filteredListfile (asciiBytes "1;a\n1;b\n") [2]).map
        (fun s => (s.GetByID 1, s.GetByFilename (asciiBytes "a"))) =
      .ok ([], 1) := by
  refine ⟨by decide, by decide, by decide⟩

/-! ## Core view: one active source -/

theorem serve_invariant {S : Type} (v : CoreView S) (r : CascRequest S)
    (h : v.Active ≠ none → v.Pending = none) :
    (serve v r).2.Active ≠ none → (serve v r).2.Pending = none := by
  cases r with
  | loadCascLocal req =>
    simp only [serve, LoadCascLocal, CoreView.GetActive]
    split
    · exact h
    · rename_i hn
      cases req
      · exact h
      · exact h
      · intro hact
        simp only [CoreView.SetPending] at hact
        cases hv : v.Active with
        | none => exact absurd hv hact
        | some x => rw [hv] at hn; exact absurd rfl hn
  | loadCascRemote req =>
    simp only [serve, LoadCascRemote, CoreView.GetActive]
    split
    · exact h
    · rename_i hn
      cases req
      · exact h
      · exact h
      · intro hact
        simp only [CoreView.SetPending] at hact
        cases hv : v.Active with
        | none => exact absurd hv hact
        | some x => rw [hv] at hn; exact absurd rfl hn
  | loadCascBuild req =>
    cases req with
    | badBody => exact h
    | loadFails =>
      simp only [serve, LoadCascBuild]
      split <;> exact h
    | loaded b =>
      simp only [serve, LoadCascBuild]
      split
      · exact h
      · split <;> intro _ <;> rfl

theorem serve_keeps_active {S : Type} (v : CoreView S) (r : CascRequest S) (a : S)
    (h : v.Active ≠ none → v.Pending = none) (ha : v.Active = some a) :
    (serve v r).2.Active = some a := by
  have hp : v.Pending = none := h (by rw [ha]; exact Option.some_ne_none a)
  cases r with
  | loadCascLocal req =>
    simp only [serve, LoadCascLocal, CoreView.GetActive, ha, Option.isSome_some, if_true]
  | loadCascRemote req =>
    simp only [serve, LoadCascRemote, CoreView.GetActive, ha, Option.isSome_some, if_true]
  | loadCascBuild req =>
    cases req with
    | badBody => exact ha
    | loadFails =>
      simp only [serve, LoadCascBuild, CoreView.GetPending, hp, Option.isNone_none, if_true]
      exact ha
    | loaded b =>
      simp only [serve, LoadCascBuild, CoreView.GetPending, hp, Option.isNone_none, if_true]
      exact ha

theorem serveAll_invariant {S : Type} : ∀ (reqs : List (CascRequest S))
    (v : CoreView S), (v.Active ≠ none → v.Pending = none) →
    ((serveAll v reqs).Active ≠ none → (serveAll v reqs).Pending = none) := by
  intro reqs
  induction reqs with
  | nil => intro v h; exact h
  | cons r rest ih =>
    intro v h
    exact ih _ (serve_invariant v r h)

theorem serveAll_keeps_active {S : Type} (a : S) :
    ∀ (reqs : List (CascRequest S)) (v : CoreView S), (v.Active ≠ none → v.Pending = none) →
    v.Active = some a → (serveAll v reqs).Active = some a := by
  intro reqs
  induction reqs with
  | nil => intro v _ ha; exact ha
  | cons r rest ih =>
    intro v h ha
    exact ih _ (serve_invariant v r h) (serve_keeps_active v r a h ha)

/-- C24 as stated fails for the operations of the view themselves: `SetPending`
never fails and sets `Pending` whatever `Active` is, and `ActivatePending`
replaces `Active` by `Pending`, so that a second `ActivatePending` clears the
active source. -/
theorem activatePending_clears_active :
    ((CoreView.New.SetPending (some 7)).ActivatePending : CoreView Nat) =
        { Active := some 7, Pending := none } ∧
      (((CoreView.New.SetPending (some 7)).ActivatePending.SetPending (some 8) :
        CoreView Nat)) = { Active := some 7, Pending := some 8 } ∧
      (((CoreView.New.SetPending (some 7)).ActivatePending.SetPending
        (some 8)).ActivatePending : CoreView Nat).Active = some 8 ∧
      ((CoreView.New.SetPending (some 7)).ActivatePending.ActivatePending :
        CoreView Nat).Active = none := by
  decide

/-- C24, as the code has it: the guard is in the handlers. In the view reached from
the initial one by any requests to `loadCascLocal`, `loadCascRemote` and
`loadCascBuild` served one after another, `Pending` is nil whenever `Active` is
not; while `Active` is the source `a`, a request to `loadCascLocal` or
`loadCascRemote` is answered `ERR_CASC_ACTIVE` and changes neither `Active` nor
`Pending`, and after any further requests `Active` is still `a`. -/
theorem active_source_is_kept {S : Type} (reqs : List (CascRequest S)) (a : S)
    (ha : (serveAll CoreView.New reqs).Active = some a) :
    (serveAll CoreView.New reqs).Pending = none ∧
    (∀ req : SetupRequest S,
      LoadCascLocal (serveAll CoreView.New reqs) req =
        (.ERR_CASC_ACTIVE, serveAll CoreView.New reqs) ∧
      LoadCascRemote (serveAll CoreView.New reqs) req =
        (.ERR_CASC_ACTIVE, serveAll CoreView.New reqs)) ∧
    (∀ more : List (CascRequest S),
      (serveAll (serveAll CoreView.New reqs) more).Active = some a) := by
  have hinv := serveAll_invariant reqs (CoreView.New : CoreView S) (fun h => absurd rfl h)
  have hne : (serveAll CoreView.New reqs).Active ≠ none := by
    rw [ha]
    exact Option.some_ne_none a
  refine ⟨hinv hne, ?_, ?_⟩
  · intro req
    simp only [LoadCascLocal, LoadCascRemote, CoreView.GetActive, ha, Option.isSome_some,
      if_true, and_self]
  · intro more
    exact serveAll_keeps_active a more _ hinv ha

theorem active_source_is_kept_witness :
    (serveAll (CoreView.New : CoreView Nat)
        [.loadCascLocal (.source 7), .loadCascBuild (.loaded true)]).Pending = none ∧
    (∀ req : SetupRequest Nat,
      LoadCascLocal (serveAll (CoreView.New : CoreView Nat)
          [.loadCascLocal (.source 7), .loadCascBuild (.loaded true)]) req =
        (.ERR_CASC_ACTIVE, serveAll CoreView.New
          [.loadCascLocal (.source 7), .loadCascBuild (.loaded true)]) ∧
      LoadCascRemote (serveAll (CoreView.New : CoreView Nat)
          [.loadCascLocal (.source 7), .loadCascBuild (.loaded true)]) req =
        (.ERR_CASC_ACTIVE, serveAll CoreView.New
          [.loadCascLocal (.source 7), .loadCascBuild (.loaded true)])) ∧
    (∀ more : List (CascRequest Nat),
      (serveAll (serveAll (CoreView.New : CoreView Nat)
        [.loadCascLocal (.source 7), .loadCascBuild (.loaded true)]) more).Active = some 7) :=
  active_source_is_kept [.loadCascLocal (.source 7), .loadCascBuild (.loaded true)] 7 (by decide)

/-! ## Key ring: what a key file can add -/

set_option maxRecDepth 1000000 in
/-- C25 as stated fails for the JSON format: a file holding the JSON object
`{"abc": "00"}` adds an entry with the 3-character name `abc` and a key of one
byte, while the text format skips the same pair (line `abc 00`) and stores a
pair of a 16-character name and 32 hex digits as a key of 16 bytes. The text
format checks the length of the name only: a name of 16 letters that are no hex
digits is stored. -/
theorem json_keys_are_not_validated :
    (loadTACTFromFile ∅ (some [("abc", "00")]) ["\x7b\"abc\": \"00\"\x7d"]).entries =
      [⟨"abc", [0]⟩] ∧
    (loadTACTFromFile ∅ none ["abc 00"]).entries = [] ∧
    (loadTACTFromFile ∅ none ["0xFA505078126ACB3E bdc51862abed79b2de48c8e7e66c6200"]).entries =
      [⟨"fa505078126acb3e", [189, 197, 24, 98, 171, 237, 121, 178, 222, 72, 200, 231, 230, 108,
        98, 0]⟩] ∧
    (loadTACTFromFile ∅ none ["zzzzzzzzzzzzzzzz bdc51862abed79b2de48c8e7e66c6200"]).entries =
      [⟨"zzzzzzzzzzzzzzzz", [189, 197, 24, 98, 171, 237, 121, 178, 222, 72, 200, 231, 230, 108,
        98, 0]⟩] := by
  refine ⟨by decide, by decide, by decide, by decide⟩

/-! ## Build cache: round trip -/

theorem tryWrite_files (d : Disk) (p q : String) (data : List Nat) (h : p ≠ q) :
    (d.tryWrite q data).files.lookup p = d.files.lookup p ∧
      (d.tryWrite q data).unreadable = d.unreadable := by
  unfold Disk.tryWrite Disk.WriteFile
  split
  · rename_i d1 hd
    split at hd
    · cases hd
    · cases hd
      exact ⟨AList.lookup_insert_ne h, rfl⟩
  · exact ⟨rfl, rfl⟩

theorem storeFile_ok {env : CacheEnv} {c c1 : BuildCache} {d d1 : Disk} {name subdir : String}
    {data : List Nat} {now : Int}
    (h : c.StoreFile env d name data subdir now = (none, c1, d1))
    (hi : c.filePath env name subdir ≠ c.integrityPath env)
    (hm : c.filePath env name subdir ≠ c.manifestPath env) :
    c1.dir = c.dir ∧
    (c1.integrity.getD ∅).lookup (relPath env name subdir) = some (env.sha1Hex data) ∧
    d1.files.lookup (c.filePath env name subdir) = some data ∧
    d1.unreadable = d.unreadable := by
  unfold BuildCache.StoreFile at h
  unfold Disk.WriteFile at h
  split at h
  · cases h
  · rename_i d0 hd0
    split at hd0
    · cases hd0
    · cases hd0
      simp only [Prod.mk.injEq, true_and] at h
      obtain ⟨hc, hd⟩ := h
      subst hc hd
      have hi1 : c.filePath env name subdir ≠ env.join c.dir "integrity.json" := hi
      have hm1 : c.filePath env name subdir ≠ env.join c.dir "manifest.json" := hm
      simp only [BuildCache.touch, BuildCache.saveManifestLocked, BuildCache.saveIntegrityLocked,
        BuildCache.integrityPath, BuildCache.manifestPath]
      refine ⟨trivial, ?_, ?_, ?_⟩
      · simp only [Option.getD_some]
        exact AList.lookup_insert _
      · rw [(tryWrite_files _ _ _ _ hm1).1, (tryWrite_files _ _ _ _ hi1).1]
        exact AList.lookup_insert _
      · rw [(tryWrite_files _ _ _ _ hm1).2, (tryWrite_files _ _ _ _ hi1).2]

theorem getFile_of_file (env : CacheEnv) (c : BuildCache) (d : Disk) (name subdir : String)
    (now : Int) (b : List Nat) (want : String)
    (hu : c.filePath env name subdir ∉ d.unreadable)
    (hf : d.files.lookup (c.filePath env name subdir) = some b)
    (hw : (c.integrity.getD ∅).lookup (relPath env name subdir) = some want) :
    (c.GetFile env d name subdir now).1 = if env.sha1Hex b ≠ want then .ok none else .ok (some b) := by
  unfold BuildCache.GetFile Disk.ReadFile
  rw [if_neg hu, hf]
  simp only [hw]
  split <;> rfl

set_option maxRecDepth 1000000 in
/-- C23 as stated fails for the names of the cache's own files: `StoreFile` of
`integrity.json` into the build directory succeeds, and the file is then
overwritten by the integrity map, so that `GetFile` does not return the data
stored. -/
theorem reserved_name_is_overwritten :
    (demoCache.StoreFile demoCacheEnv emptyDisk "integrity.json" [1, 2, 3] "" 0).1 = none ∧
    (demoCache.StoreFile demoCacheEnv emptyDisk "integrity.json" [1, 2, 3] "" 0).2.2.files.lookup
        "builds/k/integrity.json" = some (asciiBytes "integrity" ++ [1]) ∧
    ((demoCache.StoreFile demoCacheEnv emptyDisk "integrity.json" [1, 2, 3] "" 0).2.1.GetFile
        demoCacheEnv
        (demoCache.StoreFile demoCacheEnv emptyDisk "integrity.json" [1, 2, 3] "" 0).2.2
        "integrity.json" "" 1).1 ≠ .ok (some [1, 2, 3]) := by
  refine ⟨rfl, by decide, by decide⟩

/-- C23, as the code has it: after `StoreFile(n, d, s)` succeeds for a file that is
neither the cache's `integrity.json` nor its `manifest.json` and that can be
read, `GetFile(n, s)` returns exactly `d`; and if the stored file's bytes are
afterwards changed on disk to content with a different SHA-1, `GetFile(n, s)`
returns no data and no error. -/
theorem cache_round_trip (env : CacheEnv) (c c1 : BuildCache) (d d1 : Disk) (n s : String)
    (data : List Nat) (now now1 : Int)
    (hstore : c.StoreFile env d n data s now = (none, c1, d1))
    (hi : c.filePath env n s ≠ c.integrityPath env)
    (hm : c.filePath env n s ≠ c.manifestPath env)
    (hu : c.filePath env n s ∉ d.unreadable) :
    (c1.GetFile env d1 n s now1).1 = .ok (some data) ∧
    ∀ changed : List Nat, env.sha1Hex changed ≠ env.sha1Hex data →
      (c1.GetFile env (d1.overwrite (c1.filePath env n s) changed) n s now1).1 = .ok none := by
  obtain ⟨hdir, hint, hfile, hunr⟩ := storeFile_ok hstore hi hm
  have hp : c1.filePath env n s = c.filePath env n s := by
    unfold BuildCache.filePath
    rw [hdir]
  constructor
  · rw [getFile_of_file env c1 d1 n s now1 data (env.sha1Hex data) (by rw [hp, hunr]; exact hu)
      (by rw [hp]; exact hfile) hint]
    rw [if_neg (not_not.2 rfl)]
  · intro changed hne
    rw [getFile_of_file env c1 _ n s now1 changed (env.sha1Hex data)
      (by rw [hp]; show _ ∉ d1.unreadable; rw [hunr]; exact hu)
      (by unfold Disk.overwrite; exact AList.lookup_insert _) hint]
    rw [if_pos hne]

theorem cache_round_trip_witness :
    ((demoCache.StoreFile demoCacheEnv emptyDisk "ab12" [1, 2, 3] "data" 0).2.1.GetFile
        demoCacheEnv (demoCache.StoreFile demoCacheEnv emptyDisk "ab12" [1, 2, 3] "data" 0).2.2
        "ab12" "data" 1).1 = .ok (some [1, 2, 3]) :=
  (cache_round_trip demoCacheEnv demoCache _ emptyDisk _ "ab12" "data" [1, 2, 3] 0 1 rfl
    (by decide) (by decide) (by decide)).1

/-! ## Journal: reading at a known position -/

theorem ReadHexString_at (b : ByteBuf) (a w c : List Nat) (n : Int)
    (hs : b.data = a ++ w ++ c) (ho : b.offset = (a.length : Int)) (hn : n = (w.length : Int)) :
    b.ReadHexString n = .ok (hexEncode w, { b with offset := b.offset + n }) := by
  unfold ByteBuf.ReadHexString
  rw [goSlice_at b.data a w c _ _ hs ho (by rw [ho, hn])]

theorem ReadUInt32BE_at (b : ByteBuf) (a w c : List Nat)
    (hs : b.data = a ++ w ++ c) (ho : b.offset = (a.length : Int)) (hw : w.length = 4) :
    b.ReadUInt32BE = .ok (be32At w 0, { b with offset := b.offset + 4 }) := by
  unfold ByteBuf.ReadUInt32BE
  rw [goSlice_at b.data a w c _ _ hs ho (by rw [ho, hw]; rfl)]
  rfl

theorem ReadInt32LE_at (b : ByteBuf) (a w c : List Nat)
    (hs : b.data = a ++ w ++ c) (ho : b.offset = (a.length : Int)) (hw : w.length = 4) :
    b.ReadInt32LE = .ok (int32 (le32At w 0), { b with offset := b.offset + 4 }) := by
  unfold ByteBuf.ReadInt32LE
  rw [goSlice_at b.data a w c _ _ hs ho (by rw [ho, hw]; rfl)]
  rfl

/-! ## Journal: first occurrence wins -/

theorem parseIndexEntries_layout : ∀ (es : List idxRecord) (idx : ByteBuf)
    (indexes : GoMap String indexEntry) (pre post : List Nat),
    (∀ e ∈ es, e.wellFormed) →
    idx.data = pre ++ es.flatMap idxRecord.bytes ++ post → idx.offset = (pre.length : Int) →
    parseIndexEntries es.length idx indexes =
      .ok (firstWins indexes es, { idx with offset := idx.offset + 18 * (es.length : Int) }) := by
  intro es
  induction es with
  | nil =>
    intro idx indexes pre post _ _ _
    simp [parseIndexEntries, firstWins]
  | cons e rest ih =>
    intro idx indexes pre post hwf hd ho
    obtain ⟨hk, hl, hsz⟩ := hwf e (List.mem_cons_self _ _)
    have hwf1 : ∀ x ∈ rest, x.wellFormed := fun x hx => hwf x (List.mem_cons_of_mem _ hx)
    have hd1 : idx.data = (pre ++ e.bytes) ++ rest.flatMap idxRecord.bytes ++ post := by
      rw [hd]
      simp only [List.flatMap_cons, List.append_assoc]
    have hlen : (e.bytes.length : Int) = 18 := by
      unfold idxRecord.bytes
      simp only [List.length_append, List.length_cons, hk, hl, hsz]
      rfl
    have r1 := ReadHexString_at idx pre e.key
      (e.high :: (e.low ++ e.size) ++ (rest.flatMap idxRecord.bytes ++ post)) 9
      (by rw [hd]; simp [idxRecord.bytes]) ho (by rw [hk]; rfl)
    simp only [List.length_cons, parseIndexEntries, r1]
    by_cases hmem : hexEncode e.key ∈ indexes
    · rw [if_pos hmem]
      have key := ih { data := idx.data, offset := idx.offset + 9 + 1 + 4 + 4 } indexes
        (pre ++ e.bytes) post hwf1 hd1
        (by simp only [List.length_append, Nat.cast_add, hlen, ho]; ring)
      simp only [ByteBuf.Seek, ByteBuf.Offset]
      rw [key]
      simp only [firstWins, List.foldl_cons, if_pos hmem, Except.ok.injEq, Prod.mk.injEq,
        true_and, ByteBuf.mk.injEq]
      push_cast
      ring
    · rw [if_neg hmem]
      have r2 := ReadUInt8_at { idx with offset := idx.offset + 9 } (pre ++ e.key) e.high
        (e.low ++ e.size ++ (rest.flatMap idxRecord.bytes ++ post))
        (by simp [hd, idxRecord.bytes])
        (by simp only [List.length_append, Nat.cast_add, hk, ho]; rfl)
      have r3 := ReadUInt32BE_at { idx with offset := idx.offset + 9 + 1 }
        (pre ++ e.key ++ [e.high]) e.low (e.size ++ (rest.flatMap idxRecord.bytes ++ post))
        (by simp [hd, idxRecord.bytes])
        (by simp only [List.length_append, Nat.cast_add, hk, ho, List.length_singleton]; rfl) hl
      have r4 := ReadInt32LE_at { idx with offset := idx.offset + 9 + 1 + 4 }
        (pre ++ e.key ++ [e.high] ++ e.low) e.size (rest.flatMap idxRecord.bytes ++ post)
        (by simp [hd, idxRecord.bytes])
        (by simp only [List.length_append, Nat.cast_add, hk, hl, ho, List.length_singleton]; rfl)
        hsz
      simp only [r2, r3, r4]
      have key := ih { data := idx.data, offset := idx.offset + 9 + 1 + 4 + 4 }
        (indexes.insert (hexEncode e.key) e.entry)
        (pre ++ e.bytes) post hwf1 hd1
        (by simp only [List.length_append, Nat.cast_add, hlen, ho]; ring)
      have he : indexEntry.mk
          ((e.high <<< 2 ||| (be32At e.low 0 &&& 0xC0000000) >>> 30 : Nat) : Int)
          ((be32At e.low 0 &&& 0x3FFFFFFF : Nat) : Int) (int32 (le32At e.size 0)) = e.entry := rfl
      rw [he, key]
      simp only [firstWins, List.foldl_cons, if_neg hmem, Except.ok.injEq, Prod.mk.injEq,
        true_and, ByteBuf.mk.injEq]
      push_cast
      ring

theorem firstWins_lookup : ∀ (es : List idxRecord) (indexes : GoMap String indexEntry)
    (k : String),
    (firstWins indexes es).lookup k =
      match indexes.lookup k with
      | some v => some v
      | none => (es.find? fun e => decide (hexEncode e.key = k)).map idxRecord.entry := by
  intro es
  induction es with
  | nil =>
    intro indexes k
    simp only [firstWins, List.foldl_nil, List.find?_nil, Option.map_none']
    cases indexes.lookup k <;> rfl
  | cons e rest ih =>
    intro indexes k
    have hstep : firstWins indexes (e :: rest) =
        firstWins (if hexEncode e.key ∈ indexes then indexes
          else indexes.insert (hexEncode e.key) e.entry) rest := rfl
    rw [hstep, ih]
    by_cases hmem : hexEncode e.key ∈ indexes
    · rw [if_pos hmem]
      cases hl : indexes.lookup k with
      | some v => rfl
      | none =>
        have hne : hexEncode e.key ≠ k := by
          intro heq
          rw [heq] at hmem
          exact absurd hmem (AList.lookup_eq_none.1 hl)
        simp only [List.find?_cons, hne, decide_False]
    · rw [if_neg hmem]
      by_cases hk : hexEncode e.key = k
      · subst hk
        rw [AList.lookup_insert, AList.lookup_eq_none.2 hmem]
        simp only [List.find?_cons, decide_True, Option.map_some']
      · rw [AList.lookup_insert_ne (fun h => hk h.symm)]
        simp only [List.find?_cons, hk, decide_False]


theorem le32At_take (head : List Nat) :
    le32At (head.take 4) 0 = le32At head 0 := by
  unfold le32At
  have hg : ∀ j, j < 4 → (head.take 4).getD j 0 = head.getD j 0 := by
    intro j hj
    rw [List.getD_eq_getElem?_getD, List.getD_eq_getElem?_getD, List.getElem?_take_of_lt hj]
  rw [hg 0 (by omega), hg (0 + 1) (by omega), hg (0 + 2) (by omega), hg (0 + 3) (by omega)]

theorem parseIndex_layout (indexes : GoMap String indexEntry) (head lb x4 : List Nat)
    (es : List idxRecord) (post : List Nat) (hh : 4 ≤ head.length)
    (hstart : (head.length : Int) = indexDataStart (int32 (le32At head 0)))
    (hlb : lb.length = 4) (hx : x4.length = 4)
    (hn : ((int32 (le32At lb 0)).tdiv 18).toNat = es.length)
    (hwf : ∀ e ∈ es, e.wellFormed) :
    Local.parseIndex indexes (head ++ lb ++ x4 ++ es.flatMap idxRecord.bytes ++ post) =
      .ok (firstWins indexes es) := by
  have r1 := ReadInt32LE_at (NewByteBuf (head ++ lb ++ x4 ++ es.flatMap idxRecord.bytes ++ post))
    [] (head.take 4) (head.drop 4 ++ lb ++ x4 ++ es.flatMap idxRecord.bytes ++ post)
    (by
      simp only [NewByteBuf, List.nil_append, List.append_assoc]
      rw [← List.append_assoc (head.take 4), List.take_append_drop])
    rfl (by simp; omega)
  rw [le32At_take head] at r1
  have r2 := ReadInt32LE_at
    { data := head ++ lb ++ x4 ++ es.flatMap idxRecord.bytes ++ post,
      offset := indexDataStart (int32 (le32At head 0)) }
    head lb (x4 ++ es.flatMap idxRecord.bytes ++ post) (by simp) hstart.symm hlb
  have r3 := parseIndexEntries_layout es
    { data := head ++ lb ++ x4 ++ es.flatMap idxRecord.bytes ++ post,
      offset := indexDataStart (int32 (le32At head 0)) + 4 + 4 }
    indexes (head ++ lb ++ x4) post hwf rfl
    (by simp only [List.length_append, Nat.cast_add, hlb, hx, ← hstart]; rfl)
  simp only [NewByteBuf] at r1
  unfold Local.parseIndex
  simp only [NewByteBuf, r1, ByteBuf.Seek, ByteBuf.Offset, r2, hn, r3]

theorem firstWins_append (indexes : GoMap String indexEntry) (es1 es2 : List idxRecord) :
    firstWins (firstWins indexes es1) es2 = firstWins indexes (es1 ++ es2) := by
  unfold firstWins
  rw [List.foldl_append]

set_option maxRecDepth 1000000 in
/-- C22. The journal parser is first-wins under duplicate keys. For entries `es`
laid out one after another from the cursor on, each of 18 bytes (9 key bytes, the
high byte, the big-endian low word, the little-endian size), the entry loop ends
with its cursor `18 * len(es)` bytes further on and with the map in which every
key not there before has the file number, offset and size of its first
occurrence in `es` and every key there before keeps its entry; `parseIndex`
returns that map for a file whose entries start 8 bytes after the aligned header
end; two files parsed in order give the map of their entries put together; and
in the example file the entry after a duplicate is read at its position. -/
theorem journal_first_occurrence_wins :
    (∀ (es : List idxRecord) (idx : ByteBuf) (indexes : GoMap String indexEntry)
      (pre post : List Nat), (∀ e ∈ es, e.wellFormed) →
      idx.data = pre ++ es.flatMap idxRecord.bytes ++ post → idx.offset = (pre.length : Int) →
      parseIndexEntries es.length idx indexes =
        .ok (firstWins indexes es, { idx with offset := idx.offset + 18 * (es.length : Int) })) ∧
    (∀ (indexes : GoMap String indexEntry) (head lb x4 : List Nat) (es : List idxRecord)
      (post : List Nat), 4 ≤ head.length →
      (head.length : Int) = indexDataStart (int32 (le32At head 0)) →
      lb.length = 4 → x4.length = 4 → ((int32 (le32At lb 0)).tdiv 18).toNat = es.length →
      (∀ e ∈ es, e.wellFormed) →
      Local.parseIndex indexes (head ++ lb ++ x4 ++ es.flatMap idxRecord.bytes ++ post) =
        .ok (firstWins indexes es)) ∧
    (∀ (es : List idxRecord) (indexes : GoMap String indexEntry) (k : String),
      (firstWins indexes es).lookup k =
        match indexes.lookup k with
        | some v => some v
        | none => (es.find? fun e => decide (hexEncode e.key = k)).map idxRecord.entry) ∧
    (∀ (indexes : GoMap String indexEntry) (es1 es2 : List idxRecord),
      firstWins (firstWins indexes es1) es2 = firstWins indexes (es1 ++ es2)) ∧
    (Local.parseIndex ∅ demoIndexFile).map AList.entries =
      .ok [⟨"090807060504030201", { index := 15, offset := 7, size := 9 }⟩,
           ⟨"010203040506070809", { index := 5, offset := 5, size := 7 }⟩] := by
  exact ⟨parseIndexEntries_layout, parseIndex_layout, firstWins_lookup, firstWins_append,
    by decide⟩

/-! ## Encoding table: one page -/

theorem ReadInt40BE_at (b : ByteBuf) (a w c : List Nat)
    (hs : b.data = a ++ w ++ c) (ho : b.offset = (a.length : Int)) (hw : w.length = 5) :
    b.ReadInt40BE = .ok (be40 w, { b with offset := b.offset + 5 }) := by
  unfold ByteBuf.ReadInt40BE
  rw [goSlice_at b.data a w c _ _ hs ho (by rw [ho, hw]; rfl)]
  rfl

theorem length_flatten_uniform (ek : Nat) : ∀ (l : List (List Nat)), (∀ a ∈ l, a.length = ek) →
    l.flatten.length = ek * l.length := by
  intro l
  induction l with
  | nil => intro _; simp
  | cons a l ih =>
    intro h
    rw [List.flatten_cons, List.length_append, h a (List.mem_cons_self _ _),
      ih (fun x hx => h x (List.mem_cons_of_mem _ hx)), List.length_cons]
    ring

theorem readEncodingPage_layout (ck ek : Nat) : ∀ (rs : List encRecord) (fuel : Nat)
    (buf : ByteBuf) (sizes : GoMap String Int) (keys : GoMap String String)
    (pre rest : List Nat),
    (∀ r ∈ rs, r.wellFormed ck ek) → rs.length < fuel →
    buf.data = pre ++ rs.flatMap encRecord.bytes ++ 0 :: rest →
    buf.offset = (pre.length : Int) →
    readEncodingPage ck ek fuel buf sizes keys =
      .ok ({ buf with offset := buf.offset + ((rs.flatMap encRecord.bytes).length : Int) + 1 },
        sizesAfter sizes rs, keysAfter keys rs) := by
  intro rs
  induction rs with
  | nil =>
    intro fuel buf sizes keys pre rest _ hf hd ho
    cases fuel with
    | zero => omega
    | succ n =>
      have r1 := ReadUInt8_at buf pre 0 rest (by simpa using hd) ho
      simp [readEncodingPage, r1, sizesAfter, keysAfter]
  | cons r rs ih =>
    intro fuel buf sizes keys pre rest hwf hf hd ho
    cases fuel with
    | zero => omega
    | succ n =>
      obtain ⟨hsz, hck, hek, hal⟩ := hwf r (List.mem_cons_self _ _)
      have hwf1 : ∀ x ∈ rs, x.wellFormed ck ek := fun x hx => hwf x (List.mem_cons_of_mem _ hx)
      have hfl := length_flatten_uniform ek r.aliases hal
      have r1 := ReadUInt8_at buf pre (r.aliases.length + 1)
        (r.size ++ r.cKey ++ r.eKey ++ r.aliases.flatten ++
          (rs.flatMap encRecord.bytes ++ 0 :: rest))
        (by simp [hd, encRecord.bytes]) ho
      have r2 := ReadInt40BE_at { buf with offset := buf.offset + 1 }
        (pre ++ [r.aliases.length + 1]) r.size
        (r.cKey ++ r.eKey ++ r.aliases.flatten ++ (rs.flatMap encRecord.bytes ++ 0 :: rest))
        (by simp [hd, encRecord.bytes]) (by simp [ho]) hsz
      have r3 := ReadHexString_at { buf with offset := buf.offset + 1 + 5 }
        (pre ++ [r.aliases.length + 1] ++ r.size) r.cKey
        (r.eKey ++ r.aliases.flatten ++ (rs.flatMap encRecord.bytes ++ 0 :: rest)) ck
        (by simp [hd, encRecord.bytes]) (by simp [ho, hsz]; ring) (by rw [hck])
      have r4 := ReadHexString_at { buf with offset := buf.offset + 1 + 5 + ck }
        (pre ++ [r.aliases.length + 1] ++ r.size ++ r.cKey) r.eKey
        (r.aliases.flatten ++ (rs.flatMap encRecord.bytes ++ 0 :: rest)) ek
        (by simp [hd, encRecord.bytes]) (by simp [ho, hsz, hck]; ring) (by rw [hek])
      have key := ih n
        { data := buf.data, offset := buf.offset + 1 + 5 + ck + ek +
            (ek : Int) * (((r.aliases.length + 1 : Nat) : Int) - 1) }
        (sizes.insert (hexEncode r.cKey) (be40 r.size))
        (keys.insert (hexEncode r.cKey) (hexEncode r.eKey))
        (pre ++ r.bytes) rest hwf1 (by simp only [List.length_cons] at hf; omega)
        (by simp [hd, encRecord.bytes])
        (by
          simp only [encRecord.bytes, List.length_append, List.length_cons, hsz, hck, hek, hfl, ho]
          push_cast
          ring)
      have hne : ¬ (r.aliases.length + 1 = 0) := by omega
      simp only [readEncodingPage, r1, hne, if_false, r2, r3, r4, ByteBuf.Move, key]
      simp only [sizesAfter, keysAfter, List.foldl_cons, List.flatMap_cons, List.length_append,
        Except.ok.injEq, Prod.mk.injEq, and_true, ByteBuf.mk.injEq, true_and]
      simp only [encRecord.bytes, List.length_append, List.length_cons, hsz, hck, hek, hfl]
      push_cast
      ring


/-! ## Encoding table: the pages -/

theorem sizesAfter_append (m : GoMap String Int) (a b : List encRecord) :
    sizesAfter (sizesAfter m a) b = sizesAfter m (a ++ b) := by
  unfold sizesAfter
  rw [List.foldl_append]

theorem keysAfter_append (m : GoMap String String) (a b : List encRecord) :
    keysAfter (keysAfter m a) b = keysAfter m (a ++ b) := by
  unfold keysAfter
  rw [List.foldl_append]

theorem length_le_flatMap_bytes : ∀ rs : List encRecord,
    rs.length ≤ (rs.flatMap encRecord.bytes).length := by
  intro rs
  induction rs with
  | nil => simp
  | cons r rs ih =>
    simp only [List.flatMap_cons, List.length_append, List.length_cons, encRecord.bytes]
    omega

theorem readEncodingPages_layout (ck ek : Nat) (P start : Int) :
    ∀ (ps : List (List encRecord × List Nat)) (i : Nat) (buf : ByteBuf)
      (sizes : GoMap String Int) (keys : GoMap String String) (pre post : List Nat),
    (∀ p ∈ ps, (∀ r ∈ p.1, r.wellFormed ck ek) ∧ ((encPageBytes p).length : Int) = P) →
    buf.data = pre ++ ps.flatMap encPageBytes ++ post →
    (pre.length : Int) = start + P * (i : Int) →
    readEncodingPages ck ek P start ps.length i buf sizes keys =
      .ok (sizesAfter sizes (ps.flatMap Prod.fst), keysAfter keys (ps.flatMap Prod.fst)) := by
  intro ps
  induction ps with
  | nil =>
    intro i buf sizes keys pre post _ _ _
    rfl
  | cons p ps ih =>
    intro i buf sizes keys pre post hwf hd hpre
    obtain ⟨hrec, hlen⟩ := hwf p (List.mem_cons_self _ _)
    have hwf1 : ∀ q ∈ ps, (∀ r ∈ q.1, r.wellFormed ck ek) ∧ ((encPageBytes q).length : Int) = P :=
      fun q hq => hwf q (List.mem_cons_of_mem _ hq)
    have hfuel : p.1.length < buf.data.length + 1 := by
      have h1 := length_le_flatMap_bytes p.1
      rw [hd]
      simp only [List.flatMap_cons, List.length_append, encPageBytes, List.length_cons]
      omega
    have page := readEncodingPage_layout ck ek p.1 (buf.data.length + 1)
      (buf.Seek (start + P * (i : Int))) sizes keys pre
      (p.2 ++ (ps.flatMap encPageBytes ++ post)) hrec hfuel
      (by simp [ByteBuf.Seek, hd, encPageBytes]) (by simp [ByteBuf.Seek, hpre])
    simp only [List.length_cons, readEncodingPages, page]
    rw [ih (i + 1) _ _ _ (pre ++ encPageBytes p) post hwf1
      (by simp [ByteBuf.Seek, hd]) (by
        simp only [List.length_append, Nat.cast_add, hlen, hpre]
        push_cast
        ring)]
    rw [sizesAfter_append, keysAfter_append]
    rfl

theorem ReadUInt16LE_at (b : ByteBuf) (a w c : List Nat)
    (hs : b.data = a ++ w ++ c) (ho : b.offset = (a.length : Int)) (hw : w.length = 2) :
    b.ReadUInt16LE = .ok (w.getD 0 0 ||| w.getD 1 0 <<< 8, { b with offset := b.offset + 2 }) := by
  unfold ByteBuf.ReadUInt16LE
  rw [goSlice_at b.data a w c _ _ hs ho (by rw [ho, hw]; rfl)]

theorem ReadInt16BE_at (b : ByteBuf) (a w c : List Nat)
    (hs : b.data = a ++ w ++ c) (ho : b.offset = (a.length : Int)) (hw : w.length = 2) :
    b.ReadInt16BE =
      .ok (((w.getD 0 0 <<< 8 ||| w.getD 1 0 : Nat) : Int), { b with offset := b.offset + 2 }) := by
  unfold ByteBuf.ReadInt16BE
  rw [goSlice_at b.data a w c _ _ hs ho (by rw [ho, hw]; rfl)]

theorem ReadInt32BE_at (b : ByteBuf) (a w c : List Nat)
    (hs : b.data = a ++ w ++ c) (ho : b.offset = (a.length : Int)) (hw : w.length = 4) :
    b.ReadInt32BE = .ok (int32 (be32At w 0), { b with offset := b.offset + 4 }) := by
  unfold ByteBuf.ReadInt32BE
  rw [goSlice_at b.data a w c _ _ hs ho (by rw [ho, hw]; rfl)]
  rfl

/-- The table laid out as the format has it: magic `EN`, version, the two key
sizes, the page size in KiB, two bytes, the page count, five bytes, the size of
the spec block, then the spec block and the page digests (`mid`), then the pages. -/
theorem parseEncodingTable_layout (ver ck ek : Nat) (pk e2 cnt u5 spec mid post : List Nat)
    (ps : List (List encRecord × List Nat))
    (sizes : GoMap String Int) (keys : GoMap String String)
    (hpk : pk.length = 2) (he2 : e2.length = 2) (hcnt : cnt.length = 4) (hu5 : u5.length = 5)
    (hspec : spec.length = 4)
    (hcount : int32 (be32At cnt 0) = (ps.length : Int))
    (hmid : (mid.length : Int) =
      int32 (be32At spec 0) + int32 (be32At cnt 0) * ((ck : Int) + 16))
    (hwf : ∀ p ∈ ps, (∀ r ∈ p.1, r.wellFormed ck ek) ∧
      ((encPageBytes p).length : Int) = ((pk.getD 0 0 <<< 8 ||| pk.getD 1 0 : Nat) : Int) * 1024) :
    parseEncodingTable
        ([0x45, 0x4E] ++ [ver] ++ [ck] ++ [ek] ++ pk ++ e2 ++ cnt ++ u5 ++ spec ++ mid ++
          ps.flatMap encPageBytes ++ post) sizes keys =
      .ok (sizesAfter sizes (ps.flatMap Prod.fst), keysAfter keys (ps.flatMap Prod.fst)) := by
  have r1 := ReadUInt16LE_at
    { data := [0x45, 0x4E] ++ [ver] ++ [ck] ++ [ek] ++ pk ++ e2 ++ cnt ++ u5 ++ spec ++ mid ++
        ps.flatMap encPageBytes ++ post, offset := 0 } [] [0x45, 0x4E]
    ([ver] ++ [ck] ++ [ek] ++ pk ++ e2 ++ cnt ++ u5 ++ spec ++ mid ++
      ps.flatMap encPageBytes ++ post) (by simp) rfl rfl
  have r2 := ReadUInt8_at
    { data := [0x45, 0x4E] ++ [ver] ++ [ck] ++ [ek] ++ pk ++ e2 ++ cnt ++ u5 ++ spec ++ mid ++
        ps.flatMap encPageBytes ++ post, offset := 0 + 2 + 1 }
    [0x45, 0x4E, ver] ck ([ek] ++ pk ++ e2 ++ cnt ++ u5 ++ spec ++ mid ++
      ps.flatMap encPageBytes ++ post) (by simp) rfl
  have r3 := ReadUInt8_at
    { data := [0x45, 0x4E] ++ [ver] ++ [ck] ++ [ek] ++ pk ++ e2 ++ cnt ++ u5 ++ spec ++ mid ++
        ps.flatMap encPageBytes ++ post, offset := 0 + 2 + 1 + 1 }
    [0x45, 0x4E, ver, ck] ek (pk ++ e2 ++ cnt ++ u5 ++ spec ++ mid ++
      ps.flatMap encPageBytes ++ post) (by simp) rfl
  have r4 := ReadInt16BE_at
    { data := [0x45, 0x4E] ++ [ver] ++ [ck] ++ [ek] ++ pk ++ e2 ++ cnt ++ u5 ++ spec ++ mid ++
        ps.flatMap encPageBytes ++ post, offset := 0 + 2 + 1 + 1 + 1 }
    [0x45, 0x4E, ver, ck, ek] pk (e2 ++ cnt ++ u5 ++ spec ++ mid ++
      ps.flatMap encPageBytes ++ post) (by simp) rfl hpk
  have r5 := ReadInt32BE_at
    { data := [0x45, 0x4E] ++ [ver] ++ [ck] ++ [ek] ++ pk ++ e2 ++ cnt ++ u5 ++ spec ++ mid ++
        ps.flatMap encPageBytes ++ post, offset := 0 + 2 + 1 + 1 + 1 + 2 + 2 }
    ([0x45, 0x4E, ver, ck, ek] ++ pk ++ e2) cnt (u5 ++ spec ++ mid ++
      ps.flatMap encPageBytes ++ post) (by simp)
    (by simp only [List.length_append, List.length_cons, List.length_nil, hpk, he2]; rfl) hcnt
  have r6 := ReadInt32BE_at
    { data := [0x45, 0x4E] ++ [ver] ++ [ck] ++ [ek] ++ pk ++ e2 ++ cnt ++ u5 ++ spec ++ mid ++
        ps.flatMap encPageBytes ++ post, offset := 0 + 2 + 1 + 1 + 1 + 2 + 2 + 4 + (4 + 1) }
    ([0x45, 0x4E, ver, ck, ek] ++ pk ++ e2 ++ cnt ++ u5) spec (mid ++
      ps.flatMap encPageBytes ++ post) (by simp)
    (by simp only [List.length_append, List.length_cons, List.length_nil, hpk, he2, hcnt, hu5]
        rfl) hspec
  have r7 := readEncodingPages_layout ck ek
    (((pk.getD 0 0 <<< 8 ||| pk.getD 1 0 : Nat) : Int) * 1024)
    (0 + 2 + 1 + 1 + 1 + 2 + 2 + 4 + (4 + 1) + 4 +
      (int32 (be32At spec 0) + int32 (be32At cnt 0) * ((ck : Int) + 16)))
    ps 0
    { data := [0x45, 0x4E] ++ [ver] ++ [ck] ++ [ek] ++ pk ++ e2 ++ cnt ++ u5 ++ spec ++ mid ++
        ps.flatMap encPageBytes ++ post,
      offset := 0 + 2 + 1 + 1 + 1 + 2 + 2 + 4 + (4 + 1) + 4 +
        (int32 (be32At spec 0) + int32 (be32At cnt 0) * ((ck : Int) + 16)) }
    sizes keys
    ([0x45, 0x4E, ver, ck, ek] ++ pk ++ e2 ++ cnt ++ u5 ++ spec ++ mid) post hwf (by simp)
    (by
      simp only [List.length_append, List.length_cons, List.length_nil, hpk, he2, hcnt, hu5,
        hspec, Nat.cast_add, hmid]
      push_cast
      ring)
  have hmagic : ¬ ((([0x45, 0x4E] : List Nat).getD 0 0 |||
      ([0x45, 0x4E] : List Nat).getD 1 0 <<< 8) % 2 ^ 16 ≠ encMagic) := by decide
  dsimp only at r1 r2 r3 r4 r5 r6
  unfold parseEncodingTable
  simp only [NewByteBuf, ByteBuf.Move, ByteBuf.Offset]
  rw [r1]
  dsimp only
  rw [if_neg hmagic, r2]
  dsimp only
  rw [r3]
  dsimp only
  rw [r4]
  dsimp only
  rw [r5]
  dsimp only
  rw [r6]
  dsimp only
  rw [hcount, Int.toNat_ofNat]
  rw [hcount] at r7
  exact r7

theorem keysAfter_lookup (c : String) : ∀ (rs : List encRecord) (keys : GoMap String String),
    (keysAfter keys rs).lookup c =
      match (rs.reverse.find? fun r => decide (hexEncode r.cKey = c)) with
      | some r => some (hexEncode r.eKey)
      | none => keys.lookup c := by
  intro rs
  induction rs with
  | nil => intro keys; rfl
  | cons e l ih =>
    intro keys
    unfold keysAfter at ih ⊢
    rw [List.foldl_cons, ih, List.reverse_cons, List.find?_append]
    cases hf : List.find? (fun r => decide (hexEncode r.cKey = c)) l.reverse with
    | some e1 => rfl
    | none =>
      simp only [Option.none_or, List.find?_cons, List.find?_nil]
      by_cases hk : hexEncode e.cKey = c
      · simp only [hk, decide_True]
        rw [AList.lookup_insert]
      · simp only [hk, decide_False]
        rw [AList.lookup_insert_ne (fun h => hk h.symm)]

theorem sizesAfter_lookup (c : String) : ∀ (rs : List encRecord) (sizes : GoMap String Int),
    (sizesAfter sizes rs).lookup c =
      match (rs.reverse.find? fun r => decide (hexEncode r.cKey = c)) with
      | some r => some (be40 r.size)
      | none => sizes.lookup c := by
  intro rs
  induction rs with
  | nil => intro sizes; rfl
  | cons e l ih =>
    intro sizes
    unfold sizesAfter at ih ⊢
    rw [List.foldl_cons, ih, List.reverse_cons, List.find?_append]
    cases hf : List.find? (fun r => decide (hexEncode r.cKey = c)) l.reverse with
    | some e1 => rfl
    | none =>
      simp only [Option.none_or, List.find?_cons, List.find?_nil]
      by_cases hk : hexEncode e.cKey = c
      · simp only [hk, decide_True]
        rw [AList.lookup_insert]
      · simp only [hk, decide_False]
        rw [AList.lookup_insert_ne (fun h => hk h.symm)]

/-- C21. One encoding key per content key, the first of the record. For a table
laid out as the format has it (magic, version, the two key sizes, the page size in
KiB, the page count, the size of the spec block, the spec block and page digests,
then the pages, each of the page size and holding records, a key count 0 and
padding), where a record is its key count, a 5-byte size, the content key, the
first encoding key and the further encoding keys right before the next record,
`parseEncodingFile` on a BLTE that decodes to the table returns, and in the maps
it returns a content key carried by a record has the first encoding key and the
40-bit big-endian size of the last record that carries it, and every other
content key keeps what it had: no further encoding key of a record is stored. -/
theorem encoding_keeps_first_key_of_record (ver ck ek : Nat)
    (pk e2 cnt u5 spec mid post : List Nat) (ps : List (List encRecord × List Nat))
    (sizes : GoMap String Int) (keys : GoMap String String)
    (hpk : pk.length = 2) (he2 : e2.length = 2) (hcnt : cnt.length = 4) (hu5 : u5.length = 5)
    (hspec : spec.length = 4)
    (hcount : int32 (be32At cnt 0) = (ps.length : Int))
    (hmid : (mid.length : Int) =
      int32 (be32At spec 0) + int32 (be32At cnt 0) * ((ck : Int) + 16))
    (hwf : ∀ p ∈ ps, (∀ r ∈ p.1, r.wellFormed ck ek) ∧
      ((encPageBytes p).length : Int) = ((pk.getD 0 0 <<< 8 ||| pk.getD 1 0 : Nat) : Int) * 1024) :
    ∃ (sizes1 : GoMap String Int) (keys1 : GoMap String String),
      (∀ (env : Env) (raw : List Nat) (hash : String) (blte : BLTEReader),
        NewBLTEReader raw hash false = .ok blte →
        blte.Output env = .ok ([0x45, 0x4E] ++ [ver] ++ [ck] ++ [ek] ++ pk ++ e2 ++ cnt ++ u5 ++
          spec ++ mid ++ ps.flatMap encPageBytes ++ post) →
        parseEncodingFile env raw hash sizes keys = .ok (sizes1, keys1)) ∧
      (∀ c : String, keys1.lookup c =
        match ((ps.flatMap Prod.fst).reverse.find? fun r => decide (hexEncode r.cKey = c)) with
        | some r => some (hexEncode r.eKey)
        | none => keys.lookup c) ∧
      (∀ c : String, sizes1.lookup c =
        match ((ps.flatMap Prod.fst).reverse.find? fun r => decide (hexEncode r.cKey = c)) with
        | some r => some (be40 r.size)
        | none => sizes.lookup c) := by
  refine ⟨sizesAfter sizes (ps.flatMap Prod.fst), keysAfter keys (ps.flatMap Prod.fst), ?_, ?_, ?_⟩
  · intro env raw hash blte h1 h2
    unfold parseEncodingFile
    rw [h1]
    dsimp only
    rw [h2]
    exact parseEncodingTable_layout ver ck ek pk e2 cnt u5 spec mid post ps sizes keys
      hpk he2 hcnt hu5 hspec hcount hmid hwf
  · intro c
    exact keysAfter_lookup c _ keys
  · intro c
    exact sizesAfter_lookup c _ sizes

set_option maxRecDepth 1000000 in
theorem encoding_keeps_first_key_of_record_witness :
    (∃ (sizes1 : GoMap String Int) (keys1 : GoMap String String),
      (∀ (env : Env) (raw : List Nat) (hash : String) (blte : BLTEReader),
        NewBLTEReader raw hash false = .ok blte →
        blte.Output env = .ok demoEncodingTable →
        parseEncodingFile env raw hash ∅ ∅ = .ok (sizes1, keys1)) ∧
      (∀ c : String, keys1.lookup c =
        match ((demoEncodingPages.flatMap Prod.fst).reverse.find?
          fun r => decide (hexEncode r.cKey = c)) with
        | some r => some (hexEncode r.eKey)
        | none => (∅ : GoMap String String).lookup c) ∧
      (∀ c : String, sizes1.lookup c =
        match ((demoEncodingPages.flatMap Prod.fst).reverse.find?
          fun r => decide (hexEncode r.cKey = c)) with
        | some r => some (be40 r.size)
        | none => (∅ : GoMap String Int).lookup c)) ∧
    (parseEncodingTable demoEncodingTable ∅ ∅).map
        (fun r => (r.1.entries, r.2.entries)) =
      .ok ([⟨"a2", 7⟩, ⟨"a1", 256⟩], [⟨"a2", "e2"⟩, ⟨"a1", "e1"⟩]) :=
  ⟨encoding_keeps_first_key_of_record 1 1 1 [0, 1] [0, 1] [0, 0, 0, 1] [0, 0, 0, 0, 0]
      [0, 0, 0, 0] (List.replicate 17 0xEE) [] demoEncodingPages ∅ ∅ rfl rfl rfl rfl rfl
      (by decide) (by decide)
      (by simp [demoEncodingPages, encPageBytes, encRecord.bytes, encRecord.wellFormed]),
    by decide⟩

/-! ## Salsa20: keystream continuity -/

theorem getBytes_add : ∀ (n m : Nat) (s : salsa20),
    s.getBytes (n + m) =
      ((s.getBytes n).1 ++ ((s.getBytes n).2.getBytes m).1, ((s.getBytes n).2.getBytes m).2) := by
  intro n
  induction n with
  | zero =>
    intro m s
    simp only [Nat.zero_add, salsa20.getBytes, List.nil_append]
  | succ n ih =>
    intro m s
    rw [Nat.succ_add]
    simp only [salsa20.getBytes, ih, List.cons_append]

theorem zipWith_xor_append : ∀ (k1 a : List Nat) (k2 b : List Nat), k1.length = a.length →
    List.zipWith (fun k b => k ^^^ b) (k1 ++ k2) (a ++ b) =
      List.zipWith (fun k b => k ^^^ b) k1 a ++ List.zipWith (fun k b => k ^^^ b) k2 b := by
  intro k1 a k2 b h
  exact List.zipWith_append _ _ _ _ _ h

theorem process_append (s : salsa20) (a b : List Nat) :
    s.process (a ++ b) =
      ((s.process a).1 ++ ((s.process a).2.process b).1, ((s.process a).2.process b).2) := by
  unfold salsa20.process
  simp only [List.length_append, getBytes_add]
  rw [zipWith_xor_append _ _ _ _ (getBytes_length _ _)]

theorem process_at_position (c k nn : List Nat) (s : salsa20) (p : Nat)
    (h : s.atPosition c k nn p) (x : List Nat) :
    (s.process x).1 = List.zipWith (fun k b => k ^^^ b)
      ((List.range x.length).map
        (fun i => (specCore (specState c k nn ((p + i) / 64))).getD ((p + i) % 64) 0)) x ∧
    (s.process x).2.atPosition c k nn (p + x.length) := by
  unfold salsa20.process
  simp only
  rw [(getBytes_stream c k nn x.length s p h).1]
  exact ⟨rfl, (getBytes_stream c k nn x.length s p h).2⟩

/-- C38. Salsa20 keystream continuity. For every cipher state, in particular a
fresh one, and all buffers `a` and `b`, `process(a ‖ b)` returns the bytes of
`process(a)` followed by those of `process(b)` on the same instance, and leaves
the instance in the same state; and for a cipher of 20 rounds that stands before
byte `p` of its keystream, `process(x)` is `x` XOR the bytes `p .. p + len(x)` of
the keystream of its constants, key words and nonce words, after which the cipher
stands before byte `p + len(x)`: a fresh cipher stands before byte 0. -/
theorem salsa20_keystream_continuity :
    (∀ (s : salsa20) (a b : List Nat),
      (s.process (a ++ b)).1 = (s.process a).1 ++ ((s.process a).2.process b).1 ∧
      (s.process (a ++ b)).2 = ((s.process a).2.process b).2) ∧
    (∀ (nonce key : List Nat) (rounds : Nat) (s : salsa20),
      newSalsa20 nonce key rounds = .ok s → ∀ a b : List Nat,
      (s.process a).1 ++ ((s.process a).2.process b).1 = (s.process (a ++ b)).1) ∧
    (∀ (c k nn : List Nat) (s : salsa20) (p : Nat), s.atPosition c k nn p → ∀ x : List Nat,
      (s.process x).1 = List.zipWith (fun k b => k ^^^ b)
        ((List.range x.length).map
          (fun i => (specCore (specState c k nn ((p + i) / 64))).getD ((p + i) % 64) 0)) x ∧
      (s.process x).2.atPosition c k nn (p + x.length)) ∧
    (∀ (nonce key : List Nat) (s : salsa20), newSalsa20 nonce key 20 = .ok s →
      s.atPosition s.sigma s.keyWords s.nonceWords 0) ∧
    (∀ (nonce key : List Nat), key.length = 16 ∨ key.length = 32 →
      ∃ s, newSalsa20 nonce key 20 = .ok s) := by
  refine ⟨fun s a b => ?_, fun nonce key rounds s _ a b => ?_, ?_, ?_, ?_⟩
  · rw [process_append]
    exact ⟨rfl, rfl⟩
  · rw [process_append]
  · intro c k nn s p h x
    exact process_at_position c k nn s p h x
  · intro nonce key s h
    exact newSalsa20_atPosition h
  · intro nonce key h
    exact newSalsa20_succeeds nonce key h

/-! ## Journal: the locator of an entry -/

theorem and_mask_aligned (v : Nat) (hv : v < 2 ^ 32) : v &&& 0xFFFFFFF0 = 16 * (v / 16) := by
  apply Nat.eq_of_testBit_eq
  intro i
  have hm : (0xFFFFFFF0 : Nat) = (2 ^ 28 - 1) <<< 4 := by decide
  have hr : 16 * (v / 16) = (v >>> 4) <<< 4 := by
    rw [Nat.shiftLeft_eq, Nat.shiftRight_eq_div_pow]
    ring
  rw [Nat.testBit_and, hm, hr, Nat.testBit_shiftLeft, Nat.testBit_shiftLeft,
    Nat.testBit_two_pow_sub_one, Nat.testBit_shiftRight]
  by_cases h4 : 4 ≤ i
  · have e : 4 + (i - 4) = i := by omega
    rw [e]
    by_cases h32 : i < 32
    · have : i - 4 < 28 := by omega
      simp [h4, this]
    · have hz : v.testBit i = false :=
        Nat.testBit_lt_two_pow (lt_of_lt_of_le hv (Nat.pow_le_pow_right (by decide) (by omega)))
      simp [hz]
  · simp [h4]

theorem indexDataStart_aligned (h : Int) (h0 : 0 ≤ h) (h1 : h < 2 ^ 31) :
    indexDataStart h = 16 * ((8 + h + 15) / 16) := by
  unfold indexDataStart
  obtain ⟨n, rfl⟩ := Int.eq_ofNat_of_zero_le h0
  have hn : n < 2 ^ 31 := by exact_mod_cast h1
  have e1 : ((8 + (n : Int) + 0x0F) % 2 ^ 64).toNat = n + 23 := by
    have : (8 + (n : Int) + 0x0F) = ((n + 23 : Nat) : Int) := by push_cast; ring
    rw [this]
    have h2 : ((n + 23 : Nat) : Int) % 2 ^ 64 = ((n + 23 : Nat) : Int) := by
      apply Int.emod_eq_of_lt
      · exact Int.natCast_nonneg _
      · have : n + 23 < 2 ^ 64 := by
          have : (2 : Nat) ^ 31 + 23 < 2 ^ 64 := by decide
          omega
        exact_mod_cast this
    rw [h2, Int.toNat_ofNat]
  rw [e1, and_mask_aligned (n + 23) (by
    have : (2 : Nat) ^ 31 + 23 < 2 ^ 32 := by decide
    omega)]
  have : (8 + (n : Int) + 15) = ((n + 23 : Nat) : Int) := by push_cast; ring
  rw [this]
  push_cast
  rfl

theorem entry_index_bits (high low : Nat) :
    high <<< 2 ||| (low &&& 0xC0000000) >>> 30 = high <<< 2 ||| (low >>> 30 &&& 3) := by
  have h : (low &&& 0xC0000000) >>> 30 = low >>> 30 &&& 3 := by
    apply Nat.eq_of_testBit_eq
    intro i
    have hm : (0xC0000000 : Nat) = 3 <<< 30 := by decide
    rw [Nat.testBit_shiftRight, Nat.testBit_and, Nat.testBit_and, Nat.testBit_shiftRight, hm,
      Nat.testBit_shiftLeft]
    simp
  rw [h]

theorem entry_index_lt (high low : Nat) (hh : high < 256) :
    high <<< 2 ||| (low >>> 30 &&& 3) < 1024 := by
  have h1 : high <<< 2 < 2 ^ 10 := by
    rw [Nat.shiftLeft_eq]
    omega
  have h2 : low >>> 30 &&& 3 < 2 ^ 10 :=
    lt_of_le_of_lt Nat.and_le_right (by decide)
  exact Nat.or_lt_two_pow h1 h2

theorem entry_offset_lt (low : Nat) : low &&& 0x3FFFFFFF < 2 ^ 30 :=
  lt_of_le_of_lt Nat.and_le_right (by decide)

theorem firstWins_first (es1 es2 : List idxRecord) (e : idxRecord)
    (indexes : GoMap String indexEntry) (hnew : hexEncode e.key ∉ indexes)
    (hfirst : ∀ x ∈ es1, hexEncode x.key ≠ hexEncode e.key) :
    (firstWins indexes (es1 ++ e :: es2)).lookup (hexEncode e.key) = some e.entry := by
  rw [firstWins_lookup]
  have hl : indexes.lookup (hexEncode e.key) = none := AList.lookup_eq_none.2 hnew
  rw [hl]
  simp only
  rw [List.find?_append]
  have h1 : List.find? (fun x => decide (hexEncode x.key = hexEncode e.key)) es1 = none := by
    rw [List.find?_eq_none]
    intro x hx
    simpa using hfirst x hx
  rw [h1]
  simp

/-- C34. The locator of a journal entry. For an entry with high byte `idxHigh`,
big-endian low word `idxLow` and little-endian size, the entry stored is
`index = (idxHigh << 2) | ((idxLow >> 30) & 3)`, `offset = idxLow & 0x3FFFFFFF`
and the size as a signed 32-bit integer, so that `0 <= index < 1024` and
`0 <= offset < 2^30`; `parseIndex` stores that entry under the key of the first
entry that carries it, the entries being read from 8 bytes after the position
`(8 + headerHashSize + 15) & 0xFFFFFFF0`, which for a header hash size `h` with
`0 <= h < 2^31` is the least multiple of 16 not below `8 + h`. -/
theorem journal_entry_locator (e : idxRecord) (hh : e.high < 256) :
    e.entry.index = (((e.high <<< 2) ||| ((be32At e.low 0 >>> 30) &&& 3) : Nat) : Int) ∧
    e.entry.offset = ((be32At e.low 0 &&& 0x3FFFFFFF : Nat) : Int) ∧
    e.entry.size = int32 (le32At e.size 0) ∧
    0 ≤ e.entry.index ∧ e.entry.index < 1024 ∧ 0 ≤ e.entry.offset ∧ e.entry.offset < 2 ^ 30 ∧
    (∀ (indexes : GoMap String indexEntry) (head lb x4 : List Nat) (es1 es2 : List idxRecord)
      (post : List Nat), 4 ≤ head.length →
      (head.length : Int) = indexDataStart (int32 (le32At head 0)) →
      lb.length = 4 → x4.length = 4 →
      ((int32 (le32At lb 0)).tdiv 18).toNat = (es1 ++ e :: es2).length →
      (∀ x ∈ es1 ++ e :: es2, x.wellFormed) →
      hexEncode e.key ∉ indexes → (∀ x ∈ es1, hexEncode x.key ≠ hexEncode e.key) →
      (Local.parseIndex indexes
          (head ++ lb ++ x4 ++ (es1 ++ e :: es2).flatMap idxRecord.bytes ++ post)).map
        (fun m => m.lookup (hexEncode e.key)) = .ok (some e.entry)) ∧
    (∀ h : Int, 0 ≤ h → h < 2 ^ 31 →
      indexDataStart h = 16 * ((8 + h + 15) / 16) ∧ 8 + h ≤ indexDataStart h ∧
      indexDataStart h < 8 + h + 16) := by
  have hi : e.entry.index = (((e.high <<< 2) ||| ((be32At e.low 0 >>> 30) &&& 3) : Nat) : Int) := by
    unfold idxRecord.entry
    simp only
    rw [entry_index_bits]
  refine ⟨hi, rfl, rfl, ?_, ?_, ?_, ?_, ?_, ?_⟩
  · rw [hi]
    exact Int.natCast_nonneg _
  · rw [hi]
    exact_mod_cast entry_index_lt e.high (be32At e.low 0) hh
  · exact Int.natCast_nonneg _
  · have := entry_offset_lt (be32At e.low 0)
    unfold idxRecord.entry
    simp only
    exact_mod_cast this
  · intro indexes head lb x4 es1 es2 post h4 hhead hlb hx4 hn hwf hnew hfirst
    rw [parseIndex_layout indexes head lb x4 (es1 ++ e :: es2) post h4 hhead hlb hx4 hn hwf]
    simp only [Except.map]
    rw [firstWins_first es1 es2 e indexes hnew hfirst]
  · intro h h0 h1
    have := indexDataStart_aligned h h0 h1
    refine ⟨this, ?_, ?_⟩ <;> omega

set_option maxRecDepth 100000 in
theorem journal_entry_locator_witness :
    ((idxRecord.mk [1, 2, 3, 4, 5, 6, 7, 8, 9] 1 [0x40, 0, 0, 5] [7, 0, 0, 0]).entry = { index := 5, offset := 5, size := 7 }) ∧
    ((idxRecord.mk [1, 2, 3, 4, 5, 6, 7, 8, 9] 1 [0x40, 0, 0, 5] [7, 0, 0, 0]).entry.index < 1024) ∧
    indexDataStart 0 = 16 ∧ indexDataStart 9 = 32 :=
  ⟨by decide,
    (journal_entry_locator (idxRecord.mk [1, 2, 3, 4, 5, 6, 7, 8, 9] 1 [0x40, 0, 0, 5] [7, 0, 0, 0]) (by decide)).2.2.2.2.1,
    by decide, by decide⟩

/-! ## NewBLTEReader: faults on truncated input -/

theorem goSlice_panics (s : List Nat) (lo hi : Int) (h : (s.length : Int) < hi) :
    goSlice s lo hi = .error (.panic "slice bounds out of range") := by
  unfold goSlice
  rw [if_neg (by omega)]

theorem NewBLTEReader_header_overrun (raw : List Nat) (hash : String) (lenient : Bool)
    (hm : raw.take 4 = [0x42, 0x4C, 0x54, 0x45]) (h8 : 8 ≤ raw.length)
    (hs : (raw.length : Int) < declaredHeaderSize raw) :
    NewBLTEReader raw hash lenient = .error (.panic "slice bounds out of range") := by
  have g1 : goSlice raw 0 (0 + 4) = .ok [0x42, 0x4C, 0x54, 0x45] := by
    rw [goSlice_of_bounds raw 0 (0 + 4) (by omega) (by omega) (by omega), ← hm]
    rfl
  have hmagic : ¬ ((0x42 ||| 0x4C <<< 8 ||| 0x54 <<< 16 ||| 0x45 <<< 24 : Nat) ≠ blteMagic) := by
    decide
  have hpos : declaredHeaderSize raw > 0 := by omega
  have r4 : ({ data := raw, offset := 0 + 4 } : ByteBuf).ReadInt32BE =
      .ok (declaredHeaderSize raw, { data := raw, offset := 8 }) :=
    ReadInt32BE_at4 raw (by omega)
  unfold NewBLTEReader
  simp only [NewByteBuf, ByteBuf.ByteLength, ByteBuf.ReadUInt32LE, g1, List.getD_cons_zero,
    List.getD_cons_succ, ByteBuf.Offset, ByteBuf.Seek]
  rw [if_neg (by omega), if_neg hmagic, r4]
  simp only [if_pos hpos]
  rw [goSlice_panics raw 0 _ hs]

theorem NewBLTEReader_negative_short (raw : List Nat) (lenient : Bool)
    (hm : raw.take 4 = [0x42, 0x4C, 0x54, 0x45]) (h8 : 8 ≤ raw.length) (h32 : raw.length < 32)
    (hs : declaredHeaderSize raw < 0) :
    NewBLTEReader raw (md5Hex raw) lenient = .error (.panic "slice bounds out of range") := by
  have g1 : goSlice raw 0 (0 + 4) = .ok [0x42, 0x4C, 0x54, 0x45] := by
    rw [goSlice_of_bounds raw 0 (0 + 4) (by omega) (by omega) (by omega), ← hm]
    rfl
  have hmagic : ¬ ((0x42 ||| 0x4C <<< 8 ||| 0x54 <<< 16 ||| 0x45 <<< 24 : Nat) ≠ blteMagic) := by
    decide
  have hpos : ¬ declaredHeaderSize raw > 0 := by omega
  have hne : declaredHeaderSize raw ≠ 0 := by omega
  have r4 : ({ data := raw, offset := 0 + 4 } : ByteBuf).ReadInt32BE =
      .ok (declaredHeaderSize raw, { data := raw, offset := 8 }) :=
    ReadInt32BE_at4 raw (by omega)
  unfold NewBLTEReader
  simp only [NewByteBuf, ByteBuf.ByteLength, ByteBuf.ReadUInt32LE, g1, List.getD_cons_zero,
    List.getD_cons_succ, ByteBuf.Offset, ByteBuf.Seek]
  rw [if_neg (by omega), if_neg hmagic, r4]
  simp only [if_neg hpos, ne_eq, not_true_eq_false, if_false, readBlockTable, hne,
    not_false_eq_true, if_true, ByteBuf.ReadInt32BE, ByteBuf.ReadHexString]
  by_cases h12 : 12 ≤ raw.length
  · rw [goSlice_of_bounds raw 8 (8 + 4) (by omega) (by omega) (by omega)]
    simp only
    by_cases h16 : 16 ≤ raw.length
    · rw [goSlice_of_bounds raw (8 + 4) (8 + 4 + 4) (by omega) (by omega) (by omega)]
      simp only
      rw [goSlice_panics raw _ _ (by omega)]
    · rw [goSlice_panics raw _ _ (by omega)]
  · rw [goSlice_panics raw _ _ (by omega)]

theorem NewBLTEReader_negative_accepted (raw : List Nat) (lenient : Bool)
    (hm : raw.take 4 = [0x42, 0x4C, 0x54, 0x45]) (h32 : 32 ≤ raw.length)
    (hs : declaredHeaderSize raw < 0) (hd : 0 ≤ int32 (be32At raw 12)) :
    ∃ r, NewBLTEReader raw (md5Hex raw) lenient = .ok r ∧
      r.blocks.map blteBlock.DecompSize = [int32 (be32At raw 12)] := by
  have g1 : goSlice raw 0 (0 + 4) = .ok [0x42, 0x4C, 0x54, 0x45] := by
    rw [goSlice_of_bounds raw 0 (0 + 4) (by omega) (by omega) (by omega), ← hm]
    rfl
  have hmagic : ¬ ((0x42 ||| 0x4C <<< 8 ||| 0x54 <<< 16 ||| 0x45 <<< 24 : Nat) ≠ blteMagic) := by
    decide
  have hpos : ¬ declaredHeaderSize raw > 0 := by omega
  have hne : declaredHeaderSize raw ≠ 0 := by omega
  have g3 : goSlice raw ((12 : Nat) : Int) (((12 : Nat) : Int) + 4) =
      .ok ((raw.take 16).drop 12) :=
    goSlice_of_bounds raw _ _ (by omega) (by omega) (by push_cast; omega)
  have e3 := slice4_be32 g3
  have g3' : goSlice raw (8 + 4) (8 + 4 + 4) = .ok ((raw.take 16).drop 12) := g3
  have r4 : ({ data := raw, offset := 0 + 4 } : ByteBuf).ReadInt32BE =
      .ok (declaredHeaderSize raw, { data := raw, offset := 8 }) :=
    ReadInt32BE_at4 raw (by omega)
  unfold NewBLTEReader
  simp only [NewByteBuf, ByteBuf.ByteLength, ByteBuf.ReadUInt32LE, g1, List.getD_cons_zero,
    List.getD_cons_succ, ByteBuf.Offset, ByteBuf.Seek]
  rw [if_neg (by omega), if_neg hmagic, r4]
  simp only [if_neg hpos, ne_eq, not_true_eq_false, if_false, readBlockTable, hne,
    not_false_eq_true, if_true, ByteBuf.ReadInt32BE, ByteBuf.ReadHexString]
  rw [goSlice_of_bounds raw 8 (8 + 4) (by omega) (by omega) (by omega)]
  simp only [g3']
  rw [goSlice_of_bounds raw (8 + 4 + 4) (8 + 4 + 4 + 16) (by omega) (by omega) (by omega)]
  simp only [List.map_cons, List.map_nil, List.sum_cons, List.sum_nil, add_zero, e3]
  unfold goMake
  rw [if_pos hd]
  exact ⟨_, rfl, rfl⟩

/-- C39 as stated fails. A container that starts with the magic and declares a
`headerSize` greater than the length of the data, whatever the hash, makes
`NewBLTEReader` fault at the slice `buf.data[:headerSize]` that is hashed before
the length checks of the frame header are reached: so does every truncated block
table. With a negative `headerSize` and the MD5 of the data as hash, data of
fewer than 32 bytes makes it fault at the reads of the one block entry, and data
of 32 bytes or more with a non-negative size word is accepted, not rejected. -/
theorem newBLTEReader_faults_on_truncated_header :
    (∀ (raw : List Nat) (hash : String) (lenient : Bool),
      raw.take 4 = [0x42, 0x4C, 0x54, 0x45] → 8 ≤ raw.length →
      (raw.length : Int) < declaredHeaderSize raw →
      NewBLTEReader raw hash lenient = .error (.panic "slice bounds out of range")) ∧
    (∀ (raw : List Nat) (lenient : Bool),
      raw.take 4 = [0x42, 0x4C, 0x54, 0x45] → 8 ≤ raw.length → raw.length < 32 →
      declaredHeaderSize raw < 0 →
      NewBLTEReader raw (md5Hex raw) lenient = .error (.panic "slice bounds out of range")) ∧
    (∀ (raw : List Nat) (lenient : Bool),
      raw.take 4 = [0x42, 0x4C, 0x54, 0x45] → 32 ≤ raw.length →
      declaredHeaderSize raw < 0 → 0 ≤ int32 (be32At raw 12) →
      ∃ r, NewBLTEReader raw (md5Hex raw) lenient = .ok r ∧
        r.blocks.map blteBlock.DecompSize = [int32 (be32At raw 12)]) ∧
    NewBLTEReader [0x42, 0x4C, 0x54, 0x45, 0, 0, 0, 36] "" false =
      .error (.panic "slice bounds out of range") ∧
    NewBLTEReader ([0x42, 0x4C, 0x54, 0x45, 0, 0, 0, 36, 0x0F, 0, 0, 1] ++ List.replicate 23 0)
      "" false = .error (.panic "slice bounds out of range") := by
  refine ⟨NewBLTEReader_header_overrun, NewBLTEReader_negative_short,
    NewBLTEReader_negative_accepted, by decide, by decide⟩

/-! ## Archive index: records -/

theorem hexEncode_zeros : hexEncode (List.replicate 16 0) = emptyMD5 := by decide

theorem scanArchiveRecords_layout (key : String) : ∀ (rs : List archRecord) (buf : ByteBuf)
    (archives : GoMap String archiveEntry) (pre post : List Nat),
    (∀ r ∈ rs, r.wellFormed) →
    buf.data = pre ++ rs.flatMap archRecord.bytes ++ post → buf.offset = (pre.length : Int) →
    scanArchiveRecords key rs.length buf archives = .ok (archivesAfter archives key rs) := by
  intro rs
  induction rs with
  | nil =>
    intro buf archives pre post _ _ _
    rfl
  | cons r rest ih =>
    intro buf archives pre post hwf hd ho
    obtain ⟨hk, hs, hf, hz⟩ := hwf r (List.mem_cons_self _ _)
    have hwf1 : ∀ x ∈ rest, x.wellFormed := fun x hx => hwf x (List.mem_cons_of_mem _ hx)
    simp only [List.length_cons, scanArchiveRecords]
    cases hsent : r.sentinel with
    | true =>
      have hd1 : buf.data = pre ++ List.replicate 16 0 ++
          (r.ekey ++ (r.size ++ (r.ofs ++ (rest.flatMap archRecord.bytes ++ post)))) := by
        rw [hd]
        simp [archRecord.bytes, hsent]
      rw [ReadHexString_at buf pre (List.replicate 16 0) _ 16 hd1 ho (by simp), hexEncode_zeros]
      simp only [if_true]
      rw [ReadHexString_at { buf with offset := buf.offset + 16 } (pre ++ List.replicate 16 0)
        r.ekey (r.size ++ (r.ofs ++ (rest.flatMap archRecord.bytes ++ post))) 16
        (by simp [hd1]) (by simp [ho]) (by simp [hk])]
      simp only
      rw [ReadInt32BE_at { buf with offset := buf.offset + 16 + 16 }
        (pre ++ List.replicate 16 0 ++ r.ekey) r.size
        (r.ofs ++ (rest.flatMap archRecord.bytes ++ post))
        (by simp [hd1]) (by simp [ho, hk]; ring) hs]
      simp only
      rw [ReadInt32BE_at { buf with offset := buf.offset + 16 + 16 + 4 }
        (pre ++ List.replicate 16 0 ++ r.ekey ++ r.size) r.ofs
        (rest.flatMap archRecord.bytes ++ post)
        (by simp [hd1]) (by simp [ho, hk, hs]; ring) hf]
      simp only
      rw [ih _ _ (pre ++ List.replicate 16 0 ++ r.ekey ++ r.size ++ r.ofs) post hwf1
        (by simp [hd1]) (by simp [ho, hk, hs, hf]; ring)]
      rfl
    | false =>
      have hd1 : buf.data = pre ++ r.ekey ++
          (r.size ++ (r.ofs ++ (rest.flatMap archRecord.bytes ++ post))) := by
        rw [hd]
        simp [archRecord.bytes, hsent]
      rw [ReadHexString_at buf pre r.ekey _ 16 hd1 ho (by simp [hk])]
      simp only [if_neg (hz hsent)]
      rw [ReadInt32BE_at { buf with offset := buf.offset + 16 }
        (pre ++ r.ekey) r.size
        (r.ofs ++ (rest.flatMap archRecord.bytes ++ post))
        (by simp [hd1]) (by simp [ho, hk]) hs]
      simp only
      rw [ReadInt32BE_at { buf with offset := buf.offset + 16 + 4 }
        (pre ++ r.ekey ++ r.size) r.ofs
        (rest.flatMap archRecord.bytes ++ post)
        (by simp [hd1]) (by simp [ho, hk, hs]; ring) hf]
      simp only
      rw [ih _ _ (pre ++ r.ekey ++ r.size ++ r.ofs) post hwf1
        (by simp [hd1]) (by simp [ho, hk, hs, hf]; ring)]
      rfl

theorem archRecord_bytes_length (r : archRecord) (h : r.wellFormed) :
    24 ≤ r.bytes.length := by
  obtain ⟨hk, hs, hf, _⟩ := h
  simp only [archRecord.bytes, List.length_append, hk, hs, hf]
  omega

theorem archRecords_length : ∀ rs : List archRecord, (∀ r ∈ rs, r.wellFormed) →
    24 * rs.length ≤ (rs.flatMap archRecord.bytes).length := by
  intro rs
  induction rs with
  | nil => intro _; simp
  | cons r rest ih =>
    intro hwf
    have h1 := archRecord_bytes_length r (hwf r (List.mem_cons_self _ _))
    have h2 := ih (fun x hx => hwf x (List.mem_cons_of_mem _ hx))
    simp only [List.flatMap_cons, List.length_append, List.length_cons]
    omega

theorem readCount_at (b : List Nat) (h12 : 12 ≤ b.length) :
    ({ data := b, offset := (b.length : Int) - 12 } : ByteBuf).ReadInt32LE =
      .ok (archiveCount b, { data := b, offset := (b.length : Int) - 12 + 4 }) := by
  have hsplit : b = b.take (b.length - 12) ++ (b.drop (b.length - 12)).take 4 ++
      (b.drop (b.length - 12)).drop 4 := by
    rw [List.append_assoc, List.take_append_drop, List.take_append_drop]
  rw [ReadInt32LE_at { data := b, offset := (b.length : Int) - 12 } (b.take (b.length - 12))
    ((b.drop (b.length - 12)).take 4) ((b.drop (b.length - 12)).drop 4) hsplit
    (by simp only [List.length_take]; omega)
    (by simp only [List.length_take, List.length_drop]; omega)]
  unfold archiveCount
  rw [le32At_take]

theorem scanArchiveIndex_layout (archives : GoMap String archiveEntry) (key : String)
    (rs : List archRecord) (rest : List Nat) (hwf : ∀ r ∈ rs, r.wellFormed)
    (h12 : 12 ≤ (rs.flatMap archRecord.bytes ++ rest).length)
    (hc : archiveCount (rs.flatMap archRecord.bytes ++ rest) = (rs.length : Int)) :
    Remote.scanArchiveIndex archives (rs.flatMap archRecord.bytes ++ rest) key =
      .ok (archivesAfter archives key rs) := by
  have hlen := archRecords_length rs hwf
  unfold Remote.scanArchiveIndex
  simp only [NewByteBuf, ByteBuf.Seek]
  rw [if_neg (by omega), readCount_at _ h12, hc]
  simp only
  rw [if_neg (by
    simp only [List.length_append]
    push_cast
    omega), Int.toNat_ofNat]
  exact scanArchiveRecords_layout key rs _ archives [] rest hwf (by simp) rfl

theorem archivesAfter_lookup (key c : String) : ∀ (rs : List archRecord)
    (archives : GoMap String archiveEntry),
    (archivesAfter archives key rs).lookup c =
      match (rs.reverse.find? fun r => decide (hexEncode r.ekey = c)) with
      | some r => some (r.entry key)
      | none => archives.lookup c := by
  intro rs
  induction rs with
  | nil => intro archives; rfl
  | cons e l ih =>
    intro archives
    unfold archivesAfter at ih ⊢
    rw [List.foldl_cons, ih, List.reverse_cons, List.find?_append]
    cases hf : List.find? (fun r => decide (hexEncode r.ekey = c)) l.reverse with
    | some e1 => rfl
    | none =>
      simp only [Option.none_or, List.find?_cons, List.find?_nil]
      by_cases hk : hexEncode e.ekey = c
      · simp only [hk, decide_True]
        rw [AList.lookup_insert]
      · simp only [hk, decide_False]
        rw [AList.lookup_insert_ne (fun h => hk h.symm)]

theorem scanArchiveIndex_skips (archives : GoMap String archiveEntry) (key : String)
    (b : List Nat) (h : b.length < 12 ∨ (b.length : Int) < archiveCount b * 24) :
    Remote.scanArchiveIndex archives b key = .ok archives := by
  unfold Remote.scanArchiveIndex
  simp only [NewByteBuf, ByteBuf.Seek]
  by_cases h12 : b.length < 12
  · rw [if_pos (by omega)]
  · rw [if_neg (by omega), readCount_at _ (by omega)]
    simp only
    rcases h with h | h
    · omega
    · rw [if_pos h]

/-! ## Archive index: reads within the data -/

theorem scanArchiveRecords_plain (key : String) : ∀ (n o : Nat) (buf : ByteBuf)
    (archives : GoMap String archiveEntry),
    buf.offset = (o : Int) → o + 24 * n ≤ buf.data.length →
    (∀ i, i < n → hexEncode ((buf.data.take (o + 24 * i + 16)).drop (o + 24 * i)) ≠ emptyMD5) →
    ∃ m, scanArchiveRecords key n buf archives = .ok m := by
  intro n
  induction n with
  | zero =>
    intro o buf archives _ _ _
    exact ⟨archives, rfl⟩
  | succ n ih =>
    intro o buf archives ho hl hz
    have h0 := hz 0 (by omega)
    simp only [Nat.mul_zero, Nat.add_zero] at h0
    simp only [scanArchiveRecords, ByteBuf.ReadHexString, ByteBuf.ReadInt32BE]
    rw [goSlice_of_bounds buf.data buf.offset (buf.offset + 16) (by omega) (by omega) (by omega)]
    have e1 : (buf.offset + 16).toNat = o + 16 := by omega
    have e2 : buf.offset.toNat = o := by omega
    simp only [e1, e2, if_neg h0]
    rw [goSlice_of_bounds buf.data (buf.offset + 16) (buf.offset + 16 + 4) (by omega) (by omega)
      (by omega)]
    simp only
    rw [goSlice_of_bounds buf.data (buf.offset + 16 + 4) (buf.offset + 16 + 4 + 4) (by omega)
      (by omega) (by omega)]
    simp only
    exact ih (o + 24) _ _ (by simp only; omega) (by simp only; omega) (by
      intro i hi
      have := hz (i + 1) (by omega)
      have e : o + 24 * (i + 1) = o + 24 + 24 * i := by ring
      rw [e] at this
      exact this)

theorem scanArchiveIndex_plain (archives : GoMap String archiveEntry) (key : String)
    (b : List Nat)
    (hz : ∀ i : Nat, (i : Int) < archiveCount b →
      hexEncode ((b.take (24 * i + 16)).drop (24 * i)) ≠ emptyMD5) :
    ∃ m, Remote.scanArchiveIndex archives b key = .ok m := by
  by_cases h : b.length < 12 ∨ (b.length : Int) < archiveCount b * 24
  · exact ⟨archives, scanArchiveIndex_skips archives key b h⟩
  · have h12 : 12 ≤ b.length := by omega
    have hc : ¬ (archiveCount b * 24 > (b.length : Int)) := by omega
    unfold Remote.scanArchiveIndex
    simp only [NewByteBuf, ByteBuf.Seek]
    rw [if_neg (by omega), readCount_at _ h12]
    simp only
    rw [if_neg hc]
    exact scanArchiveRecords_plain key _ 0 _ archives rfl (by simp only; omega) (by
      intro i hi
      have := hz i (by omega)
      simpa using this)

/-- C35. The archive index. For 24-byte records `{16-byte EncodingKey, 4-byte
big-endian size, 4-byte big-endian offset}` laid out from byte 0, a record
standing behind 16 zero bytes having its key read after them, and the count of
records as the little-endian 32-bit integer 12 bytes before the end,
`scanArchiveIndex(b, key)` returns with every record's key in hex mapped to the
archive `key` and the record's size and offset as signed 32-bit integers, the
last record with a key giving its entry and the other keys keeping theirs; data
of fewer than 12 bytes, or with `count * 24 > len(b)`, adds nothing. -/
theorem scanArchiveIndex_records (archives : GoMap String archiveEntry) (key : String)
    (rs : List archRecord) (rest : List Nat) (hwf : ∀ r ∈ rs, r.wellFormed)
    (h12 : 12 ≤ (rs.flatMap archRecord.bytes ++ rest).length)
    (hc : archiveCount (rs.flatMap archRecord.bytes ++ rest) = (rs.length : Int)) :
    Remote.scanArchiveIndex archives (rs.flatMap archRecord.bytes ++ rest) key =
      .ok (archivesAfter archives key rs) ∧
    (∀ c : String, (archivesAfter archives key rs).lookup c =
      match (rs.reverse.find? fun r => decide (hexEncode r.ekey = c)) with
      | some r => some { key := key, size := int32 (be32At r.size 0),
                         offset := int32 (be32At r.ofs 0) }
      | none => archives.lookup c) ∧
    (∀ b : List Nat, b.length < 12 ∨ (b.length : Int) < archiveCount b * 24 →
      Remote.scanArchiveIndex archives b key = .ok archives) := by
  refine ⟨scanArchiveIndex_layout archives key rs rest hwf h12 hc, ?_,
    fun b h => scanArchiveIndex_skips archives key b h⟩
  intro c
  exact archivesAfter_lookup key c rs archives

set_option maxRecDepth 100000 in
theorem scanArchiveIndex_records_witness :
    Remote.scanArchiveIndex ∅ demoArchiveIndex "arch" =
      .ok (archivesAfter ∅ "arch" demoArchiveRecords) ∧
    (Remote.scanArchiveIndex ∅ demoArchiveIndex "arch").map AList.entries =
      .ok [⟨"0102030405060708090a0b0c0d0e0f10", { key := "arch", size := 256, offset := 9 }⟩] :=
  ⟨(scanArchiveIndex_records ∅ "arch" demoArchiveRecords ([1, 0, 0, 0] ++ List.replicate 8 0)
      (by
        intro r hr
        rw [demoArchiveRecords, List.mem_singleton] at hr
        subst hr
        exact ⟨rfl, rfl, rfl, fun _ => by decide⟩)
      (by decide) (by decide)).1,
    by decide⟩

set_option maxRecDepth 100000 in
/-- C40 as stated fails. On the 36 bytes `sentinelIndex` (16 zero bytes, 8 zero
bytes, the count 1, 8 zero bytes) both guards pass, `len(b) >= 12` and
`count * 24 <= len(b)`, the all-zero key makes the record take 40 bytes, and the
read of the offset at bytes 36..40 is out of range. When none of the `count`
records of 24 bytes starts with 16 zero bytes, the guards do suffice, and data
that fails a guard is left unread. -/
theorem scanArchiveIndex_sentinel_overrun :
    sentinelIndex.length = 36 ∧ archiveCount sentinelIndex = 1 ∧
    Remote.scanArchiveIndex ∅ sentinelIndex "arch" =
      .error (.panic "slice bounds out of range") ∧
    (∀ (archives : GoMap String archiveEntry) (key : String) (b : List Nat),
      (∀ i : Nat, (i : Int) < archiveCount b →
        hexEncode ((b.take (24 * i + 16)).drop (24 * i)) ≠ emptyMD5) →
      ∃ m, Remote.scanArchiveIndex archives b key = .ok m) ∧
    (∀ (archives : GoMap String archiveEntry) (key : String) (b : List Nat),
      b.length < 12 ∨ (b.length : Int) < archiveCount b * 24 ∨ archiveCount b ≤ 0 →
      Remote.scanArchiveIndex archives b key = .ok archives) := by
  refine ⟨by decide, by decide, by decide, scanArchiveIndex_plain, ?_⟩
  intro archives key b h
  by_cases h1 : b.length < 12 ∨ (b.length : Int) < archiveCount b * 24
  · exact scanArchiveIndex_skips archives key b h1
  · have h0 : archiveCount b ≤ 0 := by
      rcases h with h | h | h
      · exact absurd (Or.inl h) h1
      · exact absurd (Or.inr h) h1
      · exact h
    have h12 : 12 ≤ b.length := by omega
    unfold Remote.scanArchiveIndex
    simp only [NewByteBuf, ByteBuf.Seek]
    rw [if_neg (by omega), readCount_at _ h12]
    simp only
    rw [if_neg (by omega)]
    have : (archiveCount b).toNat = 0 := by omega
    rw [this]
    rfl

/-! ## Byte cursor: reads within the data, and past its length -/

theorem backed_goSlice_at (s spare a w c : List Nat) (lo hi : Int) (hs : s = a ++ w ++ c)
    (hlo : lo = (a.length : Int)) (hhi : hi = (a.length : Int) + (w.length : Int)) :
    Backed.goSlice s spare lo hi = .ok w := by
  subst hs hlo hhi
  unfold Backed.goSlice
  rw [if_pos ⟨by omega, by omega, by
    simp only [List.length_append]
    push_cast
    omega⟩]
  congr 1
  have e1 : ((a.length : Int) + (w.length : Int)).toNat = (a ++ w).length := by
    rw [List.length_append]
    omega
  rw [e1, Int.toNat_ofNat, List.append_assoc (a ++ w), List.take_left, List.drop_left]

theorem backed_goSlice_fails_iff (s spare : List Nat) (lo hi : Int) :
    Backed.goSlice s spare lo hi = .error (.panic "slice bounds out of range") ↔
      lo < 0 ∨ hi < lo ∨ ((s.length : Int) + (spare.length : Int)) < hi := by
  unfold Backed.goSlice
  split
  · rename_i h
    push_cast at h
    constructor
    · intro h1
      cases h1
    · intro h1
      omega
  · rename_i h
    push_cast at h
    constructor
    · intro _
      omega
    · intro _
      rfl

theorem backed_goSlice_plain (s : List Nat) (lo hi : Int) :
    Backed.goSlice s [] lo hi = goSlice s lo hi := by
  unfold Backed.goSlice goSlice
  simp only [List.length_nil, Nat.add_zero, List.append_nil]

theorem backed_goSlice_of_plain (s spare d : List Nat) (lo hi : Int)
    (h : goSlice s lo hi = .ok d) : Backed.goSlice s spare lo hi = .ok d := by
  obtain ⟨h1, h2, h3, rfl⟩ := goSlice_ok h
  unfold Backed.goSlice
  rw [if_pos ⟨h1, h2, by push_cast; omega⟩]
  congr 1
  rw [List.take_append_of_le_length (by omega)]

theorem getD_lt_of_forall (w : List Nat) (h : ∀ x ∈ w, x < 256) (i : Nat) : w.getD i 0 < 256 := by
  rw [List.getD_eq_getElem?_getD]
  cases hx : w[i]? with
  | none => simp
  | some x => exact h x (List.mem_iff_getElem?.2 ⟨i, hx⟩)

theorem be40_range (w : List Nat) (h : ∀ x ∈ w, x < 256) : 0 ≤ be40 w ∧ be40 w < 2 ^ 40 := by
  unfold be40
  refine ⟨Int.natCast_nonneg _, ?_⟩
  have h0 := getD_lt_of_forall w h 0
  have h1 := getD_lt_of_forall w h 1
  have h2 := getD_lt_of_forall w h 2
  have h3 := getD_lt_of_forall w h 3
  have h4 := getD_lt_of_forall w h 4
  have k0 : w.getD 0 0 <<< 32 < 2 ^ 40 := by rw [Nat.shiftLeft_eq]; omega
  have k1 : w.getD 1 0 <<< 24 < 2 ^ 40 := by rw [Nat.shiftLeft_eq]; omega
  have k2 : w.getD 2 0 <<< 16 < 2 ^ 40 := by rw [Nat.shiftLeft_eq]; omega
  have k3 : w.getD 3 0 <<< 8 < 2 ^ 40 := by rw [Nat.shiftLeft_eq]; omega
  have k4 : w.getD 4 0 < 2 ^ 40 := by omega
  have := Nat.or_lt_two_pow (Nat.or_lt_two_pow (Nat.or_lt_two_pow (Nat.or_lt_two_pow k0 k1) k2) k3) k4
  exact_mod_cast this

theorem hexEncode_length (w : List Nat) : (hexEncode w).data.length = 2 * w.length := by
  unfold hexEncode
  simp only
  induction w with
  | nil => rfl
  | cons x w ih =>
    simp only [List.flatMap_cons, List.length_append, ih, List.length_cons, hexByte,
      List.length_nil]
    omega

theorem backed_ReadUInt8_fails_iff (b : Backed.ByteBuf) :
    b.ReadUInt8 = .error (.panic "index out of range") ↔
      b.offset < 0 ∨ (b.data.length : Int) ≤ b.offset := by
  unfold Backed.ByteBuf.ReadUInt8 goIndex
  split
  · rename_i e h
    split at h
    · cases h
    · rename_i hc
      cases h
      constructor
      · intro _
        omega
      · intro _
        rfl
  · rename_i v h
    split at h
    · rename_i hc
      constructor
      · intro h1
        cases h1
      · intro h1
        omega
    · cases h

theorem backed_read_fails_iff {α : Type} (b : Backed.ByteBuf) (n : Int)
    (f : List Nat → α × Backed.ByteBuf) :
    (match Backed.goSlice b.data b.spare b.offset (b.offset + n) with
      | .error e => .error e
      | .ok d => .ok (f d) : Except Fail (α × Backed.ByteBuf)) =
        .error (.panic "slice bounds out of range") ↔
      b.offset < 0 ∨ n < 0 ∨ ((b.data.length : Int) + (b.spare.length : Int)) < b.offset + n := by
  have h := backed_goSlice_fails_iff b.data b.spare b.offset (b.offset + n)
  cases hg : Backed.goSlice b.data b.spare b.offset (b.offset + n) with
  | error e =>
    rw [hg] at h
    simp only
    constructor
    · intro h1
      cases h1
      have := h.1 rfl
      omega
    · intro h1
      have h2 := h.2 (by omega)
      cases h2
      rfl
  | ok d =>
    rw [hg] at h
    simp only
    constructor
    · intro h1
      cases h1
    · intro h1
      have h2 := h.2 (by omega)
      cases h2

theorem backed_fixed_reads_fail_iff (b1 : Backed.ByteBuf) :
    (b1.ReadUInt16LE = .error (.panic "slice bounds out of range") ↔
      b1.offset < 0 ∨ ((b1.data.length : Int) + (b1.spare.length : Int)) < b1.offset + 2) ∧
    (b1.ReadInt16BE = .error (.panic "slice bounds out of range") ↔
      b1.offset < 0 ∨ ((b1.data.length : Int) + (b1.spare.length : Int)) < b1.offset + 2) ∧
    (b1.ReadUInt32LE = .error (.panic "slice bounds out of range") ↔
      b1.offset < 0 ∨ ((b1.data.length : Int) + (b1.spare.length : Int)) < b1.offset + 4) ∧
    (b1.ReadUInt32BE = .error (.panic "slice bounds out of range") ↔
      b1.offset < 0 ∨ ((b1.data.length : Int) + (b1.spare.length : Int)) < b1.offset + 4) ∧
    (b1.ReadInt32LE = .error (.panic "slice bounds out of range") ↔
      b1.offset < 0 ∨ ((b1.data.length : Int) + (b1.spare.length : Int)) < b1.offset + 4) ∧
    (b1.ReadInt32BE = .error (.panic "slice bounds out of range") ↔
      b1.offset < 0 ∨ ((b1.data.length : Int) + (b1.spare.length : Int)) < b1.offset + 4) ∧
    (b1.ReadInt40BE = .error (.panic "slice bounds out of range") ↔
      b1.offset < 0 ∨ ((b1.data.length : Int) + (b1.spare.length : Int)) < b1.offset + 5) := by
  have key : ∀ n : Int, 0 ≤ n →
      ((b1.offset < 0 ∨ n < 0 ∨
        ((b1.data.length : Int) + (b1.spare.length : Int)) < b1.offset + n) ↔
      (b1.offset < 0 ∨ ((b1.data.length : Int) + (b1.spare.length : Int)) < b1.offset + n)) := by
    intro n hn
    constructor
    · rintro (h | h | h)
      · exact Or.inl h
      · omega
      · exact Or.inr h
    · rintro (h | h)
      · exact Or.inl h
      · exact Or.inr (Or.inr h)
  refine ⟨?_, ?_, ?_, ?_, ?_, ?_, ?_⟩
  · rw [← key 2 (by decide)]
    exact backed_read_fails_iff b1 2 _
  · rw [← key 2 (by decide)]
    exact backed_read_fails_iff b1 2 _
  · rw [← key 4 (by decide)]
    exact backed_read_fails_iff b1 4 _
  · rw [← key 4 (by decide)]
    exact backed_read_fails_iff b1 4 _
  · rw [← key 4 (by decide)]
    exact backed_read_fails_iff b1 4 _
  · rw [← key 4 (by decide)]
    exact backed_read_fails_iff b1 4 _
  · rw [← key 5 (by decide)]
    exact backed_read_fails_iff b1 5 _

theorem backed_sized_reads_fail_iff (b1 : Backed.ByteBuf) (n : Int) :
    (b1.ReadHexString n = .error (.panic "slice bounds out of range") ↔
      b1.offset < 0 ∨ n < 0 ∨
        ((b1.data.length : Int) + (b1.spare.length : Int)) < b1.offset + n) ∧
    (b1.ReadBuffer n = .error (.panic "slice bounds out of range") ↔
      b1.offset < 0 ∨ n < 0 ∨
        ((b1.data.length : Int) + (b1.spare.length : Int)) < b1.offset + n) :=
  ⟨backed_read_fails_iff b1 n _, backed_read_fails_iff b1 n _⟩

/-- C36 as stated fails for a slice with spare capacity. On a cursor at offset
`o = len(a)` over data `a ‖ w ‖ c` each typed read of width `len(w)` returns the
value of `w` in its byte order and sets the offset to `o + len(w)`: `hex(n)` gives
`2n` lowercase hex characters, `slice(n)` a cursor at 0 over a copy of `w`, the
40-bit read a value in `[0, 2^40)`. But a read made through a slice expression
fails exactly when the offset is negative, the width is negative, or `o + n`
exceeds the capacity, not the length: on a cursor over the two bytes `01 02` of a
backing array that goes on with `03 04`, `ReadUInt32LE` at offset 0 returns
`0x04030201` and sets the offset to 4, where `ReadUInt8` fails as it does at every
offset not below the length, and `CalculateMD5HexOfRange(0, 4)` returns the error
`invalid range`. Only on a slice without spare capacity does every read with
`o + n > len` fail; what a read returns there it returns with any spare
capacity. -/
theorem typed_reads_within_data (b : Backed.ByteBuf) (a w c : List Nat)
    (hd : b.data = a ++ w ++ c) (ho : b.offset = (a.length : Int)) :
    (w.length = 1 → b.ReadUInt8 = .ok (w.getD 0 0, { b with offset := b.offset + 1 })) ∧
    (w.length = 2 →
      b.ReadUInt16LE = .ok (w.getD 0 0 ||| w.getD 1 0 <<< 8, { b with offset := b.offset + 2 }) ∧
      b.ReadInt16BE =
        .ok (((w.getD 0 0 <<< 8 ||| w.getD 1 0 : Nat) : Int), { b with offset := b.offset + 2 })) ∧
    (w.length = 4 →
      b.ReadUInt32LE = .ok (le32At w 0, { b with offset := b.offset + 4 }) ∧
      b.ReadUInt32BE = .ok (be32At w 0, { b with offset := b.offset + 4 }) ∧
      b.ReadInt32LE = .ok (int32 (le32At w 0), { b with offset := b.offset + 4 }) ∧
      b.ReadInt32BE = .ok (int32 (be32At w 0), { b with offset := b.offset + 4 })) ∧
    (w.length = 5 →
      b.ReadInt40BE = .ok (be40 w, { b with offset := b.offset + 5 }) ∧
      ((∀ x ∈ w, x < 256) → 0 ≤ be40 w ∧ be40 w < 2 ^ 40)) ∧
    (b.ReadHexString w.length = .ok (hexEncode w, { b with offset := b.offset + w.length }) ∧
      (hexEncode w).data.length = 2 * w.length ∧
      ∀ ch ∈ (hexEncode w).data, ch ∈ "0123456789abcdef".data) ∧
    (b.ReadBuffer w.length =
      .ok (Backed.ByteBuf.mk w [] 0, { b with offset := b.offset + w.length })) ∧
    (∀ b1 : Backed.ByteBuf, b1.ReadUInt8 = .error (.panic "index out of range") ↔
      b1.offset < 0 ∨ (b1.data.length : Int) ≤ b1.offset) ∧
    (∀ b1 : Backed.ByteBuf,
      (b1.ReadUInt16LE = .error (.panic "slice bounds out of range") ↔
        b1.offset < 0 ∨ ((b1.data.length : Int) + (b1.spare.length : Int)) < b1.offset + 2) ∧
      (b1.ReadInt16BE = .error (.panic "slice bounds out of range") ↔
        b1.offset < 0 ∨ ((b1.data.length : Int) + (b1.spare.length : Int)) < b1.offset + 2) ∧
      (b1.ReadUInt32LE = .error (.panic "slice bounds out of range") ↔
        b1.offset < 0 ∨ ((b1.data.length : Int) + (b1.spare.length : Int)) < b1.offset + 4) ∧
      (b1.ReadUInt32BE = .error (.panic "slice bounds out of range") ↔
        b1.offset < 0 ∨ ((b1.data.length : Int) + (b1.spare.length : Int)) < b1.offset + 4) ∧
      (b1.ReadInt32LE = .error (.panic "slice bounds out of range") ↔
        b1.offset < 0 ∨ ((b1.data.length : Int) + (b1.spare.length : Int)) < b1.offset + 4) ∧
      (b1.ReadInt32BE = .error (.panic "slice bounds out of range") ↔
        b1.offset < 0 ∨ ((b1.data.length : Int) + (b1.spare.length : Int)) < b1.offset + 4) ∧
      (b1.ReadInt40BE = .error (.panic "slice bounds out of range") ↔
        b1.offset < 0 ∨ ((b1.data.length : Int) + (b1.spare.length : Int)) < b1.offset + 5)) ∧
    (∀ (b1 : Backed.ByteBuf) (n : Int),
      (b1.ReadHexString n = .error (.panic "slice bounds out of range") ↔
        b1.offset < 0 ∨ n < 0 ∨
          ((b1.data.length : Int) + (b1.spare.length : Int)) < b1.offset + n) ∧
      (b1.ReadBuffer n = .error (.panic "slice bounds out of range") ↔
        b1.offset < 0 ∨ n < 0 ∨
          ((b1.data.length : Int) + (b1.spare.length : Int)) < b1.offset + n)) ∧
    (∀ (s spare : List Nat) (lo n : Int),
      Backed.goSlice s spare lo (lo + n) = .error (.panic "slice bounds out of range") ↔
        lo < 0 ∨ n < 0 ∨ ((s.length : Int) + (spare.length : Int)) < lo + n) ∧
    (∀ (s : List Nat) (lo hi : Int), Backed.goSlice s [] lo hi = goSlice s lo hi) ∧
    (∀ (s spare d : List Nat) (lo hi : Int), goSlice s lo hi = .ok d →
      Backed.goSlice s spare lo hi = .ok d) ∧
    (Backed.ByteBuf.mk [1, 2] [3, 4] 0).ReadUInt32LE =
      .ok (0x04030201, Backed.ByteBuf.mk [1, 2] [3, 4] 4) ∧
    (Backed.ByteBuf.mk [1, 2] [3, 4] 0).ReadHexString 4 =
      .ok ("01020304", Backed.ByteBuf.mk [1, 2] [3, 4] 4) ∧
    (Backed.ByteBuf.mk [1, 2] [3, 4] 0).CalculateMD5HexOfRange 0 4 =
      .error (.error "invalid range") ∧
    (Backed.ByteBuf.mk [1, 2] [3, 4] 4).ReadUInt8 = .error (.panic "index out of range") ∧
    (Backed.ByteBuf.mk [1, 2] [3, 4] 2).ReadUInt8 = .error (.panic "index out of range") ∧
    (Backed.ByteBuf.mk [1, 2] [] 0).ReadUInt32LE =
      .error (.panic "slice bounds out of range") := by
  have sl : ∀ n : Int, n = (w.length : Int) →
      Backed.goSlice b.data b.spare b.offset (b.offset + n) = .ok w := fun n hn =>
    backed_goSlice_at b.data b.spare a w c _ _ hd ho (by rw [ho, hn])
  refine ⟨?_, ?_, ?_, ?_, ⟨?_, hexEncode_length w, hexEncode_lowercase w⟩, ?_,
    backed_ReadUInt8_fails_iff, backed_fixed_reads_fail_iff, backed_sized_reads_fail_iff, ?_,
    backed_goSlice_plain, backed_goSlice_of_plain, by decide, by decide, by decide, by decide,
    by decide, by decide⟩
  · intro hw
    obtain ⟨x, rfl⟩ := List.length_eq_one.1 hw
    unfold Backed.ByteBuf.ReadUInt8
    rw [goIndex_at b.data a x c b.offset (by rw [hd]; simp) ho]
    rfl
  · intro hw
    unfold Backed.ByteBuf.ReadUInt16LE Backed.ByteBuf.ReadInt16BE
    rw [sl 2 (by rw [hw]; rfl)]
    exact ⟨rfl, rfl⟩
  · intro hw
    unfold Backed.ByteBuf.ReadUInt32LE Backed.ByteBuf.ReadUInt32BE Backed.ByteBuf.ReadInt32LE
      Backed.ByteBuf.ReadInt32BE
    rw [sl 4 (by rw [hw]; rfl)]
    exact ⟨rfl, rfl, rfl, rfl⟩
  · intro hw
    unfold Backed.ByteBuf.ReadInt40BE
    rw [sl 5 (by rw [hw]; rfl)]
    exact ⟨rfl, be40_range w⟩
  · unfold Backed.ByteBuf.ReadHexString
    rw [sl _ rfl]
  · unfold Backed.ByteBuf.ReadBuffer
    rw [sl _ rfl]
  · intro s spare lo n
    rw [backed_goSlice_fails_iff]
    constructor
    · rintro (h | h | h)
      · exact Or.inl h
      · exact Or.inr (Or.inl (by omega))
      · exact Or.inr (Or.inr h)
    · rintro (h | h | h)
      · exact Or.inl h
      · exact Or.inr (Or.inl (by omega))
      · exact Or.inr (Or.inr h)

theorem typed_reads_within_data_witness :
    (Backed.ByteBuf.mk [9, 1, 2, 3, 4, 5, 7] [8] 1).ReadUInt32LE =
      .ok (0x04030201, Backed.ByteBuf.mk [9, 1, 2, 3, 4, 5, 7] [8] 5) ∧
    (Backed.ByteBuf.mk [9, 1, 2, 3, 4, 5, 7] [8] 1).ReadInt32BE =
      .ok (0x01020304, Backed.ByteBuf.mk [9, 1, 2, 3, 4, 5, 7] [8] 5) :=
  ⟨((typed_reads_within_data (Backed.ByteBuf.mk [9, 1, 2, 3, 4, 5, 7] [8] 1) [9] [1, 2, 3, 4]
      [5, 7] rfl rfl).2.2.1 rfl).1,
    ((typed_reads_within_data (Backed.ByteBuf.mk [9, 1, 2, 3, 4, 5, 7] [8] 1) [9] [1, 2, 3, 4]
      [5, 7] rfl rfl).2.2.1 rfl).2.2.2⟩

/-! ## PNG writer: the first row -/

theorem goIndex_error {s : List Nat} {i : Int} {e : Fail} (h : goIndex s i = .error e) :
    e = .panic "index out of range" := by
  unfold goIndex at h
  split at h
  · cases h
  · cases h
    rfl

theorem filterSumLoop_error (term : Int → Except Fail Int)
    (ht : ∀ x e, term x = .error e → e = .panic "index out of range") :
    ∀ (n : Nat) (x sum : Int) (e : Fail), filterSumLoop term n x sum = .error e →
      e = .panic "index out of range" := by
  intro n
  induction n with
  | zero =>
    intro x sum e h
    cases h
  | succ n ih =>
    intro x sum e h
    simp only [filterSumLoop] at h
    split at h
    · rename_i e1 h1
      cases h
      exact ht x e h1
    · exact ih _ _ e h

theorem ite_goIndex_error {c : Prop} [Decidable c] {s : List Nat} {i : Int} {e : Fail}
    (h : (if c then goIndex s i else .ok 0) = .error e) : e = .panic "index out of range" := by
  split at h
  · exact goIndex_error h
  · cases h

theorem filterSum_error (bytesPerPixel : Nat) (byteWidth row filter : Int) (data : List Nat)
    (e : Fail) (h : filterSum bytesPerPixel byteWidth row filter data = .error e) :
    e = .panic "index out of range" := by
  unfold filterSum at h
  simp only at h
  split at h
  · refine filterSumLoop_error _ ?_ _ _ _ e h
    intro x e1 h1
    simp only at h1
    split at h1
    · cases h1
      exact goIndex_error (by assumption)
    · cases h1
  · split at h
    · refine filterSumLoop_error _ ?_ _ _ _ e h
      intro x e1 h1
      simp only at h1
      split at h1
      · cases h1
        exact ite_goIndex_error (by assumption)
      · split at h1
        · cases h1
          exact goIndex_error (by assumption)
        · cases h1
    · split at h
      · refine filterSumLoop_error _ ?_ _ _ _ e h
        intro x e1 h1
        simp only at h1
        split at h1
        · cases h1
          exact ite_goIndex_error (by assumption)
        · split at h1
          · cases h1
            exact goIndex_error (by assumption)
          · cases h1
      · split at h
        · refine filterSumLoop_error _ ?_ _ _ _ e h
          intro x e1 h1
          simp only at h1
          split at h1
          · cases h1
            exact ite_goIndex_error (by assumption)
          · split at h1
            · cases h1
              exact ite_goIndex_error (by assumption)
            · split at h1
              · cases h1
                exact goIndex_error (by assumption)
              · cases h1
        · split at h
          · refine filterSumLoop_error _ ?_ _ _ _ e h
            intro x e1 h1
            simp only at h1
            split at h1
            · cases h1
              exact ite_goIndex_error (by assumption)
            · split at h1
              · cases h1
                rename_i h2
                split at h2
                · split at h2
                  · cases h2
                    exact goIndex_error (by assumption)
                  · split at h2
                    · cases h2
                      exact ite_goIndex_error (by assumption)
                    · cases h2
                · cases h2
              · split at h1
                · cases h1
                  exact goIndex_error (by assumption)
                · cases h1
          · cases h

theorem bestFilterLoop_error (bytesPerPixel : Nat) (byteWidth y : Int) (data : List Nat) :
    ∀ (fs : List Nat) (best : Nat × Int) (e : Fail),
      bestFilterLoop bytesPerPixel byteWidth y data fs best = .error e →
      e = .panic "index out of range" := by
  intro fs
  induction fs with
  | nil =>
    intro best e h
    cases h
  | cons f fs ih =>
    intro best e h
    simp only [bestFilterLoop] at h
    split at h
    · cases h
      exact filterSum_error _ _ _ _ _ _ (by assumption)
    · exact ih _ e h

theorem goStore_error {s : List Nat} {i : Int} {v : Nat} {e : Fail}
    (h : goStore s i v = .error e) : e = .panic "index out of range" := by
  unfold goStore at h
  split at h
  · cases h
  · cases h
    rfl

theorem goSlice_error {s : List Nat} {lo hi : Int} {e : Fail}
    (h : goSlice s lo hi = .error e) : e = .panic "slice bounds out of range" := by
  unfold goSlice at h
  split at h
  · cases h
  · cases h
    rfl

theorem filteredRows_first_row (w : PNGWriter) (byteWidth : Int) (hb : 1 ≤ byteWidth) (n : Nat)
    (raw : List Nat) :
    ∃ msg, filteredRows w byteWidth (n + 1) 0 raw = .error (.panic msg) := by
  simp only [filteredRows]
  split
  · rename_i e h
    exact ⟨_, by rw [bestFilterLoop_error _ _ _ _ _ _ e h]⟩
  · split
    · rename_i e h
      exact ⟨_, by rw [goStore_error h]⟩
    · split
      · rename_i e h
        exact ⟨_, by rw [goSlice_error h]⟩
      · split
        · rename_i e h
          exact ⟨_, by rw [goSlice_error h]⟩
        · have hp : ∀ r : List Nat, goSlice r (0 * (byteWidth + 1) + 1 - byteWidth - 1)
              (0 * (byteWidth + 1) + 1 - 1) = .error (.panic "slice bounds out of range") := by
            intro r
            unfold goSlice
            rw [if_neg (by omega)]
          rw [hp]
          exact ⟨_, rfl⟩

/-- C37 as stated fails: `getFilteredRaw` returns no buffer. For every writer with
`Width >= 1`, `Height >= 1` and `bytesPerPixel >= 1`, whatever its pixel data,
the call ends in a run-time panic in row 0, at the latest when the arguments of
`applyFilter` are evaluated: the window `raw[rawOfs-byteWidth-1 : rawOfs-1]`
taken for the previous row starts at `-byteWidth` there. -/
theorem getFilteredRaw_faults_in_first_row (w : PNGWriter) (hw : 1 ≤ w.Width)
    (hh : 1 ≤ w.Height) (hb : 1 ≤ w.bytesPerPixel) :
    ∃ msg, w.getFilteredRaw = .error (.panic msg) := by
  unfold PNGWriter.getFilteredRaw
  simp only
  have hbw : 1 ≤ w.Width * w.bytesPerPixel := by nlinarith
  have hm : 0 ≤ (w.Width * w.bytesPerPixel + 1) * w.Height := by nlinarith
  unfold goMake
  rw [if_pos hm]
  simp only
  obtain ⟨n, hn⟩ : ∃ n, w.Height.toNat = n + 1 := ⟨w.Height.toNat - 1, by omega⟩
  rw [hn]
  exact filteredRows_first_row w _ hbw n _

set_option maxRecDepth 100000 in
theorem getFilteredRaw_faults_in_first_row_witness :
    (∃ msg, onePixel.getFilteredRaw = .error (.panic msg)) ∧
    onePixel.getFilteredRaw = .error (.panic "slice bounds out of range") ∧
    (NewPNGWriter 2 2).bind PNGWriter.getFilteredRaw =
      .error (.panic "slice bounds out of range") :=
  ⟨getFilteredRaw_faults_in_first_row onePixel (by decide) (by decide) (by decide), by decide,
    by decide⟩

/-! ## Root file: the loops of a block -/

theorem ReadUInt32LE_at (b : ByteBuf) (a w c : List Nat)
    (hs : b.data = a ++ w ++ c) (ho : b.offset = (a.length : Int)) (hw : w.length = 4) :
    b.ReadUInt32LE = .ok (le32At w 0, { b with offset := b.offset + 4 }) := by
  unfold ByteBuf.ReadUInt32LE
  rw [goSlice_at b.data a w c _ _ hs ho (by rw [ho, hw]; rfl)]
  rfl

theorem int32_mod (u : Nat) : (int32 u % 2 ^ 32).toNat = u % 2 ^ 32 := by
  unfold int32
  have h : u % 2 ^ 32 < 2 ^ 32 := Nat.mod_lt _ (by decide)
  norm_num at h ⊢
  split <;> omega

theorem readFileDataIDs_layout : ∀ (deltas : List (List Nat)) (buf : ByteBuf) (base : Nat)
    (pre post : List Nat), (∀ d ∈ deltas, d.length = 4) →
    buf.data = pre ++ deltas.flatten ++ post → buf.offset = (pre.length : Int) →
    readFileDataIDs deltas.length buf base =
      .ok (deltaIDs base (deltas.map fun d => le32At d 0),
        { buf with offset := buf.offset + 4 * (deltas.length : Int) }) := by
  intro deltas
  induction deltas with
  | nil =>
    intro buf base pre post _ _ _
    simp [readFileDataIDs, deltaIDs]
  | cons d ds ih =>
    intro buf base pre post hw hd ho
    have h4 : d.length = 4 := hw d (List.mem_cons_self _ _)
    have hw1 : ∀ x ∈ ds, x.length = 4 := fun x hx => hw x (List.mem_cons_of_mem _ hx)
    simp only [List.length_cons, readFileDataIDs]
    rw [ReadInt32LE_at buf pre d (ds.flatten ++ post) (by rw [hd]; simp) ho h4]
    simp only
    rw [ih { buf with offset := buf.offset + 4 } _ (pre ++ d) post hw1 (by simp [hd])
      (by simp [ho, h4])]
    simp only [List.map_cons, deltaIDs, int32_mod, Nat.add_mod_mod]
    congr 2
    push_cast
    ring_nf

theorem readContentKeys_layout (typeIndex : Int) : ∀ (keys : List (List Nat)) (ids : List Nat)
    (buf : ByteBuf) (m : GoMap Nat (GoMap Int String)) (pre post : List Nat),
    ids.length = keys.length → (∀ k ∈ keys, k.length = 16) →
    buf.data = pre ++ keys.flatten ++ post → buf.offset = (pre.length : Int) →
    readContentKeys typeIndex ids buf m =
      .ok (storeKeys typeIndex m ids keys,
        { buf with offset := buf.offset + 16 * (keys.length : Int) }) := by
  intro keys
  induction keys with
  | nil =>
    intro ids buf m pre post hl _ _ _
    have : ids = [] := List.length_eq_zero.1 hl
    subst this
    simp [readContentKeys, storeKeys]
  | cons k ks ih =>
    intro ids buf m pre post hl hw hd ho
    cases ids with
    | nil => simp at hl
    | cons f fs =>
      have h16 : k.length = 16 := hw k (List.mem_cons_self _ _)
      have hw1 : ∀ x ∈ ks, x.length = 16 := fun x hx => hw x (List.mem_cons_of_mem _ hx)
      simp only [readContentKeys]
      rw [ReadHexString_at buf pre k (ks.flatten ++ post) 16 (by rw [hd]; simp) ho
        (by rw [h16]; rfl)]
      simp only
      rw [ih fs { buf with offset := buf.offset + 16 } _ (pre ++ k) post
        (by simpa using hl) hw1 (by simp [hd]) (by simp [ho, h16])]
      simp only [storeKeys, List.zip_cons_cons, List.foldl_cons, List.length_cons]
      congr 2
      push_cast
      ring_nf

theorem readClassicKeys_layout (typeIndex : Int) : ∀ (keys hashes : List (List Nat))
    (ids : List Nat) (buf : ByteBuf) (m : GoMap Nat (GoMap Int String)) (pre post : List Nat),
    ids.length = keys.length → hashes.length = keys.length → (∀ k ∈ keys, k.length = 16) →
    (∀ h ∈ hashes, h.length = 8) →
    buf.data = pre ++ (List.zipWith (fun k h => k ++ h) keys hashes).flatten ++ post →
    buf.offset = (pre.length : Int) →
    readClassicKeys typeIndex ids buf m =
      .ok (storeKeys typeIndex m ids keys,
        { buf with offset := buf.offset + 24 * (keys.length : Int) }) := by
  intro keys
  induction keys with
  | nil =>
    intro hashes ids buf m pre post hl _ _ _ _ _
    have : ids = [] := List.length_eq_zero.1 hl
    subst this
    simp [readClassicKeys, storeKeys]
  | cons k ks ih =>
    intro hashes ids buf m pre post hl hlh hw hwh hd ho
    cases ids with
    | nil => simp at hl
    | cons f fs =>
      cases hashes with
      | nil => simp at hlh
      | cons h hs =>
        have h16 : k.length = 16 := hw k (List.mem_cons_self _ _)
        have h8 : h.length = 8 := hwh h (List.mem_cons_self _ _)
        have hw1 : ∀ x ∈ ks, x.length = 16 := fun x hx => hw x (List.mem_cons_of_mem _ hx)
        have hwh1 : ∀ x ∈ hs, x.length = 8 := fun x hx => hwh x (List.mem_cons_of_mem _ hx)
        simp only [readClassicKeys, ByteBuf.Move]
        rw [ReadHexString_at buf pre k
          (h ++ ((List.zipWith (fun k h => k ++ h) ks hs).flatten ++ post)) 16
          (by rw [hd]; simp) ho (by rw [h16]; rfl)]
        simp only
        rw [ih hs fs { buf with offset := buf.offset + 16 + 8 } _ (pre ++ k ++ h) post
          (by simpa using hl) (by simpa using hlh) hw1 hwh1 (by simp [hd])
          (by simp [ho, h16, h8]; omega)]
        simp only [storeKeys, List.zip_cons_cons, List.foldl_cons, List.length_cons]
        congr 2
        push_cast
        ring_nf

theorem length_flatten_of_uniform (n : Nat) : ∀ (l : List (List Nat)), (∀ a ∈ l, a.length = n) →
    l.flatten.length = n * l.length := by
  intro l
  induction l with
  | nil => intro _; simp
  | cons a l ih =>
    intro h
    simp only [List.flatten_cons, List.length_append, List.length_cons,
      h a (List.mem_cons_self _ _), ih (fun x hx => h x (List.mem_cons_of_mem _ hx))]
    ring

theorem readBlockFlags_layout (version : Nat) (buf : ByteBuf) (pre flags post : List Nat)
    (hf : flags.length = (if version = 0 ∨ version = 1 then 8 else 13))
    (hd : buf.data = pre ++ flags ++ post) (ho : buf.offset = (pre.length : Int)) :
    readBlockFlags version buf =
      .ok ((blockType version flags).contentFlags, (blockType version flags).localeFlags,
        { buf with offset := buf.offset + (flags.length : Int) }) := by
  unfold readBlockFlags blockType
  by_cases hv : version = 0 ∨ version = 1
  · rw [if_pos hv] at hf
    rw [if_pos hv, if_pos hv]
    have hsplit : flags = flags.take 4 ++ flags.drop 4 := (List.take_append_drop 4 flags).symm
    have h1 : (flags.take 4).length = 4 := by rw [List.length_take]; omega
    have h2 : (flags.drop 4).length = 4 := by rw [List.length_drop]; omega
    have hd1 : buf.data = pre ++ flags.take 4 ++ (flags.drop 4 ++ post) := by
      rw [hd, List.append_assoc pre (flags.take 4), ← List.append_assoc (flags.take 4),
        List.take_append_drop, List.append_assoc]
    rw [ReadUInt32LE_at buf pre (flags.take 4) (flags.drop 4 ++ post) hd1 ho h1]
    simp only
    rw [ReadUInt32LE_at { buf with offset := buf.offset + 4 } (pre ++ flags.take 4)
      (flags.drop 4) post (by show buf.data = _; rw [hd1]; simp only [List.append_assoc])
      (by simp [ho, h1]) h2]
    simp only
    rw [le32At_take, hf]
    have e : le32At (flags.drop 4) 0 = le32At flags 4 := by
      unfold le32At
      simp only [List.getD_eq_getElem?_getD, List.getElem?_drop]
    rw [e]
    congr 3
    ring_nf
  · rw [if_neg hv] at hf
    rw [if_neg hv, if_neg hv]
    have hsplit : flags = flags.take 4 ++ ((flags.drop 4).take 4 ++
        ((flags.drop 8).take 4 ++ [flags.getD 12 0])) := by
      apply List.ext_getElem?
      intro i
      by_cases h4 : i < 4
      · rw [List.getElem?_append_left (by rw [List.length_take]; omega),
          List.getElem?_take_of_lt h4]
      · rw [List.getElem?_append_right (by rw [List.length_take]; omega)]
        have l1 : (flags.take 4).length = 4 := by rw [List.length_take]; omega
        rw [l1]
        by_cases h8 : i < 8
        · rw [List.getElem?_append_left (by rw [List.length_take, List.length_drop]; omega),
            List.getElem?_take_of_lt (by omega), List.getElem?_drop]
          congr 1
          omega
        · rw [List.getElem?_append_right (by rw [List.length_take, List.length_drop]; omega)]
          have l2 : ((flags.drop 4).take 4).length = 4 := by
            rw [List.length_take, List.length_drop]; omega
          rw [l2]
          by_cases h12 : i < 12
          · rw [List.getElem?_append_left (by rw [List.length_take, List.length_drop]; omega),
              List.getElem?_take_of_lt (by omega), List.getElem?_drop]
            congr 1
            omega
          · rw [List.getElem?_append_right (by rw [List.length_take, List.length_drop]; omega)]
            have l3 : ((flags.drop 8).take 4).length = 4 := by
              rw [List.length_take, List.length_drop]; omega
            rw [l3]
            by_cases h13 : i = 12
            · subst h13
              simp only [Nat.sub_self, List.getElem?_cons_zero, Nat.reduceSub]
              rw [List.getD_eq_getElem?_getD]
              have : (12 : Nat) < flags.length := by omega
              rw [List.getElem?_eq_getElem this]
              rfl
            · have : flags.length ≤ i := by omega
              rw [List.getElem?_eq_none this]
              have : 1 ≤ i - 4 - 4 - 4 := by omega
              rw [List.getElem?_eq_none (by simpa using this)]
    have h1 : (flags.take 4).length = 4 := by rw [List.length_take]; omega
    have h2 : ((flags.drop 4).take 4).length = 4 := by
      rw [List.length_take, List.length_drop]; omega
    have h3 : ((flags.drop 8).take 4).length = 4 := by
      rw [List.length_take, List.length_drop]; omega
    have hd1 : buf.data = pre ++ flags.take 4 ++ ((flags.drop 4).take 4 ++
        ((flags.drop 8).take 4 ++ (flags.getD 12 0 :: post))) := by
      rw [hd]
      nth_rewrite 1 [hsplit]
      simp
    rw [ReadUInt32LE_at buf pre (flags.take 4) _ hd1 ho h1]
    simp only
    rw [ReadUInt32LE_at { buf with offset := buf.offset + 4 } (pre ++ flags.take 4)
      ((flags.drop 4).take 4) ((flags.drop 8).take 4 ++ (flags.getD 12 0 :: post))
      (by simp [hd1]) (by simp [ho, h1]) h2]
    simp only
    rw [ReadUInt32LE_at { buf with offset := buf.offset + 4 + 4 }
      (pre ++ flags.take 4 ++ (flags.drop 4).take 4)
      ((flags.drop 8).take 4) (flags.getD 12 0 :: post)
      (by simp [hd1]) (by simp [ho, h1, h2]; omega) h3]
    simp only
    rw [ReadUInt8_at { buf with offset := buf.offset + 4 + 4 + 4 }
      (pre ++ flags.take 4 ++ (flags.drop 4).take 4 ++ (flags.drop 8).take 4)
      (flags.getD 12 0) post (by simp [hd1]) (by simp [ho, h1, h2, h3]; omega)]
    simp only
    rw [le32At_take, le32At_take, le32At_take, hf]
    have e4 : le32At (flags.drop 4) 0 = le32At flags 4 := by
      unfold le32At
      simp only [List.getD_eq_getElem?_getD, List.getElem?_drop]
    have e8 : le32At (flags.drop 8) 0 = le32At flags 8 := by
      unfold le32At
      simp only [List.getD_eq_getElem?_getD, List.getElem?_drop]
    rw [e4, e8]
    congr 3
    ring_nf

theorem deltaIDs_length : ∀ (ds : List Nat) (base : Nat), (deltaIDs base ds).length = ds.length := by
  intro ds
  induction ds with
  | nil => intro base; rfl
  | cons d ds ih => intro base; simp only [deltaIDs, List.length_cons, ih]

theorem rootBlock_ids_length (b : rootBlock) : b.ids.length = b.deltas.length := by
  unfold rootBlock.ids
  rw [deltaIDs_length, List.length_map]

/-! ## Root file: the block loops -/

theorem readRootBlocks_layout (version : Nat) (allowNameless : Bool) :
    ∀ (bs : List rootBlock) (fuel : Nat) (buf : ByteBuf) (rootTypes : List rootType)
      (m : GoMap Nat (GoMap Int String)) (pre : List Nat),
    (∀ b ∈ bs, b.wellFormed version) →
    buf.data = pre ++ bs.flatMap (rootBlock.bytes version allowNameless) →
    buf.offset = (pre.length : Int) → bs.length < fuel →
    readRootBlocks version allowNameless fuel buf rootTypes m =
      .ok (rootAfter version bs rootTypes m) := by
  intro bs
  induction bs with
  | nil =>
    intro fuel buf rootTypes m pre _ hd ho hf
    obtain ⟨f, rfl⟩ : ∃ f, fuel = f + 1 := ⟨fuel - 1, by omega⟩
    simp only [readRootBlocks, ByteBuf.Remaining]
    rw [if_neg (by rw [hd, ho]; simp)]
    rfl
  | cons b bs ih =>
    intro fuel buf rootTypes m pre hwf hd ho hf
    obtain ⟨f, rfl⟩ : ∃ f, fuel = f + 1 := ⟨fuel - 1, by omega⟩
    obtain ⟨hc4, hcnt, hfl, hdl, hkl, hhl, hkn, hhn⟩ := hwf b (List.mem_cons_self _ _)
    have hwf1 : ∀ x ∈ bs, x.wellFormed version := fun x hx => hwf x (List.mem_cons_of_mem _ hx)
    have hdlen := length_flatten_of_uniform 4 b.deltas hdl
    have hklen := length_flatten_of_uniform 16 b.keys hkl
    have hhlen := length_flatten_of_uniform 8 b.hashes hhl
    obtain ⟨T, hT⟩ : ∃ T, T = (if hasNameHashes version allowNameless b then b.hashes.flatten
        else []) ++ bs.flatMap (rootBlock.bytes version allowNameless) := ⟨_, rfl⟩
    have hd1 : buf.data = pre ++ b.count ++ (b.flags ++ (b.deltas.flatten ++
        (b.keys.flatten ++ T))) := by
      rw [hd, hT]
      simp only [List.flatMap_cons, rootBlock.bytes, List.append_assoc]
    simp only [readRootBlocks, ByteBuf.Remaining]
    rw [if_pos (by
      rw [hd1, ho]
      simp only [List.length_append, hc4]
      push_cast
      omega)]
    rw [ReadUInt32LE_at buf pre b.count _ hd1 ho hc4]
    simp only
    rw [readBlockFlags_layout version (ByteBuf.mk buf.data (buf.offset + 4)) (pre ++ b.count)
      b.flags (b.deltas.flatten ++ (b.keys.flatten ++ T)) hfl
      (by show buf.data = _; rw [hd1]; simp only [List.append_assoc])
      (by simp only [ho, List.length_append, hc4]; push_cast; rfl)]
    simp only
    rw [hcnt, readFileDataIDs_layout b.deltas
      (ByteBuf.mk buf.data (buf.offset + 4 + (b.flags.length : Int))) 0
      (pre ++ b.count ++ b.flags) (b.keys.flatten ++ T) hdl
      (by show buf.data = _; rw [hd1]; simp only [List.append_assoc])
      (by simp only [ho, List.length_append, hc4]; push_cast; rfl)]
    simp only
    rw [readContentKeys_layout (rootTypes.length : Int) b.keys
      (deltaIDs 0 (b.deltas.map fun d => le32At d 0))
      (ByteBuf.mk buf.data (buf.offset + 4 + (b.flags.length : Int) + 4 * (b.deltas.length : Int)))
      m (pre ++ b.count ++ b.flags ++ b.deltas.flatten) T
      (by rw [deltaIDs_length, List.length_map, hkn]) hkl
      (by show buf.data = _; rw [hd1]; simp only [List.append_assoc])
      (by simp only [ho, List.length_append, hc4, hdlen]; push_cast; rfl)]
    simp only [ByteBuf.Move]
    have hty : (rootTypes ++ [rootType.mk (blockType version b.flags).contentFlags
        (blockType version b.flags).localeFlags] : List rootType) =
        rootTypes ++ [blockType version b.flags] := rfl
    rw [hty]
    by_cases hn : hasNameHashes version allowNameless b
    · have hn1 : ¬ (allowNameless = true ∧
          (blockType version b.flags).contentFlags &&& ContentNoNameHash ≠ 0) := hn
      rw [if_pos hn1]
      rw [if_pos hn] at hT
      rw [ih f _ _ _ (pre ++ b.count ++ b.flags ++ b.deltas.flatten ++ b.keys.flatten ++
        b.hashes.flatten) hwf1
        (by show buf.data = _; rw [hd1, hT]; simp only [List.append_assoc])
        (by
          simp only [ho, List.length_append, hc4, hdlen, hklen, hhlen, hkn, hhn]
          push_cast
          ring) (by simpa using hf)]
      rfl
    · have hn1 : ¬ ¬ (allowNameless = true ∧
          (blockType version b.flags).contentFlags &&& ContentNoNameHash ≠ 0) := hn
      rw [if_neg hn1]
      rw [if_neg hn] at hT
      rw [ih f _ _ _ (pre ++ b.count ++ b.flags ++ b.deltas.flatten ++ b.keys.flatten) hwf1
        (by show buf.data = _; rw [hd1, hT]; simp only [List.append_assoc, List.nil_append])
        (by
          simp only [ho, List.length_append, hc4, hdlen, hklen, hkn]
          push_cast
          ring) (by simpa using hf)]
      rfl

theorem two_words_at (buf : ByteBuf) (pre flags post : List Nat) (hf : flags.length = 8)
    (hd : buf.data = pre ++ flags ++ post) (ho : buf.offset = (pre.length : Int)) :
    buf.ReadUInt32LE = .ok (le32At flags 0, ByteBuf.mk buf.data (buf.offset + 4)) ∧
    (ByteBuf.mk buf.data (buf.offset + 4)).ReadUInt32LE =
      .ok (le32At flags 4, ByteBuf.mk buf.data (buf.offset + 4 + 4)) := by
  have h1 : (flags.take 4).length = 4 := by rw [List.length_take]; omega
  have h2 : (flags.drop 4).length = 4 := by rw [List.length_drop]; omega
  have hd1 : buf.data = pre ++ flags.take 4 ++ (flags.drop 4 ++ post) := by
    rw [hd, List.append_assoc pre (flags.take 4), ← List.append_assoc (flags.take 4),
      List.take_append_drop, List.append_assoc]
  have e : le32At (flags.drop 4) 0 = le32At flags 4 := by
    unfold le32At
    simp only [List.getD_eq_getElem?_getD, List.getElem?_drop]
  constructor
  · rw [ReadUInt32LE_at buf pre (flags.take 4) (flags.drop 4 ++ post) hd1 ho h1, le32At_take]
  · rw [ReadUInt32LE_at (ByteBuf.mk buf.data (buf.offset + 4)) (pre ++ flags.take 4)
      (flags.drop 4) post (by show buf.data = _; rw [hd1]; simp only [List.append_assoc])
      (by simp [ho, h1]) h2, e]

theorem length_zipWith_flatten : ∀ (keys hashes : List (List Nat)),
    hashes.length = keys.length → (∀ k ∈ keys, k.length = 16) → (∀ h ∈ hashes, h.length = 8) →
    (List.zipWith (fun k h => k ++ h) keys hashes).flatten.length = 24 * keys.length := by
  intro keys
  induction keys with
  | nil => intro hashes _ _ _; simp
  | cons k ks ih =>
    intro hashes hl hk hh
    cases hashes with
    | nil => simp at hl
    | cons h hs =>
      simp only [List.zipWith_cons_cons, List.flatten_cons, List.length_append,
        List.length_cons, hk k (List.mem_cons_self _ _), hh h (List.mem_cons_self _ _),
        ih hs (by simpa using hl) (fun x hx => hk x (List.mem_cons_of_mem _ hx))
          (fun x hx => hh x (List.mem_cons_of_mem _ hx))]
      ring

theorem readClassicBlocks_layout :
    ∀ (bs : List rootBlock) (fuel : Nat) (buf : ByteBuf) (rootTypes : List rootType)
      (m : GoMap Nat (GoMap Int String)) (pre : List Nat),
    (∀ b ∈ bs, b.wellFormed 0) →
    buf.data = pre ++ bs.flatMap rootBlock.classicBytes →
    buf.offset = (pre.length : Int) → bs.length < fuel →
    readClassicBlocks fuel buf rootTypes m = .ok (rootAfter 0 bs rootTypes m) := by
  intro bs
  induction bs with
  | nil =>
    intro fuel buf rootTypes m pre _ hd ho hf
    obtain ⟨f, rfl⟩ : ∃ f, fuel = f + 1 := ⟨fuel - 1, by omega⟩
    simp only [readClassicBlocks, ByteBuf.Remaining]
    rw [if_neg (by rw [hd, ho]; simp)]
    rfl
  | cons b bs ih =>
    intro fuel buf rootTypes m pre hwf hd ho hf
    obtain ⟨f, rfl⟩ : ∃ f, fuel = f + 1 := ⟨fuel - 1, by omega⟩
    obtain ⟨hc4, hcnt, hfl, hdl, hkl, hhl, hkn, hhn⟩ := hwf b (List.mem_cons_self _ _)
    rw [if_pos (Or.inl rfl)] at hfl
    have hwf1 : ∀ x ∈ bs, x.wellFormed 0 := fun x hx => hwf x (List.mem_cons_of_mem _ hx)
    have hdlen := length_flatten_of_uniform 4 b.deltas hdl
    have hzlen := length_zipWith_flatten b.keys b.hashes (by rw [hhn, hkn]) hkl hhl
    obtain ⟨T, hT⟩ : ∃ T, T = bs.flatMap rootBlock.classicBytes := ⟨_, rfl⟩
    have hd1 : buf.data = pre ++ b.count ++ (b.flags ++ (b.deltas.flatten ++
        ((List.zipWith (fun k h => k ++ h) b.keys b.hashes).flatten ++ T))) := by
      rw [hd, hT]
      simp only [List.flatMap_cons, rootBlock.classicBytes, List.append_assoc]
    simp only [readClassicBlocks, ByteBuf.Remaining]
    rw [if_pos (by
      rw [hd1, ho]
      simp only [List.length_append, hc4]
      push_cast
      omega)]
    rw [ReadUInt32LE_at buf pre b.count _ hd1 ho hc4]
    simp only
    obtain ⟨w1, w2⟩ := two_words_at (ByteBuf.mk buf.data (buf.offset + 4)) (pre ++ b.count)
      b.flags (b.deltas.flatten ++
        ((List.zipWith (fun k h => k ++ h) b.keys b.hashes).flatten ++ T)) hfl
      (by show buf.data = _; rw [hd1]; simp only [List.append_assoc])
      (by simp only [ho, List.length_append, hc4]; push_cast; rfl)
    rw [w1]
    simp only
    rw [w2]
    simp only
    rw [hcnt, readFileDataIDs_layout b.deltas
      (ByteBuf.mk buf.data (buf.offset + 4 + 4 + 4)) 0
      (pre ++ b.count ++ b.flags)
      ((List.zipWith (fun k h => k ++ h) b.keys b.hashes).flatten ++ T) hdl
      (by show buf.data = _; rw [hd1]; simp only [List.append_assoc])
      (by simp only [ho, List.length_append, hc4, hfl]; push_cast; ring)]
    simp only
    rw [readClassicKeys_layout (rootTypes.length : Int) b.keys b.hashes
      (deltaIDs 0 (b.deltas.map fun d => le32At d 0))
      (ByteBuf.mk buf.data (buf.offset + 4 + 4 + 4 + 4 * (b.deltas.length : Int)))
      m (pre ++ b.count ++ b.flags ++ b.deltas.flatten) T
      (by rw [deltaIDs_length, List.length_map, hkn]) (by rw [hhn, hkn]) hkl hhl
      (by show buf.data = _; rw [hd1]; simp only [List.append_assoc])
      (by simp only [ho, List.length_append, hc4, hdlen, hfl]; push_cast; ring)]
    simp only
    rw [ih f _ _ _ (pre ++ b.count ++ b.flags ++ b.deltas.flatten ++
      (List.zipWith (fun k h => k ++ h) b.keys b.hashes).flatten) hwf1
      (by show buf.data = _; rw [hd1, hT]; simp only [List.append_assoc])
      (by
        simp only [ho, List.length_append, hc4, hdlen, hzlen, hfl]
        push_cast
        ring) (by simpa using hf)]
    have hty : blockType 0 b.flags = rootType.mk (le32At b.flags 0) (le32At b.flags 4) := by
      unfold blockType
      rw [if_pos (Or.inl rfl)]
    simp only [rootAfter, hty]
    rfl

/-! ## Root file: what the maps hold -/

theorem deltaIDs_head (base d : Nat) (ds : List Nat) :
    (deltaIDs base (d :: ds)).getD 0 0 = (base + d) % 2 ^ 32 := rfl

theorem deltaIDs_next : ∀ (ds : List Nat) (base k : Nat), k + 1 < ds.length →
    (deltaIDs base ds).getD (k + 1) 0 =
      ((deltaIDs base ds).getD k 0 + 1 + ds.getD (k + 1) 0) % 2 ^ 32 := by
  intro ds
  induction ds with
  | nil => intro base k h; simp at h
  | cons d ds ih =>
    intro base k h
    cases ds with
    | nil => simp at h
    | cons e es =>
      cases k with
      | zero =>
        simp only [deltaIDs, List.getD_cons_succ, List.getD_cons_zero]
        omega
      | succ k =>
        have := ih (((base + d) % 2 ^ 32 + 1) % 2 ^ 32) k (by simpa using h)
        simp only [deltaIDs, List.getD_cons_succ] at this ⊢
        exact this

theorem rootKey_storeRootKey (m : GoMap Nat (GoMap Int String)) (f : Nat) (t : Int) (k : String)
    (f1 : Nat) (t1 : Int) :
    rootKey (storeRootKey m f t k) f1 t1 =
      if f1 = f ∧ t1 = t then some k else rootKey m f1 t1 := by
  unfold rootKey storeRootKey
  by_cases hf : f1 = f
  · subst hf
    cases hl : m.lookup f1 with
    | none =>
      simp only [AList.lookup_insert]
      by_cases ht : t1 = t
      · subst ht
        rw [AList.lookup_insert, if_pos ⟨trivial, rfl⟩]
      · rw [AList.lookup_insert_ne ht, AList.lookup_empty, if_neg (fun h => ht h.2)]
    | some entry =>
      simp only [AList.lookup_insert]
      by_cases ht : t1 = t
      · subst ht
        rw [AList.lookup_insert, if_pos ⟨trivial, rfl⟩]
      · rw [AList.lookup_insert_ne ht, if_neg (fun h => ht h.2)]
  · cases hl : m.lookup f with
    | none => simp [hf, AList.lookup_insert_ne hf]
    | some entry => simp [hf, AList.lookup_insert_ne hf]

theorem rootKey_storeKeys (t : Int) (f1 : Nat) (t1 : Int) : ∀ (ids : List Nat)
    (keys : List (List Nat)) (m : GoMap Nat (GoMap Int String)),
    rootKey (storeKeys t m ids keys) f1 t1 =
      match (if t1 = t then
          ((ids.zip keys).reverse.find? fun p => decide (p.1 = f1)).map fun p => hexEncode p.2
        else none) with
      | some k => some k
      | none => rootKey m f1 t1 := by
  intro ids keys
  unfold storeKeys
  generalize ids.zip keys = ps
  induction ps with
  | nil =>
    intro m
    simp
  | cons p ps ih =>
    intro m
    rw [List.foldl_cons, ih, rootKey_storeRootKey]
    by_cases ht : t1 = t
    · subst ht
      simp only [if_true, List.reverse_cons, List.find?_append, and_true]
      cases hfind : List.find? (fun p => decide (p.1 = f1)) ps.reverse with
      | some q => simp
      | none =>
        by_cases hp : p.1 = f1
        · simp [hp]
        · have hp1 : ¬ f1 = p.1 := fun h => hp h.symm
          simp [hp, hp1]
    · simp [ht]

theorem rootAfter_types (version : Nat) : ∀ (bs : List rootBlock) (rootTypes : List rootType)
    (m : GoMap Nat (GoMap Int String)),
    (rootAfter version bs rootTypes m).1 =
      rootTypes ++ bs.map fun b => blockType version b.flags := by
  intro bs
  induction bs with
  | nil => intro rootTypes m; simp [rootAfter]
  | cons b bs ih =>
    intro rootTypes m
    simp only [rootAfter, ih, List.map_cons, List.append_assoc, List.singleton_append]

theorem rootAfter_key (version : Nat) (f : Nat) : ∀ (bs : List rootBlock)
    (rootTypes : List rootType) (m : GoMap Nat (GoMap Int String)) (t : Int),
    rootKey (rootAfter version bs rootTypes m).2 f t =
      match (if (rootTypes.length : Int) ≤ t then
          (bs[(t - (rootTypes.length : Int)).toNat]?).bind fun b => b.keyOf f
        else none) with
      | some k => some k
      | none => rootKey m f t := by
  intro bs
  induction bs with
  | nil =>
    intro rootTypes m t
    simp [rootAfter]
  | cons b bs ih =>
    intro rootTypes m t
    simp only [rootAfter]
    rw [ih, rootKey_storeKeys]
    simp only [List.length_append, List.length_singleton, Nat.cast_add, Nat.cast_one]
    by_cases h1 : (rootTypes.length : Int) + 1 ≤ t
    · have h2 : (rootTypes.length : Int) ≤ t := by omega
      have h3 : ¬ t = (rootTypes.length : Int) := by omega
      obtain ⟨n, hn⟩ : ∃ n : Nat, (t - (rootTypes.length : Int)).toNat = n + 1 :=
        ⟨(t - (rootTypes.length : Int)).toNat - 1, by omega⟩
      have hn1 : (t - ((rootTypes.length : Int) + 1)).toNat = n := by omega
      rw [if_pos h1, if_pos h2, if_neg h3, hn, hn1, List.getElem?_cons_succ]
    · rw [if_neg h1]
      by_cases h2 : t = (rootTypes.length : Int)
      · subst h2
        simp [rootBlock.keyOf]
      · have h3 : ¬ (rootTypes.length : Int) ≤ t := by omega
        rw [if_neg h2, if_neg h3]

/-! ## Root file: the header and the whole table -/

theorem readRootHeader_implicit (buf : ByteBuf) (mg w2 w3 rest : List Nat)
    (hd : buf.data = mg ++ w2 ++ (w3 ++ rest)) (ho : buf.offset = (mg.length : Int))
    (h2 : w2.length = 4) (h3 : w3.length = 4) (hne : le32At w2 0 ≠ 0x18) :
    readRootHeader buf =
      .ok (0, decide (le32At w2 0 ≠ 0), ByteBuf.mk buf.data 12) := by
  unfold readRootHeader
  rw [ReadUInt32LE_at buf mg w2 (w3 ++ rest) hd ho h2]
  simp only
  rw [ReadUInt32LE_at (ByteBuf.mk buf.data (buf.offset + 4)) (mg ++ w2) w3 rest
    (by show buf.data = _; rw [hd]; simp only [List.append_assoc])
    (by simp only [ho, List.length_append, h2]; push_cast; rfl) h3]
  simp only
  rw [if_neg (fun h => hne h.1), if_pos hne]
  simp only [if_true, ByteBuf.Seek]

theorem readRootHeader_versioned (buf : ByteBuf) (mg hs ver total named rest : List Nat)
    (hd : buf.data = mg ++ hs ++ (ver ++ (total ++ (named ++ rest))))
    (ho : buf.offset = (mg.length : Int))
    (h1 : hs.length = 4) (h2 : ver.length = 4) (h3 : total.length = 4) (h4 : named.length = 4)
    (hhs : le32At hs 0 = 0x18) (hv : le32At ver 0 = 1 ∨ le32At ver 0 = 2) :
    readRootHeader buf =
      .ok (le32At ver 0, decide (le32At total 0 ≠ le32At named 0), ByteBuf.mk buf.data 0x18) := by
  unfold readRootHeader
  rw [ReadUInt32LE_at buf mg hs _ hd ho h1]
  simp only
  rw [ReadUInt32LE_at (ByteBuf.mk buf.data (buf.offset + 4)) (mg ++ hs) ver
    (total ++ (named ++ rest))
    (by show buf.data = _; rw [hd]; simp only [List.append_assoc])
    (by simp only [ho, List.length_append, h1]; push_cast; rfl) h2]
  simp only
  have hv0 : le32At ver 0 ≠ 0 := by omega
  have hg : ¬ (le32At hs 0 = 0x18 ∧ le32At ver 0 ≠ 1 ∧ le32At ver 0 ≠ 2) := by omega
  have hk : ¬ (le32At hs 0 ≠ 0x18) := fun h => h hhs
  rw [if_neg hg, if_neg hk, if_neg hv0]
  rw [ReadUInt32LE_at (ByteBuf.mk buf.data (buf.offset + 4 + 4)) (mg ++ hs ++ ver) total
    (named ++ rest)
    (by show buf.data = _; rw [hd]; simp only [List.append_assoc])
    (by simp only [ho, List.length_append, h1, h2]; push_cast; ring) h3]
  simp only
  rw [ReadUInt32LE_at (ByteBuf.mk buf.data (buf.offset + 4 + 4 + 4)) (mg ++ hs ++ ver ++ total)
    named rest
    (by show buf.data = _; rw [hd]; simp only [List.append_assoc])
    (by simp only [ho, List.length_append, h1, h2, h3]; push_cast; ring) h4]
  simp only [ByteBuf.Seek, hhs]
  rfl

theorem rootBlocks_length_le (version : Nat) (allowNameless : Bool) : ∀ (bs : List rootBlock),
    (∀ b ∈ bs, b.wellFormed version) →
    bs.length ≤ (bs.flatMap (rootBlock.bytes version allowNameless)).length := by
  intro bs
  induction bs with
  | nil => intro _; simp
  | cons b bs ih =>
    intro hwf
    have h1 := (hwf b (List.mem_cons_self _ _)).1
    have h2 := ih (fun x hx => hwf x (List.mem_cons_of_mem _ hx))
    simp only [List.flatMap_cons, List.length_append, List.length_cons, rootBlock.bytes, h1]
    omega

theorem classicBlocks_length_le : ∀ (bs : List rootBlock), (∀ b ∈ bs, b.wellFormed 0) →
    bs.length ≤ (bs.flatMap rootBlock.classicBytes).length := by
  intro bs
  induction bs with
  | nil => intro _; simp
  | cons b bs ih =>
    intro hwf
    have h1 := (hwf b (List.mem_cons_self _ _)).1
    have h2 := ih (fun x hx => hwf x (List.mem_cons_of_mem _ hx))
    simp only [List.flatMap_cons, List.length_append, List.length_cons, rootBlock.classicBytes,
      h1]
    omega

theorem parseRootTable_implicit (mg w2 w3 : List Nat) (bs : List rootBlock)
    (rootTypes : List rootType) (m : GoMap Nat (GoMap Int String))
    (hmg : mg.length = 4) (hmagic : le32At mg 0 = rootMagic)
    (h2 : w2.length = 4) (h3 : w3.length = 4) (hne : le32At w2 0 ≠ 0x18)
    (hwf : ∀ b ∈ bs, b.wellFormed 0) :
    parseRootTable (mg ++ w2 ++ w3 ++
        bs.flatMap (rootBlock.bytes 0 (decide (le32At w2 0 ≠ 0)))) rootTypes m =
      .ok ((rootAfter 0 bs rootTypes m).2.entries.length, rootAfter 0 bs rootTypes m) := by
  have hlen := rootBlocks_length_le 0 (decide (le32At w2 0 ≠ 0)) bs hwf
  unfold parseRootTable
  simp only [NewByteBuf]
  rw [ReadUInt32LE_at _ [] mg (w2 ++ (w3 ++ bs.flatMap (rootBlock.bytes 0
    (decide (le32At w2 0 ≠ 0))))) (by simp only [List.nil_append, List.append_assoc]) rfl hmg]
  simp only
  rw [if_pos hmagic, readRootHeader_implicit _ mg w2 w3
    (bs.flatMap (rootBlock.bytes 0 (decide (le32At w2 0 ≠ 0))))
    (by simp only [List.append_assoc]) (by simp only [hmg]; rfl) h2 h3 hne]
  simp only
  rw [readRootBlocks_layout 0 _ bs _ _ rootTypes m (mg ++ w2 ++ w3) hwf rfl
    (by simp only [List.length_append, hmg, h2, h3]; rfl)
    (by simp only [List.length_append]; omega)]

theorem parseRootTable_versioned (mg hs ver total named pad : List Nat) (bs : List rootBlock)
    (rootTypes : List rootType) (m : GoMap Nat (GoMap Int String))
    (hmg : mg.length = 4) (hmagic : le32At mg 0 = rootMagic)
    (h1 : hs.length = 4) (h2 : ver.length = 4) (h3 : total.length = 4) (h4 : named.length = 4)
    (h5 : pad.length = 4)
    (hhs : le32At hs 0 = 0x18) (hv : le32At ver 0 = 1 ∨ le32At ver 0 = 2)
    (hwf : ∀ b ∈ bs, b.wellFormed (le32At ver 0)) :
    parseRootTable (mg ++ hs ++ ver ++ total ++ named ++ pad ++
        bs.flatMap (rootBlock.bytes (le32At ver 0)
          (decide (le32At total 0 ≠ le32At named 0)))) rootTypes m =
      .ok ((rootAfter (le32At ver 0) bs rootTypes m).2.entries.length,
        rootAfter (le32At ver 0) bs rootTypes m) := by
  have hlen := rootBlocks_length_le (le32At ver 0) (decide (le32At total 0 ≠ le32At named 0))
    bs hwf
  unfold parseRootTable
  simp only [NewByteBuf]
  rw [ReadUInt32LE_at _ [] mg (hs ++ (ver ++ (total ++ (named ++ (pad ++
    bs.flatMap (rootBlock.bytes (le32At ver 0)
      (decide (le32At total 0 ≠ le32At named 0))))))))
    (by simp only [List.nil_append, List.append_assoc]) rfl hmg]
  simp only
  rw [if_pos hmagic, readRootHeader_versioned _ mg hs ver total named
    (pad ++ bs.flatMap (rootBlock.bytes (le32At ver 0)
      (decide (le32At total 0 ≠ le32At named 0))))
    (by simp only [List.append_assoc]) (by simp only [hmg]; rfl) h1 h2 h3 h4 hhs hv]
  simp only
  rw [readRootBlocks_layout _ _ bs _ _ rootTypes m (mg ++ hs ++ ver ++ total ++ named ++ pad)
    hwf rfl (by simp only [List.length_append, hmg, h1, h2, h3, h4, h5]; rfl)
    (by simp only [List.length_append]; omega)]

theorem parseRootTable_classic (b : rootBlock) (bs : List rootBlock)
    (rootTypes : List rootType) (m : GoMap Nat (GoMap Int String))
    (hne : le32At b.count 0 ≠ rootMagic) (hwf : ∀ x ∈ b :: bs, x.wellFormed 0) :
    parseRootTable ((b :: bs).flatMap rootBlock.classicBytes) rootTypes m =
      .ok ((rootAfter 0 (b :: bs) rootTypes m).2.entries.length,
        rootAfter 0 (b :: bs) rootTypes m) := by
  have hlen := classicBlocks_length_le (b :: bs) hwf
  have hc4 := (hwf b (List.mem_cons_self _ _)).1
  unfold parseRootTable
  simp only [NewByteBuf]
  rw [ReadUInt32LE_at _ [] b.count (b.flags ++ (b.deltas.flatten ++
    ((List.zipWith (fun k h => k ++ h) b.keys b.hashes).flatten ++
      bs.flatMap rootBlock.classicBytes)))
    (by simp only [List.flatMap_cons, rootBlock.classicBytes, List.nil_append,
      List.append_assoc]) rfl hc4]
  simp only
  rw [if_neg hne, readClassicBlocks_layout (b :: bs) _ _ rootTypes m [] hwf
    (by simp only [ByteBuf.Seek, List.nil_append]) rfl (by omega)]

/-! ## Root file: where the content keys are -/

theorem readContentKeys_at (typeIndex : Int) : ∀ (ids : List Nat) (buf : ByteBuf)
    (m : GoMap Nat (GoMap Int String)) (o : Nat),
    buf.offset = (o : Int) → o + 16 * ids.length ≤ buf.data.length →
    readContentKeys typeIndex ids buf m =
      .ok (storeKeys typeIndex m ids
          ((List.range ids.length).map fun k => keyAt buf.data (o + 16 * k)),
        ByteBuf.mk buf.data (buf.offset + 16 * (ids.length : Int))) := by
  intro ids
  induction ids with
  | nil =>
    intro buf m o ho _
    simp [readContentKeys, storeKeys]
  | cons f fs ih =>
    intro buf m o ho hl
    simp only [List.length_cons] at hl
    simp only [readContentKeys, ByteBuf.ReadHexString]
    rw [goSlice_of_bounds buf.data buf.offset (buf.offset + 16) (by omega) (by omega) (by omega)]
    simp only
    rw [ih (ByteBuf.mk buf.data (buf.offset + 16)) _ (o + 16) (by simp only [ho]; push_cast; rfl)
      (by simp only; omega)]
    have e1 : (buf.offset + 16).toNat = o + 16 := by omega
    have e2 : buf.offset.toNat = o := by omega
    simp only [List.length_cons, List.range_succ_eq_map, List.map_cons, List.map_map, storeKeys,
      List.zip_cons_cons, List.foldl_cons, e1, e2, keyAt, Nat.mul_zero, Nat.add_zero]
    congr 2
    · congr 2
      apply List.map_congr_left
      intro k _
      simp only [Function.comp, Nat.succ_eq_add_one]
      have : o + 16 + 16 * k = o + 16 * (k + 1) := by ring
      rw [this]
    · congr 1
      push_cast
      ring

theorem readClassicKeys_at (typeIndex : Int) : ∀ (ids : List Nat) (buf : ByteBuf)
    (m : GoMap Nat (GoMap Int String)) (o : Nat),
    buf.offset = (o : Int) → o + 24 * ids.length ≤ buf.data.length →
    readClassicKeys typeIndex ids buf m =
      .ok (storeKeys typeIndex m ids
          ((List.range ids.length).map fun k => keyAt buf.data (o + 24 * k)),
        ByteBuf.mk buf.data (buf.offset + 24 * (ids.length : Int))) := by
  intro ids
  induction ids with
  | nil =>
    intro buf m o ho _
    simp [readClassicKeys, storeKeys]
  | cons f fs ih =>
    intro buf m o ho hl
    simp only [List.length_cons] at hl
    simp only [readClassicKeys, ByteBuf.ReadHexString, ByteBuf.Move]
    rw [goSlice_of_bounds buf.data buf.offset (buf.offset + 16) (by omega) (by omega) (by omega)]
    simp only
    rw [ih (ByteBuf.mk buf.data (buf.offset + 16 + 8)) _ (o + 24)
      (by simp only [ho]; push_cast; ring) (by simp only; omega)]
    have e1 : (buf.offset + 16).toNat = o + 16 := by omega
    have e2 : buf.offset.toNat = o := by omega
    simp only [List.length_cons, List.range_succ_eq_map, List.map_cons, List.map_map, storeKeys,
      List.zip_cons_cons, List.foldl_cons, e1, e2, keyAt, Nat.mul_zero, Nat.add_zero]
    congr 2
    · congr 2
      apply List.map_congr_left
      intro k _
      simp only [Function.comp, Nat.succ_eq_add_one]
      have : o + 24 + 24 * k = o + 24 * (k + 1) := by ring
      rw [this]
    · congr 1
      push_cast
      ring

theorem rootAfter_key_at (version : Nat) (f : Nat) (bs : List rootBlock)
    (rootTypes : List rootType) (m : GoMap Nat (GoMap Int String)) (j : Nat) (b : rootBlock)
    (hj : bs[j]? = some b) :
    rootKey (rootAfter version bs rootTypes m).2 f ((rootTypes.length + j : Nat) : Int) =
      match b.keyOf f with
      | some k => some k
      | none => rootKey m f ((rootTypes.length + j : Nat) : Int) := by
  rw [rootAfter_key]
  have h1 : (rootTypes.length : Int) ≤ ((rootTypes.length + j : Nat) : Int) := by
    push_cast
    omega
  have h2 : (((rootTypes.length + j : Nat) : Int) - (rootTypes.length : Int)).toNat = j := by
    push_cast
    omega
  rw [if_pos h1, h2, hj]
  rfl

set_option maxRecDepth 100000 in
/-- C31. File data ids and root type indices. The ids of a block are decoded from
its 32-bit deltas as `id_0 = d_0` and `id_k = id_(k-1) + 1 + d_k` modulo 2^32;
for a root file laid out as the format has it, with magic and the implicit
header of two words, with magic and the header of size 0x18 with version 1 or 2,
or Classic, `parseRootFile` on a BLTE that decodes to it returns; the type of
block `j` stands at position `len(rootTypes) + j` of the list, and under that
index the content key of a record is stored for the record's id (of the last
such record, if a block repeats an id), every other entry staying as it was. -/
theorem root_ids_and_type_index :
    (∀ (d : Nat) (ds : List Nat), (deltaIDs 0 (d :: ds)).getD 0 0 = d % 2 ^ 32) ∧
    (∀ (ds : List Nat) (k : Nat), k + 1 < ds.length →
      (deltaIDs 0 ds).getD (k + 1) 0 =
        ((deltaIDs 0 ds).getD k 0 + 1 + ds.getD (k + 1) 0) % 2 ^ 32) ∧
    (∀ (deltas : List (List Nat)) (buf : ByteBuf) (pre post : List Nat),
      (∀ d ∈ deltas, d.length = 4) →
      buf.data = pre ++ deltas.flatten ++ post → buf.offset = (pre.length : Int) →
      readFileDataIDs deltas.length buf 0 =
        .ok (deltaIDs 0 (deltas.map fun d => le32At d 0),
          { buf with offset := buf.offset + 4 * (deltas.length : Int) })) ∧
    (∀ (env : Env) (raw : List Nat) (hash : String) (blte : BLTEReader)
      (mg w2 w3 : List Nat) (bs : List rootBlock) (rootTypes : List rootType)
      (m : GoMap Nat (GoMap Int String)),
      NewBLTEReader raw hash false = .ok blte →
      blte.Output env = .ok (mg ++ w2 ++ w3 ++
        bs.flatMap (rootBlock.bytes 0 (decide (le32At w2 0 ≠ 0)))) →
      mg.length = 4 → le32At mg 0 = rootMagic → w2.length = 4 → w3.length = 4 →
      le32At w2 0 ≠ 0x18 → (∀ b ∈ bs, b.wellFormed 0) →
      parseRootFile env raw hash rootTypes m =
        .ok ((rootAfter 0 bs rootTypes m).2.entries.length, rootAfter 0 bs rootTypes m)) ∧
    (∀ (env : Env) (raw : List Nat) (hash : String) (blte : BLTEReader)
      (mg hs ver total named pad : List Nat) (bs : List rootBlock) (rootTypes : List rootType)
      (m : GoMap Nat (GoMap Int String)),
      NewBLTEReader raw hash false = .ok blte →
      blte.Output env = .ok (mg ++ hs ++ ver ++ total ++ named ++ pad ++
        bs.flatMap (rootBlock.bytes (le32At ver 0)
          (decide (le32At total 0 ≠ le32At named 0)))) →
      mg.length = 4 → le32At mg 0 = rootMagic → hs.length = 4 → ver.length = 4 →
      total.length = 4 → named.length = 4 → pad.length = 4 → le32At hs 0 = 0x18 →
      (le32At ver 0 = 1 ∨ le32At ver 0 = 2) → (∀ b ∈ bs, b.wellFormed (le32At ver 0)) →
      parseRootFile env raw hash rootTypes m =
        .ok ((rootAfter (le32At ver 0) bs rootTypes m).2.entries.length,
          rootAfter (le32At ver 0) bs rootTypes m)) ∧
    (∀ (env : Env) (raw : List Nat) (hash : String) (blte : BLTEReader)
      (b : rootBlock) (bs : List rootBlock) (rootTypes : List rootType)
      (m : GoMap Nat (GoMap Int String)),
      NewBLTEReader raw hash false = .ok blte →
      blte.Output env = .ok ((b :: bs).flatMap rootBlock.classicBytes) →
      le32At b.count 0 ≠ rootMagic → (∀ x ∈ b :: bs, x.wellFormed 0) →
      parseRootFile env raw hash rootTypes m =
        .ok ((rootAfter 0 (b :: bs) rootTypes m).2.entries.length,
          rootAfter 0 (b :: bs) rootTypes m)) ∧
    (∀ (version : Nat) (bs : List rootBlock) (rootTypes : List rootType)
      (m : GoMap Nat (GoMap Int String)),
      (rootAfter version bs rootTypes m).1 =
        rootTypes ++ bs.map fun b => blockType version b.flags) ∧
    (∀ (version : Nat) (f : Nat) (bs : List rootBlock) (rootTypes : List rootType)
      (m : GoMap Nat (GoMap Int String)) (j : Nat) (b : rootBlock), bs[j]? = some b →
      rootKey (rootAfter version bs rootTypes m).2 f ((rootTypes.length + j : Nat) : Int) =
        match b.keyOf f with
        | some k => some k
        | none => rootKey m f ((rootTypes.length + j : Nat) : Int)) ∧
    (parseRootTable demoClassicRoot [⟨0, 0⟩] ∅).map
        (fun r => (r.1, r.2.1, rootKey r.2.2 1 1, rootKey r.2.2 3 1, rootKey r.2.2 3 0)) =
      .ok (2, [⟨0, 0⟩, ⟨0, 2⟩], some "a0a0a0a0a0a0a0a0a0a0a0a0a0a0a0a0",
        some "a1a1a1a1a1a1a1a1a1a1a1a1a1a1a1a1", none) := by
  refine ⟨?_, ?_, ?_, ?_, ?_, ?_, rootAfter_types, rootAfter_key_at, by decide⟩
  · intro d ds
    rw [deltaIDs_head, Nat.zero_add]
  · intro ds k h
    exact deltaIDs_next ds 0 k h
  · intro deltas buf pre post h1 h2 h3
    exact readFileDataIDs_layout deltas buf 0 pre post h1 h2 h3
  · intro env raw hash blte mg w2 w3 bs rootTypes m h1 h2 hmg hmagic hw2 hw3 hne hwf
    unfold parseRootFile
    rw [h1]
    simp only
    rw [h2]
    exact parseRootTable_implicit mg w2 w3 bs rootTypes m hmg hmagic hw2 hw3 hne hwf
  · intro env raw hash blte mg hs ver total named pad bs rootTypes m h1 h2 hmg hmagic k1 k2 k3
      k4 k5 hhs hv hwf
    unfold parseRootFile
    rw [h1]
    simp only
    rw [h2]
    exact parseRootTable_versioned mg hs ver total named pad bs rootTypes m hmg hmagic k1 k2 k3
      k4 k5 hhs hv hwf
  · intro env raw hash blte b bs rootTypes m h1 h2 hne hwf
    unfold parseRootFile
    rw [h1]
    simp only
    rw [h2]
    exact parseRootTable_classic b bs rootTypes m hne hwf

set_option maxRecDepth 100000 in
/-- C32 as stated fails for a Classic root. In `demoClassicRoot`, whose key area
starts at byte 20, the content key stored for the second record (id 3) is the 16
bytes at byte 44, 24 after the start of the key area, and not the 16 bytes at
byte 36, which are the name hash of the first record and half of the key. -/
theorem classic_keys_are_interleaved :
    (parseRootTable demoClassicRoot [] ∅).map (fun r => rootKey r.2.2 3 0) =
      .ok (some (hexEncode (keyAt demoClassicRoot (20 + 24)))) ∧
    hexEncode (keyAt demoClassicRoot (20 + 24)) = "a1a1a1a1a1a1a1a1a1a1a1a1a1a1a1a1" ∧
    hexEncode (keyAt demoClassicRoot (20 + 16)) = "b0b0b0b0b0b0b0b0a1a1a1a1a1a1a1a1" := by
  refine ⟨by decide, by decide, by decide⟩

/-- C32, as the code has it. With the cursor at the start `o` of the key area of a
block and the ids of its records: in a root with magic the content key of record
`k` is the 16 bytes at `o + 16k`, and the cursor is left at `o + 16n`, where the
`8n` bytes of name hashes are skipped if they are there; in a Classic root the
content key of record `k` is the 16 bytes at `o + 24k`, each key being followed by
the 8 bytes of its name hash, and the cursor is left at `o + 24n`. -/
theorem content_key_positions (typeIndex : Int) (ids : List Nat) (buf : ByteBuf)
    (m : GoMap Nat (GoMap Int String)) (o : Nat) (ho : buf.offset = (o : Int)) :
    (o + 16 * ids.length ≤ buf.data.length →
      readContentKeys typeIndex ids buf m =
        .ok (storeKeys typeIndex m ids
            ((List.range ids.length).map fun k => keyAt buf.data (o + 16 * k)),
          ByteBuf.mk buf.data (buf.offset + 16 * (ids.length : Int)))) ∧
    (o + 24 * ids.length ≤ buf.data.length →
      readClassicKeys typeIndex ids buf m =
        .ok (storeKeys typeIndex m ids
            ((List.range ids.length).map fun k => keyAt buf.data (o + 24 * k)),
          ByteBuf.mk buf.data (buf.offset + 24 * (ids.length : Int)))) ∧
    (∀ (version : Nat) (allowNameless : Bool) (bs : List rootBlock) (fuel : Nat)
      (buf1 : ByteBuf) (rootTypes : List rootType) (pre : List Nat),
      (∀ b ∈ bs, b.wellFormed version) →
      buf1.data = pre ++ bs.flatMap (rootBlock.bytes version allowNameless) →
      buf1.offset = (pre.length : Int) → bs.length < fuel →
      readRootBlocks version allowNameless fuel buf1 rootTypes m =
        .ok (rootAfter version bs rootTypes m)) ∧
    (∀ (bs : List rootBlock) (fuel : Nat) (buf1 : ByteBuf) (rootTypes : List rootType)
      (pre : List Nat), (∀ b ∈ bs, b.wellFormed 0) →
      buf1.data = pre ++ bs.flatMap rootBlock.classicBytes →
      buf1.offset = (pre.length : Int) → bs.length < fuel →
      readClassicBlocks fuel buf1 rootTypes m = .ok (rootAfter 0 bs rootTypes m)) := by
  refine ⟨readContentKeys_at typeIndex ids buf m o ho, readClassicKeys_at typeIndex ids buf m o ho,
    ?_, ?_⟩
  · intro version allowNameless bs fuel buf1 rootTypes pre h1 h2 h3 h4
    exact readRootBlocks_layout version allowNameless bs fuel buf1 rootTypes m pre h1 h2 h3 h4
  · intro bs fuel buf1 rootTypes pre h1 h2 h3 h4
    exact readClassicBlocks_layout bs fuel buf1 rootTypes m pre h1 h2 h3 h4

set_option maxRecDepth 100000 in
theorem content_key_positions_witness :
    readClassicKeys 0 [1, 3] (ByteBuf.mk demoClassicRoot 20) ∅ =
      .ok (storeKeys 0 ∅ [1, 3]
          ((List.range 2).map fun k => keyAt demoClassicRoot (20 + 24 * k)),
        ByteBuf.mk demoClassicRoot (20 + 24 * 2)) :=
  (content_key_positions 0 [1, 3] (ByteBuf.mk demoClassicRoot 20) ∅ 20 rfl).2.1 (by decide)

set_option maxRecDepth 100000 in
/-- C33 as stated fails. With magic and a second word other than 0x18,
`allowNameless` holds exactly when the second word is not 0, whatever the third
word: `namedFileCount` is assigned from `version` after `version` has been set to
0. In `demoImplicitRoot` the two words are 5 and 5 and the first block has the
`NoNameHash` bit: its name hash is not skipped but read as the start of the next
block, which gives five root types and one file data id, where the blocks read
with `allowNameless` false from byte 12 give two root types and the key of id 0.
With the header of size 0x18 and version 1 or 2, `allowNameless` holds exactly
when the fourth and fifth word differ and the blocks start at byte 24; and in
every layout with magic the name hashes of a block are skipped unless
`allowNameless` holds and the block has the `NoNameHash` bit. -/
theorem implicit_root_named_count_is_zero :
    (∀ (buf : ByteBuf) (mg w2 w3 rest : List Nat),
      buf.data = mg ++ w2 ++ (w3 ++ rest) → buf.offset = (mg.length : Int) →
      w2.length = 4 → w3.length = 4 → le32At w2 0 ≠ 0x18 →
      readRootHeader buf = .ok (0, decide (le32At w2 0 ≠ 0), ByteBuf.mk buf.data 12)) ∧
    (∀ (buf : ByteBuf) (mg hs ver total named rest : List Nat),
      buf.data = mg ++ hs ++ (ver ++ (total ++ (named ++ rest))) →
      buf.offset = (mg.length : Int) →
      hs.length = 4 → ver.length = 4 → total.length = 4 → named.length = 4 →
      le32At hs 0 = 0x18 → (le32At ver 0 = 1 ∨ le32At ver 0 = 2) →
      readRootHeader buf =
        .ok (le32At ver 0, decide (le32At total 0 ≠ le32At named 0),
          ByteBuf.mk buf.data 0x18)) ∧
    (∀ (version : Nat) (allowNameless : Bool) (bs : List rootBlock) (fuel : Nat)
      (buf : ByteBuf) (rootTypes : List rootType) (m : GoMap Nat (GoMap Int String))
      (pre : List Nat), (∀ b ∈ bs, b.wellFormed version) →
      buf.data = pre ++ bs.flatMap (rootBlock.bytes version allowNameless) →
      buf.offset = (pre.length : Int) → bs.length < fuel →
      readRootBlocks version allowNameless fuel buf rootTypes m =
        .ok (rootAfter version bs rootTypes m)) ∧
    readRootHeader (ByteBuf.mk demoImplicitRoot 4) =
      .ok (0, true, ByteBuf.mk demoImplicitRoot 12) ∧
    (parseRootTable demoImplicitRoot [] ∅).map
        (fun r => (r.1, r.2.1, rootKey r.2.2 7 0, rootKey r.2.2 0 1)) =
      .ok (1, [⟨0x10000000, 2⟩, ⟨0, 1⟩, ⟨0, 0⟩, ⟨0, 0⟩, ⟨0, 0⟩],
        some "c7c7c7c7c7c7c7c7c7c7c7c7c7c7c7c7", none) ∧
    (readRootBlocks 0 (decide ((5 : Nat) ≠ 5)) (demoImplicitRoot.length + 1)
        (ByteBuf.mk demoImplicitRoot 12) [] ∅).map
        (fun r => (r.2.entries.length, r.1, rootKey r.2 7 0, rootKey r.2 0 1)) =
      .ok (2, [⟨0x10000000, 2⟩, ⟨0, 0⟩],
        some "c7c7c7c7c7c7c7c7c7c7c7c7c7c7c7c7", some "00000000000000000000000000000000") := by
  refine ⟨readRootHeader_implicit, readRootHeader_versioned, readRootBlocks_layout, by decide,
    by decide, by decide⟩

set_option maxRecDepth 1000000 in
theorem reference_cipher_text :
    refSalsa20 (blockNonce [0, 0, 0, 0]) ecryptKey [0x4E, 120] = [0xAD, 0xC6] := by
  decide

theorem referenceEncryptedContainer_eq : referenceEncryptedContainer =
    [0x42, 0x4C, 0x54, 0x45, 0, 0, 0, 36, 0x0F, 0, 0, 1, 0, 0, 0, 18, 0, 0, 0, 1,
      0, 0, 0, 0, 0, 0, 0, 0, 0, 0, 0, 0, 0, 0, 0, 0,
      0x45, 8, 1, 2, 3, 4, 5, 6, 7, 8, 4, 0, 0, 0, 0, 0x53, 0xAD, 0xC6] := by
  unfold referenceEncryptedContainer
  rw [reference_cipher_text]
  rfl

set_option maxRecDepth 1000000 in
theorem reference_container_accepted :
    NewBLTEReader referenceEncryptedContainer (md5Hex (referenceEncryptedContainer.take 36))
      false = .ok (framedReader referenceEncryptedContainer 1 false) := by
  rw [referenceEncryptedContainer_eq]
  exact NewBLTEReader_framed _ 1 false rfl (by decide) rfl (by decide) (by decide) (by decide)
    (by decide)

theorem handleBlockFuel_unsupported (env : Env) (fuel : Nat) (r : BLTEReader) (blockEnd : Int)
    (index : Nat) (x : Nat) (h : goIndex r.blte.data r.blte.offset = .ok x)
    (hx : x ≠ 0x45 ∧ x ≠ 0x4E ∧ x ≠ 0x5A) :
    r.handleBlockFuel env fuel blockEnd index = .error (.panic "BLTE: Unsupported block type") := by
  cases fuel <;>
    simp [BLTEReader.handleBlockFuel, BLTEReader.handleBlockBody, ByteBuf.ReadUInt8, h, hx.1,
      hx.2.1, hx.2.2]

/-- An encrypted block whose bytes decrypt to something that does not start with
a block type: the nested `handleBlock` panics. -/
theorem handleBlockFuel_encrypted_unsupported (env : Env) (m : Nat) (r : BLTEReader)
    (pre name iv enc K : List Nat) (blockEnd : Int) (s : salsa20) (x : Nat) (rest : List Nat)
    (hd : r.blte.data = pre ++ encryptedBlock name iv enc)
    (ho : r.blte.offset = (pre.length : Int)) (hn : name.length = 8)
    (hiv : iv.length = 4 ∨ iv.length = 8)
    (hkey : GetTACTKey env.tact (ringName name) = K) (hK : K.length ≠ 0)
    (hs : newSalsa20 (blockNonce iv) K 20 = .ok s)
    (he : blockEnd = (r.blte.data.length : Int))
    (hw : r.blockWriteIdx = 0)
    (hdec : (s.process enc).1 = x :: rest) (hx : x ≠ 0x45 ∧ x ≠ 0x4E ∧ x ≠ 0x5A) :
    r.handleBlockFuel env (m + 1) blockEnd 0 =
      .error (.panic "BLTE: Unsupported block type") := by
  have hd1 : r.blte.data = pre ++ 0x45 :: 8 :: (name ++ iv.length ::
      (iv ++ 0x53 :: enc)) := by
    rw [hd]
    rfl
  have k0 := ReadUInt8_at r.blte pre 0x45 _ hd1 ho
  have kd := decryptBlock_at env { r with blte := { r.blte with offset := r.blte.offset + 1 } }
    (pre ++ [0x45]) name iv enc blockEnd 0 (by simp [hd1]) (by simp [ho])
    hn hiv
  rw [hkey, if_neg hK, nonce_index_zero iv hiv, hs] at kd
  have k6 : goSlice r.blte.data (r.blte.offset + 1 + 1 + 8 + 1 + (iv.length : Int) + 1) blockEnd =
      .ok enc :=
    goSlice_at _ (pre ++ 0x45 :: 8 :: (name ++ iv.length :: (iv ++ [0x53])))
      enc [] _ _ (by simp [hd1]) (by simp [ho, hn]; ring)
      (by rw [he, hd1]; simp [hn]; ring)
  simp only at kd
  rw [k6] at kd
  simp only [hdec] at kd
  have hsub : goSlice r.buf r.blockWriteIdx (r.buf.length : Int) = .ok r.buf := by
    rw [hw]
    exact goSlice_all _
  simp only [BLTEReader.handleBlockFuel, BLTEReader.handleBlockBody, k0, if_true, kd]
  simp only [hsub, List.length_cons, NewByteBuf]
  rw [handleBlockFuel_unsupported env m _ _ 0 x (goIndex_at _ [] x rest _ rfl rfl) hx]

/-- `processNext` on a block without table hash whose handling fails. -/
theorem processNext_of_failure (env : Env) (r : BLTEReader) (blk : blteBlock) (e : Fail)
    (hblk : r.blocks[r.blockIndex]? = some blk) (hhash : blk.Hash = emptyMD5)
    (hh : r.handleBlockFuel env r.blte.data.length (r.blte.offset + blk.CompSize) r.blockIndex =
      .error e) :
    r.processNext env = .error e := by
  have hlt : r.blockIndex < r.blocks.length := (List.getElem?_eq_some_iff.1 hblk).1
  unfold BLTEReader.processNext
  rw [if_neg (Nat.ne_of_lt hlt), hblk]
  simp only [ByteBuf.Offset, BLTEReader.handleBlock, hhash, ne_eq, not_true_eq_false, if_false, hh]

theorem output_of_failure (env : Env) (r : BLTEReader) (e : Fail)
    (h : r.processNext env = .error e) : r.Output env = .error e := by
  unfold BLTEReader.Output BLTEReader.processAll
  simp only [BLTEReader.processAllFuel, h]

set_option maxRecDepth 1000000 in
theorem reference_container_output :
    (framedReader referenceEncryptedContainer 1 false).Output ecryptEnv =
      .error (.panic "BLTE: Unsupported block type") := by
  rw [referenceEncryptedContainer_eq]
  obtain ⟨s, hs, hp⟩ : ∃ s, newSalsa20 (blockNonce [0, 0, 0, 0]) ecryptKey 20 = .ok s ∧
      (s.process [0xAD, 0xC6]).1 = [0x5B, 0xE1] := ⟨_, rfl, by decide⟩
  apply output_of_failure
  apply processNext_of_failure ecryptEnv _ (blteBlock.mk 18 1 emptyMD5) _ (by decide) rfl
  exact handleBlockFuel_encrypted_unsupported ecryptEnv 53 _
    [0x42, 0x4C, 0x54, 0x45, 0, 0, 0, 36, 0x0F, 0, 0, 1, 0, 0, 0, 18, 0, 0, 0, 1,
      0, 0, 0, 0, 0, 0, 0, 0, 0, 0, 0, 0, 0, 0, 0, 0]
    [1, 2, 3, 4, 5, 6, 7, 8] [0, 0, 0, 0] [0xAD, 0xC6] ecryptKey _ s 0x5B [0xE1]
    rfl rfl rfl (Or.inl rfl) (by decide) (by decide) hs rfl rfl hp (by decide)

/-- C9 as stated fails: a block encrypted with Salsa20 is not decoded. For the
key `80 00 .. 00` of the first ECRYPT test vector, held in the ring under
`0807060504030201`, the IV `00 00 00 00` and the payload `x`, the Salsa20/20
encryption of `0x4E "x"` is `AD C6`; the container of scenario S3 built from it is
accepted, its block decrypts to `5B E1` under the cipher of `newSalsa20`, and
decoding ends in the panic `BLTE: Unsupported block type`. Whenever the bytes an
encrypted block decrypts to do not start with a block type, the nested
`handleBlock` panics so. The round trip does hold when the block was encrypted
with the repository's own cipher (`process` of a fresh `newSalsa20` instance). -/
theorem reference_encrypted_block_not_decoded :
    ecryptEnv.tact.lookup (toLower (ringName [1, 2, 3, 4, 5, 6, 7, 8])) = some ecryptKey ∧
    refSalsa20 (blockNonce [0, 0, 0, 0]) ecryptKey [0x4E, 120] = [0xAD, 0xC6] ∧
    referenceEncryptedContainer =
      [0x42, 0x4C, 0x54, 0x45, 0, 0, 0, 36, 0x0F, 0, 0, 1, 0, 0, 0, 18, 0, 0, 0, 1,
        0, 0, 0, 0, 0, 0, 0, 0, 0, 0, 0, 0, 0, 0, 0, 0,
        0x45, 8, 1, 2, 3, 4, 5, 6, 7, 8, 4, 0, 0, 0, 0, 0x53, 0xAD, 0xC6] ∧
    NewBLTEReader referenceEncryptedContainer (md5Hex (referenceEncryptedContainer.take 36))
      false = .ok (framedReader referenceEncryptedContainer 1 false) ∧
    (∃ s, newSalsa20 (blockNonce [0, 0, 0, 0]) ecryptKey 20 = .ok s ∧
      (s.process [0xAD, 0xC6]).1 = [0x5B, 0xE1]) ∧
    decodeBLTE ecryptEnv referenceEncryptedContainer
      (md5Hex (referenceEncryptedContainer.take 36)) false =
      .error (.panic "BLTE: Unsupported block type") ∧
    (∀ (env : Env) (m : Nat) (r : BLTEReader) (pre name iv enc K : List Nat) (blockEnd : Int)
      (s : salsa20) (x : Nat) (rest : List Nat),
      r.blte.data = pre ++ encryptedBlock name iv enc → r.blte.offset = (pre.length : Int) →
      name.length = 8 → (iv.length = 4 ∨ iv.length = 8) →
      GetTACTKey env.tact (ringName name) = K → K.length ≠ 0 →
      newSalsa20 (blockNonce iv) K 20 = .ok s → blockEnd = (r.blte.data.length : Int) →
      r.blockWriteIdx = 0 → (s.process enc).1 = x :: rest →
      (x ≠ 0x45 ∧ x ≠ 0x4E ∧ x ≠ 0x5A) →
      r.handleBlockFuel env (m + 1) blockEnd 0 =
        .error (.panic "BLTE: Unsupported block type")) ∧
    (∀ (env : Env) (K name iv p cs ds bh : List Nat) (lenient : Bool),
      (K.length = 16 ∨ K.length = 32) → name.length = 8 → (iv.length = 4 ∨ iv.length = 8) →
      env.tact.lookup (toLower (ringName name)) = some K →
      cs.length = 4 → ds.length = 4 → bh.length = 16 →
      int32 (be32At cs 0) =
        ((encryptedBlock name iv (salsa20Encrypt (blockNonce iv) K (0x4E :: p))).length : Int) →
      int32 (be32At ds 0) = (p.length : Int) →
      (hexEncode bh = emptyMD5 ∨ hexEncode bh =
        md5Hex (encryptedBlock name iv (salsa20Encrypt (blockNonce iv) K (0x4E :: p)))) →
      decodeBLTE env
          (framedContainer1 cs ds bh
            (encryptedBlock name iv (salsa20Encrypt (blockNonce iv) K (0x4E :: p))))
          (md5Hex ((framedContainer1 cs ds bh
            (encryptedBlock name iv (salsa20Encrypt (blockNonce iv) K (0x4E :: p)))).take 36))
          lenient = .ok p) := by
  refine ⟨by decide, reference_cipher_text, referenceEncryptedContainer_eq,
    reference_container_accepted, ⟨_, rfl, by decide⟩, ?_,
    handleBlockFuel_encrypted_unsupported, ?_⟩
  · unfold decodeBLTE
    rw [reference_container_accepted]
    exact reference_container_output
  · intro env K name iv p cs ds bh lenient h1 h2 h3 h4 h5 h6 h7 h8 h9 h10
    exact encrypted_block_round_trip env K name iv p cs ds bh lenient h1 h2 h3 h4 h5 h6 h7 h8 h9
      h10

end Casc
